import Mathlib

/-! # Akeno router (`src/src/Router.h`): a shallow embedding and its properties

Strings (`std::string`, `std::string_view`) are lists of characters.  The
ordered map `std::map<std::string, Handler>` is a partial function on strings,
`std::unordered_set<std::string>` is a list used only through membership, and a
`const Route *` into the vector `patterns_` is the position of the route in that
vector.  Loops whose termination is not structural carry a step budget; the
budget is shown never to run out.
-/

namespace Akeno

/-- A `std::string` / `std::string_view`: a sequence of characters. -/
abbrev Str := List Char

namespace Internal

/-- `std::isspace` in the "C" locale: space, `\t`, `\n`, `\v`, `\f`, `\r`. -/
def is_ws (c : Char) : Bool :=
  c.toNat == 32 || (9 ≤ c.toNat && c.toNat ≤ 13)

/-- `Internal::trim_copy`: erase whitespace from the front, then from the back. -/
def trim_copy (s : Str) : Str :=
  ((s.dropWhile is_ws).reverse.dropWhile is_ws).reverse

/-- `s.find(c, start)`: position of the first `c` at an index `≥ start`;
`none` is `npos`. -/
def find (c : Char) : Str → Nat → Option Nat
  | [], _ => none
  | x :: xs, 0 => if x = c then some 0 else (find c xs 0).map (· + 1)
  | _ :: xs, start + 1 => (find c xs start).map (· + 1)

/-- `s.substr(pos, len)`. -/
def substr (s : Str) (pos len : Nat) : Str := (s.drop pos).take len

/-- `s.substr(pos)`. -/
def substrFrom (s : Str) (pos : Nat) : Str := s.drop pos

/-- `Internal::split`: the pieces of `input` between successive occurrences of
`delimiter` (always at least one piece). -/
def split : Str → Char → List Str
  | [], _ => [[]]
  | c :: cs, delimiter =>
    if c = delimiter then [] :: split cs delimiter
    else match split cs delimiter with
      | [] => [[c]]
      | p :: ps => (c :: p) :: ps

/-- The scan of `expandPattern` for a group opener: the position of the first
`{` whose preceding character (`'\0'` at position 0) is not `!`.  `prev` is the
character before the current position and `i` the current position. -/
def findGroup (prev : Char) : Str → Nat → Option Nat
  | [], _ => none
  | c :: cs, i =>
    if c = '\x7b' ∧ prev ≠ '!' then some i else findGroup c cs (i + 1)

/-- Outcome of `expandPattern`: the concrete patterns appended to `out`, or the
`std::runtime_error` ("Unmatched group in pattern"), or an exhausted step
budget of the embedding. -/
inductive Expansion where
  | ok (out : List Str)
  | malformed
  | outOfFuel
  deriving DecidableEq, Repr

/-- The body of the `for` loop over the alternatives: expand each in turn and
append to `out`; the first exception ends the loop. -/
def expandEach (rec : Str → Expansion) : List Str → Expansion
  | [] => .ok []
  | p :: ps =>
    match rec p with
    | .ok a =>
      match expandEach rec ps with
      | .ok b => .ok (a ++ b)
      | e => e
    | e => e

/-- The tail of `expandPattern`: drop one trailing `/`. -/
def stripSlash (pattern : Str) : Str :=
  if pattern.getLast? = some '/' then pattern.dropLast else pattern

/-- The pattern handed to the recursive call for one alternative `value`. -/
def alternative (patternStart patternEnd value : Str) : Str :=
  let value := trim_copy value
  let nextEnd :=
    if value.isEmpty && patternEnd.head? == some '.' then patternEnd.drop 1 else patternEnd
  patternStart ++ value ++ nextEnd

/-- `Internal::expandPattern` with a budget on the recursion depth. -/
def expandPatternFuel : Nat → Str → Expansion
  | 0, _ => .outOfFuel
  | fuel + 1, pattern =>
    match findGroup (Char.ofNat 0) pattern 0 with
    | none => .ok [stripSlash pattern]
    | some group =>
      match find '\x7d' pattern group with
      | none => .malformed
      | some endGroup =>
        let groupValues := substr pattern (group + 1) (endGroup - group - 1)
        let patternStart := substr pattern 0 group
        let patternEnd := substrFrom pattern (endGroup + 1)
        expandEach (fun p => expandPatternFuel fuel p)
          ((split groupValues ',').map (alternative patternStart patternEnd))

/-- `Internal::expandPattern`: every recursive call removes one `}` from the
pattern, so the number of `}` plus one bounds the depth. -/
def expandPattern (pattern : Str) : Expansion :=
  expandPatternFuel (pattern.count '\x7d' + 1) pattern

/-- How a call of `expandPattern` ends: by returning, by the `throw`, or with
the step budget of the embedding exhausted. -/
inductive Exit where
  | returned
  | thrown
  | outOfFuel
  deriving DecidableEq, Repr

/-- The `for` loop over the alternatives with the output vector `out` as
state: the vector when the loop ends, and how it ended.  An exception leaves
in `out` what the calls before it pushed. -/
def expandEachInto (rec : Str → List Str → List Str × Exit) :
    List Str → List Str → List Str × Exit
  | [], out => (out, .returned)
  | p :: ps, out =>
    match rec p out with
    | (out, .returned) => expandEachInto rec ps out
    | r => r

/-- `Internal::expandPattern(pattern, out)` with the output vector as state and
a budget on the recursion depth. -/
def expandIntoFuel : Nat → Str → List Str → List Str × Exit
  | 0, _, out => (out, .outOfFuel)
  | fuel + 1, pattern, out =>
    match findGroup (Char.ofNat 0) pattern 0 with
    | none => (out ++ [stripSlash pattern], .returned)
    | some group =>
      match find '\x7d' pattern group with
      | none => (out, .thrown)
      | some endGroup =>
        let groupValues := substr pattern (group + 1) (endGroup - group - 1)
        let patternStart := substr pattern 0 group
        let patternEnd := substrFrom pattern (endGroup + 1)
        expandEachInto (fun p out => expandIntoFuel fuel p out)
          ((split groupValues ',').map (alternative patternStart patternEnd)) out

/-- `Internal::expandPattern(pattern, out)` with the output vector as state. -/
def expandInto (pattern : Str) (out : List Str) : List Str × Exit :=
  expandIntoFuel (pattern.count '\x7d' + 1) pattern out

/-- A group opener of `s` at position `i`, for the scan that has the character
`prev` before position 0: a `{` whose preceding character is not `!`. -/
def OpenerAt (prev : Char) (s : Str) (i : Nat) : Prop :=
  s[i]? = some '\x7b' ∧ (prev :: s)[i]? ≠ some '!'

/-- A `{` of `s` at position `i` that is not immediately preceded by `!`. -/
def GroupOpenerAt (s : Str) (i : Nat) : Prop :=
  s[i]? = some '\x7b' ∧ (i = 0 ∨ s[i - 1]? ≠ some '!')

instance (s : Str) (i : Nat) : Decidable (GroupOpenerAt s i) := by
  unfold GroupOpenerAt; infer_instance

/-- An expansion with `f` applied to each emitted pattern. -/
def Expansion.map (f : Str → Str) : Expansion → Expansion
  | .ok out => .ok (out.map f)
  | .malformed => .malformed
  | .outOfFuel => .outOfFuel

/-- `Internal::expandPattern` with the `pop_back` of a trailing `/` left out,
with a budget on the recursion depth: the patterns as they are when no further
group remains. -/
def expandRawFuel : Nat → Str → Expansion
  | 0, _ => .outOfFuel
  | fuel + 1, pattern =>
    match findGroup (Char.ofNat 0) pattern 0 with
    | none => .ok [pattern]
    | some group =>
      match find '\x7d' pattern group with
      | none => .malformed
      | some endGroup =>
        let groupValues := substr pattern (group + 1) (endGroup - group - 1)
        let patternStart := substr pattern 0 group
        let patternEnd := substrFrom pattern (endGroup + 1)
        expandEach (fun p => expandRawFuel fuel p)
          ((split groupValues ',').map (alternative patternStart patternEnd))

/-- The patterns that `expandPattern` reaches when no further group remains,
before it removes a trailing `/`. -/
def expandRaw (pattern : Str) : Expansion :=
  expandRawFuel (pattern.count '\x7d' + 1) pattern

/-- The loop of `splitSegments`: as `split`, with the early exit when the
separator is the last character. -/
def segmentsLoop : Str → Char → List Str
  | [], _ => [[]]
  | c :: cs, segmentChar =>
    if c = segmentChar then
      if cs = [] then [[], []] else [] :: segmentsLoop cs segmentChar
    else match segmentsLoop cs segmentChar with
      | [] => [[c]]
      | p :: ps => (c :: p) :: ps

/-- `Internal::splitSegments`. -/
def splitSegments (s : Str) (segmentChar : Char) : List Str :=
  if s = [] then [[]]
  else
    let hasLeadingSep := s.head? == some segmentChar
    (if hasLeadingSep then [] else [[]]) ++ segmentsLoop s segmentChar

/-- `p.find("!{") != npos`. -/
def containsNegOpener : Str → Bool
  | [] => false
  | [_] => false
  | a :: b :: rest => (a == '!' && b == '\x7b') || containsNegOpener (b :: rest)

/-- `Internal::containsWildcardOrNegSet`. -/
def containsWildcardOrNegSet (p : Str) : Bool :=
  p.contains '*' || containsNegOpener p

end Internal


/-- `MatcherOptions<Handler>`; an empty `std::function` is `none`. -/
structure MatcherOptions (H : Type) where
  simpleMatcher : Bool := false
  mergeHandlers : Bool := false
  mergeFn : Option (H → H → H) := none

/-- `WildcardMatcher::Part`: the `type` tag with the payload that tag uses. -/
inductive Part where
  | literal (s : Str)
  | star
  | doubleStar
  | negSet (set : List Str)
  | set (set : List Str)
  deriving DecidableEq, Repr

/-- `WildcardMatcher::Route`. -/
structure Route (H : Type) where
  parts : List Part
  handler : H
  pattern : Str
  hasDoubleStar : Bool := false
  deriving DecidableEq, Repr

/-! ### `std::sort`

`std::sort` belongs to the C++ standard library and is not under `src/`.  The
two calls in `Router.h` pass the comparator `comp(a, b) = key(a) > key(b)`, the
key being the part count of a route or the size of a size group.  The
definitions of this section follow the implementation of libstdc++
(`bits/stl_algo.h`, `bits/stl_heap.h`), function by function: an introsort loop
that partitions every range of more than 16 elements around a median of three,
with a heapsort of the range when the depth limit is used up, and a final
insertion sort.  The array is a list, an iterator a position in it. -/

/-- `std::iter_swap` on the positions `i` and `j`. -/
def iterSwap {α : Type} (arr : List α) (i j : Nat) : List α :=
  match arr[i]?, arr[j]? with
  | some x, some y => (arr.set i y).set j x
  | _, _ => arr

/-- The loop of `std::__lg`: the number of halvings that bring `n` down to 1. -/
def lgFuel : Nat → Nat → Nat
  | 0, _ => 0
  | fuel + 1, n => if n ≤ 1 then 0 else lgFuel fuel (n / 2) + 1

/-- `std::__lg(n)`. -/
def stdLg (n : Nat) : Nat := lgFuel n n

/-- The loop of `std::__unguarded_linear_insert`, on the elements in front of
the insertion point, the nearest first: `val` passes every element of smaller
key and stops behind the first one that `comp(val, e)` rejects.  The loop of
the program has no test for the front of the array; its callers see to an
element that stops it. -/
def linearInsertRev {α : Type} (key : α → Nat) (val : α) : List α → List α
  | [] => [val]
  | e :: rest => if key e < key val then e :: linearInsertRev key val rest else val :: e :: rest

/-- `std::__unguarded_linear_insert(last, comp)`: the sorted elements `pre`
in front of `last`, with `val = *last` moved to its place among them. -/
def linearInsert {α : Type} (key : α → Nat) (val : α) (pre : List α) : List α :=
  (linearInsertRev key val pre.reverse).reverse

/-- The body of the loop of `std::__insertion_sort` for the element `val`
behind the sorted elements `pre`: to the front when `comp(val, *first)`,
`__unguarded_linear_insert` otherwise. -/
def insertionStep {α : Type} (key : α → Nat) (pre : List α) (val : α) : List α :=
  match pre with
  | [] => [val]
  | f :: _ => if key f < key val then val :: pre else linearInsert key val pre

/-- `std::__insertion_sort(first, last, comp)`. -/
def insertionSort {α : Type} (key : α → Nat) (l : List α) : List α :=
  l.foldl (insertionStep key) []

/-- `std::__final_insertion_sort(first, last, comp)`: `__insertion_sort` on the
first 16 elements, `__unguarded_insertion_sort` on the others; when there are
at most 16 elements this is `__insertion_sort` on all of them. -/
def finalInsertionSort {α : Type} (key : α → Nat) (arr : List α) : List α :=
  (arr.drop 16).foldl (fun pre val => linearInsert key val pre) (insertionSort key (arr.take 16))

/-- `std::__move_median_to_first(result, a, b, c, comp)`. -/
def moveMedianToFirst {α : Type} (key : α → Nat) (arr : List α) (result a b c : Nat) :
    List α :=
  match arr[a]?, arr[b]?, arr[c]? with
  | some x, some y, some z =>
    if key y < key x then
      if key z < key y then iterSwap arr result b
      else if key z < key x then iterSwap arr result c
      else iterSwap arr result a
    else if key z < key x then iterSwap arr result a
    else if key z < key y then iterSwap arr result c
    else iterSwap arr result b
  | _, _, _ => arr

/-- `while (comp(first, pivot)) ++first`, from the position `i`. -/
def scanUp {α : Type} (key : α → Nat) (pivotKey : Nat) (arr : List α) (i : Nat) : Nat :=
  i + ((arr.drop i).takeWhile (fun e => decide (pivotKey < key e))).length

/-- `while (comp(pivot, last)) --last`, from the position `j`. -/
def scanDown {α : Type} (key : α → Nat) (pivotKey : Nat) (arr : List α) (j : Nat) : Nat :=
  j - ((arr.take (j + 1)).reverse.takeWhile (fun e => decide (key e < pivotKey))).length

/-- `std::__unguarded_partition(first, last, pivot, comp)`: the cut and the
array.  The pivot lies in front of the range and is not moved, so its key is
passed.  The budget counts the rounds of `while (true)`; `last - first + 1`
rounds are never used up (`unguardedPartition_fuel`). -/
def unguardedPartition {α : Type} (key : α → Nat) (pivotKey : Nat) :
    Nat → List α → Nat → Nat → Nat × List α
  | 0, arr, first, _ => (first, arr)
  | fuel + 1, arr, first, last =>
    let first := scanUp key pivotKey arr first
    let last := scanDown key pivotKey arr (last - 1)
    if first < last then
      unguardedPartition key pivotKey fuel (iterSwap arr first last) (first + 1) last
    else (first, arr)

/-- `std::__unguarded_partition_pivot(first, last, comp)`. -/
def unguardedPartitionPivot {α : Type} (key : α → Nat) (arr : List α) (first last : Nat) :
    Nat × List α :=
  let mid := first + (last - first) / 2
  let arr := moveMedianToFirst key arr first (first + 1) mid (last - 1)
  match arr[first]? with
  | some pivot => unguardedPartition key (key pivot) (last - first) arr (first + 1) last
  | none => (first, arr)

/-- `std::__push_heap(first, holeIndex, topIndex, value, comp)`; the budget
counts the rounds of the loop, `holeIndex` of them are never used up
(`pushHeap_fuel`). -/
def pushHeap {α : Type} (key : α → Nat) (value : α) (topIndex : Nat) :
    Nat → List α → Nat → List α
  | 0, arr, holeIndex => arr.set holeIndex value
  | fuel + 1, arr, holeIndex =>
    match arr[(holeIndex - 1) / 2]? with
    | some parent =>
      if topIndex < holeIndex ∧ key value < key parent then
        pushHeap key value topIndex fuel (arr.set holeIndex parent) ((holeIndex - 1) / 2)
      else arr.set holeIndex value
    | none => arr.set holeIndex value

/-- The first loop of `std::__adjust_heap`: the hole moves down to a child
while `secondChild < (len - 1) / 2`; the array and the hole when the loop is
left.  The budget counts the rounds, `len - holeIndex` of them are never used
up (`adjustHeapLoop_fuel`). -/
def adjustHeapLoop {α : Type} (key : α → Nat) (len : Nat) : Nat → List α → Nat → List α × Nat
  | 0, arr, hole => (arr, hole)
  | fuel + 1, arr, hole =>
    if hole < (len - 1) / 2 then
      match arr[2 * (hole + 1)]?, arr[2 * (hole + 1) - 1]? with
      | some right, some left =>
        if key left < key right then
          adjustHeapLoop key len fuel (arr.set hole left) (2 * (hole + 1) - 1)
        else adjustHeapLoop key len fuel (arr.set hole right) (2 * (hole + 1))
      | _, _ => (arr, hole)
    else (arr, hole)

/-- The step of `std::__adjust_heap` behind its loop, for an even `len` whose
last inner node has one child. -/
def adjustHeapLast {α : Type} (len : Nat) (s : List α × Nat) : List α × Nat :=
  if len % 2 = 0 ∧ s.2 = (len - 2) / 2 then
    match s.1[2 * (s.2 + 1) - 1]? with
    | some child => (s.1.set s.2 child, 2 * (s.2 + 1) - 1)
    | none => s
  else s

/-- `std::__adjust_heap(first, holeIndex, len, value, comp)`. -/
def adjustHeap {α : Type} (key : α → Nat) (arr : List α) (holeIndex len : Nat) (value : α) :
    List α :=
  let s := adjustHeapLast len (adjustHeapLoop key len (len - holeIndex) arr holeIndex)
  pushHeap key value holeIndex s.2 s.1 s.2

/-- One round of the loop of `std::__make_heap`, for `parent`. -/
def makeHeapStep {α : Type} (key : α → Nat) (len : Nat) (arr : List α) (parent : Nat) : List α :=
  match arr[parent]? with
  | some value => adjustHeap key arr parent len value
  | none => arr

/-- The loop of `std::__make_heap`, from `parent` down to 0. -/
def makeHeapLoop {α : Type} (key : α → Nat) (len : Nat) : Nat → List α → List α
  | 0, arr => makeHeapStep key len arr 0
  | parent + 1, arr => makeHeapLoop key len parent (makeHeapStep key len arr (parent + 1))

/-- `std::__make_heap(first, last, comp)` on a whole array. -/
def makeHeap {α : Type} (key : α → Nat) (arr : List α) : List α :=
  if arr.length < 2 then arr else makeHeapLoop key arr.length ((arr.length - 2) / 2) arr

/-- `std::__pop_heap(first, last, result, comp)`, `first` being position 0. -/
def popHeap {α : Type} (key : α → Nat) (arr : List α) (last result : Nat) : List α :=
  match arr[result]?, arr[0]? with
  | some value, some top => adjustHeap key (arr.set result top) 0 last value
  | _, _ => arr

/-- `std::__sort_heap(first, last, comp)` with `last - first = n`. -/
def sortHeap {α : Type} (key : α → Nat) : Nat → List α → List α
  | 0, arr => arr
  | n + 1, arr => if 1 < n + 1 then sortHeap key n (popHeap key arr n n) else arr

/-- `std::__partial_sort(first, last, last, comp)`: `__heap_select`, which with
`middle = last` is `__make_heap`, then `__sort_heap`.  The heap functions
address the range relative to `first`; here they run on the range taken out of
the array. -/
def heapSortRange {α : Type} (key : α → Nat) (arr : List α) (first last : Nat) : List α :=
  arr.take first ++
    sortHeap key ((arr.drop first).take (last - first)).length
      (makeHeap key ((arr.drop first).take (last - first))) ++
    arr.drop last

/-- `std::__introsort_loop(first, last, depth_limit, comp)`: each round of the
`while` loop takes one from the depth limit, sorts `[cut, last)` by a recursive
call and goes on with `[first, cut)`. -/
def introsortLoop {α : Type} (key : α → Nat) : Nat → Nat → Nat → List α → List α
  | 0, first, last, arr => if 16 < last - first then heapSortRange key arr first last else arr
  | depth + 1, first, last, arr =>
    if 16 < last - first then
      introsortLoop key depth first (unguardedPartitionPivot key arr first last).1
        (introsortLoop key depth (unguardedPartitionPivot key arr first last).1 last
          (unguardedPartitionPivot key arr first last).2)
    else arr

/-- `std::sort(first, last, comp)` with `comp(a, b)` the test `key a > key b`,
as libstdc++ implements it (`std::__sort`). -/
def stdSort {α : Type} (key : α → Nat) (l : List α) : List α :=
  match l with
  | [] => []
  | _ :: _ => finalInsertionSort key (introsortLoop key (stdLg l.length * 2) 0 l.length l)

/-- `set.insert(v)` on a `std::unordered_set`. -/
def setInsert (s : List Str) (v : Str) : List Str :=
  if v ∈ s then s else s ++ [v]

/-- `a.set == b.set` on `std::unordered_set`: the same elements. -/
def setEq (a b : List Str) : Bool :=
  a.all (fun x => decide (x ∈ b)) && b.all (fun x => decide (x ∈ a))

/-- The set built for a `!{...}` segment from the split inner text: each value
is trimmed and inserted when it is not empty. -/
def negSetValues (values : List Str) : List Str :=
  values.foldl
    (fun set v => let v := Internal.trim_copy v; if v = [] then set else setInsert set v) []

/-- The classification of one segment in `WildcardMatcher::add`. -/
def compilePart (seg : Str) : Part :=
  if seg = ['*', '*'] then .doubleStar
  else if seg = ['*'] then .star
  else if 3 < seg.length ∧ seg.take 2 = ['!', '\x7b'] ∧ seg.getLast? = some '\x7d' then
    .negSet (negSetValues (Internal.split (Internal.substr seg 2 (seg.length - 3)) ','))
  else .literal seg

/-- The lambda `equalPart` of `WildcardMatcher::add`. -/
def equalPart : Part → Part → Bool
  | .literal a, .literal b => a == b
  | .star, .star => true
  | .doubleStar, .doubleStar => true
  | .negSet a, .negSet b => setEq a b
  | .set a, .set b => setEq a b
  | _, _ => false

/-- The two mergeable shapes: existing `Set` with incoming `Literal`, or both
`Literal`. -/
def mergeable : Part → Part → Bool
  | .set _, .literal _ => true
  | .literal _, .literal _ => true
  | _, _ => false

/-- The inner `for` loop of the merge in `WildcardMatcher::add` over positions
`i, i+1, ...`: `none` is `canMerge = false`, `some d` is `canMerge` with
`diffIndex = d` (`none` for `-1`). -/
def mergeScan : List Part → List Part → Nat → Option Nat → Option (Option Nat)
  | ep :: es, np :: ns, i, diffIndex =>
    if equalPart ep np then mergeScan es ns (i + 1) diffIndex
    else if mergeable ep np then
      match diffIndex with
      | some _ => none
      | none => mergeScan es ns (i + 1) (some i)
    else none
  | _, _, _, diffIndex => some diffIndex

/-- The rewrite of the existing part at `diffIndex`. -/
def mergePart : Part → Part → Part
  | .set s, .literal l => .set (setInsert s l)
  | .literal a, .literal b => .set (setInsert (setInsert [] a) b)
  | ep, _ => ep

/-- The existing parts after `existing.parts[diffIndex]` has been rewritten
with the incoming part `parts[diffIndex]`. -/
def mergeAt : Nat → List Part → List Part → List Part
  | 0, ep :: es, np :: _ => mergePart ep np :: es
  | d + 1, ep :: es, _ :: ns => ep :: mergeAt d es ns
  | _, es, _ => es

/-- The outer merge loop of `WildcardMatcher::add` over `patterns_`: `some`
is the route list after the merge that ends `add`, `none` means that no
existing route took the new parts. -/
def mergeInto {H : Type} [DecidableEq H] (parts : List Part) (handler : H) :
    List (Route H) → Option (List (Route H))
  | [] => none
  | existing :: rest =>
    if existing.handler ≠ handler then (mergeInto parts handler rest).map (existing :: ·)
    else if existing.parts.length ≠ parts.length then
      (mergeInto parts handler rest).map (existing :: ·)
    else
      match mergeScan existing.parts parts 0 none with
      | some (some d) =>
        some ({ existing with parts := mergeAt d existing.parts parts } :: rest)
      | _ => (mergeInto parts handler rest).map (existing :: ·)

/-- In the words of the spec: the existing parts `es` and the new parts `ns`
differ at exactly the index `d`, where both parts are Literal or the existing
part is a PosSet and the new one a Literal; before and after `d` the parts are
pairwise equal in the sense of `equalPart`. -/
def DiffersOnlyAt (es ns : List Part) (d : Nat) : Prop :=
  ∃ P P' ep np Q Q', es = P ++ ep :: Q ∧ ns = P' ++ np :: Q' ∧ P.length = d ∧
    List.Forall₂ (fun a b => equalPart a b = true) P P' ∧
    List.Forall₂ (fun a b => equalPart a b = true) Q Q' ∧
    equalPart ep np = false ∧
    ((∃ a b, ep = .literal a ∧ np = .literal b) ∨ (∃ s b, ep = .set s ∧ np = .literal b))

/-- A route that takes the new parts in the merge step of `add`: equal
handler, and parts that differ from the new ones at exactly one index of a
mergeable shape. -/
def MergeCandidate {H : Type} (r : Route H) (parts : List Part) (handler : H) : Prop :=
  r.handler = handler ∧ ∃ d, DiffersOnlyAt r.parts parts d

/-- In the words of the spec: the segment satisfies the part.  Literal: equal
text; Star: non-empty; PosSet: non-empty and a member; NegSet: non-empty and
not a member.  For DoubleStar, which consumes segments rather than being
satisfied by one, the value is `false`. -/
def satisfiesPart : Part → Str → Bool
  | .literal l, seg => decide (seg = l)
  | .star, seg => decide (seg ≠ [])
  | .set s, seg => decide (seg ≠ []) && decide (seg ∈ s)
  | .negSet s, seg => decide (seg ≠ []) && decide (seg ∉ s)
  | .doubleStar, _ => false

/-- `WildcardMatcher::SizeGroup`; a `const Route *` is a position in
`patterns_`, and a key absent from `literalFirst` has the empty list. -/
structure SizeGroup where
  size : Nat := 0
  hasAnyDoubleStar : Bool := false
  literalFirst : Str → List Nat := fun _ => []
  nonLiteral : List Nat := []

/-- `WildcardMatcher<Handler>`. -/
structure WildcardMatcher (H : Type) where
  segmentChar : Char := '/'
  patterns : List (Route H) := []
  exactMatches : Str → Option H := fun _ => none
  indexDirty : Bool := true
  sizeGroups : List SizeGroup := []

namespace WildcardMatcher

variable {H : Type}

/-- The constructor `WildcardMatcher(segmentChar)`: a NUL separator is
replaced by `/`. -/
def new (segmentChar : Char := '/') : WildcardMatcher H :=
  { segmentChar := if segmentChar = Char.ofNat 0 then '/' else segmentChar }

/-- The compilation at the head of `WildcardMatcher::add`. -/
def compile (segmentChar : Char) (pattern : Str) : List Part :=
  (Internal.splitSegments pattern segmentChar).map compilePart

/-- `WildcardMatcher::add`.  The merge path returns before `indexDirty_` is
set. -/
def add [DecidableEq H] (wm : WildcardMatcher H) (pattern : Str) (handler : H) :
    WildcardMatcher H :=
  let parts := compile wm.segmentChar pattern
  match mergeInto parts handler wm.patterns with
  | some merged => { wm with patterns := merged }
  | none =>
    let hasDoubleStar := parts.any (fun p => decide (p = .doubleStar))
    { wm with
      patterns := stdSort (fun r => r.parts.length)
        (wm.patterns ++ [{ parts := parts, handler := handler, pattern := pattern,
                           hasDoubleStar := hasDoubleStar }])
      indexDirty := true }

/-- `WildcardMatcher::filter`. -/
def filter (wm : WildcardMatcher H) (cb : Route H → Bool) : WildcardMatcher H :=
  { wm with patterns := wm.patterns.filter cb, indexDirty := true }

/-- `WildcardMatcher::clear`. -/
def clear (wm : WildcardMatcher H) : WildcardMatcher H :=
  { wm with patterns := [], exactMatches := fun _ => none, sizeGroups := [], indexDirty := true }

/-- The update of the group `g` of a route's size in `rebuildIndexIfNeeded`:
the flag, then `literalFirst[...].push_back(&route)` or
`nonLiteral.push_back(&route)`, the route being at position `i`. -/
def enterRoute (g : SizeGroup) (i : Nat) (route : Route H) : SizeGroup :=
  let g := if route.hasDoubleStar then { g with hasAnyDoubleStar := true } else g
  match route.parts.head? with
  | some (.literal l) =>
    { g with literalFirst := fun k => if k = l then g.literalFirst k ++ [i] else g.literalFirst k }
  | _ => { g with nonLiteral := g.nonLiteral ++ [i] }

/-- One step of the loop of `rebuildIndexIfNeeded`: the route at position `i`
is entered into the group of its size, which is appended first when new. -/
def indexRoute (groups : List SizeGroup) (i : Nat) (route : Route H) : List SizeGroup :=
  let sz := route.parts.length
  let groups :=
    if groups.any (fun g => g.size == sz) then groups else groups ++ [{ size := sz }]
  groups.map fun g => if g.size == sz then enterRoute g i route else g

/-- The loop of `rebuildIndexIfNeeded` from position `i` on. -/
def indexRoutes : List SizeGroup → Nat → List (Route H) → List SizeGroup
  | groups, _, [] => groups
  | groups, i, route :: rest => indexRoutes (indexRoute groups i route) (i + 1) rest

/-- `WildcardMatcher::rebuildIndexIfNeeded`. -/
def rebuildIndexIfNeeded (wm : WildcardMatcher H) : WildcardMatcher H :=
  if !wm.indexDirty then wm
  else
    { wm with
      sizeGroups := stdSort (fun g => g.size) (indexRoutes [] 0 wm.patterns)
      indexDirty := false }

/-- The position reached by `while (pi < parts.size() && parts[pi] is DoubleStar) pi++`. -/
def skipDoubleStars (parts : List Part) (pi : Nat) : Nat :=
  pi + ((parts.drop pi).takeWhile (fun p => decide (p = .doubleStar))).length

/-- The local variables of the loop of `matchRoute`; `star` holds
`(starPi, starSi)`, `none` for `starPi == -1`. -/
structure LoopState where
  pi : Nat := 0
  si : Nat := 0
  star : Option (Nat × Nat) := none
  deriving DecidableEq, Repr

/-- What one evaluation of the loop condition and body leads to: the loop is
left (condition false, or `break`) with the current `pi` and `si`, or the next
iteration starts. -/
inductive LoopStep where
  | done (pi si : Nat)
  | next (st : LoopState)
  deriving DecidableEq, Repr

/-- One iteration of `while (si < path.size())` in `matchRoute`. -/
def matchStep (parts : List Part) (path : List Str) (st : LoopState) : LoopStep :=
  match path[st.si]? with
  | none => .done st.pi st.si
  | some seg =>
    let backtrack : LoopStep :=
      match st.star with
      | some (starPi, starSi) =>
        .next { pi := starPi + 1, si := starSi + 1, star := some (starPi, starSi + 1) }
      | none => .done st.pi st.si
    match parts[st.pi]? with
    | some .doubleStar => .next { pi := st.pi + 1, si := st.si, star := some (st.pi, st.si) }
    | some .star =>
      if seg = [] then .done st.pi st.si
      else .next { st with pi := st.pi + 1, si := st.si + 1 }
    | some (.negSet s) =>
      if seg = [] then .done st.pi st.si
      else if seg ∈ s then .done st.pi st.si
      else .next { st with pi := st.pi + 1, si := st.si + 1 }
    | some (.set s) =>
      if seg = [] then .done st.pi st.si
      else if seg ∉ s then .done st.pi st.si
      else .next { st with pi := st.pi + 1, si := st.si + 1 }
    | some (.literal l) =>
      if seg = l then .next { st with pi := st.pi + 1, si := st.si + 1 } else backtrack
    | none => backtrack

/-- The loop of `matchRoute` with a step budget: the values of `pi` and `si`
when the loop is left, `none` when the budget runs out. -/
def matchLoop (parts : List Part) (path : List Str) : Nat → LoopState → Option (Nat × Nat)
  | 0, _ => none
  | fuel + 1, st =>
    match matchStep parts path st with
    | .done pi si => some (pi, si)
    | .next st' => matchLoop parts path fuel st'

/-- A step budget for `matchLoop`: between two moves of the double-star anchor
`pi` only grows, and the anchor only moves right. -/
def matchFuel (parts : List Part) (path : List Str) : Nat :=
  (path.length + 1) * (parts.length + 1) + parts.length + 1

/-- The anchor position used by the termination measure. -/
def anchorOf (st : LoopState) : Nat :=
  match st.star with
  | some (_, starSi) => starSi
  | none => 0

/-- The termination measure of the loop of `matchRoute`. -/
def loopMeasure (parts : List Part) (path : List Str) (st : LoopState) : Nat :=
  (path.length + 1 - anchorOf st) * (parts.length + 1) + (parts.length - st.pi)

/-- The loop started in `st` is left with `pi` and `si` equal to `r`. -/
def Run (parts : List Part) (path : List Str) (st : LoopState) (r : Nat × Nat) : Prop :=
  ∃ n, matchLoop parts path n st = some r

/-- The special case `parts.size() == 1` of `matchRoute`. -/
def matchSingle (only : Part) (path : List Str) : Bool :=
  match only with
  | .doubleStar => true
  | .star => path.length == 1 && path[0]? != some []
  | .literal l => path.length == 1 && path[0]? == some l
  | .negSet s => path.length == 1 && path[0]? != some [] &&
      (match path[0]? with | some seg => decide (seg ∉ s) | none => false)
  | .set s => path.length == 1 &&
      (match path[0]? with | some seg => decide (seg ∈ s) | none => false)

/-- `WildcardMatcher::matchRoute` on the parts of a route. -/
def matchParts (parts : List Part) (path : List Str) : Bool :=
  match parts with
  | [only] => matchSingle only path
  | _ =>
    match matchLoop parts path (matchFuel parts path) {} with
    | some (pi, si) => skipDoubleStars parts pi == parts.length && si == path.length
    | none => false

/-- `WildcardMatcher::matchRoute`. -/
def matchRoute (route : Route H) (path : List Str) : Bool :=
  matchParts route.parts path

/-- The loop over one candidate list (`literalIt->second` or
`group.nonLiteral`): `some` is the handler returned from inside the loop. -/
def scanRoutes (patterns : List (Route H)) (path : List Str) : List Nat → Option H
  | [] => none
  | routePtr :: rest =>
    match patterns[routePtr]? with
    | none => scanRoutes patterns path rest
    | some route =>
      if route.parts.length > path.length && !route.hasDoubleStar then
        scanRoutes patterns path rest
      else if matchRoute route path then some route.handler
      else scanRoutes patterns path rest

/-- The loop over `sizeGroups_` in `WildcardMatcher::match`. -/
def scanGroups (patterns : List (Route H)) (path : List Str) : List SizeGroup → Option H
  | [] => none
  | group :: rest =>
    if group.size > path.length && !group.hasAnyDoubleStar then scanGroups patterns path rest
    else
      let firstSeg : Str := path.headD []
      match scanRoutes patterns path (group.literalFirst firstSeg) with
      | some h => some h
      | none =>
        match scanRoutes patterns path group.nonLiteral with
        | some h => some h
        | none => scanGroups patterns path rest

/-- `WildcardMatcher::match`: the returned handler (`none` for `nullptr`). -/
def matchInput (wm : WildcardMatcher H) (input : Str) : Option H :=
  let path := Internal.splitSegments input wm.segmentChar
  match wm.exactMatches input with
  | some h => some h
  | none =>
    let wm := wm.rebuildIndexIfNeeded
    scanGroups wm.patterns path wm.sizeGroups

/-- What `rebuildIndexIfNeeded` and the route-level skip read of a route: its
size, its flag, its first part, and whether a part is a double star. -/
def signature (r : Route H) : Nat × Bool × Option Part × Bool :=
  (r.parts.length, r.hasDoubleStar, r.parts.head?, r.parts.any (fun p => decide (p = .doubleStar)))

/-- The segment-matcher semantics in the words of the spec (§3, Part): the
segments divide into consecutive groups, one per part in order; a Literal
takes one segment equal to its text, a Star one non-empty segment, a PosSet
one segment in the set, a NegSet one non-empty segment not in the set, and a
DoubleStar any zero or more segments (`rest` ranges over what it can leave). -/
def matchesSpec : List Part → List Str → Bool
  | [], path => path.isEmpty
  | .doubleStar :: parts, path => path.tails.any (fun rest => matchesSpec parts rest)
  | .literal l :: parts, seg :: path => seg == l && matchesSpec parts path
  | .star :: parts, seg :: path => seg != [] && matchesSpec parts path
  | .set s :: parts, seg :: path => decide (seg ∈ s) && matchesSpec parts path
  | .negSet s :: parts, seg :: path => seg != [] && decide (seg ∉ s) && matchesSpec parts path
  | _ :: _, [] => false

/-- The shape of the size-group index built from the routes `l`, all of which
start with the empty literal: groups by strictly descending size, and the
candidate lists, group after group, list the positions `0, 1, ...` in order. -/
structure IndexOf (l : List (Route H)) (G : List SizeGroup) : Prop where
  sizes : (G.map (·.size)).Pairwise (fun a b => b < a)
  nonLiteral : ∀ g ∈ G, g.nonLiteral = []
  otherKeys : ∀ g ∈ G, ∀ k, k ≠ [] → g.literalFirst k = []
  flat : G.flatMap (fun g => g.literalFirst []) = List.range l.length
  member : ∀ g ∈ G, ∀ i ∈ g.literalFirst [], ∃ r, l[i]? = some r ∧ r.parts.length = g.size ∧
    (r.hasDoubleStar = true → g.hasAnyDoubleStar = true)
  inhabited : ∀ g ∈ G, ∃ r ∈ l, r.parts.length = g.size

/-- The state invariant of the segment-aware index: the map `exactMatches_`
is never filled, the routes are ordered by descending part count, each flag
`hasDoubleStar` is right, each route starts with the empty literal, and an
index that is not dirty is the index of the current routes. -/
structure WF (wm : WildcardMatcher H) : Prop where
  exact_empty : ∀ k, wm.exactMatches k = none
  sorted : wm.patterns.Pairwise (fun a b => b.parts.length ≤ a.parts.length)
  flag : ∀ r ∈ wm.patterns, r.hasDoubleStar = r.parts.any (fun p => decide (p = .doubleStar))
  head : ∀ r ∈ wm.patterns, r.parts.head? = some (.literal [])
  index : wm.indexDirty = false →
    wm.sizeGroups = stdSort (fun g => g.size) (indexRoutes [] 0 wm.patterns)

/-- The states of a `WildcardMatcher` that its public operations produce from
a freshly constructed one; a lookup leaves the state `rebuildIndexIfNeeded`. -/
inductive Reachable [DecidableEq H] : WildcardMatcher H → Prop where
  | init (segmentChar : Char) : Reachable (new segmentChar)
  | add {wm : WildcardMatcher H} (pattern : Str) (handler : H) :
      Reachable wm → Reachable (wm.add pattern handler)
  | filter {wm : WildcardMatcher H} (cb : Route H → Bool) :
      Reachable wm → Reachable (wm.filter cb)
  | clear {wm : WildcardMatcher H} : Reachable wm → Reachable wm.clear
  | lookup {wm : WildcardMatcher H} : Reachable wm → Reachable wm.rebuildIndexIfNeeded

end WildcardMatcher

/-- In the words of the spec: the string `f0 x0 f1 x1 ... x(n-1) fn` written
with the fragments `f0, ..., fn` and the strings `x0, ..., x(n-1)`. -/
def globInstance : List Str → List Str → Str
  | [], _ => []
  | [f], _ => f
  | f :: g :: fs, [] => f ++ globInstance (g :: fs) []
  | f :: g :: fs, x :: xs => f ++ x ++ globInstance (g :: fs) xs

/-- `SimpleWildcardMatcher::Compiled`. -/
structure Compiled (H : Type) where
  parts : List Str
  handler : H
  pattern : Str
  hasPrefix : Bool := false
  hasSuffix : Bool := false
  nonEmptyParts : List Str := []
  deriving DecidableEq, Repr

/-- `SimpleWildcardMatcher<Handler>`. -/
structure SimpleWildcardMatcher (H : Type) where
  compiled : List (Compiled H) := []

namespace SimpleWildcardMatcher

variable {H : Type}

/-- `input.find(needle, pos)` for a string needle: the first position `≥ pos`
at which `needle` occurs; `none` is `npos`. -/
def findStr (needle : Str) : Str → Nat → Option Nat
  | [], 0 => if needle = [] then some 0 else none
  | [], _ + 1 => none
  | c :: cs, 0 =>
    if needle.isPrefixOf (c :: cs) then some 0 else (findStr needle cs 0).map (· + 1)
  | _ :: cs, pos + 1 => (findStr needle cs pos).map (· + 1)

/-- `SimpleWildcardMatcher::add`; its splitting loop on `*` is the loop of
`Internal::split`. -/
def add (sm : SimpleWildcardMatcher H) (pattern : Str) (handler : H) :
    SimpleWildcardMatcher H :=
  let parts := Internal.split pattern '*'
  { compiled := sm.compiled ++
      [{ parts := parts, handler := handler, pattern := pattern,
         hasPrefix := !parts.isEmpty && parts.head? != some [],
         hasSuffix := !parts.isEmpty && parts.getLast? != some [],
         nonEmptyParts := parts.filter (fun p => !p.isEmpty) }] }

/-- `SimpleWildcardMatcher::filter`. -/
def filter (sm : SimpleWildcardMatcher H) (cb : Compiled H → Bool) : SimpleWildcardMatcher H :=
  { compiled := sm.compiled.filter cb }

/-- `SimpleWildcardMatcher::clear`. -/
def clear (_sm : SimpleWildcardMatcher H) : SimpleWildcardMatcher H :=
  { compiled := [] }

/-- The scan of the interior fragments `parts[1 .. size-2]` from the cursor
`pos`: `false` is `failed`. -/
def scanInterior (input : Str) : List Str → Nat → Bool
  | [], _ => true
  | part :: rest, pos =>
    if part = [] then scanInterior input rest pos
    else match findStr part input pos with
      | none => false
      | some found => scanInterior input rest (found + part.length)

/-- The test that the body of the loop of `SimpleWildcardMatcher::match`
applies to one compiled pattern. -/
def accepts (c : Compiled H) (input : Str) : Bool :=
  let front := c.parts.headD []
  let back := c.parts.getLastD []
  if c.hasPrefix && !(front.isPrefixOf input) then false
  else if c.hasSuffix && !(back.isSuffixOf input) then false
  else if c.nonEmptyParts.length ≤ 2 then true
  else
    let pos := if c.hasPrefix then front.length else 0
    scanInterior input (c.parts.drop 1).dropLast pos

/-- `SimpleWildcardMatcher::match`. -/
def matchInput (sm : SimpleWildcardMatcher H) (input : Str) : Option H :=
  (sm.compiled.find? (fun c => accepts c input)).map (·.handler)

end SimpleWildcardMatcher

/-- `Matcher<Handler>`. -/
structure Matcher (H : Type) where
  options : MatcherOptions H := {}
  segmentChar : Char := '/'
  exactMatches : Str → Option H := fun _ => none
  wildcards : WildcardMatcher H := {}
  simpleWildcards : SimpleWildcardMatcher H := {}
  fallback : Option H := none

/-- What `add` and `remove` can end with instead of returning: the
`std::runtime_error` of `expandPattern`, or the exhausted budget of the
embedding of `expandPattern`. -/
inductive RouterError where
  | malformedPattern
  | outOfFuel
  deriving DecidableEq, Repr

namespace Matcher

variable {H : Type}

/-- The constructor `Matcher(options, segmentChar)`: a NUL separator is
replaced by `/`. -/
def new (options : MatcherOptions H := {}) (segmentChar : Char := '/') : Matcher H :=
  let segmentChar := if segmentChar = Char.ofNat 0 then '/' else segmentChar
  { options := options, segmentChar := segmentChar,
    wildcards := WildcardMatcher.new segmentChar }

/-- The body of the loop of `Matcher::add` for one concrete pattern. -/
def addExpanded [DecidableEq H] (m : Matcher H) (expandedPattern : Str) (handler : H) :
    Matcher H :=
  if Internal.containsWildcardOrNegSet expandedPattern then
    if m.options.simpleMatcher then
      { m with simpleWildcards := m.simpleWildcards.add expandedPattern handler }
    else
      { m with wildcards := m.wildcards.add expandedPattern handler }
  else
    let store (h : H) : Matcher H :=
      { m with exactMatches := fun k => if k = expandedPattern then some h else m.exactMatches k }
    match m.exactMatches expandedPattern, m.options.mergeFn with
    | some existing, some mergeFn =>
      if existing ≠ handler ∧ m.options.mergeHandlers then store (mergeFn existing handler)
      else store handler
    | _, _ => store handler

/-- The pattern after `if (!pattern.empty() && pattern.back() == '.') pattern.pop_back()`. -/
def stripDot (pattern : Str) : Str :=
  if pattern.getLast? = some '.' then pattern.dropLast else pattern

/-- `Matcher::add(std::string pattern, Handler handler)`. -/
def add [DecidableEq H] (m : Matcher H) (pattern : Str) (handler : H) :
    Except RouterError (Matcher H) :=
  let pattern := stripDot pattern
  if pattern = ['*'] ∨ pattern = ['*', '*'] then .ok { m with fallback := some handler }
  else if pattern = [] then .ok m
  else
    match Internal.expandPattern pattern with
    | .ok expanded => .ok (expanded.foldl (fun m c => m.addExpanded c handler) m)
    | .malformed => .error .malformedPattern
    | .outOfFuel => .error .outOfFuel

/-- `Matcher::add(std::string pattern, Handler handler)` statement by
statement, with the matcher as state: the matcher when the call ends, and the
exception that ended it if any.  `expanded` is the local vector that
`expandPattern` fills. -/
def addRun [DecidableEq H] (m : Matcher H) (pattern : Str) (handler : H) :
    Matcher H × Option RouterError :=
  let pattern := stripDot pattern
  if pattern = ['*'] ∨ pattern = ['*', '*'] then ({ m with fallback := some handler }, none)
  else if pattern = [] then (m, none)
  else
    match Internal.expandInto pattern [] with
    | (expanded, .returned) => (expanded.foldl (fun m c => m.addExpanded c handler) m, none)
    | (_, .thrown) => (m, some .malformedPattern)
    | (_, .outOfFuel) => (m, some .outOfFuel)

/-- `Matcher::clear`. -/
def clear (m : Matcher H) : Matcher H :=
  { m with
    exactMatches := fun _ => none
    wildcards := m.wildcards.clear
    simpleWildcards := m.simpleWildcards.clear
    fallback := none }

/-- The body of the loop of `Matcher::remove` for one concrete pattern. -/
def removeExpanded (m : Matcher H) (expandedPattern : Str) : Matcher H :=
  let m := { m with exactMatches := fun k => if k = expandedPattern then none else m.exactMatches k }
  if m.options.simpleMatcher then
    { m with simpleWildcards := m.simpleWildcards.filter (fun r => r.pattern != expandedPattern) }
  else
    { m with wildcards := m.wildcards.filter (fun r => r.pattern != expandedPattern) }

/-- `Matcher::remove`. -/
def remove (m : Matcher H) (pattern : Str) : Except RouterError (Matcher H) :=
  match Internal.expandPattern pattern with
  | .ok expanded => .ok (expanded.foldl (fun m c => m.removeExpanded c) m)
  | .malformed => .error .malformedPattern
  | .outOfFuel => .error .outOfFuel

/-- `Matcher::match`: the returned handler (`none` for `nullptr`). -/
def matchInput (m : Matcher H) (input : Str) : Option H :=
  match m.exactMatches input with
  | some h => some h
  | none =>
    let h := if m.options.simpleMatcher then m.simpleWildcards.matchInput input
             else m.wildcards.matchInput input
    match h with
    | some h => some h
    | none => m.fallback

/-- The matcher after a call of `add` whose exception, if any, the caller
catches: `add` changes no state before `expandPattern` has returned. -/
def afterAdd [DecidableEq H] (m : Matcher H) (pattern : Str) (handler : H) : Matcher H :=
  match m.add pattern handler with
  | .ok m' => m'
  | .error _ => m

/-- The matcher after a sequence of `add` calls. -/
def addAll [DecidableEq H] (m : Matcher H) (adds : List (Str × H)) : Matcher H :=
  adds.foldl (fun m x => m.afterAdd x.1 x.2) m

/-- The answer of the configured wildcard layer in `Matcher::match`. -/
def wildcardLayer (m : Matcher H) (input : Str) : Option H :=
  if m.options.simpleMatcher then m.simpleWildcards.matchInput input
  else m.wildcards.matchInput input

/-- The concrete patterns over which the loop of `Matcher::add` runs for
`pattern`: none for a fallback pattern, an empty pattern, or a failed
expansion. -/
def concretePatterns (pattern : Str) : List Str :=
  let pattern := stripDot pattern
  if pattern = ['*'] ∨ pattern = ['*', '*'] ∨ pattern = [] then []
  else
    match Internal.expandPattern pattern with
    | .ok expanded => expanded
    | _ => []

/-- A pattern that `add` stores unchanged as one exact-map key: not empty, no
`{`, no `*`, and no trailing `/` or `.`. -/
def Plain (p : Str) : Prop :=
  p ≠ [] ∧ '\x7b' ∉ p ∧ '*' ∉ p ∧ p.getLast? ≠ some '/' ∧ p.getLast? ≠ some '.'

instance (p : Str) : Decidable (Plain p) := by unfold Plain; infer_instance

/-- An insertion at a wildcard pattern: every concrete pattern that the
expansion yields contains `*` or `!{` (a failed expansion yields none). -/
def WildcardPattern (q : Str) : Prop :=
  match Internal.expandPattern (stripDot q) with
  | .ok l => ∀ c ∈ l, Internal.containsWildcardOrNegSet c = true
  | _ => True

instance (q : Str) : Decidable (WildcardPattern q) := by
  unfold WildcardPattern; split <;> infer_instance

/-- An insertion that stores literal patterns only: not a fallback pattern,
and no concrete pattern of the expansion contains `*` or `!{`. -/
def LiteralPattern (p : Str) : Prop :=
  ¬ (stripDot p = ['*'] ∨ stripDot p = ['*', '*']) ∧
    ∀ c ∈ concretePatterns p, Internal.containsWildcardOrNegSet c = false

instance (p : Str) : Decidable (LiteralPattern p) := by unfold LiteralPattern; infer_instance

/-- The states of a `Matcher` that its public operations produce from a freshly
constructed one; a lookup may leave the size-group index rebuilt. -/
inductive Reachable [DecidableEq H] : Matcher H → Prop where
  | init (options : MatcherOptions H) (segmentChar : Char) : Reachable (new options segmentChar)
  | add {m m' : Matcher H} (pattern : Str) (handler : H) :
      Reachable m → m.add pattern handler = .ok m' → Reachable m'
  | remove {m m' : Matcher H} (pattern : Str) :
      Reachable m → m.remove pattern = .ok m' → Reachable m'
  | clear {m : Matcher H} : Reachable m → Reachable m.clear
  | lookup {m : Matcher H} :
      Reachable m → Reachable { m with wildcards := m.wildcards.rebuildIndexIfNeeded }

/-- The path `/s1/.../sk` with the segments `segs`. -/
def joinPath (segs : List Str) : Str :=
  segs.flatMap (fun s => '/' :: s)

/-- A literal segment of a path pattern: not empty, and free of the separator
`/`, of `{` and of `*`. -/
def LiteralSegment (s : Str) : Prop :=
  s ≠ [] ∧ '/' ∉ s ∧ '\x7b' ∉ s ∧ '*' ∉ s

instance (s : Str) : Decidable (LiteralSegment s) := by unfold LiteralSegment; infer_instance

/-- The values `vs` joined by commas. -/
def joinComma : List Str → Str
  | [] => []
  | [v] => v
  | v :: w :: rest => v ++ ',' :: joinComma (w :: rest)

/-- A value of a negative set: not empty, free of the separator `/`, of the
comma and of braces, and without whitespace at its front or back. -/
def SetValue (v : Str) : Prop :=
  v ≠ [] ∧ '/' ∉ v ∧ ',' ∉ v ∧ '\x7b' ∉ v ∧ '\x7d' ∉ v ∧
    v.head?.map Internal.is_ws ≠ some true ∧ v.getLast?.map Internal.is_ws ≠ some true

instance (v : Str) : Decidable (SetValue v) := by unfold SetValue; infer_instance

/-- The glob semantics in the words of the spec: the input is
`f0 x0 f1 x1 ... fn` for the fragments `f0, ..., fn` and some strings `xi`,
possibly empty. -/
def globSpec : List Str → Str → Bool
  | [], input => input.isEmpty
  | [f], input => input == f
  | f :: g :: rest, input =>
    f.isPrefixOf input &&
      (List.range (input.length - f.length + 1)).any
        (fun k => globSpec (g :: rest) (input.drop (f.length + k)))

/-- The pattern `t0 {A1} t1 {A2} t2 ... {Ak} tk` with the literal texts `ti`
and the lists `Ai` of alternatives: `gs` lists the pairs `(Ai, ti)`. -/
def groupsPattern (t0 : Str) (gs : List (List Str × Str)) : Str :=
  t0 ++ gs.flatMap (fun g => '\x7b' :: (joinComma g.1 ++ '\x7d' :: g.2))

/-- The combinations in the words of the spec: the literal texts with each
group replaced by one of its alternatives, trimmed, in lexicographic order of
the positions of the alternatives, the leftmost group most significant. -/
def combinations (t0 : Str) : List (List Str × Str) → List Str
  | [] => [t0]
  | g :: rest => g.1.flatMap (fun a => combinations (t0 ++ Internal.trim_copy a ++ g.2) rest)

/-- A literal text between groups: free of `\x7b`, `!` and `.`. -/
def GroupText (t : Str) : Prop := '\x7b' ∉ t ∧ '!' ∉ t ∧ '.' ∉ t

instance (t : Str) : Decidable (GroupText t) := by unfold GroupText; infer_instance

/-- An alternative of a group: free of braces, of the comma, of `!` and of
`.`. -/
def GroupAlternative (a : Str) : Prop :=
  '\x7b' ∉ a ∧ '\x7d' ∉ a ∧ ',' ∉ a ∧ '!' ∉ a ∧ '.' ∉ a

instance (a : Str) : Decidable (GroupAlternative a) := by
  unfold GroupAlternative; infer_instance

/-- `PathMatcher(options)`. -/
def pathMatcher (options : MatcherOptions H := {}) : Matcher H := new options '/'

/-- `DomainRouter(options)`. -/
def domainRouter (options : MatcherOptions H := {}) : Matcher H := new options '.'

end Matcher

end Akeno


/-! ## The loop of `matchRoute`: budget and runs -/

namespace Akeno

namespace WildcardMatcher

variable {H : Type}

/-- More budget does not change the result of a loop that was left. -/
theorem matchLoop_mono (parts : List Part) (path : List Str) :
    ∀ (n : Nat) (st : LoopState) (r : Nat × Nat),
      matchLoop parts path n st = some r →
      ∀ m, n ≤ m → matchLoop parts path m st = some r := by
  intro n
  induction n with
  | zero => intro st r h; simp [matchLoop] at h
  | succ n ih =>
    intro st r h m hm
    obtain ⟨m, rfl⟩ : ∃ k, m = k + 1 := ⟨m - 1, by omega⟩
    simp only [matchLoop] at h ⊢
    cases hs : matchStep parts path st with
    | done pi si => simpa [hs] using h
    | next st' =>
      simp only [hs] at h ⊢
      exact ih st' r h m (by omega)

/-- Every iteration that does not leave the loop keeps the anchor at or before
`si` and lowers the measure. -/
theorem matchStep_decreases (parts : List Part) (path : List Str) (st st' : LoopState)
    (hinv : anchorOf st ≤ st.si) (h : matchStep parts path st = .next st') :
    anchorOf st' ≤ st'.si ∧ loopMeasure parts path st' < loopMeasure parts path st := by
  obtain ⟨pi, si, star⟩ := st
  simp only [matchStep] at h
  cases hseg : path[si]? with
  | none => simp [hseg] at h
  | some seg =>
    have hsi : si < path.length := by
      rcases List.getElem?_eq_some_iff.1 hseg with ⟨hlt, _⟩; exact hlt
    simp only [hseg] at h
    have hback : ∀ st'', (match star with
        | some (starPi, starSi) =>
          LoopStep.next { pi := starPi + 1, si := starSi + 1, star := some (starPi, starSi + 1) }
        | none => LoopStep.done pi si) = .next st'' →
        anchorOf st'' ≤ st''.si ∧
          loopMeasure parts path st'' < loopMeasure parts path ⟨pi, si, star⟩ := by
      intro st'' hb
      cases star with
      | none => simp at hb
      | some a =>
        obtain ⟨spi, ssi⟩ := a
        simp only [LoopStep.next.injEq] at hb
        subst hb
        simp only [anchorOf] at hinv ⊢
        refine ⟨le_refl _, ?_⟩
        simp only [loopMeasure, anchorOf]
        have e : path.length + 1 - ssi = (path.length + 1 - (ssi + 1)) + 1 := by omega
        rw [e, Nat.add_mul]
        have : parts.length - (spi + 1) ≤ parts.length := Nat.sub_le _ _
        omega
    have hcons : ∀ st'', pi < parts.length →
        (LoopStep.next { pi := pi + 1, si := si + 1, star := star } : LoopStep) = .next st'' →
        anchorOf st'' ≤ st''.si ∧
          loopMeasure parts path st'' < loopMeasure parts path ⟨pi, si, star⟩ := by
      intro st'' hpi hb
      simp only [LoopStep.next.injEq] at hb
      subst hb
      simp only [anchorOf, loopMeasure] at hinv ⊢
      refine ⟨by omega, ?_⟩
      omega
    cases hp : parts[pi]? with
    | none => simp only [hp] at h; exact hback st' h
    | some part =>
      have hpi : pi < parts.length := by
        rcases List.getElem?_eq_some_iff.1 hp with ⟨hlt, _⟩; exact hlt
      simp only [hp] at h
      cases part with
      | doubleStar =>
        simp only [LoopStep.next.injEq] at h
        subst h
        simp only [anchorOf, loopMeasure] at hinv ⊢
        refine ⟨le_refl _, ?_⟩
        have h1 : (path.length + 1 - si) * (parts.length + 1) ≤
            (path.length + 1 - (match star with | some (_, starSi) => starSi | none => 0)) *
              (parts.length + 1) :=
          Nat.mul_le_mul_right _ (by omega)
        omega
      | star =>
        simp only at h
        split at h
        · simp at h
        · exact hcons st' hpi h
      | negSet s =>
        simp only at h
        split at h
        · simp at h
        · split at h
          · simp at h
          · exact hcons st' hpi h
      | set s =>
        simp only at h
        split at h
        · simp at h
        · split at h
          · simp at h
          · exact hcons st' hpi h
      | literal l =>
        simp only at h
        split at h
        · exact hcons st' hpi h
        · exact hback st' h

/-- A budget above the measure is never exhausted. -/
theorem matchLoop_terminates (parts : List Part) (path : List Str) :
    ∀ (n : Nat) (st : LoopState), anchorOf st ≤ st.si → loopMeasure parts path st < n →
      ∃ r, matchLoop parts path n st = some r := by
  intro n
  induction n with
  | zero => intro st _ h; omega
  | succ n ih =>
    intro st hinv hm
    simp only [matchLoop]
    cases hs : matchStep parts path st with
    | done pi si => exact ⟨(pi, si), rfl⟩
    | next st' =>
      obtain ⟨hinv', hdec⟩ := matchStep_decreases parts path st st' hinv hs
      exact ih st' hinv' (by omega)

/-- The budget `matchFuel` suffices from the initial state. -/
theorem matchLoop_matchFuel (parts : List Part) (path : List Str) :
    ∃ r, matchLoop parts path (matchFuel parts path) {} = some r := by
  apply matchLoop_terminates
  · simp [anchorOf]
  · simp [loopMeasure, matchFuel, anchorOf]

theorem Run.done {parts : List Part} {path : List Str} {st : LoopState} {pi si : Nat}
    (h : matchStep parts path st = .done pi si) : Run parts path st (pi, si) :=
  ⟨1, by simp [matchLoop, h]⟩

theorem Run.next {parts : List Part} {path : List Str} {st st' : LoopState} {r : Nat × Nat}
    (h : matchStep parts path st = .next st') (hr : Run parts path st' r) :
    Run parts path st r := by
  obtain ⟨n, hn⟩ := hr
  exact ⟨n + 1, by simp [matchLoop, h, hn]⟩

theorem Run.unique {parts : List Part} {path : List Str} {st : LoopState} {r r' : Nat × Nat}
    (h : Run parts path st r) (h' : Run parts path st r') : r = r' := by
  obtain ⟨n, hn⟩ := h
  obtain ⟨m, hm⟩ := h'
  have h1 := matchLoop_mono parts path n st r hn (max n m) (le_max_left _ _)
  have h2 := matchLoop_mono parts path m st r' hm (max n m) (le_max_right _ _)
  rw [h1] at h2
  exact Option.some.inj h2

/-- With the budget `matchFuel` the loop returns what any run returns. -/
theorem matchLoop_eq_of_run {parts : List Part} {path : List Str} {r : Nat × Nat}
    (h : Run parts path {} r) : matchLoop parts path (matchFuel parts path) {} = some r := by
  obtain ⟨r', hr'⟩ := matchLoop_matchFuel parts path
  rw [hr', Run.unique ⟨_, hr'⟩ h]


/-! ## Lists -/

theorem find?_ext {α : Type} (p q : α → Bool) :
    ∀ l : List α, (∀ a ∈ l, p a = q a) → l.find? p = l.find? q := by
  intro l
  induction l with
  | nil => intro _; rfl
  | cons a l ih =>
    intro h
    simp only [List.find?_cons, h a (List.mem_cons_self _ _),
      ih (fun b hb => h b (List.mem_cons_of_mem _ hb))]

/-! ## Sorting -/

theorem cons_set_perm {α : Type} (y : α) : ∀ (arr : List α) (i : Nat) (x : α),
    arr[i]? = some x → (y :: arr).Perm (x :: arr.set i y) := by
  intro arr
  induction arr with
  | nil => intro i x h; simp at h
  | cons a arr ih =>
    intro i x h
    cases i with
    | zero =>
      simp only [List.getElem?_cons_zero, Option.some.injEq] at h
      subst h
      exact List.Perm.swap _ _ _
    | succ i =>
      simp only [List.getElem?_cons_succ] at h
      simp only [List.set_cons_succ]
      exact (List.Perm.swap a y arr).trans
        (((ih i x h).cons a).trans (List.Perm.swap x a _))

theorem set_self_of_getElem? {α : Type} : ∀ (arr : List α) (i : Nat) (x : α),
    arr[i]? = some x → arr.set i x = arr := by
  intro arr
  induction arr with
  | nil => intro i x h; simp at h
  | cons a arr ih =>
    intro i x h
    cases i with
    | zero =>
      simp only [List.getElem?_cons_zero, Option.some.injEq] at h
      subst h
      rfl
    | succ i =>
      simp only [List.getElem?_cons_succ] at h
      simp only [List.set_cons_succ, ih i x h]

theorem lt_length_of_getElem? {α : Type} {arr : List α} {i : Nat} {x : α}
    (h : arr[i]? = some x) : i < arr.length := by
  by_contra hc
  rw [List.getElem?_eq_none (by omega)] at h
  cases h

theorem iterSwap_perm {α : Type} (arr : List α) (i j : Nat) : (iterSwap arr i j).Perm arr := by
  unfold iterSwap
  cases hi : arr[i]? with
  | none => exact List.Perm.refl _
  | some x =>
    cases hj : arr[j]? with
    | none => exact List.Perm.refl _
    | some y =>
      simp only
      have hlt := lt_length_of_getElem? hi
      have h1 := cons_set_perm y arr i x hi
      have hb : (arr.set i y)[j]? = some y := by
        by_cases hij : i = j
        · subst hij
          exact List.getElem?_set_self hlt
        · rw [List.getElem?_set_ne hij]
          exact hj
      have h2 := cons_set_perm x (arr.set i y) j y hb
      exact (List.Perm.cons_inv (h2.symm.trans h1.symm)).trans (List.Perm.refl _)

theorem length_iterSwap {α : Type} (arr : List α) (i j : Nat) :
    (iterSwap arr i j).length = arr.length := (iterSwap_perm arr i j).length_eq

/-- Filling a hole from another position and the hole left there with `v`
rearranges the array in which the first hole holds `v`. -/
theorem set_set_perm {α : Type} (arr : List α) (i j : Nat) (p v : α) (hi : i < arr.length)
    (hj : arr[j]? = some p) : ((arr.set i p).set j v).Perm (arr.set i v) := by
  by_cases hij : i = j
  · subst hij
    rw [List.set_set]
  · have h1 : (arr.set i v)[i]? = some v := List.getElem?_set_self hi
    have h2 : (arr.set i v)[j]? = some p := by rw [List.getElem?_set_ne hij]; exact hj
    have := iterSwap_perm (arr.set i v) i j
    unfold iterSwap at this
    simp only [h1, h2, List.set_set] at this
    exact this

/-! ### The budgets are never used up -/

theorem lgFuel_eq_log : ∀ (fuel n : Nat), n ≤ fuel → lgFuel fuel n = Nat.log 2 n := by
  intro fuel
  induction fuel with
  | zero =>
    intro n h
    have : n = 0 := by omega
    subst this
    simp [lgFuel]
  | succ fuel ih =>
    intro n h
    simp only [lgFuel]
    by_cases h1 : n ≤ 1
    · simp only [h1, if_true]
      exact (Nat.log_of_lt (by omega)).symm
    · simp only [h1, if_false]
      rw [Nat.log_of_one_lt_of_le (by omega) (by omega), ih (n / 2) (by omega)]

/-- `std::__lg(n)` is the integer logarithm of `n`. -/
theorem stdLg_eq_log (n : Nat) : stdLg n = Nat.log 2 n := lgFuel_eq_log n n (le_refl n)

theorem le_scanUp {α : Type} (key : α → Nat) (pk : Nat) (arr : List α) (i : Nat) :
    i ≤ scanUp key pk arr i := by
  unfold scanUp
  omega

theorem scanDown_le {α : Type} (key : α → Nat) (pk : Nat) (arr : List α) (j : Nat) :
    scanDown key pk arr j ≤ j := by
  unfold scanDown
  omega

/-- A budget above `last - first` is never used up by the partition loop. -/
theorem unguardedPartition_fuel {α : Type} (key : α → Nat) (pk : Nat) :
    ∀ (f g : Nat) (arr : List α) (first last : Nat), last - first < f → last - first < g →
      unguardedPartition key pk f arr first last = unguardedPartition key pk g arr first last := by
  intro f
  induction f with
  | zero => intro g arr first last h; omega
  | succ f ih =>
    intro g arr first last hf hg
    cases g with
    | zero => omega
    | succ g =>
      simp only [unguardedPartition]
      have h1 := le_scanUp key pk arr first
      have h2 := scanDown_le key pk arr (last - 1)
      split
      · exact ih g _ _ _ (by omega) (by omega)
      · rfl

/-- A budget of `holeIndex` is never used up by the loop of `__push_heap`. -/
theorem pushHeap_fuel {α : Type} (key : α → Nat) (value : α) (top : Nat) :
    ∀ (f g : Nat) (arr : List α) (hole : Nat), hole ≤ f → hole ≤ g →
      pushHeap key value top f arr hole = pushHeap key value top g arr hole := by
  intro f
  induction f with
  | zero =>
    intro g arr hole hf _
    have h0 : hole = 0 := by omega
    subst h0
    cases g with
    | zero => rfl
    | succ g =>
      simp only [pushHeap]
      split
      · simp
      · rfl
  | succ f ih =>
    intro g arr hole hf hg
    cases g with
    | zero =>
      have h0 : hole = 0 := by omega
      subst h0
      simp only [pushHeap]
      split
      · simp
      · rfl
    | succ g =>
      simp only [pushHeap]
      split
      · split
        · rename_i hc
          exact ih g _ _ (by omega) (by omega)
        · rfl
      · rfl

/-- A budget of `len - holeIndex` is never used up by the first loop of
`__adjust_heap`. -/
theorem adjustHeapLoop_fuel {α : Type} (key : α → Nat) (len : Nat) :
    ∀ (f g : Nat) (arr : List α) (hole : Nat), len - hole ≤ f → len - hole ≤ g →
      adjustHeapLoop key len f arr hole = adjustHeapLoop key len g arr hole := by
  intro f
  induction f with
  | zero =>
    intro g arr hole hf _
    cases g with
    | zero => rfl
    | succ g =>
      have : ¬ hole < (len - 1) / 2 := by omega
      simp [adjustHeapLoop, this]
  | succ f ih =>
    intro g arr hole hf hg
    cases g with
    | zero =>
      have : ¬ hole < (len - 1) / 2 := by omega
      simp [adjustHeapLoop, this]
    | succ g =>
      simp only [adjustHeapLoop]
      split
      · rename_i hlt
        split
        · split
          · exact ih g _ _ (by omega) (by omega)
          · exact ih g _ _ (by omega) (by omega)
        · rfl
      · rfl

/-! ### Every phase rearranges the array -/

theorem moveMedianToFirst_perm {α : Type} (key : α → Nat) (arr : List α) (result a b c : Nat) :
    (moveMedianToFirst key arr result a b c).Perm arr := by
  unfold moveMedianToFirst
  split
  · repeat' split
    all_goals exact iterSwap_perm _ _ _
  · exact List.Perm.refl _

theorem unguardedPartition_perm {α : Type} (key : α → Nat) (pk : Nat) :
    ∀ (f : Nat) (arr : List α) (first last : Nat),
      (unguardedPartition key pk f arr first last).2.Perm arr := by
  intro f
  induction f with
  | zero => intro arr first last; exact List.Perm.refl _
  | succ f ih =>
    intro arr first last
    simp only [unguardedPartition]
    split
    · exact (ih _ _ _).trans (iterSwap_perm _ _ _)
    · exact List.Perm.refl _

theorem unguardedPartitionPivot_perm {α : Type} (key : α → Nat) (arr : List α)
    (first last : Nat) : (unguardedPartitionPivot key arr first last).2.Perm arr := by
  unfold unguardedPartitionPivot
  simp only
  split
  · exact (unguardedPartition_perm key _ _ _ _ _).trans (moveMedianToFirst_perm key arr _ _ _ _)
  · exact moveMedianToFirst_perm key arr _ _ _ _

theorem pushHeap_perm {α : Type} (key : α → Nat) (value : α) (top : Nat) :
    ∀ (f : Nat) (arr : List α) (hole : Nat), hole < arr.length →
      (pushHeap key value top f arr hole).Perm (arr.set hole value) := by
  intro f
  induction f with
  | zero => intro arr hole _; exact List.Perm.refl _
  | succ f ih =>
    intro arr hole hlt
    simp only [pushHeap]
    split
    · rename_i parent hp
      split
      · have hpl := lt_length_of_getElem? hp
        exact (ih (arr.set hole parent) _ (by simpa using hpl)).trans
          (set_set_perm arr hole _ parent value hlt hp)
      · exact List.Perm.refl _
    · exact List.Perm.refl _

/-- The first loop of `__adjust_heap` keeps the hole inside the array, and the
array with the hole filled is a rearrangement of what it was. -/
theorem adjustHeapLoop_perm {α : Type} (key : α → Nat) (len : Nat) (value : α) :
    ∀ (f : Nat) (arr : List α) (hole : Nat), hole < arr.length →
      (adjustHeapLoop key len f arr hole).2 < (adjustHeapLoop key len f arr hole).1.length ∧
      ((adjustHeapLoop key len f arr hole).1.set (adjustHeapLoop key len f arr hole).2
        value).Perm (arr.set hole value) := by
  intro f
  induction f with
  | zero => intro arr hole hlt; exact ⟨hlt, List.Perm.refl _⟩
  | succ f ih =>
    intro arr hole hlt
    simp only [adjustHeapLoop]
    split
    · split
      · rename_i right left hr hl
        split
        · have hll := lt_length_of_getElem? hl
          obtain ⟨h1, h2⟩ := ih (arr.set hole left) (2 * (hole + 1) - 1) (by simpa using hll)
          exact ⟨h1, h2.trans (set_set_perm arr hole _ left value hlt hl)⟩
        · have hrl := lt_length_of_getElem? hr
          obtain ⟨h1, h2⟩ := ih (arr.set hole right) (2 * (hole + 1)) (by simpa using hrl)
          exact ⟨h1, h2.trans (set_set_perm arr hole _ right value hlt hr)⟩
      · exact ⟨hlt, List.Perm.refl _⟩
    · exact ⟨hlt, List.Perm.refl _⟩

theorem adjustHeapLast_perm {α : Type} (len : Nat) (value : α) (s : List α × Nat)
    (hlt : s.2 < s.1.length) :
    (adjustHeapLast len s).2 < (adjustHeapLast len s).1.length ∧
      ((adjustHeapLast len s).1.set (adjustHeapLast len s).2 value).Perm (s.1.set s.2 value) := by
  unfold adjustHeapLast
  split
  · split
    · rename_i child hc
      have hcl := lt_length_of_getElem? hc
      exact ⟨by simpa using hcl, set_set_perm s.1 s.2 _ child value hlt hc⟩
    · exact ⟨hlt, List.Perm.refl _⟩
  · exact ⟨hlt, List.Perm.refl _⟩

theorem adjustHeap_perm {α : Type} (key : α → Nat) (arr : List α) (hole len : Nat) (value : α)
    (hlt : hole < arr.length) :
    (adjustHeap key arr hole len value).Perm (arr.set hole value) := by
  unfold adjustHeap
  simp only
  obtain ⟨h1, h2⟩ := adjustHeapLoop_perm key len value (len - hole) arr hole hlt
  obtain ⟨h3, h4⟩ := adjustHeapLast_perm len value _ h1
  exact (pushHeap_perm key value hole _ _ _ h3).trans (h4.trans h2)

theorem makeHeapStep_perm {α : Type} (key : α → Nat) (len : Nat) (arr : List α) (parent : Nat) :
    (makeHeapStep key len arr parent).Perm arr := by
  unfold makeHeapStep
  split
  · rename_i value hv
    have := adjustHeap_perm key arr parent len value (lt_length_of_getElem? hv)
    rw [set_self_of_getElem? arr parent value hv] at this
    exact this
  · exact List.Perm.refl _

theorem makeHeapLoop_perm {α : Type} (key : α → Nat) (len : Nat) :
    ∀ (parent : Nat) (arr : List α), (makeHeapLoop key len parent arr).Perm arr := by
  intro parent
  induction parent with
  | zero => intro arr; exact makeHeapStep_perm key len arr 0
  | succ parent ih =>
    intro arr
    exact (ih _).trans (makeHeapStep_perm key len arr (parent + 1))

theorem makeHeap_perm {α : Type} (key : α → Nat) (arr : List α) :
    (makeHeap key arr).Perm arr := by
  unfold makeHeap
  split
  · exact List.Perm.refl _
  · exact makeHeapLoop_perm key _ _ _

theorem popHeap_perm {α : Type} (key : α → Nat) (arr : List α) (last result : Nat) :
    (popHeap key arr last result).Perm arr := by
  unfold popHeap
  split
  · rename_i value top hv ht
    have hr := lt_length_of_getElem? hv
    have h0 := lt_length_of_getElem? ht
    have h1 := adjustHeap_perm key (arr.set result top) 0 last value (by simpa using h0)
    have h2 := set_set_perm arr result 0 top value hr ht
    rw [set_self_of_getElem? arr result value hv] at h2
    exact h1.trans h2
  · exact List.Perm.refl _

theorem sortHeap_perm {α : Type} (key : α → Nat) :
    ∀ (n : Nat) (arr : List α), (sortHeap key n arr).Perm arr := by
  intro n
  induction n with
  | zero => intro arr; exact List.Perm.refl _
  | succ n ih =>
    intro arr
    simp only [sortHeap]
    split
    · exact (ih _).trans (popHeap_perm key arr n n)
    · exact List.Perm.refl _

theorem heapSortRange_perm {α : Type} (key : α → Nat) (arr : List α) (first last : Nat)
    (h : first ≤ last) : (heapSortRange key arr first last).Perm arr := by
  unfold heapSortRange
  have hsub := (sortHeap_perm key ((arr.drop first).take (last - first)).length
    (makeHeap key ((arr.drop first).take (last - first)))).trans
    (makeHeap_perm key ((arr.drop first).take (last - first)))
  have hsplit : arr = arr.take first ++ (arr.drop first).take (last - first) ++ arr.drop last := by
    have h1 : arr.drop last = (arr.drop first).drop (last - first) := by
      rw [List.drop_drop]
      congr 1
      omega
    rw [h1, List.append_assoc, List.take_append_drop, List.take_append_drop]
  exact ((hsub.append_left _).append_right _).trans (by rw [← hsplit])

theorem introsortLoop_perm {α : Type} (key : α → Nat) :
    ∀ (depth first last : Nat) (arr : List α),
      (introsortLoop key depth first last arr).Perm arr := by
  intro depth
  induction depth with
  | zero =>
    intro first last arr
    simp only [introsortLoop]
    split
    · exact heapSortRange_perm key arr first last (by omega)
    · exact List.Perm.refl _
  | succ depth ih =>
    intro first last arr
    simp only [introsortLoop]
    split
    · exact (ih _ _ _).trans ((ih _ _ _).trans (unguardedPartitionPivot_perm key arr first last))
    · exact List.Perm.refl _

/-! ### The insertion sort -/

theorem linearInsertRev_perm {α : Type} (key : α → Nat) (val : α) :
    ∀ l : List α, (linearInsertRev key val l).Perm (val :: l) := by
  intro l
  induction l with
  | nil => exact List.Perm.refl _
  | cons e rest ih =>
    simp only [linearInsertRev]
    split
    · exact (ih.cons e).trans (List.Perm.swap val e rest)
    · exact List.Perm.refl _

/-- On elements in ascending order from the insertion point, the loop of
`__unguarded_linear_insert` puts `val` behind the elements of smaller key and
in front of the others. -/
theorem linearInsertRev_eq {α : Type} (key : α → Nat) (val : α) :
    ∀ l : List α, l.Pairwise (fun a b => key a ≤ key b) →
      linearInsertRev key val l =
        l.filter (fun e => decide (key e < key val)) ++ val ::
          l.filter (fun e => decide (key val ≤ key e)) := by
  intro l
  induction l with
  | nil => intro _; rfl
  | cons e rest ih =>
    intro h
    rw [List.pairwise_cons] at h
    simp only [linearInsertRev]
    by_cases he : key e < key val
    · have hne : ¬ key val ≤ key e := by omega
      simp only [he, if_true, List.filter_cons, decide_True, hne, decide_False,
        Bool.false_eq_true, if_false, List.cons_append, ih h.2]
    · have hle : key val ≤ key e := by omega
      have h1 : rest.filter (fun x => decide (key x < key val)) = [] := by
        rw [List.filter_eq_nil_iff]
        intro x hx
        have := h.1 x hx
        simp only [decide_eq_true_eq]
        omega
      have h2 : rest.filter (fun x => decide (key val ≤ key x)) = rest := by
        rw [List.filter_eq_self]
        intro x hx
        have := h.1 x hx
        simp only [decide_eq_true_eq]
        omega
      simp only [he, if_false, List.filter_cons, decide_False, Bool.false_eq_true, hle,
        decide_True, if_true, h1, h2, List.nil_append]

theorem linearInsert_perm {α : Type} (key : α → Nat) (val : α) (pre : List α) :
    (linearInsert key val pre).Perm (pre ++ [val]) := by
  unfold linearInsert
  refine (List.reverse_perm _).trans ((linearInsertRev_perm key val _).trans ?_)
  exact ((List.reverse_perm pre).cons val).trans (List.perm_append_singleton val pre).symm

/-- Behind elements in descending order, `__unguarded_linear_insert` puts
`val` behind the elements with at least its key and in front of those with a
smaller key. -/
theorem linearInsert_eq {α : Type} (key : α → Nat) (val : α) (pre : List α)
    (h : pre.Pairwise (fun a b => key b ≤ key a)) :
    linearInsert key val pre =
      pre.filter (fun e => decide (key val ≤ key e)) ++ val ::
        pre.filter (fun e => decide (key e < key val)) := by
  unfold linearInsert
  rw [linearInsertRev_eq key val pre.reverse (List.pairwise_reverse.2 h)]
  simp only [List.filter_reverse, List.reverse_append, List.reverse_cons, List.reverse_reverse,
    List.append_assoc, List.singleton_append]

theorem insertionStep_perm {α : Type} (key : α → Nat) (pre : List α) (val : α) :
    (insertionStep key pre val).Perm (pre ++ [val]) := by
  unfold insertionStep
  split
  · exact List.Perm.refl _
  · split
    · exact (List.perm_append_singleton val _).symm
    · exact linearInsert_perm key val _

/-- The body of the loop of `__insertion_sort`, behind elements in descending
order. -/
theorem insertionStep_eq {α : Type} (key : α → Nat) (pre : List α) (val : α)
    (h : pre.Pairwise (fun a b => key b ≤ key a)) :
    insertionStep key pre val =
      pre.filter (fun e => decide (key val ≤ key e)) ++ val ::
        pre.filter (fun e => decide (key e < key val)) := by
  unfold insertionStep
  split
  · rfl
  · rename_i f rest
    split
    · rename_i hf
      have hall : ∀ x ∈ f :: rest, key x < key val := by
        intro x hx
        rcases List.mem_cons.1 hx with e | hx'
        · rw [e]; exact hf
        · have := (List.pairwise_cons.1 h).1 x hx'
          omega
      have h1 : (f :: rest).filter (fun e => decide (key val ≤ key e)) = [] := by
        rw [List.filter_eq_nil_iff]
        intro x hx
        have := hall x hx
        simp only [decide_eq_true_eq]
        omega
      have h2 : (f :: rest).filter (fun e => decide (key e < key val)) = f :: rest := by
        rw [List.filter_eq_self]
        intro x hx
        simpa using hall x hx
      rw [h1, h2]
      rfl
    · exact linearInsert_eq key val _ h

/-- The split of a list in descending order at a key stays in descending
order with an element of that key in between. -/
theorem pairwise_filter_split {α : Type} (key : α → Nat) (val : α) (pre : List α)
    (h : pre.Pairwise (fun a b => key b ≤ key a)) :
    (pre.filter (fun e => decide (key val ≤ key e)) ++ val ::
        pre.filter (fun e => decide (key e < key val))).Pairwise
      (fun a b => key b ≤ key a) := by
  rw [List.pairwise_append]
  refine ⟨h.filter _, ?_, ?_⟩
  · rw [List.pairwise_cons]
    refine ⟨?_, h.filter _⟩
    intro x hx
    have := (List.mem_filter.1 hx).2
    simp only [decide_eq_true_eq] at this
    omega
  · intro x hx y hy
    have h1 := (List.mem_filter.1 hx).2
    simp only [decide_eq_true_eq] at h1
    rcases List.mem_cons.1 hy with e | hy'
    · rw [e]; exact h1
    · have h2 := (List.mem_filter.1 hy').2
      simp only [decide_eq_true_eq] at h2
      omega

theorem insertionStep_sorted {α : Type} (key : α → Nat) (pre : List α) (val : α)
    (h : pre.Pairwise (fun a b => key b ≤ key a)) :
    (insertionStep key pre val).Pairwise (fun a b => key b ≤ key a) := by
  rw [insertionStep_eq key pre val h]
  exact pairwise_filter_split key val pre h

theorem linearInsert_sorted {α : Type} (key : α → Nat) (pre : List α) (val : α)
    (h : pre.Pairwise (fun a b => key b ≤ key a)) :
    (linearInsert key val pre).Pairwise (fun a b => key b ≤ key a) := by
  rw [linearInsert_eq key val pre h]
  exact pairwise_filter_split key val pre h

theorem foldl_insertionStep {α : Type} (key : α → Nat) :
    ∀ (l pre : List α), pre.Pairwise (fun a b => key b ≤ key a) →
      (l.foldl (insertionStep key) pre).Pairwise (fun a b => key b ≤ key a) ∧
      (l.foldl (insertionStep key) pre).Perm (pre ++ l) := by
  intro l
  induction l with
  | nil => intro pre h; exact ⟨h, by simp⟩
  | cons x l ih =>
    intro pre h
    obtain ⟨h1, h2⟩ := ih (insertionStep key pre x) (insertionStep_sorted key pre x h)
    refine ⟨h1, h2.trans ?_⟩
    have := (insertionStep_perm key pre x).append_right l
    simpa using this

theorem foldl_linearInsert {α : Type} (key : α → Nat) :
    ∀ (l pre : List α), pre.Pairwise (fun a b => key b ≤ key a) →
      (l.foldl (fun pre val => linearInsert key val pre) pre).Pairwise
        (fun a b => key b ≤ key a) ∧
      (l.foldl (fun pre val => linearInsert key val pre) pre).Perm (pre ++ l) := by
  intro l
  induction l with
  | nil => intro pre h; exact ⟨h, by simp⟩
  | cons x l ih =>
    intro pre h
    obtain ⟨h1, h2⟩ := ih (linearInsert key x pre) (linearInsert_sorted key pre x h)
    refine ⟨h1, h2.trans ?_⟩
    have := (linearInsert_perm key x pre).append_right l
    simpa using this

theorem insertionSort_sorted {α : Type} (key : α → Nat) (l : List α) :
    (insertionSort key l).Pairwise (fun a b => key b ≤ key a) :=
  (foldl_insertionStep key l [] List.Pairwise.nil).1

theorem insertionSort_perm {α : Type} (key : α → Nat) (l : List α) :
    (insertionSort key l).Perm l :=
  (foldl_insertionStep key l [] List.Pairwise.nil).2

theorem finalInsertionSort_sorted {α : Type} (key : α → Nat) (arr : List α) :
    (finalInsertionSort key arr).Pairwise (fun a b => key b ≤ key a) :=
  (foldl_linearInsert key _ _ (insertionSort_sorted key _)).1

theorem finalInsertionSort_perm {α : Type} (key : α → Nat) (arr : List α) :
    (finalInsertionSort key arr).Perm arr := by
  have h := (foldl_linearInsert key (arr.drop 16) _ (insertionSort_sorted key (arr.take 16))).2
  refine h.trans (((insertionSort_perm key (arr.take 16)).append_right _).trans ?_)
  rw [List.take_append_drop]

/-- `std::sort` rearranges the array. -/
theorem stdSort_perm {α : Type} (key : α → Nat) : ∀ l : List α, (stdSort key l).Perm l := by
  intro l
  cases l with
  | nil => exact List.Perm.refl _
  | cons a l =>
    exact (finalInsertionSort_perm key _).trans (introsortLoop_perm key _ _ _ _)

/-- `std::sort` leaves the array in descending order of the key. -/
theorem stdSort_sorted {α : Type} (key : α → Nat) :
    ∀ l : List α, (stdSort key l).Pairwise (fun x y => key y ≤ key x) := by
  intro l
  cases l with
  | nil => exact List.Pairwise.nil
  | cons a l => exact finalInsertionSort_sorted key _

/-! ### Up to 16 elements -/

theorem introsortLoop_of_le {α : Type} (key : α → Nat) (depth first last : Nat) (arr : List α)
    (h : last - first ≤ 16) : introsortLoop key depth first last arr = arr := by
  have hn : ¬ 16 < last - first := by omega
  cases depth <;> simp [introsortLoop, hn]

/-- Up to 16 elements `std::sort` is `__insertion_sort`. -/
theorem stdSort_eq_insertionSort {α : Type} (key : α → Nat) (l : List α) (h : l.length ≤ 16) :
    stdSort key l = insertionSort key l := by
  cases l with
  | nil => rfl
  | cons a l =>
    simp only [stdSort]
    rw [introsortLoop_of_le key _ _ _ _ (by omega)]
    unfold finalInsertionSort
    rw [List.take_of_length_le h, List.drop_of_length_le h]
    rfl

theorem foldl_insertionStep_of_sorted {α : Type} (key : α → Nat) :
    ∀ (l pre : List α), (pre ++ l).Pairwise (fun a b => key b ≤ key a) →
      l.foldl (insertionStep key) pre = pre ++ l := by
  intro l
  induction l with
  | nil => intro pre _; simp
  | cons x l ih =>
    intro pre h
    have hpre : pre.Pairwise (fun a b => key b ≤ key a) := (List.pairwise_append.1 h).1
    have hx : ∀ e ∈ pre, key x ≤ key e := fun e he =>
      (List.pairwise_append.1 h).2.2 e he x (List.mem_cons_self _ _)
    have hstep : insertionStep key pre x = pre ++ [x] := by
      rw [insertionStep_eq key pre x hpre]
      have h1 : pre.filter (fun e => decide (key x ≤ key e)) = pre := by
        rw [List.filter_eq_self]
        intro e he
        simpa using hx e he
      have h2 : pre.filter (fun e => decide (key e < key x)) = [] := by
        rw [List.filter_eq_nil_iff]
        intro e he
        have := hx e he
        simp only [decide_eq_true_eq]
        omega
      rw [h1, h2]
    rw [List.foldl_cons, hstep, ih (pre ++ [x]) (by simpa using h)]
    simp

/-- `__insertion_sort` leaves an array in descending order as it is. -/
theorem insertionSort_of_sorted {α : Type} (key : α → Nat) (l : List α)
    (h : l.Pairwise (fun a b => key b ≤ key a)) : insertionSort key l = l := by
  have := foldl_insertionStep_of_sorted key l [] (by simpa using h)
  simpa [insertionSort] using this

/-- Up to 16 elements, appending to a sorted list and sorting puts the new
element behind the elements with at least its key and in front of those with
a smaller key. -/
theorem stdSort_append_singleton {α : Type} (key : α → Nat) (a : α) (l : List α)
    (hlen : l.length < 16) (h : l.Pairwise (fun x y => key y ≤ key x)) :
    stdSort key (l ++ [a]) =
      l.filter (fun x => decide (key a ≤ key x)) ++ a ::
        l.filter (fun x => decide (key x < key a)) := by
  rw [stdSort_eq_insertionSort key _ (by simp; omega)]
  unfold insertionSort
  rw [List.foldl_append, List.foldl_cons, List.foldl_nil]
  have := insertionSort_of_sorted key l h
  unfold insertionSort at this
  rw [this]
  exact insertionStep_eq key l a h

theorem stdSort_nil {α : Type} (key : α → Nat) : stdSort key ([] : List α) = [] := rfl

theorem stdSort_singleton {α : Type} (key : α → Nat) (a : α) : stdSort key [a] = [a] := by
  rw [stdSort_eq_insertionSort key [a] (by simp)]
  rfl

/-! ### Distinct keys -/

/-- A rearrangement in descending order of a list in strictly descending order
is that list. -/
theorem eq_of_perm_of_strict {α : Type} (key : α → Nat) :
    ∀ (l l' : List α), l'.Perm l → l'.Pairwise (fun a b => key b ≤ key a) →
      l.Pairwise (fun a b => key b < key a) → l' = l := by
  intro l
  induction l with
  | nil => intro l' hp _ _; exact hp.eq_nil
  | cons a t ih =>
    intro l' hp hs hl
    cases l' with
    | nil => exact absurd hp.symm.eq_nil (by simp)
    | cons b t' =>
      rw [List.pairwise_cons] at hs hl
      have hb : b = a := by
        rcases List.mem_cons.1 (hp.mem_iff.1 (List.mem_cons_self b t')) with e | hbt
        · exact e
        · rcases List.mem_cons.1 (hp.mem_iff.2 (List.mem_cons_self a t)) with e | hat
          · exact e.symm
          · have h1 := hs.1 a hat
            have h2 := hl.1 b hbt
            omega
      subst hb
      rw [ih t' (List.Perm.cons_inv hp) hs.2 hl.2]

/-- `std::sort` leaves an array in strictly descending order as it is. -/
theorem stdSort_of_sorted {α : Type} (key : α → Nat) (l : List α)
    (h : l.Pairwise (fun a b => key b < key a)) : stdSort key l = l :=
  eq_of_perm_of_strict key l _ (stdSort_perm key l) (stdSort_sorted key l) h

/-! ## Routes without a double star -/

theorem skipDoubleStars_of_no_doubleStar (parts : List Part) (pi : Nat)
    (h : ∀ p ∈ parts, p ≠ .doubleStar) : skipDoubleStars parts pi = pi := by
  unfold skipDoubleStars
  cases hd : parts.drop pi with
  | nil => simp
  | cons a l =>
    have ha : a ∈ parts := List.mem_of_mem_drop (hd ▸ List.mem_cons_self _ _)
    simp [List.takeWhile, h a ha]

theorem matchStep_no_doubleStar (parts : List Part) (path : List Str)
    (h : ∀ p ∈ parts, p ≠ .doubleStar) (st : LoopState) (hstar : st.star = none)
    (heq : st.pi = st.si) :
    (∀ pi si, matchStep parts path st = .done pi si → pi = si) ∧
    (∀ st', matchStep parts path st = .next st' → st'.star = none ∧ st'.pi = st'.si) := by
  obtain ⟨pi, si, star⟩ := st
  simp only at hstar heq
  subst hstar heq
  simp only [matchStep]
  cases hseg : path[pi]? with
  | none => simp
  | some seg =>
    cases hp : parts[pi]? with
    | none => simp
    | some part =>
      have hmem : part ∈ parts := List.getElem?_mem hp
      cases part with
      | doubleStar => exact absurd rfl (h _ hmem)
      | star => simp only; split <;> simp
      | negSet s => simp only; split <;> [simp; (split <;> simp)]
      | set s => simp only; split <;> [simp; (split <;> simp)]
      | literal l => simp only; split <;> simp

theorem matchLoop_no_doubleStar (parts : List Part) (path : List Str)
    (h : ∀ p ∈ parts, p ≠ .doubleStar) :
    ∀ (n : Nat) (st : LoopState) (r : Nat × Nat), st.star = none → st.pi = st.si →
      matchLoop parts path n st = some r → r.1 = r.2 := by
  intro n
  induction n with
  | zero => intro st r _ _ hr; simp [matchLoop] at hr
  | succ n ih =>
    intro st r hstar heq hr
    simp only [matchLoop] at hr
    obtain ⟨hd, hn⟩ := matchStep_no_doubleStar parts path h st hstar heq
    cases hs : matchStep parts path st with
    | done pi si =>
      simp only [hs, Option.some.injEq] at hr
      subst hr
      exact hd pi si hs
    | next st' =>
      simp only [hs] at hr
      exact ih st' r (hn st' hs).1 (hn st' hs).2 hr

/-- A route without a double star accepts only segment lists of its own
length. -/
theorem matchParts_length_of_no_doubleStar (parts : List Part) (path : List Str)
    (h : ∀ p ∈ parts, p ≠ .doubleStar) (hm : matchParts parts path = true) :
    parts.length = path.length := by
  unfold matchParts at hm
  split at hm
  · rename_i only
    have hne : only ≠ .doubleStar := h only (by simp)
    cases only with
    | doubleStar => exact absurd rfl hne
    | star => simp [matchSingle] at hm; simp [hm.1]
    | literal l => simp [matchSingle] at hm; simp [hm.1]
    | negSet s => simp [matchSingle] at hm; simp [hm.1.1]
    | set s => simp [matchSingle] at hm; simp [hm.1]
  · cases hl : matchLoop parts path (matchFuel parts path) {} with
    | none => simp [hl] at hm
    | some r =>
      obtain ⟨pi, si⟩ := r
      simp only [hl, Bool.and_eq_true, beq_iff_eq] at hm
      have := matchLoop_no_doubleStar parts path h _ _ _ rfl rfl hl
      simp only at this
      rw [skipDoubleStars_of_no_doubleStar parts pi h] at hm
      omega

/-! ## The candidate scan -/

theorem scanRoutes_append (patterns : List (Route H)) (path : List Str) (a b : List Nat) :
    scanRoutes patterns path (a ++ b) =
      (scanRoutes patterns path a).or (scanRoutes patterns path b) := by
  induction a with
  | nil => simp [scanRoutes]
  | cons i a ih =>
    simp only [List.cons_append, scanRoutes]
    cases patterns[i]? with
    | none => simpa using ih
    | some route =>
      simp only
      split
      · exact ih
      · split
        · simp
        · exact ih

/-- The test that `scanRoutes` applies to one route. -/
theorem scanRoutes_range' (path : List Str) :
    ∀ (l pre : List (Route H)),
      scanRoutes (pre ++ l) path (List.range' pre.length l.length) =
        (l.find? (fun r =>
          !(decide (r.parts.length > path.length) && !r.hasDoubleStar) && matchRoute r path)).map
          (·.handler) := by
  intro l
  induction l with
  | nil => intro pre; simp [scanRoutes]
  | cons r l ih =>
    intro pre
    have hget : (pre ++ r :: l)[pre.length]? = some r := by
      rw [List.getElem?_append_right (le_refl _)]; simp
    have hrest := ih (pre ++ [r])
    simp only [List.append_assoc, List.singleton_append, List.length_append, List.length_singleton]
      at hrest
    simp only [List.length_cons, List.range'_succ, scanRoutes, hget, List.find?_cons]
    by_cases hskip : (decide (r.parts.length > path.length) && !r.hasDoubleStar) = true
    · simp only [hskip, if_true, Bool.not_true, Bool.false_and]
      exact hrest
    · simp only [hskip, if_false]
      simp only [Bool.not_eq_true] at hskip
      by_cases hm : matchRoute r path = true
      · simp [hm, hskip]
      · simp only [Bool.not_eq_true] at hm
        simp only [hm, hskip, Bool.false_eq_true, if_false, Bool.and_false]
        exact hrest

/-! ## The size-group index -/

theorem indexRoutes_snoc (l : List (Route H)) (r : Route H) :
    ∀ (G : List SizeGroup) (i : Nat),
      indexRoutes G i (l ++ [r]) = indexRoute (indexRoutes G i l) (i + l.length) r := by
  induction l with
  | nil => intro G i; simp [indexRoutes]
  | cons a l ih =>
    intro G i
    have e : i + 1 + l.length = i + (l.length + 1) := by omega
    show indexRoutes (indexRoute G i a) (i + 1) (l ++ [r]) = _
    rw [ih, e]
    rfl

theorem enterRoute_head (g : SizeGroup) (i : Nat) (r : Route H)
    (h : r.parts.head? = some (.literal [])) :
    enterRoute g i r =
      { size := g.size
        hasAnyDoubleStar := g.hasAnyDoubleStar || r.hasDoubleStar
        literalFirst := fun k => if k = [] then g.literalFirst k ++ [i] else g.literalFirst k
        nonLiteral := g.nonLiteral } := by
  unfold enterRoute
  simp only [h]
  cases r.hasDoubleStar <;> simp

theorem map_enterRoute_of_ne (A : List SizeGroup) (i : Nat) (r : Route H)
    (h : ∀ g ∈ A, g.size ≠ r.parts.length) :
    A.map (fun g => if (g.size == r.parts.length) = true then enterRoute g i r else g) = A := by
  induction A with
  | nil => rfl
  | cons a A ih =>
    have ha : (a.size == r.parts.length) = false := by
      simpa using h a (List.mem_cons_self _ _)
    simp only [List.map_cons, ha, Bool.false_eq_true, if_false]
    rw [ih (fun g hg => h g (List.mem_cons_of_mem _ hg))]

theorem indexRoute_shape (G : List SizeGroup) (i : Nat) (r : Route H)
    (hs : (G.map (·.size)).Pairwise (fun a b => b < a))
    (hge : ∀ g ∈ G, r.parts.length ≤ g.size) :
    ∃ A b, (G = A ++ [b] ∨ (G = A ∧ b = { size := r.parts.length })) ∧
      b.size = r.parts.length ∧ (∀ g ∈ A, r.parts.length < g.size) ∧
      indexRoute G i r = A ++ [enterRoute b i r] := by
  by_cases hany : G.any (fun g => g.size == r.parts.length) = true
  · obtain ⟨gs, hgs, hsz⟩ := List.any_eq_true.1 hany
    simp only [beq_iff_eq] at hsz
    rcases List.eq_nil_or_concat G with hnil | ⟨A, b, hG⟩
    · subst hnil; simp at hgs
    · rw [List.concat_eq_append] at hG
      subst hG
      rw [List.map_append, List.pairwise_append] at hs
      have hlt : ∀ a ∈ A, b.size < a.size := by
        intro a ha
        exact hs.2.2 a.size (List.mem_map_of_mem _ ha) b.size (by simp)
      have hb : b.size = r.parts.length := by
        rcases List.mem_append.1 hgs with hgA | hgb
        · have h1 := hlt gs hgA
          have h2 := hge b (by simp)
          omega
        · simp only [List.mem_singleton] at hgb
          rw [← hgb]; exact hsz
      have hA : ∀ g ∈ A, r.parts.length < g.size := by
        intro g hg; have := hlt g hg; omega
      refine ⟨A, b, Or.inl rfl, hb, hA, ?_⟩
      unfold indexRoute
      simp only [hany, if_true, List.map_append, List.map_cons, List.map_nil, hb, beq_self_eq_true]
      rw [map_enterRoute_of_ne A i r (fun g hg => by have := hA g hg; omega)]
  · have hne : ∀ g ∈ G, g.size ≠ r.parts.length := by
      intro g hg heq
      exact hany (List.any_eq_true.2 ⟨g, hg, by simpa using heq⟩)
    have hA : ∀ g ∈ G, r.parts.length < g.size := by
      intro g hg
      have h1 := hge g hg
      have h2 := hne g hg
      omega
    refine ⟨G, { size := r.parts.length }, Or.inr ⟨rfl, rfl⟩, rfl, hA, ?_⟩
    unfold indexRoute
    simp only [hany, Bool.false_eq_true, if_false, List.map_append, List.map_cons, List.map_nil,
      beq_self_eq_true, if_true]
    rw [map_enterRoute_of_ne G i r hne]

theorem IndexOf.nil : IndexOf ([] : List (Route H)) [] where
  sizes := by simp
  nonLiteral := by simp
  otherKeys := by simp
  flat := by simp
  member := by simp
  inhabited := by simp

theorem IndexOf.snoc {l : List (Route H)} {G : List SizeGroup} (h : IndexOf l G)
    (r : Route H) (hhead : r.parts.head? = some (.literal []))
    (hle : ∀ a ∈ l, r.parts.length ≤ a.parts.length) :
    IndexOf (l ++ [r]) (indexRoute G l.length r) := by
  have hge : ∀ g ∈ G, r.parts.length ≤ g.size := by
    intro g hg
    obtain ⟨a, ha, hsz⟩ := h.inhabited g hg
    have := hle a ha
    omega
  obtain ⟨A, b, hG, hb, hA, heq⟩ := indexRoute_shape G l.length r h.sizes hge
  rw [heq, enterRoute_head b l.length r hhead]
  -- what is known of the groups before the step
  have hAG : ∀ g ∈ A, g ∈ G := by
    rcases hG with hG | ⟨hG, _⟩ <;> subst hG <;> intro g hg <;> simp [hg]
  have hAsizes : (A.map (·.size)).Pairwise (fun a b => b < a) := by
    rcases hG with hG | ⟨hG, _⟩
    · have := h.sizes
      rw [hG, List.map_append, List.pairwise_append] at this
      exact this.1
    · rw [← hG]; exact h.sizes
  have hbnl : b.nonLiteral = [] := by
    rcases hG with hG | ⟨_, hb'⟩
    · exact h.nonLiteral b (by simp [hG])
    · rw [hb']
  have hbok : ∀ k, k ≠ [] → b.literalFirst k = [] := by
    rcases hG with hG | ⟨_, hb'⟩
    · exact h.otherKeys b (by simp [hG])
    · intro k _; rw [hb']
  have hflat : A.flatMap (fun g => g.literalFirst []) ++ b.literalFirst [] = List.range l.length := by
    rcases hG with hG | ⟨hG, hb'⟩
    · have := h.flat
      rw [hG] at this
      simpa using this
    · have := h.flat
      rw [hG] at this
      rw [hb']
      simpa using this
  have hbmem : ∀ i ∈ b.literalFirst [], ∃ r', l[i]? = some r' ∧ r'.parts.length = b.size ∧
      (r'.hasDoubleStar = true → b.hasAnyDoubleStar = true) := by
    rcases hG with hG | ⟨_, hb'⟩
    · exact h.member b (by simp [hG])
    · intro i hi; rw [hb'] at hi; simp at hi
  have hlift : ∀ (i : Nat) (r' : Route H), l[i]? = some r' → (l ++ [r])[i]? = some r' := by
    intro i r' hi
    have hlt : i < l.length := by
      rcases List.getElem?_eq_some_iff.1 hi with ⟨hlt, _⟩; exact hlt
    rw [List.getElem?_append_left hlt]; exact hi
  refine ⟨?_, ?_, ?_, ?_, ?_, ?_⟩
  · rw [List.map_append, List.pairwise_append]
    refine ⟨hAsizes, by simp, ?_⟩
    intro x hx y hy
    obtain ⟨g, hg, rfl⟩ := List.mem_map.1 hx
    simp only [List.map_cons, List.map_nil, List.mem_singleton] at hy
    subst hy
    have := hA g hg
    omega
  · intro g hg
    rcases List.mem_append.1 hg with hgA | hgb
    · exact h.nonLiteral g (hAG g hgA)
    · simp only [List.mem_singleton] at hgb
      subst hgb
      exact hbnl
  · intro g hg k hk
    rcases List.mem_append.1 hg with hgA | hgb
    · exact h.otherKeys g (hAG g hgA) k hk
    · simp only [List.mem_singleton] at hgb
      subst hgb
      simp only [hk, if_false]
      exact hbok k hk
  · simp only [List.flatMap_append, List.flatMap_cons, List.flatMap_nil, List.append_nil,
      if_true, List.length_append, List.length_singleton, List.range_succ]
    rw [← List.append_assoc, hflat]
  · intro g hg i hi
    rcases List.mem_append.1 hg with hgA | hgb
    · obtain ⟨r', h1, h2, h3⟩ := h.member g (hAG g hgA) i hi
      exact ⟨r', hlift i r' h1, h2, h3⟩
    · simp only [List.mem_singleton] at hgb
      subst hgb
      simp only [if_true, List.mem_append, List.mem_singleton] at hi
      rcases hi with hi | hi
      · obtain ⟨r', h1, h2, h3⟩ := hbmem i hi
        refine ⟨r', hlift i r' h1, h2, ?_⟩
        intro hf
        simp [h3 hf]
      · subst hi
        refine ⟨r, by simp, hb.symm, ?_⟩
        intro hf
        simp [hf]
  · intro g hg
    rcases List.mem_append.1 hg with hgA | hgb
    · obtain ⟨r', h1, h2⟩ := h.inhabited g (hAG g hgA)
      exact ⟨r', List.mem_append_left _ h1, h2⟩
    · simp only [List.mem_singleton] at hgb
      subst hgb
      exact ⟨r, by simp, hb.symm⟩

/-- The index built from routes in descending order of size that all start
with the empty literal. -/
theorem indexOf_indexRoutes (l : List (Route H))
    (hsorted : l.Pairwise (fun a b => b.parts.length ≤ a.parts.length))
    (hhead : ∀ r ∈ l, r.parts.head? = some (.literal [])) :
    IndexOf l (indexRoutes [] 0 l) := by
  induction l using List.reverseRecOn with
  | nil => exact IndexOf.nil
  | append_singleton l r ih =>
    rw [List.pairwise_append] at hsorted
    rw [indexRoutes_snoc, Nat.zero_add]
    apply IndexOf.snoc (ih hsorted.1 (fun a ha => hhead a (List.mem_append_left _ ha)))
    · exact hhead r (by simp)
    · intro a ha
      exact hsorted.2.2 a ha r (by simp)

theorem scanRoutes_none_of_skip (patterns : List (Route H)) (path : List Str) :
    ∀ idx : List Nat,
      (∀ i ∈ idx, ∃ r, patterns[i]? = some r ∧ path.length < r.parts.length ∧
        r.hasDoubleStar = false) →
      scanRoutes patterns path idx = none := by
  intro idx
  induction idx with
  | nil => intro _; rfl
  | cons i idx ih =>
    intro h
    obtain ⟨r, hr, hlen, hflag⟩ := h i (List.mem_cons_self _ _)
    simp only [scanRoutes, hr, hflag, Bool.not_false, Bool.and_true, gt_iff_lt, decide_eq_true_eq,
      hlen, if_true]
    exact ih (fun j hj => h j (List.mem_cons_of_mem _ hj))

theorem scanGroups_flat (patterns : List (Route H)) (path : List Str)
    (hpath : path.headD [] = []) :
    ∀ G : List SizeGroup,
      (∀ g ∈ G, g.nonLiteral = []) →
      (∀ g ∈ G, ∀ i ∈ g.literalFirst [], ∃ r, patterns[i]? = some r ∧ r.parts.length = g.size ∧
        (r.hasDoubleStar = true → g.hasAnyDoubleStar = true)) →
      scanGroups patterns path G =
        scanRoutes patterns path (G.flatMap (fun g => g.literalFirst [])) := by
  intro G
  induction G with
  | nil => intro _ _; rfl
  | cons g G ih =>
    intro hnl hmem
    have ih' := ih (fun g' hg' => hnl g' (List.mem_cons_of_mem _ hg'))
      (fun g' hg' => hmem g' (List.mem_cons_of_mem _ hg'))
    simp only [List.flatMap_cons, scanRoutes_append, scanGroups, hpath,
      hnl g (List.mem_cons_self _ _)]
    by_cases hskip : (decide (g.size > path.length) && !g.hasAnyDoubleStar) = true
    · simp only [hskip, if_true]
      simp only [Bool.and_eq_true, decide_eq_true_eq, Bool.not_eq_true'] at hskip
      have hnone : scanRoutes patterns path (g.literalFirst []) = none := by
        apply scanRoutes_none_of_skip
        intro i hi
        obtain ⟨r, h1, h2, h3⟩ := hmem g (List.mem_cons_self _ _) i hi
        refine ⟨r, h1, by omega, ?_⟩
        cases hr : r.hasDoubleStar with
        | false => rfl
        | true => rw [h3 hr] at hskip; exact absurd hskip.2 (by simp)
      rw [hnone, ih']
      rfl
    · simp only [hskip, Bool.false_eq_true, if_false]
      cases hc : scanRoutes patterns path (g.literalFirst []) with
      | some h => rfl
      | none => simp only [scanRoutes, ih', Option.or]

end WildcardMatcher

namespace Internal

theorem segmentsLoop_eq_split (c : Char) : ∀ s : Str, segmentsLoop s c = split s c := by
  intro s
  induction s with
  | nil => rfl
  | cons x xs ih =>
    simp only [segmentsLoop, split, ih]
    split
    · split
      · rename_i h; subst h; rfl
      · rfl
    · rfl

theorem split_ne_nil (c : Char) : ∀ s : Str, split s c ≠ [] := by
  intro s
  induction s with
  | nil => simp [split]
  | cons x xs ih =>
    simp only [split]
    split
    · simp
    · cases h : split xs c with
      | nil => exact absurd h ih
      | cons p ps => simp

/-- Text that does not contain the separator is one piece. -/
theorem split_of_not_mem (c : Char) : ∀ s : Str, c ∉ s → split s c = [s] := by
  intro s
  induction s with
  | nil => intro _; rfl
  | cons x xs ih =>
    intro h
    simp only [List.mem_cons, not_or] at h
    have hx : ¬ x = c := fun e => h.1 e.symm
    simp [split, hx, ih h.2]

/-- The first piece ends at the first separator. -/
theorem split_append_sep (c : Char) (rest : Str) :
    ∀ s : Str, c ∉ s → split (s ++ c :: rest) c = s :: split rest c := by
  intro s
  induction s with
  | nil => intro _; simp [split]
  | cons x xs ih =>
    intro h
    simp only [List.mem_cons, not_or] at h
    have hx : ¬ x = c := fun e => h.1 e.symm
    simp [split, hx, ih h.2]

/-- `splitSegments` in terms of `split`. -/
theorem splitSegments_eq (s : Str) (c : Char) :
    splitSegments s c =
      if s = [] then [[]]
      else if s.head? = some c then split s c else [] :: split s c := by
  unfold splitSegments
  split
  · rfl
  · rw [segmentsLoop_eq_split]
    by_cases h : s.head? = some c <;> simp [h]

/-- Every segment list starts with an empty segment. -/
theorem splitSegments_head (s : Str) (c : Char) :
    ∃ rest, splitSegments s c = [] :: rest := by
  rw [splitSegments_eq]
  split
  · exact ⟨[], rfl⟩
  · split
    · rename_i h
      cases s with
      | nil => simp at h
      | cons x xs =>
        simp only [List.head?_cons, Option.some.injEq] at h
        subst h
        exact ⟨split xs x, by simp [split]⟩
    · exact ⟨_, rfl⟩

end Internal

namespace WildcardMatcher

variable {H : Type}

/-- A route whose size exceeds the number of segments and that has no double
star does not match: skipping it loses nothing. -/
theorem matchRoute_false_of_skip (r : Route H) (path : List Str)
    (hflag : r.hasDoubleStar = r.parts.any (fun p => decide (p = .doubleStar)))
    (hlen : path.length < r.parts.length) (hds : r.hasDoubleStar = false) :
    matchRoute r path = false := by
  cases hm : matchRoute r path with
  | false => rfl
  | true =>
    have hno : ∀ p ∈ r.parts, p ≠ .doubleStar := by
      intro p hp hpe
      have : r.parts.any (fun p => decide (p = .doubleStar)) = true :=
        List.any_eq_true.2 ⟨p, hp, by simp [hpe]⟩
      rw [← hflag, hds] at this
      exact absurd this (by simp)
    have := matchParts_length_of_no_doubleStar r.parts path hno hm
    omega

/-- The size-group index is a faithful optimisation: in a well-formed state,
`match` returns the handler of the first route, in the order of `patterns_`,
that `matchRoute` accepts. -/
theorem matchInput_eq_find (wm : WildcardMatcher H) (hwf : WF wm) (input : Str) :
    wm.matchInput input =
      (wm.patterns.find? (fun r =>
        matchRoute r (Internal.splitSegments input wm.segmentChar))).map (·.handler) := by
  have hidx := indexOf_indexRoutes wm.patterns hwf.sorted hwf.head
  have hsort : stdSort (fun g => g.size) (indexRoutes [] 0 wm.patterns) =
      indexRoutes [] 0 wm.patterns := by
    apply stdSort_of_sorted
    have := hidx.sizes
    rw [List.pairwise_map] at this
    exact this
  have hgroups : wm.rebuildIndexIfNeeded.sizeGroups = indexRoutes [] 0 wm.patterns := by
    unfold rebuildIndexIfNeeded
    cases hd : wm.indexDirty with
    | true => simp [hsort]
    | false => simp [hwf.index hd, hsort]
  have hpats : wm.rebuildIndexIfNeeded.patterns = wm.patterns := by
    unfold rebuildIndexIfNeeded
    split <;> rfl
  obtain ⟨rest, hpath⟩ := Internal.splitSegments_head input wm.segmentChar
  unfold matchInput
  simp only [hwf.exact_empty, hgroups, hpats]
  rw [scanGroups_flat wm.patterns _ (by rw [hpath]; rfl) _ hidx.nonLiteral hidx.member, hidx.flat,
    List.range_eq_range']
  have := scanRoutes_range' (Internal.splitSegments input wm.segmentChar) wm.patterns []
  simp only [List.nil_append, List.length_nil] at this
  rw [this]
  congr 1
  apply find?_ext
  intro r hr
  by_cases hskip : (decide (r.parts.length > (Internal.splitSegments input wm.segmentChar).length)
      && !r.hasDoubleStar) = true
  · simp only [hskip, Bool.not_true, Bool.false_and]
    simp only [Bool.and_eq_true, decide_eq_true_eq, Bool.not_eq_true'] at hskip
    exact (matchRoute_false_of_skip r _ (hwf.flag r hr) hskip.1 hskip.2).symm
  · simp only [Bool.not_eq_true] at hskip
    simp [hskip]

/-! ## Preservation of the state invariant -/

theorem mergePart_doubleStar (ep np : Part) :
    decide (mergePart ep np = .doubleStar) = decide (ep = .doubleStar) := by
  cases ep <;> cases np <;> simp [mergePart]

theorem length_mergeAt : ∀ (d : Nat) (es ns : List Part), (mergeAt d es ns).length = es.length := by
  intro d
  induction d with
  | zero => intro es ns; cases es <;> cases ns <;> simp [mergeAt]
  | succ d ih => intro es ns; cases es <;> cases ns <;> simp [mergeAt, ih]

theorem any_mergeAt : ∀ (d : Nat) (es ns : List Part),
    (mergeAt d es ns).any (fun p => decide (p = .doubleStar)) =
      es.any (fun p => decide (p = .doubleStar)) := by
  intro d
  induction d with
  | zero =>
    intro es ns
    cases es <;> cases ns <;> simp only [mergeAt, List.any_cons, mergePart_doubleStar]
  | succ d ih =>
    intro es ns
    cases es <;> cases ns <;> simp only [mergeAt, List.any_cons, ih]

theorem head?_mergeAt (d : Nat) (es ns : List Part) (hd : 0 < d) :
    (mergeAt d es ns).head? = es.head? := by
  obtain ⟨d, rfl⟩ : ∃ k, d = k + 1 := ⟨d - 1, by omega⟩
  cases es <;> cases ns <;> simp [mergeAt]

theorem mergeScan_ge : ∀ (es ns : List Part) (i : Nat) (diff : Option Nat) (d : Nat),
    mergeScan es ns i diff = some (some d) → diff = some d ∨ i ≤ d := by
  intro es
  induction es with
  | nil => intro ns i diff d h; simp [mergeScan] at h; exact Or.inl h
  | cons ep es ih =>
    intro ns i diff d h
    cases ns with
    | nil => simp [mergeScan] at h; exact Or.inl h
    | cons np ns =>
      simp only [mergeScan] at h
      split at h
      · rcases ih ns (i + 1) diff d h with h1 | h1
        · exact Or.inl h1
        · exact Or.inr (by omega)
      · split at h
        · cases diff with
          | some _ => simp at h
          | none =>
            simp only at h
            rcases ih ns (i + 1) (some i) d h with h1 | h1
            · simp only [Option.some.injEq] at h1
              exact Or.inr (by omega)
            · exact Or.inr (by omega)
        · simp at h

theorem mergeScan_pos (es ns : List Part) (d : Nat)
    (hes : es.head? = some (.literal [])) (hns : ns.head? = some (.literal []))
    (h : mergeScan es ns 0 none = some (some d)) : 0 < d := by
  cases es with
  | nil => simp at hes
  | cons ep es =>
    cases ns with
    | nil => simp at hns
    | cons np ns =>
      simp only [List.head?_cons, Option.some.injEq] at hes hns
      subst hes hns
      simp only [mergeScan, equalPart, beq_self_eq_true, if_true] at h
      rcases mergeScan_ge es ns 1 none d h with h1 | h1
      · simp at h1
      · omega

/-- A merge changes no signature. -/
theorem mergeInto_signature [DecidableEq H] (parts : List Part) (handler : H)
    (hparts : parts.head? = some (.literal [])) :
    ∀ (l merged : List (Route H)), (∀ r ∈ l, r.parts.head? = some (.literal [])) →
      mergeInto parts handler l = some merged → merged.map signature = l.map signature := by
  intro l
  induction l with
  | nil => intro merged _ h; simp [mergeInto] at h
  | cons existing rest ih =>
    intro merged hheads h
    have hrec : ∀ m, (mergeInto parts handler rest).map (existing :: ·) = some m →
        m.map signature = (existing :: rest).map signature := by
      intro m hm
      cases hr : mergeInto parts handler rest with
      | none => simp [hr] at hm
      | some m' =>
        simp only [hr, Option.map_some', Option.some.injEq] at hm
        subst hm
        simp only [List.map_cons]
        rw [ih m' (fun r hr' => hheads r (List.mem_cons_of_mem _ hr')) hr]
    simp only [mergeInto] at h
    split at h
    · exact hrec merged h
    · split at h
      · exact hrec merged h
      · split at h
        · rename_i d hscan
          simp only [Option.some.injEq] at h
          subst h
          have hpos := mergeScan_pos existing.parts parts d
            (hheads existing (List.mem_cons_self _ _)) hparts hscan
          simp only [List.map_cons, signature, length_mergeAt, any_mergeAt,
            head?_mergeAt d _ _ hpos]
        · exact hrec merged h

theorem indexRoute_congr (G : List SizeGroup) (i : Nat) (r r' : Route H)
    (h : signature r = signature r') : indexRoute G i r = indexRoute G i r' := by
  simp only [signature, Prod.mk.injEq] at h
  obtain ⟨h1, h2, h3, _⟩ := h
  simp only [indexRoute, enterRoute, h1, h2, h3]

theorem indexRoutes_congr : ∀ (l l' : List (Route H)) (G : List SizeGroup) (i : Nat),
    l.map signature = l'.map signature → indexRoutes G i l = indexRoutes G i l' := by
  intro l
  induction l with
  | nil =>
    intro l' G i h
    cases l' with
    | nil => rfl
    | cons _ _ => simp at h
  | cons r l ih =>
    intro l' G i h
    cases l' with
    | nil => simp at h
    | cons r' l' =>
      simp only [List.map_cons, List.cons.injEq] at h
      simp only [indexRoutes, indexRoute_congr G i r r' h.1]
      exact ih l' _ _ h.2

theorem compilePart_nil : compilePart [] = .literal [] := by
  simp [compilePart]

theorem head?_compile (c : Char) (pattern : Str) :
    (compile c pattern).head? = some (.literal []) := by
  obtain ⟨rest, h⟩ := Internal.splitSegments_head pattern c
  simp [compile, h, compilePart_nil]

theorem WF.init (c : Char) : WF ({ segmentChar := c } : WildcardMatcher H) where
  exact_empty := fun _ => rfl
  sorted := List.Pairwise.nil
  flag := by simp
  head := by simp
  index := by simp

theorem WF.filter {wm : WildcardMatcher H} (h : WF wm) (cb : Route H → Bool) :
    WF (wm.filter cb) where
  exact_empty := h.exact_empty
  sorted := h.sorted.sublist (List.filter_sublist _)
  flag := fun r hr => h.flag r (List.mem_of_mem_filter hr)
  head := fun r hr => h.head r (List.mem_of_mem_filter hr)
  index := by simp [WildcardMatcher.filter]

theorem WF.clear {wm : WildcardMatcher H} (_h : WF wm) : WF wm.clear where
  exact_empty := fun _ => rfl
  sorted := List.Pairwise.nil
  flag := by simp [WildcardMatcher.clear]
  head := by simp [WildcardMatcher.clear]
  index := by simp [WildcardMatcher.clear]

theorem WF.rebuild {wm : WildcardMatcher H} (h : WF wm) : WF wm.rebuildIndexIfNeeded := by
  unfold rebuildIndexIfNeeded
  cases hd : wm.indexDirty with
  | false => simpa using h
  | true =>
    simp only [Bool.not_true, Bool.false_eq_true, if_false]
    exact ⟨h.exact_empty, h.sorted, h.flag, h.head, fun _ => rfl⟩

theorem WF.add [DecidableEq H] {wm : WildcardMatcher H} (h : WF wm) (pattern : Str)
    (handler : H) : WF (wm.add pattern handler) := by
  have hparts := head?_compile wm.segmentChar pattern
  unfold WildcardMatcher.add
  simp only
  cases hm : mergeInto (compile wm.segmentChar pattern) handler wm.patterns with
  | some merged =>
    have hsig := mergeInto_signature _ handler hparts wm.patterns merged h.head hm
    have hall : ∀ (P : Nat × Bool × Option Part × Bool → Prop),
        (∀ r ∈ wm.patterns, P (signature r)) → ∀ r ∈ merged, P (signature r) := by
      intro P hP r hr
      have : signature r ∈ wm.patterns.map signature := hsig ▸ List.mem_map_of_mem _ hr
      obtain ⟨r', hr', he⟩ := List.mem_map.1 this
      rw [← he]; exact hP r' hr'
    refine ⟨h.exact_empty, ?_, ?_, ?_, ?_⟩
    · have h1 : (wm.patterns.map signature).Pairwise (fun a b => b.1 ≤ a.1) := by
        rw [List.pairwise_map]; exact h.sorted
      rw [← hsig, List.pairwise_map] at h1
      exact h1
    · exact hall (fun s => s.2.1 = s.2.2.2) h.flag
    · exact hall (fun s => s.2.2.1 = some (.literal [])) h.head
    · intro hd
      simp only at hd ⊢
      rw [h.index hd, indexRoutes_congr _ _ _ _ hsig]
  | none =>
    simp only
    have hperm := stdSort_perm (fun r : Route H => r.parts.length)
      (wm.patterns ++ [(⟨compile wm.segmentChar pattern, handler, pattern,
        (compile wm.segmentChar pattern).any (fun p => decide (p = .doubleStar))⟩ : Route H)])
    refine ⟨h.exact_empty, stdSort_sorted _ _, ?_, ?_, by simp⟩
    · intro r hr
      rcases List.mem_append.1 ((List.Perm.mem_iff hperm).1 hr) with h1 | h1
      · exact h.flag r h1
      · simp only [List.mem_singleton] at h1; subst h1; rfl
    · intro r hr
      rcases List.mem_append.1 ((List.Perm.mem_iff hperm).1 hr) with h1 | h1
      · exact h.head r h1
      · simp only [List.mem_singleton] at h1; subst h1; exact hparts

/-- Every reachable state of the segment-aware index is well formed. -/
theorem Reachable.wf [DecidableEq H] {wm : WildcardMatcher H} (h : Reachable wm) : WF wm := by
  induction h with
  | init c => exact WF.init _
  | add pattern handler _ ih => exact ih.add pattern handler
  | filter cb _ ih => exact ih.filter cb
  | clear _ ih => exact ih.clear
  | lookup _ ih => exact ih.rebuild

end WildcardMatcher

namespace Internal

/-! ### The budget of `expandPattern` -/

theorem find_spec (c : Char) : ∀ (s : Str) (start e : Nat), find c s start = some e →
    start ≤ e ∧ s[e]? = some c ∧ ∀ k, start ≤ k → k < e → s[k]? ≠ some c := by
  intro s
  induction s with
  | nil => intro start e h; simp [find] at h
  | cons x xs ih =>
    intro start e h
    cases start with
    | zero =>
      simp only [find] at h
      split at h
      · rename_i hx
        simp only [Option.some.injEq] at h
        subst h
        exact ⟨le_refl _, by simp [hx], fun k _ hk => by omega⟩
      · rename_i hx
        cases hf : find c xs 0 with
        | none => simp [hf] at h
        | some e' =>
          simp only [hf, Option.map_some', Option.some.injEq] at h
          subst h
          obtain ⟨_, h2, h3⟩ := ih 0 e' hf
          refine ⟨Nat.zero_le _, by simpa using h2, ?_⟩
          intro k _ hk
          cases k with
          | zero => simpa using hx
          | succ k => simpa using h3 k (Nat.zero_le _) (by omega)
    | succ start =>
      simp only [find] at h
      cases hf : find c xs start with
      | none => simp [hf] at h
      | some e' =>
        simp only [hf, Option.map_some', Option.some.injEq] at h
        subst h
        obtain ⟨h1, h2, h3⟩ := ih start e' hf
        refine ⟨by omega, by simpa using h2, ?_⟩
        intro k hk1 hk2
        cases k with
        | zero => omega
        | succ k => simpa using h3 k (by omega) (by omega)

theorem findGroup_spec : ∀ (p : Str) (prev : Char) (i g : Nat), findGroup prev p i = some g →
    i ≤ g ∧ p[g - i]? = some '\x7b' := by
  intro p
  induction p with
  | nil => intro prev i g h; simp [findGroup] at h
  | cons c cs ih =>
    intro prev i g h
    simp only [findGroup] at h
    split at h
    · rename_i hc
      simp only [Option.some.injEq] at h
      subst h
      exact ⟨le_refl _, by simp [hc.1]⟩
    · obtain ⟨h1, h2⟩ := ih c (i + 1) g h
      refine ⟨by omega, ?_⟩
      have e : g - i = (g - (i + 1)) + 1 := by omega
      rw [e]
      simpa using h2

theorem mem_split_subset (c : Char) : ∀ (s : Str) (v : Str), v ∈ split s c →
    ∀ x ∈ v, x ∈ s := by
  intro s
  induction s with
  | nil => intro v hv x hx; simp [split] at hv; subst hv; simp at hx
  | cons a s ih =>
    intro v hv x hx
    simp only [split] at hv
    split at hv
    · rcases List.mem_cons.1 hv with e | hv'
      · subst e; simp at hx
      · exact List.mem_cons_of_mem _ (ih v hv' x hx)
    · cases hs : split s c with
      | nil => exact absurd hs (split_ne_nil c s)
      | cons p ps =>
        rw [hs] at hv
        simp only at hv
        rcases List.mem_cons.1 hv with e | hv'
        · subst e
          rcases List.mem_cons.1 hx with e' | hx'
          · subst e'; exact List.mem_cons_self _ _
          · exact List.mem_cons_of_mem _ (ih p (by rw [hs]; exact List.mem_cons_self _ _) x hx')
        · exact List.mem_cons_of_mem _
            (ih v (by rw [hs]; exact List.mem_cons_of_mem _ hv') x hx)

theorem mem_trim_copy (v : Str) : ∀ x ∈ trim_copy v, x ∈ v := by
  intro x hx
  unfold trim_copy at hx
  rw [List.mem_reverse] at hx
  have h1 := (List.dropWhile_sublist _).subset hx
  rw [List.mem_reverse] at h1
  exact (List.dropWhile_sublist _).subset h1

theorem count_alternative_le (c : Char) (patternStart patternEnd value : Str)
    (hv : c ∉ value) :
    (alternative patternStart patternEnd value).count c ≤
      patternStart.count c + patternEnd.count c := by
  unfold alternative
  simp only [List.count_append]
  have h1 : (trim_copy value).count c = 0 :=
    List.count_eq_zero.2 (fun hm => hv (mem_trim_copy value c hm))
  have h2 : ∀ b : Bool, (if b = true then patternEnd.drop 1 else patternEnd).count c ≤
      patternEnd.count c := by
    intro b
    split
    · exact (List.drop_sublist 1 patternEnd).count_le c
    · exact le_refl _
  have := h2 ((trim_copy value).isEmpty && patternEnd.head? == some '.')
  omega

theorem expandEach_ne_outOfFuel (rec : Str → Expansion) :
    ∀ l : List Str, (∀ p ∈ l, rec p ≠ .outOfFuel) → expandEach rec l ≠ .outOfFuel := by
  intro l
  induction l with
  | nil => intro _; simp [expandEach]
  | cons p ps ih =>
    intro h
    have hp := h p (List.mem_cons_self _ _)
    have hps := ih (fun q hq => h q (List.mem_cons_of_mem _ hq))
    simp only [expandEach]
    cases hr : rec p with
    | ok a =>
      simp only
      cases hr' : expandEach rec ps with
      | ok b => simp
      | malformed => simp
      | outOfFuel => exact absurd hr' hps
    | malformed => simp
    | outOfFuel => exact absurd hr hp

/-- The recursion of `expandPattern` ends within a budget above the number of
`}` in the pattern. -/
theorem expandPatternFuel_ne_outOfFuel : ∀ (n : Nat) (p : Str),
    p.count '\x7d' < n → expandPatternFuel n p ≠ .outOfFuel := by
  intro n
  induction n with
  | zero => intro p h; omega
  | succ n ih =>
    intro p hn
    simp only [expandPatternFuel]
    cases hg : findGroup (Char.ofNat 0) p 0 with
    | none => simp
    | some g =>
      simp only
      cases he : find '\x7d' p g with
      | none => simp
      | some e =>
        simp only
        obtain ⟨hge, hpe, hfirst⟩ := find_spec '\x7d' p g e he
        obtain ⟨_, hpg⟩ := findGroup_spec p _ 0 g hg
        simp only [Nat.sub_zero] at hpg
        have hne : g ≠ e := by
          intro heq
          rw [heq, hpe] at hpg
          revert hpg; decide
        have hlt : g < e := by omega
        have helt : e < p.length := by
          rcases List.getElem?_eq_some_iff.1 hpe with ⟨h', _⟩; exact h'
        apply expandEach_ne_outOfFuel
        intro q hq
        obtain ⟨v, hv, rfl⟩ := List.mem_map.1 hq
        apply ih
        -- no `}` inside the group
        have hvals : '\x7d' ∉ substr p (g + 1) (e - g - 1) := by
          intro hm
          unfold substr at hm
          obtain ⟨k, hk⟩ := List.mem_iff_getElem?.1 hm
          rw [List.getElem?_take] at hk
          split at hk
          · rename_i hk'
            rw [List.getElem?_drop] at hk
            exact hfirst (g + 1 + k) (by omega) (by omega) hk
          · simp at hk
        have hv' : '\x7d' ∉ v := fun hm => hvals (mem_split_subset ',' _ v hv _ hm)
        have hle := count_alternative_le '\x7d' (substr p 0 g) (substrFrom p (e + 1)) v hv'
        -- the pattern has a `}` between the two pieces that are kept
        have hcount : (substr p 0 g).count '\x7d' + 1 + (substrFrom p (e + 1)).count '\x7d' ≤
            p.count '\x7d' := by
          unfold substr substrFrom
          simp only [List.drop_zero]
          have e1 : p = p.take g ++ (p.drop g).take (e + 1 - g) ++ p.drop (e + 1) := by
            have h1 : p.drop g = (p.drop g).take (e + 1 - g) ++ (p.drop g).drop (e + 1 - g) :=
              (List.take_append_drop _ _).symm
            have h2 : (p.drop g).drop (e + 1 - g) = p.drop (e + 1) := by
              rw [List.drop_drop]; congr 1; omega
            rw [h2] at h1
            rw [List.append_assoc, ← h1, List.take_append_drop]
          have hmid : 0 < ((p.drop g).take (e + 1 - g)).count '\x7d' := by
            apply List.count_pos_iff.2
            apply List.mem_iff_getElem?.2
            refine ⟨e - g, ?_⟩
            rw [List.getElem?_take, if_pos (by omega), List.getElem?_drop]
            have : g + (e - g) = e := by omega
            rw [this]; exact hpe
          have hc := congrArg (List.count '\x7d') e1
          simp only [List.count_append] at hc
          omega
        omega

/-- `expandPattern` never runs out of budget: it returns the concrete patterns
or throws. -/
theorem expandPattern_ne_outOfFuel (p : Str) : expandPattern p ≠ .outOfFuel :=
  expandPatternFuel_ne_outOfFuel _ p (Nat.lt_succ_self _)

theorem findGroup_none_of_not_mem : ∀ (p : Str) (prev : Char) (i : Nat),
    '\x7b' ∉ p → findGroup prev p i = none := by
  intro p
  induction p with
  | nil => intro _ _ _; rfl
  | cons c cs ih =>
    intro prev i h
    simp only [List.mem_cons, not_or] at h
    have hc : ¬ c = '\x7b' := fun e => h.1 e.symm
    simp only [findGroup, hc, false_and, if_false]
    exact ih c (i + 1) h.2

/-- A pattern without `{` expands to itself, less one trailing `/`. -/
theorem expandPattern_of_no_brace (p : Str) (h : '\x7b' ∉ p) :
    expandPattern p = .ok [stripSlash p] := by
  simp [expandPattern, expandPatternFuel, findGroup_none_of_not_mem p _ _ h]

theorem containsNegOpener_false_of_not_mem : ∀ p : Str, '\x7b' ∉ p →
    containsNegOpener p = false := by
  intro p
  induction p with
  | nil => intro _; rfl
  | cons a l ih =>
    intro h
    cases l with
    | nil => rfl
    | cons b rest =>
      have hb : ¬ b = '\x7b' := by
        intro e; apply h; simp [e]
      have hl : '\x7b' ∉ b :: rest := fun hm => h (List.mem_cons_of_mem _ hm)
      simp [containsNegOpener, hb, ih hl]

theorem containsWildcardOrNegSet_of_star (p : Str) (h : '*' ∈ p) :
    containsWildcardOrNegSet p = true := by
  simp [containsWildcardOrNegSet, h]

theorem containsWildcardOrNegSet_false (p : Str) (hs : '*' ∉ p) (hb : '\x7b' ∉ p) :
    containsWildcardOrNegSet p = false := by
  simp [containsWildcardOrNegSet, hs, containsNegOpener_false_of_not_mem p hb]

theorem stripSlash_of_ne (p : Str) (h : p.getLast? ≠ some '/') : stripSlash p = p := by
  simp [stripSlash, h]

end Internal

namespace Matcher

variable {H : Type}

theorem stripDot_of_ne (p : Str) (h : p.getLast? ≠ some '.') : stripDot p = p := by
  simp [stripDot, h]

/-! ### The loop body of `add` -/

theorem addExpanded_wildcard_exact [DecidableEq H] (m : Matcher H) (c : Str) (h : H)
    (hc : Internal.containsWildcardOrNegSet c = true) :
    (m.addExpanded c h).exactMatches = m.exactMatches ∧
    (m.addExpanded c h).fallback = m.fallback ∧
    (m.addExpanded c h).options = m.options := by
  unfold addExpanded
  simp only [hc, if_true]
  split <;> exact ⟨rfl, rfl, rfl⟩

theorem addExpanded_options [DecidableEq H] (m : Matcher H) (c : Str) (h : H) :
    (m.addExpanded c h).options = m.options ∧ (m.addExpanded c h).fallback = m.fallback ∧
    (m.addExpanded c h).segmentChar = m.segmentChar := by
  unfold addExpanded
  split
  · split <;> exact ⟨rfl, rfl, rfl⟩
  · simp only
    split
    · split <;> exact ⟨rfl, rfl, rfl⟩
    · exact ⟨rfl, rfl, rfl⟩

theorem addExpanded_segment [DecidableEq H] (m : Matcher H) (c : Str) (h : H)
    (hc : Internal.containsWildcardOrNegSet c = true) (hs : m.options.simpleMatcher = false) :
    m.addExpanded c h = { m with wildcards := m.wildcards.add c h } := by
  simp [addExpanded, hc, hs]

theorem addExpanded_simple [DecidableEq H] (m : Matcher H) (c : Str) (h : H)
    (hc : Internal.containsWildcardOrNegSet c = true) (hs : m.options.simpleMatcher = true) :
    m.addExpanded c h = { m with simpleWildcards := m.simpleWildcards.add c h } := by
  simp [addExpanded, hc, hs]

/-- A literal concrete pattern changes the exact map at its own key only, and
nothing else. -/
theorem addExpanded_exact [DecidableEq H] (m : Matcher H) (c : Str) (h : H)
    (hc : Internal.containsWildcardOrNegSet c = false) :
    ∃ v, m.addExpanded c h =
        { m with exactMatches := fun k => if k = c then some v else m.exactMatches k } ∧
      (m.exactMatches c = none → v = h) := by
  unfold addExpanded
  simp only [hc, Bool.false_eq_true, if_false]
  split
  · rename_i existing mergeFn he hf
    split
    · exact ⟨_, rfl, fun hn => by simp [hn] at he⟩
    · exact ⟨_, rfl, fun _ => rfl⟩
  · exact ⟨_, rfl, fun _ => rfl⟩

/-- The three ways `add` ends. -/
theorem add_cases [DecidableEq H] (m : Matcher H) (p : Str) (h : H) :
    ((stripDot p = ['*'] ∨ stripDot p = ['*', '*']) ∧
        m.add p h = .ok { m with fallback := some h }) ∨
    (stripDot p = [] ∧ m.add p h = .ok m) ∨
    (¬ (stripDot p = ['*'] ∨ stripDot p = ['*', '*']) ∧ stripDot p ≠ [] ∧
      ((∃ l, Internal.expandPattern (stripDot p) = .ok l ∧
          m.add p h = .ok (l.foldl (fun m c => m.addExpanded c h) m)) ∨
        (∃ e, m.add p h = .error e))) := by
  unfold add
  simp only
  by_cases h1 : stripDot p = ['*'] ∨ stripDot p = ['*', '*']
  · exact Or.inl ⟨h1, by simp [h1]⟩
  · by_cases h2 : stripDot p = []
    · exact Or.inr (Or.inl ⟨h2, by simp [h2]⟩)
    · refine Or.inr (Or.inr ⟨h1, h2, ?_⟩)
      simp only [h1, h2, if_false]
      cases Internal.expandPattern (stripDot p) with
      | ok l => exact Or.inl ⟨l, rfl, rfl⟩
      | malformed => exact Or.inr ⟨_, rfl⟩
      | outOfFuel => exact Or.inr ⟨_, rfl⟩

theorem foldl_addExpanded_wildcard [DecidableEq H] (h : H) :
    ∀ (l : List Str) (m : Matcher H),
      (∀ c ∈ l, Internal.containsWildcardOrNegSet c = true) →
      (l.foldl (fun m c => m.addExpanded c h) m).exactMatches = m.exactMatches := by
  intro l
  induction l with
  | nil => intro m _; rfl
  | cons c l ih =>
    intro m hl
    simp only [List.foldl_cons]
    rw [ih _ (fun c' hc' => hl c' (List.mem_cons_of_mem _ hc'))]
    exact (addExpanded_wildcard_exact m c h (hl c (List.mem_cons_self _ _))).1

/-- An insertion at a wildcard pattern leaves the exact map as it was. -/
theorem afterAdd_wildcardPattern [DecidableEq H] (m : Matcher H) (q : Str) (h : H)
    (hq : WildcardPattern q) : (m.afterAdd q h).exactMatches = m.exactMatches := by
  unfold afterAdd
  rcases add_cases m q h with ⟨_, he⟩ | ⟨_, he⟩ | ⟨_, _, ⟨l, hl, he⟩ | ⟨e, he⟩⟩
  · rw [he]
  · rw [he]
  · rw [he]
    unfold WildcardPattern at hq
    rw [hl] at hq
    exact foldl_addExpanded_wildcard h l m hq
  · rw [he]

theorem addAll_wildcardPattern [DecidableEq H] :
    ∀ (adds : List (Str × H)) (m : Matcher H), (∀ x ∈ adds, WildcardPattern x.1) →
      (m.addAll adds).exactMatches = m.exactMatches := by
  intro adds
  induction adds with
  | nil => intro m _; rfl
  | cons x adds ih =>
    intro m h
    simp only [addAll, List.foldl_cons]
    have := ih (m.afterAdd x.1 x.2) (fun y hy => h y (List.mem_cons_of_mem _ hy))
    simp only [addAll] at this
    rw [this]
    exact afterAdd_wildcardPattern m x.1 x.2 (h x (List.mem_cons_self _ _))

/-- What `add` does with a plain pattern. -/
theorem add_plain [DecidableEq H] (m : Matcher H) (p : Str) (h : H) (hp : Plain p) :
    m.add p h = .ok (m.addExpanded p h) := by
  obtain ⟨hne, hbrace, hstar, hslash, hdot⟩ := hp
  have h1 : ¬ (p = ['*'] ∨ p = ['*', '*']) := by
    rintro (e | e) <;> (apply hstar; rw [e]; simp)
  unfold add
  simp only [stripDot_of_ne p hdot, h1, hne, if_false,
    Internal.expandPattern_of_no_brace p hbrace, Internal.stripSlash_of_ne p hslash,
    List.foldl_cons, List.foldl_nil]

/-- `add` returns or throws `MalformedPattern`; the budget of the embedding is
never the reason for ending. -/
theorem add_ne_outOfFuel [DecidableEq H] (m : Matcher H) (p : Str) (h : H) :
    m.add p h ≠ .error .outOfFuel := by
  unfold add
  simp only
  split
  · simp
  · split
    · simp
    · cases hx : Internal.expandPattern (stripDot p) with
      | ok l => simp
      | malformed => simp
      | outOfFuel => exact absurd hx (Internal.expandPattern_ne_outOfFuel _)

/-- `remove` returns or throws `MalformedPattern`. -/
theorem remove_ne_outOfFuel (m : Matcher H) (p : Str) :
    m.remove p ≠ .error .outOfFuel := by
  unfold remove
  cases hx : Internal.expandPattern p with
  | ok l => simp
  | malformed => simp
  | outOfFuel => exact absurd hx (Internal.expandPattern_ne_outOfFuel _)

theorem matchInput_of_exact (m : Matcher H) (input : Str) (h : H)
    (he : m.exactMatches input = some h) : m.matchInput input = some h := by
  simp [matchInput, he]

end Matcher

/-! ## The recursion of `expandPattern` without its budget -/

namespace Internal

theorem expandEach_congr (f g : Str → Expansion) :
    ∀ l : List Str, (∀ p ∈ l, f p = g p) → expandEach f l = expandEach g l := by
  intro l
  induction l with
  | nil => intro _; rfl
  | cons p ps ih =>
    intro h
    simp only [expandEach, h p (List.mem_cons_self _ _),
      ih (fun q hq => h q (List.mem_cons_of_mem _ hq))]

/-- Each alternative handed to a recursive call has fewer `}` than the
pattern. -/
theorem count_alternative_lt (p : Str) (g e : Nat)
    (hg : findGroup (Char.ofNat 0) p 0 = some g) (he : find '\x7d' p g = some e) (v : Str)
    (hv : v ∈ split (substr p (g + 1) (e - g - 1)) ',') :
    (alternative (substr p 0 g) (substrFrom p (e + 1)) v).count '\x7d' < p.count '\x7d' := by
  obtain ⟨hge, hpe, hfirst⟩ := find_spec '\x7d' p g e he
  obtain ⟨_, hpg⟩ := findGroup_spec p _ 0 g hg
  simp only [Nat.sub_zero] at hpg
  have hne : g ≠ e := by
    intro heq
    rw [heq, hpe] at hpg
    revert hpg; decide
  have hlt : g < e := by omega
  have hvals : '\x7d' ∉ substr p (g + 1) (e - g - 1) := by
    intro hm
    unfold substr at hm
    obtain ⟨k, hk⟩ := List.mem_iff_getElem?.1 hm
    rw [List.getElem?_take] at hk
    split at hk
    · rename_i hk'
      rw [List.getElem?_drop] at hk
      exact hfirst (g + 1 + k) (by omega) (by omega) hk
    · simp at hk
  have hv' : '\x7d' ∉ v := fun hm => hvals (mem_split_subset ',' _ v hv _ hm)
  have hle := count_alternative_le '\x7d' (substr p 0 g) (substrFrom p (e + 1)) v hv'
  have hcount : (substr p 0 g).count '\x7d' + 1 + (substrFrom p (e + 1)).count '\x7d' ≤
      p.count '\x7d' := by
    unfold substr substrFrom
    simp only [List.drop_zero]
    have e1 : p = p.take g ++ (p.drop g).take (e + 1 - g) ++ p.drop (e + 1) := by
      have h1 : p.drop g = (p.drop g).take (e + 1 - g) ++ (p.drop g).drop (e + 1 - g) :=
        (List.take_append_drop _ _).symm
      have h2 : (p.drop g).drop (e + 1 - g) = p.drop (e + 1) := by
        rw [List.drop_drop]; congr 1; omega
      rw [h2] at h1
      rw [List.append_assoc, ← h1, List.take_append_drop]
    have hmid : 0 < ((p.drop g).take (e + 1 - g)).count '\x7d' := by
      apply List.count_pos_iff.2
      apply List.mem_iff_getElem?.2
      refine ⟨e - g, ?_⟩
      rw [List.getElem?_take, if_pos (by omega), List.getElem?_drop]
      have : g + (e - g) = e := by omega
      rw [this]; exact hpe
    have hc := congrArg (List.count '\x7d') e1
    simp only [List.count_append] at hc
    omega
  omega

/-- Any two budgets above the number of `}` give the same result. -/
theorem expandPatternFuel_congr : ∀ (n m : Nat) (p : Str),
    p.count '\x7d' < n → p.count '\x7d' < m → expandPatternFuel n p = expandPatternFuel m p := by
  intro n
  induction n with
  | zero => intro m p h; omega
  | succ n ih =>
    intro m p hn hm
    obtain ⟨m, rfl⟩ : ∃ k, m = k + 1 := ⟨m - 1, by omega⟩
    simp only [expandPatternFuel]
    cases hg : findGroup (Char.ofNat 0) p 0 with
    | none => rfl
    | some g =>
      simp only
      cases he : find '\x7d' p g with
      | none => rfl
      | some e =>
        simp only
        apply expandEach_congr
        intro q hq
        obtain ⟨v, hv, rfl⟩ := List.mem_map.1 hq
        have := count_alternative_lt p g e hg he v hv
        exact ih m _ (by omega) (by omega)

/-- `expandPattern` as the source writes it: the recursive calls are calls of
`expandPattern` itself. -/
theorem expandPattern_eq (p : Str) :
    expandPattern p =
      match findGroup (Char.ofNat 0) p 0 with
      | none => .ok [stripSlash p]
      | some g =>
        match find '\x7d' p g with
        | none => .malformed
        | some e =>
          expandEach expandPattern
            ((split (substr p (g + 1) (e - g - 1)) ',').map
              (alternative (substr p 0 g) (substrFrom p (e + 1)))) := by
  unfold expandPattern
  simp only [expandPatternFuel]
  cases hg : findGroup (Char.ofNat 0) p 0 with
  | none => rfl
  | some g =>
    simp only
    cases he : find '\x7d' p g with
    | none => rfl
    | some e =>
      simp only
      apply expandEach_congr
      intro q hq
      obtain ⟨v, hv, rfl⟩ := List.mem_map.1 hq
      have := count_alternative_lt p g e hg he v hv
      exact expandPatternFuel_congr (p.count '\x7d') _ _ this (Nat.lt_succ_self _)

theorem findGroup_append_of_not_mem : ∀ (a b : Str) (prev : Char) (i : Nat), '\x7b' ∉ a →
    findGroup prev (a ++ b) i = findGroup (a.getLastD prev) b (i + a.length) := by
  intro a
  induction a with
  | nil => intro b prev i _; rfl
  | cons c cs ih =>
    intro b prev i h
    simp only [List.mem_cons, not_or] at h
    have hc : ¬ c = '\x7b' := fun e => h.1 e.symm
    have e0 : findGroup prev (c :: cs ++ b) i = findGroup c (cs ++ b) (i + 1) := by
      simp only [List.cons_append, findGroup, hc, false_and, if_false]
      rfl
    have e1 : i + 1 + cs.length = i + (c :: cs).length := by
      simp only [List.length_cons]; omega
    have e2 : (c :: cs).getLastD prev = cs.getLastD c := by
      cases cs <;> rfl
    rw [e0, ih b c (i + 1) h.2, e1, e2]

theorem find_append_right (c : Char) : ∀ (a b : Str) (k : Nat),
    find c (a ++ b) (a.length + k) = (find c b k).map (· + a.length) := by
  intro a
  induction a with
  | nil => intro b k; simp
  | cons x xs ih =>
    intro b k
    have e1 : (x :: xs).length + k = (xs.length + k) + 1 := by
      simp only [List.length_cons]; omega
    have e0 : find c (x :: xs ++ b) ((xs.length + k) + 1) =
        (find c (xs ++ b) (xs.length + k)).map (· + 1) := rfl
    rw [e1, e0, ih b k, Option.map_map]
    cases find c b k with
    | none => rfl
    | some j =>
      simp only [Option.map_some', Function.comp, List.length_cons, Option.some.injEq]
      omega

/-- The expansion of a pattern at its first group: `pre` holds no `{` and does
not end in `!`, and `body` holds no `}`. -/
theorem expandPattern_group (pre body post : Str) (hpre : '\x7b' ∉ pre)
    (hlast : pre.getLast? ≠ some '!') (hbody : '\x7d' ∉ body) :
    expandPattern (pre ++ '\x7b' :: (body ++ '\x7d' :: post)) =
      expandEach expandPattern ((split body ',').map (alternative pre post)) := by
  have hg : findGroup (Char.ofNat 0) (pre ++ '\x7b' :: (body ++ '\x7d' :: post)) 0 =
      some pre.length := by
    rw [findGroup_append_of_not_mem pre _ _ 0 hpre]
    have hp : (pre.getLast?).getD (Char.ofNat 0) ≠ '!' := by
      cases hl : pre.getLast? with
      | none => decide
      | some c =>
        rw [hl] at hlast
        simp only [Option.getD_some]
        intro e; exact hlast (by rw [e])
    simp [findGroup, hp]
  have he : find '\x7d' (pre ++ '\x7b' :: (body ++ '\x7d' :: post)) pre.length =
      some (pre.length + 1 + body.length) := by
    have h0 := find_append_right '\x7d' pre ('\x7b' :: (body ++ '\x7d' :: post)) 0
    rw [Nat.add_zero] at h0
    rw [h0]
    have h1 : find '\x7d' ('\x7b' :: (body ++ '\x7d' :: post)) 0 = some (body.length + 1) := by
      have hb : ¬ ('\x7b' : Char) = '\x7d' := by decide
      simp only [find, hb, if_false]
      have h2 := find_append_right '\x7d' body ('\x7d' :: post) 0
      rw [Nat.add_zero] at h2
      have h3 : ∀ (s : Str) (n : Nat), '\x7d' ∉ s → n ≤ s.length →
          find '\x7d' (s ++ '\x7d' :: post) 0 = some s.length := by
        intro s
        induction s with
        | nil => intro n _ _; simp [find]
        | cons x xs ihx =>
          intro n hx _
          simp only [List.mem_cons, not_or] at hx
          have hx' : ¬ x = '\x7d' := fun e => hx.1 e.symm
          simp [find, hx', ihx 0 hx.2 (Nat.zero_le _)]
      rw [h3 body 0 hbody (Nat.zero_le _)]
      rfl
    rw [h1]
    simp only [Option.map_some', Option.some.injEq]
    omega
  rw [expandPattern_eq, hg]
  simp only [he]
  have e1 : substr (pre ++ '\x7b' :: (body ++ '\x7d' :: post)) (pre.length + 1)
      (pre.length + 1 + body.length - pre.length - 1) = body := by
    unfold substr
    have : pre.length + 1 + body.length - pre.length - 1 = body.length := by omega
    rw [this, List.drop_append 1]
    simp only [List.drop_succ_cons, List.drop_zero]
    exact List.take_left body _
  have e2 : substr (pre ++ '\x7b' :: (body ++ '\x7d' :: post)) 0 pre.length = pre := by
    unfold substr
    simp only [List.drop_zero]
    exact List.take_left pre _
  have e3 : substrFrom (pre ++ '\x7b' :: (body ++ '\x7d' :: post))
      (pre.length + 1 + body.length + 1) = post := by
    unfold substrFrom
    have : pre.length + 1 + body.length + 1 = pre.length + (body.length + 2) := by omega
    rw [this, List.drop_append (body.length + 2)]
    have : body.length + 2 = (body.length + 1) + 1 := by omega
    rw [this, List.drop_succ_cons, List.drop_append 1]
    rfl
  rw [e1, e2, e3]

end Internal

end Akeno

/-! ## Reachable matcher states -/

namespace Akeno

namespace WildcardMatcher

variable {H : Type}

theorem add_segmentChar [DecidableEq H] (wm : WildcardMatcher H) (p : Str) (h : H) :
    (wm.add p h).segmentChar = wm.segmentChar := by
  unfold WildcardMatcher.add
  simp only
  split <;> rfl

theorem rebuildIndexIfNeeded_segmentChar (wm : WildcardMatcher H) :
    wm.rebuildIndexIfNeeded.segmentChar = wm.segmentChar := by
  unfold rebuildIndexIfNeeded
  split <;> rfl

end WildcardMatcher

namespace Matcher

variable {H : Type}

theorem foldl_invariant {α β : Type} (P : α → Prop) (f : α → β → α)
    (hstep : ∀ a b, P a → P (f a b)) : ∀ (l : List β) (a : α), P a → P (l.foldl f a) := by
  intro l
  induction l with
  | nil => intro a ha; exact ha
  | cons b l ih => intro a ha; exact ih _ (hstep a b ha)

/-- The invariant that a `Matcher` keeps on its segment-aware index. -/
theorem Reachable.wildcards [DecidableEq H] {m : Matcher H} (hm : m.Reachable) :
    m.wildcards.Reachable ∧ m.wildcards.segmentChar = m.segmentChar := by
  induction hm with
  | init options segmentChar =>
    refine ⟨WildcardMatcher.Reachable.init _, ?_⟩
    simp only [Matcher.new, WildcardMatcher.new]
    split <;> simp_all
  | @add m m' pattern handler _ hadd ih =>
    rcases add_cases m pattern handler with ⟨_, he⟩ | ⟨_, he⟩ | ⟨_, _, ⟨l, _, he⟩ | ⟨e, he⟩⟩
    · rw [he] at hadd; cases hadd; exact ih
    · rw [he] at hadd; cases hadd; exact ih
    · rw [he] at hadd
      cases hadd
      refine foldl_invariant
        (fun m : Matcher H => m.wildcards.Reachable ∧ m.wildcards.segmentChar = m.segmentChar)
        _ ?_ l m ih
      intro a c ha
      unfold addExpanded
      split
      · split
        · exact ha
        · exact ⟨ha.1.add c handler, by
            simp only [WildcardMatcher.add_segmentChar]; exact ha.2⟩
      · simp only
        split
        · split <;> exact ha
        · exact ha
    · rw [he] at hadd; cases hadd
  | @remove m m' pattern _ hrem ih =>
    unfold Matcher.remove at hrem
    cases hx : Internal.expandPattern pattern with
    | ok l =>
      simp only [hx] at hrem
      cases hrem
      refine foldl_invariant
        (fun m : Matcher H => m.wildcards.Reachable ∧ m.wildcards.segmentChar = m.segmentChar)
        _ ?_ l m ih
      intro a c ha
      unfold removeExpanded
      simp only
      split
      · exact ha
      · exact ⟨ha.1.filter _, ha.2⟩
    | malformed => simp [hx] at hrem
    | outOfFuel => simp [hx] at hrem
  | clear _ ih => exact ⟨ih.1.clear, ih.2⟩
  | lookup _ ih =>
    exact ⟨ih.1.lookup, by simp only [WildcardMatcher.rebuildIndexIfNeeded_segmentChar]; exact ih.2⟩

end Matcher

namespace Matcher

variable {H : Type}

theorem Reachable.afterAdd [DecidableEq H] {m : Matcher H} (hm : m.Reachable) (p : Str)
    (h : H) : (m.afterAdd p h).Reachable := by
  unfold Matcher.afterAdd
  cases hadd : m.add p h with
  | ok m' => exact Reachable.add p h hm hadd
  | error e => exact hm

/-- Unless the pattern is a fallback pattern, `add` runs its loop body over
the concrete patterns. -/
theorem afterAdd_eq_foldl [DecidableEq H] (m : Matcher H) (p : Str) (h : H)
    (hp : ¬ (stripDot p = ['*'] ∨ stripDot p = ['*', '*'])) :
    m.afterAdd p h = (concretePatterns p).foldl (fun m c => m.addExpanded c h) m := by
  unfold afterAdd concretePatterns
  rcases add_cases m p h with ⟨hf, _⟩ | ⟨he, hadd⟩ | ⟨_, hne, ⟨l, hl, hadd⟩ | ⟨e, hadd⟩⟩
  · exact absurd hf hp
  · rw [hadd]; simp [he]
  · rw [hadd]
    have h3 : ¬ (stripDot p = ['*'] ∨ stripDot p = ['*', '*'] ∨ stripDot p = []) := by
      rintro (e | e | e)
      · exact hp (Or.inl e)
      · exact hp (Or.inr e)
      · exact hne e
    simp only [h3, if_false, hl]
  · rw [hadd]
    simp only
    unfold Matcher.add at hadd
    have h3 : ¬ (stripDot p = ['*'] ∨ stripDot p = ['*', '*'] ∨ stripDot p = []) := by
      rintro (e | e | e)
      · exact hp (Or.inl e)
      · exact hp (Or.inr e)
      · exact hne e
    simp only [hp, hne, if_false] at hadd
    simp only [h3, if_false]
    cases hx : Internal.expandPattern (stripDot p) with
    | ok l => simp [hx] at hadd
    | malformed => rfl
    | outOfFuel => rfl

/-- The loop of `add` over literal concrete patterns: only the exact map
changes, and its keys grow by these patterns. -/
theorem foldl_addExpanded_literal [DecidableEq H] (h : H) :
    ∀ (l : List Str) (m : Matcher H),
      (∀ c ∈ l, Internal.containsWildcardOrNegSet c = false) →
      (l.foldl (fun m c => m.addExpanded c h) m).wildcards = m.wildcards ∧
      (l.foldl (fun m c => m.addExpanded c h) m).simpleWildcards = m.simpleWildcards ∧
      (l.foldl (fun m c => m.addExpanded c h) m).fallback = m.fallback ∧
      (l.foldl (fun m c => m.addExpanded c h) m).options = m.options ∧
      (∀ q, ((l.foldl (fun m c => m.addExpanded c h) m).exactMatches q).isSome ↔
        (m.exactMatches q).isSome ∨ q ∈ l) ∧
      ((∀ q, m.exactMatches q = none ∨ m.exactMatches q = some h) →
        ∀ q, (l.foldl (fun m c => m.addExpanded c h) m).exactMatches q =
          if q ∈ l then some h else m.exactMatches q) := by
  intro l
  induction l with
  | nil => intro m _; simp
  | cons c l ih =>
    intro m hl
    have hc := hl c (List.mem_cons_self _ _)
    obtain ⟨v, hv, hvh⟩ := addExpanded_exact m c h hc
    obtain ⟨i1, i2, i3, i4, i5, i6⟩ :=
      ih (m.addExpanded c h) (fun c' hc' => hl c' (List.mem_cons_of_mem _ hc'))
    simp only [List.foldl_cons]
    refine ⟨by rw [i1, hv], by rw [i2, hv], by rw [i3, hv], by rw [i4, hv], ?_, ?_⟩
    · intro q
      rw [i5 q, hv]
      simp only [List.mem_cons]
      by_cases hq : q = c
      · simp [hq]
      · simp [hq]
    · intro hinv q
      have hv' : v = h := by
        unfold addExpanded at hv
        simp only [hc, Bool.false_eq_true, if_false] at hv
        rcases hinv c with hn | hs
        · exact hvh hn
        · have := congrArg (fun m : Matcher H => m.exactMatches c) hv
          simp only [hs, if_true] at this
          split at this
          · rename_i existing mergeFn he hf
            simp only [Option.some.injEq] at he
            subst he
            simp at this
            exact this.symm
          · simp at this
            exact this.symm
      subst hv'
      have hinv' : ∀ q, (m.addExpanded c v).exactMatches q = none ∨
          (m.addExpanded c v).exactMatches q = some v := by
        intro q
        rw [hv]
        simp only
        by_cases hq : q = c
        · simp [hq]
        · simp only [hq, if_false]; exact hinv q
      rw [i6 hinv' q, hv]
      simp only [List.mem_cons]
      by_cases hq : q = c
      · simp [hq]
      · simp [hq]

/-- With both wildcard layers as constructed and no fallback, `match` is the
exact-map lookup. -/
theorem matchInput_of_empty_layers (m : Matcher H) (c : Char)
    (hw : m.wildcards = { segmentChar := c }) (hs : m.simpleWildcards = {})
    (hf : m.fallback = none) (q : Str) : m.matchInput q = m.exactMatches q := by
  unfold matchInput
  cases m.exactMatches q with
  | some h => rfl
  | none =>
    simp [hw, hs, hf, WildcardMatcher.matchInput, WildcardMatcher.rebuildIndexIfNeeded,
      WildcardMatcher.indexRoutes, WildcardMatcher.stdSort_nil, WildcardMatcher.scanGroups,
      SimpleWildcardMatcher.matchInput]

/-- The state after insertions of literal patterns only. -/
theorem addAll_literal [DecidableEq H] :
    ∀ (adds : List (Str × H)) (m : Matcher H), (∀ x ∈ adds, LiteralPattern x.1) →
      (m.addAll adds).wildcards = m.wildcards ∧
      (m.addAll adds).simpleWildcards = m.simpleWildcards ∧
      (m.addAll adds).fallback = m.fallback ∧
      (∀ q, ((m.addAll adds).exactMatches q).isSome ↔
        (m.exactMatches q).isSome ∨ ∃ x ∈ adds, q ∈ concretePatterns x.1) := by
  intro adds
  induction adds with
  | nil =>
    intro m _
    refine ⟨rfl, rfl, rfl, fun q => ?_⟩
    show (m.exactMatches q).isSome ↔ _
    constructor
    · intro h; exact Or.inl h
    · rintro (h | ⟨x, hx, _⟩)
      · exact h
      · cases hx
  | cons x adds ih =>
    intro m h
    have hx := h x (List.mem_cons_self _ _)
    obtain ⟨i1, i2, i3, i4⟩ := ih (m.afterAdd x.1 x.2) (fun y hy => h y (List.mem_cons_of_mem _ hy))
    obtain ⟨j1, j2, j3, _, j5, _⟩ := foldl_addExpanded_literal x.2 (concretePatterns x.1) m hx.2
    rw [← afterAdd_eq_foldl m x.1 x.2 hx.1] at j1 j2 j3 j5
    have e : m.addAll (x :: adds) = (m.afterAdd x.1 x.2).addAll adds := rfl
    rw [e]
    refine ⟨by rw [i1, j1], by rw [i2, j2], by rw [i3, j3], ?_⟩
    intro q
    rw [i4 q, j5 q]
    simp only [List.mem_cons, exists_eq_or_imp]
    tauto

end Matcher

/-! ## Order of the routes -/

theorem find?_first_of_pairwise {α : Type} (R : α → α → Prop) (p : α → Bool) :
    ∀ (l : List α) (r : α), l.Pairwise R → l.find? p = some r →
      ∀ r' ∈ l, p r' = true → r' = r ∨ R r r' := by
  intro l
  induction l with
  | nil => intro r _ h; simp at h
  | cons a l ih =>
    intro r hpw hfind r' hr' hp'
    rw [List.pairwise_cons] at hpw
    rw [List.find?_cons] at hfind
    cases hpa : p a with
    | true =>
      simp only [hpa, Option.some.injEq] at hfind
      subst hfind
      rcases List.mem_cons.1 hr' with e | hmem
      · exact Or.inl e
      · exact Or.inr (hpw.1 r' hmem)
    | false =>
      simp only [hpa] at hfind
      rcases List.mem_cons.1 hr' with e | hmem
      · subst e; rw [hpa] at hp'; cases hp'
      · exact ih r hpw.2 hfind r' hmem hp'

namespace WildcardMatcher

variable {H : Type}

/-- The route list after an `add` that finds fewer than 16 routes and no
existing route to merge into. -/
theorem add_patterns_of_no_merge [DecidableEq H] (wm : WildcardMatcher H) (hwf : WF wm)
    (hlen : wm.patterns.length < 16)
    (p : Str) (h : H) (hm : mergeInto (compile wm.segmentChar p) h wm.patterns = none) :
    (wm.add p h).patterns =
      wm.patterns.filter
          (fun r => decide ((compile wm.segmentChar p).length ≤ r.parts.length)) ++
        (⟨compile wm.segmentChar p, h, p,
          (compile wm.segmentChar p).any (fun q => decide (q = .doubleStar))⟩ : Route H) ::
        wm.patterns.filter
          (fun r => decide (r.parts.length < (compile wm.segmentChar p).length)) := by
  unfold WildcardMatcher.add
  simp only [hm]
  exact stdSort_append_singleton (fun r : Route H => r.parts.length) _ wm.patterns hlen
    hwf.sorted

end WildcardMatcher

/-! ## Paths of literal segments -/

namespace Internal

theorem length_split (c : Char) : ∀ s : Str, (split s c).length = s.count c + 1 := by
  intro s
  induction s with
  | nil => rfl
  | cons x xs ih =>
    simp only [split]
    by_cases hx : x = c
    · subst hx; simp [ih]
    · have hxc : (x == c) = false := by simpa using hx
      simp only [hx, if_false, List.count_cons, hxc, Bool.false_eq_true]
      cases hs : split xs c with
      | nil => exact absurd hs (split_ne_nil c xs)
      | cons p ps => rw [hs] at ih; simpa using ih

theorem split_cons_sep (c : Char) (s : Str) : split (c :: s) c = [] :: split s c := by
  simp [split]

end Internal

namespace Matcher

open Internal

theorem joinPath_cons (s : Str) (segs : List Str) :
    joinPath (s :: segs) = '/' :: (s ++ joinPath segs) := by
  simp [joinPath]

/-- The pieces of a path of separator-free segments, followed by nothing or by
text that begins with the separator. -/
theorem split_joinPath : ∀ (segs : List Str) (Z : Str), segs ≠ [] →
    (∀ s ∈ segs, '/' ∉ s) → (Z = [] ∨ ∃ Y, Z = '/' :: Y) →
    split (joinPath segs ++ Z) '/' = [] :: segs ++ (split Z '/').tail := by
  intro segs
  induction segs with
  | nil => intro Z h; exact absurd rfl h
  | cons s segs ih =>
    intro Z _ hfree hZ
    have hs : '/' ∉ s := hfree s (List.mem_cons_self _ _)
    rw [joinPath_cons, List.cons_append, split_cons_sep, List.append_assoc]
    cases segs with
    | nil =>
      rcases hZ with hZ | ⟨Y, hZ⟩
      · subst hZ
        simp [joinPath, split_of_not_mem '/' s hs, split]
      · subst hZ
        simp only [joinPath, List.flatMap_nil, List.nil_append]
        rw [split_append_sep '/' Y s hs, split_cons_sep]
        rfl
    | cons s' rest =>
      have ih' := ih Z (by simp) (fun x hx => hfree x (List.mem_cons_of_mem _ hx)) hZ
      rw [joinPath_cons, List.cons_append, split_cons_sep] at ih'
      rw [joinPath_cons, List.cons_append, split_append_sep '/' _ s hs]
      simp only [List.cons_append, List.cons.injEq, true_and] at ih'
      rw [ih']
      rfl

theorem splitSegments_joinPath (segs : List Str) (Z : Str) (hne : segs ≠ [])
    (hfree : ∀ s ∈ segs, '/' ∉ s) (hZ : Z = [] ∨ ∃ Y, Z = '/' :: Y) :
    splitSegments (joinPath segs ++ Z) '/' = [] :: segs ++ (split Z '/').tail := by
  rw [splitSegments_eq]
  cases segs with
  | nil => exact absurd rfl hne
  | cons s segs =>
    have e : joinPath (s :: segs) ++ Z = '/' :: (s ++ joinPath segs ++ Z) := by
      rw [joinPath_cons]; simp
    have hne' : joinPath (s :: segs) ++ Z ≠ [] := by rw [e]; simp
    have hhead : (joinPath (s :: segs) ++ Z).head? = some '/' := by rw [e]; rfl
    simp only [hne', if_false, hhead, if_true]
    exact split_joinPath (s :: segs) Z hne hfree hZ

theorem compilePart_literal (s : Str) (hb : '\x7b' ∉ s) (hs : '*' ∉ s) :
    compilePart s = .literal s := by
  unfold compilePart
  have h1 : s ≠ ['*', '*'] := by intro e; apply hs; rw [e]; simp
  have h2 : s ≠ ['*'] := by intro e; apply hs; rw [e]; simp
  have h3 : ¬ (3 < s.length ∧ s.take 2 = ['!', '\x7b'] ∧ s.getLast? = some '\x7d') := by
    rintro ⟨_, ht, _⟩
    apply hb
    have : '\x7b' ∈ s.take 2 := by rw [ht]; simp
    exact List.mem_of_mem_take this
  simp only [h1, h2, h3, if_false]

theorem map_compilePart_literal : ∀ segs : List Str, (∀ s ∈ segs, LiteralSegment s) →
    segs.map compilePart = segs.map Part.literal := by
  intro segs h
  apply List.map_congr_left
  intro s hs
  exact compilePart_literal s (h s hs).2.2.1 (h s hs).2.2.2

theorem not_mem_joinPath (c : Char) (hc : c ≠ '/') : ∀ segs : List Str,
    (∀ s ∈ segs, c ∉ s) → c ∉ joinPath segs := by
  intro segs h hmem
  simp only [joinPath, List.mem_flatMap, List.mem_cons] at hmem
  obtain ⟨s, hs, e | hcs⟩ := hmem
  · exact hc e
  · exact h s hs hcs

end Matcher

/-! ## Single steps of the loop of `matchRoute` -/

namespace WildcardMatcher

variable {H : Type}

theorem matchStep_end (parts : List Part) (path : List Str) (st : LoopState)
    (h : path[st.si]? = none) : matchStep parts path st = .done st.pi st.si := by
  simp [matchStep, h]

theorem matchStep_literal (parts : List Part) (path : List Str) (pi si : Nat)
    (star : Option (Nat × Nat)) (seg : Str) (hseg : path[si]? = some seg)
    (hpart : parts[pi]? = some (.literal seg)) :
    matchStep parts path ⟨pi, si, star⟩ = .next ⟨pi + 1, si + 1, star⟩ := by
  simp [matchStep, hseg, hpart]

theorem matchStep_doubleStar (parts : List Part) (path : List Str) (pi si : Nat)
    (star : Option (Nat × Nat)) (seg : Str) (hseg : path[si]? = some seg)
    (hpart : parts[pi]? = some .doubleStar) :
    matchStep parts path ⟨pi, si, star⟩ = .next ⟨pi + 1, si, some (pi, si)⟩ := by
  simp [matchStep, hseg, hpart]

theorem matchStep_star (parts : List Part) (path : List Str) (pi si : Nat)
    (star : Option (Nat × Nat)) (seg : Str) (hseg : path[si]? = some seg)
    (hpart : parts[pi]? = some .star) :
    matchStep parts path ⟨pi, si, star⟩ =
      if seg = [] then .done pi si else .next ⟨pi + 1, si + 1, star⟩ := by
  simp [matchStep, hseg, hpart]

theorem matchStep_backtrack (parts : List Part) (path : List Str) (pi si starPi starSi : Nat)
    (seg : Str) (hseg : path[si]? = some seg) (hpart : parts[pi]? = none) :
    matchStep parts path ⟨pi, si, some (starPi, starSi)⟩ =
      .next ⟨starPi + 1, starSi + 1, some (starPi, starSi + 1)⟩ := by
  simp [matchStep, hseg, hpart]

/-- A common prefix of literal parts and equal segments is consumed. -/
theorem run_literals (lits : List Str) (tl : List Part) (rest : List Str) (r : Nat × Nat) :
    ∀ j, j ≤ lits.length →
      Run (lits.map Part.literal ++ tl) (lits ++ rest) ⟨j, j, none⟩ r →
      Run (lits.map Part.literal ++ tl) (lits ++ rest) ⟨0, 0, none⟩ r := by
  intro j
  induction j with
  | zero => intro _ h; exact h
  | succ j ih =>
    intro hj h
    apply ih (by omega)
    have hlt : j < lits.length := by omega
    have hseg : (lits ++ rest)[j]? = some lits[j] := by
      rw [List.getElem?_append_left hlt]; exact List.getElem?_eq_getElem hlt
    have hpart : (lits.map Part.literal ++ tl)[j]? = some (.literal lits[j]) := by
      rw [List.getElem?_append_left (by simpa using hlt)]
      simp [List.getElem?_eq_getElem hlt]
    exact Run.next (matchStep_literal _ _ j j none _ hseg hpart) h

/-- Behind the last part, with an anchor at the current segment, the loop
walks to the end of the segments. -/
theorem run_trailing (parts : List Part) (path : List Str) (starPi : Nat)
    (hlast : parts.length = starPi + 1) :
    ∀ n a, path.length - a = n → a ≤ path.length →
      Run parts path ⟨starPi + 1, a, some (starPi, a)⟩ (starPi + 1, path.length) := by
  intro n
  induction n with
  | zero =>
    intro a hn ha
    have e : a = path.length := by omega
    subst e
    exact Run.done (matchStep_end parts path ⟨starPi + 1, path.length, _⟩ (by simp))
  | succ n ih =>
    intro a hn ha
    have hlt : a < path.length := by omega
    have hseg : path[a]? = some path[a] := List.getElem?_eq_getElem hlt
    have hpart : parts[starPi + 1]? = none := by
      rw [List.getElem?_eq_none_iff]; omega
    exact Run.next (matchStep_backtrack parts path (starPi + 1) a starPi a _ hseg hpart)
      (ih (a + 1) (by omega) (by omega))

theorem matchParts_of_run (parts : List Part) (path : List Str) (pi si : Nat)
    (hlen : parts.length ≠ 1) (h : Run parts path {} (pi, si)) :
    matchParts parts path =
      (skipDoubleStars parts pi == parts.length && si == path.length) := by
  unfold matchParts
  split
  · simp at hlen
  · rw [matchLoop_eq_of_run h]

/-- Literal parts followed by a final double star accept the literal segments
followed by any segments. -/
theorem matchParts_literals_doubleStar (lits rest : List Str) (hne : lits ≠ []) :
    matchParts (lits.map Part.literal ++ [.doubleStar]) (lits ++ rest) = true := by
  have hlen : (lits.map Part.literal ++ [Part.doubleStar]).length = lits.length + 1 := by simp
  have hpos : 0 < lits.length := List.length_pos.2 hne
  have hrun : ∃ pi, Run (lits.map Part.literal ++ [.doubleStar]) (lits ++ rest) {} (pi, (lits ++ rest).length) ∧
      skipDoubleStars (lits.map Part.literal ++ [.doubleStar]) pi = lits.length + 1 := by
    cases rest with
    | nil =>
      refine ⟨lits.length, ?_, ?_⟩
      · apply run_literals lits [.doubleStar] [] _ lits.length (le_refl _)
        have := Run.done (matchStep_end (lits.map Part.literal ++ [.doubleStar]) (lits ++ [])
          ⟨lits.length, lits.length, none⟩ (by simp))
        simpa using this
      · simp [skipDoubleStars]
    | cons x rest =>
      refine ⟨lits.length + 1, ?_, ?_⟩
      · apply run_literals lits [.doubleStar] (x :: rest) _ lits.length (le_refl _)
        have hseg : (lits ++ x :: rest)[lits.length]? = some x := by
          rw [List.getElem?_append_right (le_refl _)]; simp
        have hpart : (lits.map Part.literal ++ [Part.doubleStar])[lits.length]? =
            some .doubleStar := by
          rw [List.getElem?_append_right (by simp)]; simp
        refine Run.next (matchStep_doubleStar _ _ lits.length lits.length none x hseg hpart) ?_
        exact run_trailing _ _ lits.length hlen _ lits.length rfl (by simp)
      · simp [skipDoubleStars]
  obtain ⟨pi, hr, hskip⟩ := hrun
  rw [matchParts_of_run _ _ pi _ (by rw [hlen]; omega) hr, hskip, hlen]
  simp

/-- Literal parts followed by a final star, on the literal segments followed
by one more segment: accepted iff that segment is not empty. -/
theorem matchParts_literals_star (lits : List Str) (x : Str) (hne : lits ≠ []) :
    matchParts (lits.map Part.literal ++ [.star]) (lits ++ [x]) = decide (x ≠ []) := by
  have hlen : (lits.map Part.literal ++ [Part.star]).length = lits.length + 1 := by simp
  have hpos : 0 < lits.length := List.length_pos.2 hne
  have hseg : (lits ++ [x])[lits.length]? = some x := by
    rw [List.getElem?_append_right (le_refl _)]; simp
  have hpart : (lits.map Part.literal ++ [Part.star])[lits.length]? = some .star := by
    rw [List.getElem?_append_right (by simp)]; simp
  have hstep := matchStep_star (lits.map Part.literal ++ [.star]) (lits ++ [x])
    lits.length lits.length none x hseg hpart
  by_cases hx : x = []
  · have hr : Run (lits.map Part.literal ++ [.star]) (lits ++ [x]) {}
        (lits.length, lits.length) := by
      apply run_literals lits [.star] [x] _ lits.length (le_refl _)
      rw [if_pos hx] at hstep
      exact Run.done hstep
    rw [matchParts_of_run _ _ _ _ (by rw [hlen]; omega) hr]
    simp [skipDoubleStars, hx]
  · have hr : Run (lits.map Part.literal ++ [.star]) (lits ++ [x]) {}
        (lits.length + 1, lits.length + 1) := by
      apply run_literals lits [.star] [x] _ lits.length (le_refl _)
      rw [if_neg hx] at hstep
      refine Run.next hstep ?_
      exact Run.done (matchStep_end _ _ ⟨lits.length + 1, lits.length + 1, none⟩ (by simp))
    rw [matchParts_of_run _ _ _ _ (by rw [hlen]; omega) hr]
    simp [skipDoubleStars, hx]

end WildcardMatcher

/-! ## A matcher with one wildcard route -/

namespace Matcher

variable {H : Type}

theorem pathMatcher_eq (options : MatcherOptions H) :
    (pathMatcher options : Matcher H) =
      { options := options, segmentChar := '/', wildcards := { segmentChar := '/' } } := by
  simp [pathMatcher, new, WildcardMatcher.new]

/-- What `add` does with a pattern without `{` that is no fallback pattern and
has no trailing `/` or `.`. -/
theorem add_unbraced [DecidableEq H] (m : Matcher H) (p : Str) (h : H) (hne : p ≠ [])
    (hbrace : '\x7b' ∉ p) (hslash : p.getLast? ≠ some '/') (hdot : p.getLast? ≠ some '.')
    (hfb : ¬ (p = ['*'] ∨ p = ['*', '*'])) :
    m.add p h = .ok (m.addExpanded p h) := by
  unfold add
  simp only [stripDot_of_ne p hdot, hfb, hne, if_false,
    Internal.expandPattern_of_no_brace p hbrace, Internal.stripSlash_of_ne p hslash,
    List.foldl_cons, List.foldl_nil]

/-- On a path matcher that holds one wildcard route only, `match` is the test
of that route. -/
theorem matchInput_single_wildcard [DecidableEq H] (options : MatcherOptions H)
    (hs : options.simpleMatcher = false) (p : Str) (h : H)
    (hbrace : '\x7b' ∉ p) (hstar : '*' ∈ p)
    (hslash : p.getLast? ≠ some '/') (hdot : p.getLast? ≠ some '.')
    (hfb : ¬ (p = ['*'] ∨ p = ['*', '*'])) (input : Str) :
    ((pathMatcher options).afterAdd p h).matchInput input =
      if WildcardMatcher.matchParts (WildcardMatcher.compile '/' p)
        (Internal.splitSegments input '/') = true then some h else none := by
  have hne : p ≠ [] := by intro e; rw [e] at hstar; simp at hstar
  have hw := Internal.containsWildcardOrNegSet_of_star p hstar
  have hwf : WildcardMatcher.WF ({ segmentChar := '/' } : WildcardMatcher H) :=
    WildcardMatcher.WF.init '/'
  have hpat := WildcardMatcher.add_patterns_of_no_merge
    ({ segmentChar := '/' } : WildcardMatcher H) hwf (by simp) p h rfl
  simp only [List.filter_nil, List.nil_append] at hpat
  have hfind := WildcardMatcher.matchInput_eq_find _ (hwf.add p h) input
  rw [hpat, WildcardMatcher.add_segmentChar] at hfind
  unfold afterAdd
  rw [add_unbraced _ p h hne hbrace hslash hdot hfb,
    addExpanded_segment _ p h hw (by rw [pathMatcher_eq]; exact hs), pathMatcher_eq]
  simp only [matchInput, hs, Bool.false_eq_true, if_false, hfind, List.find?_cons,
    WildcardMatcher.matchRoute, List.find?_nil]
  cases WildcardMatcher.matchParts (WildcardMatcher.compile '/' p)
      (Internal.splitSegments input '/') <;> rfl

/-- The parts compiled from a path of literal segments followed by one more
segment. -/
theorem compile_joinPath (segs : List Str) (last : Str) (hne : segs ≠ [])
    (hlit : ∀ s ∈ segs, LiteralSegment s) (hlast : '/' ∉ last) :
    WildcardMatcher.compile '/' (joinPath segs ++ '/' :: last) =
      (([] : Str) :: segs).map Part.literal ++ [compilePart last] := by
  unfold WildcardMatcher.compile
  rw [splitSegments_joinPath segs _ hne (fun s hs => (hlit s hs).2.1) (Or.inr ⟨last, rfl⟩),
    Internal.split_cons_sep, Internal.split_of_not_mem '/' last hlast]
  simp only [List.tail_cons, List.map_append, List.map_cons, List.map_nil,
    WildcardMatcher.compilePart_nil, map_compilePart_literal segs hlit, List.cons_append]

theorem getLast?_append_cons_cons (a : Str) (x y : Char) (b : Str) :
    (a ++ x :: y :: b).getLast? = (y :: b).getLast? := by
  rw [List.getLast?_append]
  cases hb : (x :: y :: b).getLast? with
  | none => simp at hb
  | some c =>
    rw [List.getLast?_cons_cons] at hb
    simp [hb]

end Matcher

/-! ## Collisions in the exact map -/

namespace Matcher

variable {H : Type}

/-- Without a usable merge function the loop body of `add` stores the incoming
handler. -/
theorem addExpanded_overwrite [DecidableEq H] (m : Matcher H) (c : Str) (h : H)
    (hc : Internal.containsWildcardOrNegSet c = false)
    (hcfg : m.options.mergeHandlers = false ∨ m.options.mergeFn = none) :
    m.addExpanded c h =
      { m with exactMatches := fun k => if k = c then some h else m.exactMatches k } := by
  unfold addExpanded
  simp only [hc, Bool.false_eq_true, if_false]
  split
  · rename_i existing mergeFn he hf
    rcases hcfg with hm | hn
    · simp [hm]
    · rw [hn] at hf; cases hf
  · rfl

/-- With a merge function in use the loop body of `add` merges into an unequal
stored handler and keeps an equal one. -/
theorem addExpanded_merge [DecidableEq H] (m : Matcher H) (c : Str) (h existing : H)
    (f : H → H → H) (hc : Internal.containsWildcardOrNegSet c = false)
    (hmh : m.options.mergeHandlers = true) (hfn : m.options.mergeFn = some f)
    (he : m.exactMatches c = some existing) :
    m.addExpanded c h =
      { m with exactMatches := fun k =>
          if k = c then some (if existing = h then h else f existing h)
          else m.exactMatches k } := by
  unfold addExpanded
  simp only [hc, Bool.false_eq_true, if_false, he, hfn, hmh, and_true]
  by_cases heq : existing = h
  · simp [heq]
  · simp [heq]

theorem foldl_addExpanded_overwrite [DecidableEq H] (h : H) :
    ∀ (l : List Str) (m : Matcher H),
      (∀ c ∈ l, Internal.containsWildcardOrNegSet c = false) →
      (m.options.mergeHandlers = false ∨ m.options.mergeFn = none) →
      l.foldl (fun m c => m.addExpanded c h) m =
        { m with exactMatches := fun k => if k ∈ l then some h else m.exactMatches k } := by
  intro l
  induction l with
  | nil => intro m _ _; simp
  | cons c l ih =>
    intro m hl hcfg
    have hc := hl c (List.mem_cons_self _ _)
    simp only [List.foldl_cons]
    rw [addExpanded_overwrite m c h hc hcfg, ih]
    · congr 1
      funext k
      simp only [List.mem_cons]
      by_cases hk : k ∈ l
      · simp [hk]
      · by_cases hkc : k = c
        · simp [hkc]
        · simp [hk, hkc]
    · exact fun c' hc' => hl c' (List.mem_cons_of_mem _ hc')
    · exact hcfg

end Matcher

/-! ## How `add` ends -/

namespace Internal

/-- The loop over the alternatives with the output vector as state agrees
with the loop that returns the pushed patterns. -/
theorem expandEachInto_spec (f : Str → Expansion) (g : Str → List Str → List Str × Exit)
    (l : List Str)
    (hfg : ∀ p ∈ l, ∀ out,
      match f p with
      | .ok a => g p out = (out ++ a, .returned)
      | .malformed => (g p out).2 = .thrown
      | .outOfFuel => (g p out).2 = .outOfFuel) :
    ∀ out,
      match expandEach f l with
      | .ok a => expandEachInto g l out = (out ++ a, .returned)
      | .malformed => (expandEachInto g l out).2 = .thrown
      | .outOfFuel => (expandEachInto g l out).2 = .outOfFuel := by
  induction l with
  | nil => intro out; simp [expandEach, expandEachInto]
  | cons p ps ih =>
    intro out
    have hp := hfg p (List.mem_cons_self _ _) out
    have hps := ih (fun q hq => hfg q (List.mem_cons_of_mem _ hq))
    simp only [expandEach, expandEachInto]
    cases hr : f p with
    | ok a =>
      rw [hr] at hp
      simp only at hp
      rw [hp]
      simp only
      have hps' := hps (out ++ a)
      cases hr' : expandEach f ps with
      | ok b =>
        rw [hr'] at hps'
        simp only at hps' ⊢
        rw [hps', List.append_assoc]
      | malformed =>
        rw [hr'] at hps'
        simpa using hps'
      | outOfFuel =>
        rw [hr'] at hps'
        simpa using hps'
    | malformed =>
      rw [hr] at hp
      simp only at hp ⊢
      rcases hg : g p out with ⟨o, x⟩
      rw [hg] at hp
      simp only at hp
      subst hp
      rfl
    | outOfFuel =>
      rw [hr] at hp
      simp only at hp ⊢
      rcases hg : g p out with ⟨o, x⟩
      rw [hg] at hp
      simp only at hp
      subst hp
      rfl

theorem expandIntoFuel_spec : ∀ (n : Nat) (p : Str) (out : List Str),
    match expandPatternFuel n p with
    | .ok a => expandIntoFuel n p out = (out ++ a, .returned)
    | .malformed => (expandIntoFuel n p out).2 = .thrown
    | .outOfFuel => (expandIntoFuel n p out).2 = .outOfFuel := by
  intro n
  induction n with
  | zero => intro p out; simp [expandPatternFuel, expandIntoFuel]
  | succ n ih =>
    intro p out
    simp only [expandPatternFuel, expandIntoFuel]
    cases hg : findGroup (Char.ofNat 0) p 0 with
    | none => simp
    | some g =>
      simp only
      cases he : find '\x7d' p g with
      | none => simp
      | some e =>
        simp only
        exact expandEachInto_spec _ _ _ (fun q _ o => ih q o) out

/-- The call `expandPattern(pattern, out)` with the output vector as state
agrees with `expandPattern`. -/
theorem expandInto_spec (p : Str) (out : List Str) :
    match expandPattern p with
    | .ok a => expandInto p out = (out ++ a, .returned)
    | .malformed => (expandInto p out).2 = .thrown
    | .outOfFuel => (expandInto p out).2 = .outOfFuel :=
  expandIntoFuel_spec _ p out

end Internal

namespace Matcher

variable {H : Type}

/-- The statement-by-statement run of `add` ends as `add` does: with the
matcher that `add` returns, or with the exception of `add` and the matcher of
`afterAdd`. -/
theorem addRun_eq [DecidableEq H] (m : Matcher H) (p : Str) (h : H) :
    m.addRun p h =
      match m.add p h with
      | .ok m' => (m', none)
      | .error e => (m.afterAdd p h, some e) := by
  unfold afterAdd
  unfold addRun add
  simp only
  split
  · rfl
  · split
    · rfl
    · have hs := Internal.expandInto_spec (stripDot p) []
      cases hx : Internal.expandPattern (stripDot p) with
      | ok a =>
        rw [hx] at hs
        simp only [List.nil_append] at hs
        simp only [hs]
      | malformed =>
        rw [hx] at hs
        simp only at hs
        rcases hg : Internal.expandInto (stripDot p) [] with ⟨o, x⟩
        rw [hg] at hs
        simp only at hs
        subst hs
        rfl
      | outOfFuel =>
        rw [hx] at hs
        simp only at hs
        rcases hg : Internal.expandInto (stripDot p) [] with ⟨o, x⟩
        rw [hg] at hs
        simp only at hs
        subst hs
        rfl

/-- When `add` throws, it throws `MalformedPattern`, from the expansion of a
pattern that is neither empty nor a fallback pattern. -/
theorem add_error [DecidableEq H] (m : Matcher H) (p : Str) (h : H) (e : RouterError)
    (hadd : m.add p h = .error e) :
    e = .malformedPattern ∧ Internal.expandPattern (stripDot p) = .malformed := by
  unfold add at hadd
  simp only at hadd
  by_cases h1 : stripDot p = ['*'] ∨ stripDot p = ['*', '*']
  · rw [if_pos h1] at hadd; cases hadd
  · rw [if_neg h1] at hadd
    by_cases h2 : stripDot p = []
    · rw [if_pos h2] at hadd; cases hadd
    · rw [if_neg h2] at hadd
      cases hx : Internal.expandPattern (stripDot p) with
      | ok l => rw [hx] at hadd; cases hadd
      | malformed => rw [hx] at hadd; cases hadd; exact ⟨rfl, rfl⟩
      | outOfFuel => exact absurd hx (Internal.expandPattern_ne_outOfFuel _)

/-- When the expansion returns, `add` returns. -/
theorem add_ok_of_expansion [DecidableEq H] (m : Matcher H) (p : Str) (h : H)
    (hexp : ∃ l, Internal.expandPattern (stripDot p) = .ok l) :
    ∃ m', m.add p h = .ok m' := by
  obtain ⟨l, hl⟩ := hexp
  unfold add
  simp only
  split
  · exact ⟨_, rfl⟩
  · split
    · exact ⟨_, rfl⟩
    · rw [hl]; exact ⟨_, rfl⟩

theorem not_mem_stripDot (c : Char) (p : Str) (hc : c ∉ p) : c ∉ stripDot p := by
  unfold stripDot
  split
  · exact fun hmem => hc (List.mem_of_mem_dropLast hmem)
  · exact hc

end Matcher

/-! ## The loop of `remove` -/

namespace Matcher

variable {H : Type}

/-- What the loop of `remove` leaves after the concrete patterns `l`. -/
theorem foldl_removeExpanded : ∀ (l : List Str) (m : Matcher H),
    (l.foldl (fun m c => m.removeExpanded c) m).options = m.options ∧
    (l.foldl (fun m c => m.removeExpanded c) m).segmentChar = m.segmentChar ∧
    (l.foldl (fun m c => m.removeExpanded c) m).fallback = m.fallback ∧
    (∀ k, (l.foldl (fun m c => m.removeExpanded c) m).exactMatches k =
      if k ∈ l then none else m.exactMatches k) ∧
    (m.options.simpleMatcher = false →
      (l.foldl (fun m c => m.removeExpanded c) m).wildcards.patterns =
        m.wildcards.patterns.filter (fun r => decide (r.pattern ∉ l)) ∧
      (l.foldl (fun m c => m.removeExpanded c) m).wildcards.segmentChar =
        m.wildcards.segmentChar ∧
      (l.foldl (fun m c => m.removeExpanded c) m).wildcards.exactMatches =
        m.wildcards.exactMatches ∧
      (l.foldl (fun m c => m.removeExpanded c) m).simpleWildcards = m.simpleWildcards) ∧
    (m.options.simpleMatcher = true →
      (l.foldl (fun m c => m.removeExpanded c) m).simpleWildcards.compiled =
        m.simpleWildcards.compiled.filter (fun r => decide (r.pattern ∉ l)) ∧
      (l.foldl (fun m c => m.removeExpanded c) m).wildcards = m.wildcards) := by
  intro l
  induction l with
  | nil =>
    intro m
    simp
  | cons c l ih =>
    intro m
    obtain ⟨ho, hs, hf, he, hw, hsw⟩ := ih (m.removeExpanded c)
    simp only [List.foldl_cons]
    have ho1 : (m.removeExpanded c).options = m.options := by
      unfold removeExpanded; simp only; split <;> rfl
    have hs1 : (m.removeExpanded c).segmentChar = m.segmentChar := by
      unfold removeExpanded; simp only; split <;> rfl
    have hf1 : (m.removeExpanded c).fallback = m.fallback := by
      unfold removeExpanded; simp only; split <;> rfl
    have he1 : ∀ k, (m.removeExpanded c).exactMatches k =
        if k = c then none else m.exactMatches k := by
      intro k; unfold removeExpanded; simp only; split <;> rfl
    refine ⟨ho.trans ho1, hs.trans hs1, hf.trans hf1, ?_, ?_, ?_⟩
    · intro k
      rw [he k, he1 k]
      simp only [List.mem_cons]
      by_cases hk : k ∈ l
      · simp [hk]
      · by_cases hkc : k = c
        · simp [hkc]
        · simp [hk, hkc]
    · intro hsm
      have hw1 : (m.removeExpanded c).wildcards =
          m.wildcards.filter (fun r => r.pattern != c) ∧
          (m.removeExpanded c).simpleWildcards = m.simpleWildcards := by
        unfold removeExpanded; simp only [hsm, Bool.false_eq_true, if_false, and_self]
      obtain ⟨a1, a2, a3, a4⟩ := hw (by rw [ho1]; exact hsm)
      refine ⟨?_, ?_, ?_, ?_⟩
      · rw [a1, hw1.1]
        simp only [WildcardMatcher.filter, List.filter_filter]
        congr 1
        funext r
        by_cases hr : r.pattern = c
        · simp [hr]
        · simp [hr]
      · rw [a2, hw1.1]; rfl
      · rw [a3, hw1.1]; rfl
      · rw [a4, hw1.2]
    · intro hsm
      have hw1 : (m.removeExpanded c).simpleWildcards =
          m.simpleWildcards.filter (fun r => r.pattern != c) ∧
          (m.removeExpanded c).wildcards = m.wildcards := by
        unfold removeExpanded; simp only [hsm, if_true, and_self]
      obtain ⟨a1, a2⟩ := hsw (by rw [ho1]; exact hsm)
      refine ⟨?_, ?_⟩
      · rw [a1, hw1.1]
        simp only [SimpleWildcardMatcher.filter, List.filter_filter]
        congr 1
        funext r
        by_cases hr : r.pattern = c
        · simp [hr]
        · simp [hr]
      · rw [a2, hw1.2]

end Matcher

/-! ## The first group opener -/

namespace Internal

theorem groupOpenerAt_iff (s : Str) (i : Nat) :
    GroupOpenerAt s i ↔ OpenerAt (Char.ofNat 0) s i := by
  unfold GroupOpenerAt OpenerAt
  cases i with
  | zero => simp
  | succ j => simp

/-- The scan for a group opener stops at the leftmost one. -/
theorem findGroup_of_first : ∀ (s : Str) (prev : Char) (i j : Nat),
    OpenerAt prev s j → (∀ k, k < j → ¬ OpenerAt prev s k) →
    findGroup prev s i = some (i + j) := by
  intro s
  induction s with
  | nil => intro prev i j h _; simp [OpenerAt] at h
  | cons c cs ih =>
    intro prev i j h hfirst
    cases j with
    | zero =>
      simp only [OpenerAt, List.getElem?_cons_zero, Option.some.injEq, ne_eq] at h
      simp [findGroup, h.1, h.2]
    | succ j =>
      have h0 : ¬ (c = '\x7b' ∧ prev ≠ '!') := by
        intro hc
        apply hfirst 0 (Nat.succ_pos _)
        simp [OpenerAt, hc.1, hc.2]
      have hj : OpenerAt c cs j := by
        simpa [OpenerAt] using h
      have hrest : ∀ k, k < j → ¬ OpenerAt c cs k := by
        intro k hk hop
        apply hfirst (k + 1) (Nat.succ_lt_succ hk)
        simpa [OpenerAt] using hop
      simp only [findGroup, if_neg h0]
      rw [ih c (i + 1) j hj hrest]
      congr 1
      omega

/-- Without a group opener the scan finds none. -/
theorem findGroup_of_none : ∀ (s : Str) (prev : Char) (i : Nat),
    (∀ k, ¬ OpenerAt prev s k) → findGroup prev s i = none := by
  intro s
  induction s with
  | nil => intro _ _ _; rfl
  | cons c cs ih =>
    intro prev i hnone
    have h0 : ¬ (c = '\x7b' ∧ prev ≠ '!') := by
      intro hc
      apply hnone 0
      simp [OpenerAt, hc.1, hc.2]
    have hrest : ∀ k, ¬ OpenerAt c cs k := by
      intro k hop
      apply hnone (k + 1)
      simpa [OpenerAt] using hop
    simp only [findGroup, if_neg h0]
    exact ih c (i + 1) hrest

/-- The search `s.find(c, start)` ends with `npos` when no `c` is at a
position from `start` on. -/
theorem find_none_of_absent (c : Char) : ∀ (s : Str) (start : Nat),
    (∀ k, start ≤ k → s[k]? ≠ some c) → find c s start = none := by
  intro s
  induction s with
  | nil => intro _ _; rfl
  | cons x xs ih =>
    intro start h
    cases start with
    | zero =>
      have hx : x ≠ c := by
        intro e
        apply h 0 (Nat.le_refl _)
        simp [e]
      have hxs : find c xs 0 = none := by
        apply ih
        intro k _ hk
        apply h (k + 1) (Nat.zero_le _)
        simpa using hk
      simp [find, hx, hxs]
    | succ start =>
      have hxs : find c xs start = none := by
        apply ih
        intro k hle hk
        apply h (k + 1) (Nat.succ_le_succ hle)
        simpa using hk
      simp [find, hxs]

/-- A pattern whose leftmost group opener has no `}` from it on makes
`expandPattern` throw. -/
theorem expandPattern_malformed (q : Str) (g : Nat) (hopen : GroupOpenerAt q g)
    (hfirst : ∀ k, k < g → ¬ GroupOpenerAt q k)
    (hclose : ∀ k, g ≤ k → q[k]? ≠ some '\x7d') :
    expandPattern q = .malformed := by
  have hg : findGroup (Char.ofNat 0) q 0 = some g := by
    have := findGroup_of_first q (Char.ofNat 0) 0 g ((groupOpenerAt_iff q g).mp hopen)
      (fun k hk hop => hfirst k hk ((groupOpenerAt_iff q k).mpr hop))
    simpa using this
  rw [expandPattern_eq, hg]
  simp only
  rw [find_none_of_absent '\x7d' q g hclose]

/-- A pattern without a group opener is its own expansion, up to one trailing
`/`. -/
theorem expandPattern_of_no_opener (q : Str) (hnone : ∀ k, ¬ GroupOpenerAt q k) :
    expandPattern q = .ok [stripSlash q] := by
  have hg : findGroup (Char.ofNat 0) q 0 = none :=
    findGroup_of_none q (Char.ofNat 0) 0
      (fun k hop => hnone k ((groupOpenerAt_iff q k).mpr hop))
  rw [expandPattern_eq, hg]

theorem groupOpenerAt_of_dropLast (p : Str) (k : Nat) (h : GroupOpenerAt p.dropLast k) :
    GroupOpenerAt p k := by
  have hk : k < p.dropLast.length := by
    by_contra hge
    have : p.dropLast[k]? = none := List.getElem?_eq_none (Nat.le_of_not_lt hge)
    rw [h.1] at this
    cases this
  have hget : ∀ i, i < p.dropLast.length → p.dropLast[i]? = p[i]? := by
    intro i hi
    rw [List.dropLast_eq_take, List.getElem?_take]
    rw [List.dropLast_eq_take, List.length_take] at hi
    rw [if_pos (by omega)]
  refine ⟨by rw [← hget k hk]; exact h.1, ?_⟩
  rcases h.2 with h0 | hne
  · exact Or.inl h0
  · exact Or.inr (by rw [← hget (k - 1) (by omega)]; exact hne)

end Internal

namespace Matcher

variable {H : Type}

/-- What `add` does when the expansion throws. -/
theorem add_of_malformed [DecidableEq H] (m : Matcher H) (p : Str) (h : H)
    (hexp : Internal.expandPattern (stripDot p) = .malformed) :
    m.add p h = .error .malformedPattern := by
  have hbrace : '\x7b' ∈ stripDot p := by
    by_contra hno
    rw [Internal.expandPattern_of_no_brace _ hno] at hexp
    cases hexp
  have h1 : ¬ (stripDot p = ['*'] ∨ stripDot p = ['*', '*']) := by
    rintro (e | e) <;> (rw [e] at hbrace; simp at hbrace)
  have h2 : stripDot p ≠ [] := by
    intro e; rw [e] at hbrace; simp at hbrace
  unfold add
  simp only
  rw [if_neg h1, if_neg h2, hexp]

end Matcher

/-! ## One wildcard route beside an exact map -/

namespace WildcardMatcher

variable {H : Type}

theorem matchStep_negSet (parts : List Part) (path : List Str) (pi si : Nat)
    (star : Option (Nat × Nat)) (seg : Str) (s : List Str) (hseg : path[si]? = some seg)
    (hpart : parts[pi]? = some (.negSet s)) :
    matchStep parts path ⟨pi, si, star⟩ =
      if seg = [] then .done pi si
      else if seg ∈ s then .done pi si else .next ⟨pi + 1, si + 1, star⟩ := by
  simp [matchStep, hseg, hpart]

/-- Literal parts followed by a final negative set, on the literal segments
followed by one more segment: accepted iff that segment is not empty and not
in the set. -/
theorem matchParts_literals_negSet (lits : List Str) (s : List Str) (x : Str)
    (hne : lits ≠ []) :
    matchParts (lits.map Part.literal ++ [.negSet s]) (lits ++ [x]) =
      decide (x ≠ [] ∧ x ∉ s) := by
  have hlen : (lits.map Part.literal ++ [Part.negSet s]).length = lits.length + 1 := by simp
  have hpos : 0 < lits.length := List.length_pos.2 hne
  have hseg : (lits ++ [x])[lits.length]? = some x := by
    rw [List.getElem?_append_right (le_refl _)]; simp
  have hpart : (lits.map Part.literal ++ [Part.negSet s])[lits.length]? = some (.negSet s) := by
    rw [List.getElem?_append_right (by simp)]; simp
  have hstep := matchStep_negSet (lits.map Part.literal ++ [.negSet s]) (lits ++ [x])
    lits.length lits.length none x s hseg hpart
  by_cases hx : x = []
  · have hr : Run (lits.map Part.literal ++ [.negSet s]) (lits ++ [x]) {}
        (lits.length, lits.length) := by
      apply run_literals lits [.negSet s] [x] _ lits.length (le_refl _)
      rw [if_pos hx] at hstep
      exact Run.done hstep
    rw [matchParts_of_run _ _ _ _ (by rw [hlen]; omega) hr]
    simp [skipDoubleStars, hx]
  · by_cases hxs : x ∈ s
    · have hr : Run (lits.map Part.literal ++ [.negSet s]) (lits ++ [x]) {}
          (lits.length, lits.length) := by
        apply run_literals lits [.negSet s] [x] _ lits.length (le_refl _)
        rw [if_neg hx, if_pos hxs] at hstep
        exact Run.done hstep
      rw [matchParts_of_run _ _ _ _ (by rw [hlen]; omega) hr]
      simp [skipDoubleStars, hxs]
    · have hr : Run (lits.map Part.literal ++ [.negSet s]) (lits ++ [x]) {}
          (lits.length + 1, lits.length + 1) := by
        apply run_literals lits [.negSet s] [x] _ lits.length (le_refl _)
        rw [if_neg hx, if_neg hxs] at hstep
        refine Run.next hstep ?_
        exact Run.done (matchStep_end _ _ ⟨lits.length + 1, lits.length + 1, none⟩ (by simp))
      rw [matchParts_of_run _ _ _ _ (by rw [hlen]; omega) hr]
      simp [skipDoubleStars, hx, hxs]

end WildcardMatcher

namespace Matcher

variable {H : Type}

/-- On a path matcher with an exact map `E`, one segment-aware route `w` and no
fallback, `match` is the lookup in `E` and then the test of that route. -/
theorem matchInput_one_route [DecidableEq H] (options : MatcherOptions H)
    (hs : options.simpleMatcher = false) (E : Str → Option H) (w : Str) (h : H) (input : Str) :
    ({ options := options, segmentChar := '/', exactMatches := E,
       wildcards := ({ segmentChar := '/' } : WildcardMatcher H).add w h } :
        Matcher H).matchInput input =
      match E input with
      | some v => some v
      | none =>
        if WildcardMatcher.matchParts (WildcardMatcher.compile '/' w)
          (Internal.splitSegments input '/') = true then some h else none := by
  have hwf : WildcardMatcher.WF ({ segmentChar := '/' } : WildcardMatcher H) :=
    WildcardMatcher.WF.init '/'
  have hpat := WildcardMatcher.add_patterns_of_no_merge
    ({ segmentChar := '/' } : WildcardMatcher H) hwf (by simp) w h rfl
  simp only [List.filter_nil, List.nil_append] at hpat
  have hfind := WildcardMatcher.matchInput_eq_find _ (hwf.add w h) input
  rw [hpat, WildcardMatcher.add_segmentChar] at hfind
  simp only [matchInput, hs, Bool.false_eq_true, if_false, hfind, List.find?_cons,
    WildcardMatcher.matchRoute, List.find?_nil]
  cases E input with
  | some v => rfl
  | none =>
    cases WildcardMatcher.matchParts (WildcardMatcher.compile '/' w)
        (Internal.splitSegments input '/') <;> rfl

/-- The segments of a path of separator-free segments followed by the
separator and more text. -/
theorem splitSegments_joinPath_sep (segs : List Str) (Y : Str)
    (hfree : ∀ s ∈ segs, '/' ∉ s) :
    Internal.splitSegments (joinPath segs ++ '/' :: Y) '/' =
      [] :: segs ++ Internal.split Y '/' := by
  cases segs with
  | nil =>
    rw [Internal.splitSegments_eq]
    simp [joinPath, Internal.split_cons_sep]
  | cons s segs =>
    rw [splitSegments_joinPath (s :: segs) ('/' :: Y) (by simp) hfree (Or.inr ⟨Y, rfl⟩),
      Internal.split_cons_sep]
    rfl

/-- The parts compiled from a path of literal segments followed by one more
segment. -/
theorem compile_joinPath_sep (segs : List Str) (last : Str)
    (hlit : ∀ s ∈ segs, LiteralSegment s) (hlast : '/' ∉ last) :
    WildcardMatcher.compile '/' (joinPath segs ++ '/' :: last) =
      (([] : Str) :: segs).map Part.literal ++ [compilePart last] := by
  unfold WildcardMatcher.compile
  rw [splitSegments_joinPath_sep segs last (fun s hs => (hlit s hs).2.1),
    Internal.split_of_not_mem '/' last hlast]
  simp only [List.map_append, List.map_cons, List.map_nil,
    WildcardMatcher.compilePart_nil, map_compilePart_literal segs hlit, List.cons_append]

theorem length_joinPath_append_lt (segs : List Str) (c : Char) (Y : Str) :
    joinPath segs ++ c :: Y ≠ joinPath segs := by
  intro e
  have := congrArg List.length e
  simp only [List.length_append, List.length_cons] at this
  omega

/-- The expansion of `L/{*,}`: the wildcard pattern `L/*`, then `L`. -/
theorem expandPattern_optional_star (segs : List Str)
    (hlit : ∀ s ∈ segs, LiteralSegment s) :
    Internal.expandPattern (joinPath segs ++ ['/', '\x7b', '*', ',', '\x7d']) =
      .ok [joinPath segs ++ ['/', '*'], joinPath segs] := by
  have hL : '\x7b' ∉ joinPath segs :=
    not_mem_joinPath _ (by decide) segs (fun s hs => (hlit s hs).2.2.1)
  have e : joinPath segs ++ ['/', '\x7b', '*', ',', '\x7d'] =
      (joinPath segs ++ ['/']) ++ '\x7b' :: (['*', ','] ++ '\x7d' :: []) := by simp
  have hpre : '\x7b' ∉ joinPath segs ++ ['/'] := by
    intro hm
    rcases List.mem_append.1 hm with h1 | h1
    · exact hL h1
    · revert h1; decide
  have hlast : (joinPath segs ++ ['/']).getLast? ≠ some '!' := by simp
  rw [e, Internal.expandPattern_group _ _ _ hpre hlast (by decide)]
  have hsplit : Internal.split ['*', ','] ',' = [['*'], []] := by decide
  have a1 : Internal.alternative (joinPath segs ++ ['/']) [] ['*'] =
      joinPath segs ++ ['/', '*'] := by
    have t : Internal.trim_copy ['*'] = ['*'] := by decide
    simp [Internal.alternative, t]
  have a2 : Internal.alternative (joinPath segs ++ ['/']) [] [] = joinPath segs ++ ['/'] := by
    have t : Internal.trim_copy [] = [] := by decide
    simp [Internal.alternative, t]
  have hw : '\x7b' ∉ joinPath segs ++ ['/', '*'] := by
    intro hm
    rcases List.mem_append.1 hm with h1 | h1
    · exact hL h1
    · revert h1; decide
  have s1 : Internal.stripSlash (joinPath segs ++ ['/', '*']) = joinPath segs ++ ['/', '*'] :=
    Internal.stripSlash_of_ne _ (by rw [getLast?_append_cons_cons]; decide)
  have s2 : Internal.stripSlash (joinPath segs ++ ['/']) = joinPath segs := by
    simp [Internal.stripSlash]
  rw [hsplit]
  simp only [List.map_cons, List.map_nil, a1, a2, Internal.expandEach,
    Internal.expandPattern_of_no_brace _ hw, Internal.expandPattern_of_no_brace _ hpre, s1, s2,
    List.singleton_append]

/-- The matcher after `add(L/{*,}, h)` on a fresh path matcher. -/
theorem afterAdd_optional_star [DecidableEq H] (options : MatcherOptions H)
    (hs : options.simpleMatcher = false) (segs : List Str)
    (hlit : ∀ s ∈ segs, LiteralSegment s) (h : H) :
    concretePatterns (joinPath segs ++ ['/', '\x7b', '*', ',', '\x7d']) =
      [joinPath segs ++ ['/', '*'], joinPath segs] ∧
    (pathMatcher options).afterAdd (joinPath segs ++ ['/', '\x7b', '*', ',', '\x7d']) h =
      { options := options, segmentChar := '/',
        exactMatches := fun k => if k = joinPath segs then some h else none,
        wildcards := ({ segmentChar := '/' } : WildcardMatcher H).add
          (joinPath segs ++ ['/', '*']) h } := by
  have hL : '\x7b' ∉ joinPath segs :=
    not_mem_joinPath _ (by decide) segs (fun s hs => (hlit s hs).2.2.1)
  have hLs : '*' ∉ joinPath segs :=
    not_mem_joinPath _ (by decide) segs (fun s hs => (hlit s hs).2.2.2)
  have hstrip : stripDot (joinPath segs ++ ['/', '\x7b', '*', ',', '\x7d']) =
      joinPath segs ++ ['/', '\x7b', '*', ',', '\x7d'] :=
    stripDot_of_ne _ (by rw [getLast?_append_cons_cons]; decide)
  have hmem : '\x7b' ∈ joinPath segs ++ ['/', '\x7b', '*', ',', '\x7d'] := by simp
  have hfb : ¬ (joinPath segs ++ ['/', '\x7b', '*', ',', '\x7d'] = ['*'] ∨
      joinPath segs ++ ['/', '\x7b', '*', ',', '\x7d'] = ['*', '*']) := by
    rintro (e | e) <;> (rw [e] at hmem; revert hmem; decide)
  have hne : joinPath segs ++ ['/', '\x7b', '*', ',', '\x7d'] ≠ [] := by simp
  have hcp : concretePatterns (joinPath segs ++ ['/', '\x7b', '*', ',', '\x7d']) =
      [joinPath segs ++ ['/', '*'], joinPath segs] := by
    unfold concretePatterns
    simp only [hstrip, expandPattern_optional_star segs hlit]
    rw [if_neg]
    rintro (e | e | e)
    · exact hfb (Or.inl e)
    · exact hfb (Or.inr e)
    · exact hne e
  refine ⟨hcp, ?_⟩
  rw [afterAdd_eq_foldl _ _ h (by rw [hstrip]; exact hfb), hcp, pathMatcher_eq]
  simp only [List.foldl_cons, List.foldl_nil]
  have hstar : '*' ∈ joinPath segs ++ ['/', '*'] :=
    List.mem_append_right _ (by decide)
  have hw := addExpanded_segment
    ({ options := options, segmentChar := '/', wildcards := { segmentChar := '/' } } : Matcher H)
    (joinPath segs ++ ['/', '*']) h (Internal.containsWildcardOrNegSet_of_star _ hstar) hs
  rw [hw]
  obtain ⟨v, hv, hvh⟩ := addExpanded_exact
    ({ options := options, segmentChar := '/',
       wildcards := ({ segmentChar := '/' } : WildcardMatcher H).add
         (joinPath segs ++ ['/', '*']) h } : Matcher H)
    (joinPath segs) h (Internal.containsWildcardOrNegSet_false _ hLs hL)
  have hvh' := hvh rfl
  subst hvh'
  exact hv

end Matcher

/-! ## A route of one negative set -/

namespace Matcher

variable {H : Type}

open Internal

theorem trim_copy_of_setValue (v : Str) (hv : SetValue v) : trim_copy v = v := by
  obtain ⟨hne, _, _, _, _, hfront, hback⟩ := hv
  have h1 : v.dropWhile is_ws = v := by
    cases v with
    | nil => rfl
    | cons c cs =>
      have hc : is_ws c = false := by
        cases hw : is_ws c with
        | false => rfl
        | true => simp [hw] at hfront
      simp [List.dropWhile, hc]
  have h2 : v.reverse.dropWhile is_ws = v.reverse := by
    cases hr : v.reverse with
    | nil => rfl
    | cons d ds =>
      have hd : v.getLast? = some d := by
        rw [← List.head?_reverse, hr]; rfl
      have hc : is_ws d = false := by
        cases hw : is_ws d with
        | false => rfl
        | true => simp [hd, hw] at hback
      simp [List.dropWhile, hc]
  unfold trim_copy
  rw [h1, h2, List.reverse_reverse]

theorem split_joinComma : ∀ S : List Str, S ≠ [] → (∀ v ∈ S, ',' ∉ v) →
    split (joinComma S) ',' = S := by
  intro S
  induction S with
  | nil => intro h; exact absurd rfl h
  | cons v S ih =>
    intro _ hfree
    have hv : ',' ∉ v := hfree v (List.mem_cons_self _ _)
    cases S with
    | nil => simp [joinComma, split_of_not_mem ',' v hv]
    | cons w rest =>
      simp only [joinComma]
      rw [split_append_sep ',' _ v hv,
        ih (by simp) (fun x hx => hfree x (List.mem_cons_of_mem _ hx))]

theorem not_mem_joinComma (c : Char) (hc : c ≠ ',') : ∀ S : List Str,
    (∀ v ∈ S, c ∉ v) → c ∉ joinComma S := by
  intro S
  induction S with
  | nil => intro _; simp [joinComma]
  | cons v S ih =>
    intro hfree
    have hv : c ∉ v := hfree v (List.mem_cons_self _ _)
    cases S with
    | nil => simpa [joinComma] using hv
    | cons w rest =>
      have hrest := ih (fun x hx => hfree x (List.mem_cons_of_mem _ hx))
      simp only [joinComma, List.mem_append, List.mem_cons, not_or]
      exact ⟨hv, hc, hrest⟩

theorem joinComma_ne_nil (S : List Str) (hS : S ≠ []) (hne : ∀ v ∈ S, v ≠ []) :
    joinComma S ≠ [] := by
  cases S with
  | nil => exact absurd rfl hS
  | cons v S =>
    have hv := hne v (List.mem_cons_self _ _)
    cases S with
    | nil => simpa [joinComma] using hv
    | cons w rest => simp [joinComma]

/-- The set compiled from trimmed non-empty values holds exactly these
values. -/
theorem mem_negSetValues (S : List Str) (hval : ∀ v ∈ S, SetValue v) (x : Str) :
    x ∈ negSetValues S ↔ x ∈ S := by
  have key : ∀ (l : List Str) (acc : List Str), (∀ v ∈ l, SetValue v) →
      (x ∈ l.foldl (fun set v =>
          let v := Internal.trim_copy v; if v = [] then set else setInsert set v) acc ↔
        x ∈ acc ∨ x ∈ l) := by
    intro l
    induction l with
    | nil => intro acc _; simp
    | cons v l ih =>
      intro acc hl
      have hv := hl v (List.mem_cons_self _ _)
      simp only [List.foldl_cons, trim_copy_of_setValue v hv, if_neg hv.1]
      rw [ih _ (fun w hw => hl w (List.mem_cons_of_mem _ hw))]
      unfold setInsert
      by_cases hin : v ∈ acc
      · rw [if_pos hin]
        simp only [List.mem_cons]
        constructor
        · rintro (h1 | h1)
          · exact Or.inl h1
          · exact Or.inr (Or.inr h1)
        · rintro (h1 | h1 | h1)
          · exact Or.inl h1
          · exact Or.inl (h1 ▸ hin)
          · exact Or.inr h1
      · rw [if_neg hin]
        simp only [List.mem_append, List.mem_cons, List.not_mem_nil, or_false]
        exact or_assoc
  have := key S [] hval
  simpa [negSetValues] using this

/-- The segment `!{v1,...,vn}` compiles to the negative set of the values. -/
theorem compilePart_negSet (S : List Str) (hS : S ≠ []) (hval : ∀ v ∈ S, SetValue v) :
    compilePart ('!' :: '\x7b' :: (joinComma S ++ ['\x7d'])) = .negSet (negSetValues S) := by
  have hJ : joinComma S ≠ [] := joinComma_ne_nil S hS (fun v hv => (hval v hv).1)
  have hlen : 0 < (joinComma S).length := List.length_pos.2 hJ
  unfold compilePart
  have h1 : ('!' :: '\x7b' :: (joinComma S ++ ['\x7d'])) ≠ ['*', '*'] := by simp
  have h2 : ('!' :: '\x7b' :: (joinComma S ++ ['\x7d'])) ≠ ['*'] := by simp
  have h3 : 3 < ('!' :: '\x7b' :: (joinComma S ++ ['\x7d'])).length ∧
      ('!' :: '\x7b' :: (joinComma S ++ ['\x7d'])).take 2 = ['!', '\x7b'] ∧
      ('!' :: '\x7b' :: (joinComma S ++ ['\x7d'])).getLast? = some '\x7d' := by
    refine ⟨?_, rfl, ?_⟩
    · simp only [List.length_cons, List.length_append, List.length_nil]; omega
    · have e : '!' :: '\x7b' :: (joinComma S ++ ['\x7d']) =
          ('!' :: '\x7b' :: joinComma S) ++ ['\x7d'] := by simp
      rw [e, List.getLast?_append]
      rfl
  have h4 : substr ('!' :: '\x7b' :: (joinComma S ++ ['\x7d']))
      2 (('!' :: '\x7b' :: (joinComma S ++ ['\x7d'])).length - 3) = joinComma S := by
    unfold substr
    simp only [List.drop_succ_cons, List.drop_zero, List.length_cons, List.length_append,
      List.length_nil]
    have e : (joinComma S).length + (0 + 1) + 1 + 1 - 3 = (joinComma S).length := by omega
    rw [e, List.take_left']
    rfl
  rw [if_neg h1, if_neg h2, if_pos h3, h4,
    split_joinComma S hS (fun v hv => (hval v hv).2.2.1)]

end Matcher

namespace Matcher

variable {H : Type}

/-- On a fresh segment-aware path matcher after `add("/!{v1,...,vn}", h)`,
`match` of `/x` for a separator-free `x` answers `h` iff `x` is not empty and
none of the values. -/
theorem matchInput_negSet_route [DecidableEq H] (options : MatcherOptions H)
    (hs : options.simpleMatcher = false) (S : List Str) (hS : S ≠ [])
    (hval : ∀ v ∈ S, SetValue v) (h : H) (x : Str) (hx : '/' ∉ x) :
    ((pathMatcher options).afterAdd
        ('/' :: '!' :: '\x7b' :: (joinComma S ++ ['\x7d'])) h).matchInput ('/' :: x) =
      if x ≠ [] ∧ x ∉ S then some h else none := by
  have hbr : '\x7b' ∉ joinComma S ++ ['\x7d'] := by
    intro hm
    rcases List.mem_append.1 hm with h1 | h1
    · exact not_mem_joinComma _ (by decide) S (fun v hv => (hval v hv).2.2.2.1) h1
    · revert h1; decide
  have hsl : '/' ∉ '!' :: '\x7b' :: (joinComma S ++ ['\x7d']) := by
    intro hm
    simp only [List.mem_cons, List.mem_append, List.mem_singleton, List.not_mem_nil,
      or_false] at hm
    rcases hm with h1 | h1 | h1 | h1
    · revert h1; decide
    · revert h1; decide
    · exact not_mem_joinComma _ (by decide) S (fun v hv => (hval v hv).2.1) h1
    · revert h1; decide
  have hlast : ('/' :: '!' :: '\x7b' :: (joinComma S ++ ['\x7d'])).getLast? = some '\x7d' := by
    have e : '/' :: '!' :: '\x7b' :: (joinComma S ++ ['\x7d']) =
        ('/' :: '!' :: '\x7b' :: joinComma S) ++ ['\x7d'] := by simp
    rw [e, List.getLast?_append]
    rfl
  have hstrip : stripDot ('/' :: '!' :: '\x7b' :: (joinComma S ++ ['\x7d'])) =
      '/' :: '!' :: '\x7b' :: (joinComma S ++ ['\x7d']) :=
    stripDot_of_ne _ (by rw [hlast]; decide)
  have hgroup : Internal.findGroup (Char.ofNat 0)
      ('/' :: '!' :: '\x7b' :: (joinComma S ++ ['\x7d'])) 0 = none := by
    have h0 : ¬ ('/' = '\x7b' ∧ Char.ofNat 0 ≠ '!') := by decide
    have h1 : ¬ ('!' = '\x7b' ∧ '/' ≠ '!') := by decide
    have h2 : ¬ ('\x7b' = '\x7b' ∧ '!' ≠ '!') := by decide
    simp only [Internal.findGroup, if_neg h0, if_neg h1, if_neg h2]
    exact Internal.findGroup_none_of_not_mem _ _ _ hbr
  have hexp : Internal.expandPattern ('/' :: '!' :: '\x7b' :: (joinComma S ++ ['\x7d'])) =
      .ok ['/' :: '!' :: '\x7b' :: (joinComma S ++ ['\x7d'])] := by
    rw [Internal.expandPattern_eq, hgroup]
    simp only
    rw [Internal.stripSlash_of_ne _ (by rw [hlast]; decide)]
  have hfb : ¬ ('/' :: '!' :: '\x7b' :: (joinComma S ++ ['\x7d']) = ['*'] ∨
      '/' :: '!' :: '\x7b' :: (joinComma S ++ ['\x7d']) = ['*', '*']) := by
    rintro (e | e) <;> simp at e
  have hw : Internal.containsWildcardOrNegSet
      ('/' :: '!' :: '\x7b' :: (joinComma S ++ ['\x7d'])) = true := by
    simp [Internal.containsWildcardOrNegSet, Internal.containsNegOpener]
  have hadd : (pathMatcher options).afterAdd
      ('/' :: '!' :: '\x7b' :: (joinComma S ++ ['\x7d'])) h =
      { options := options, segmentChar := '/', exactMatches := fun _ => none,
        wildcards := ({ segmentChar := '/' } : WildcardMatcher H).add
          ('/' :: '!' :: '\x7b' :: (joinComma S ++ ['\x7d'])) h } := by
    unfold afterAdd add
    simp only [hstrip, hfb, if_false, hexp, List.foldl_cons, List.foldl_nil]
    rw [if_neg (by simp), pathMatcher_eq]
    exact addExpanded_segment
      ({ options := options, segmentChar := '/', wildcards := { segmentChar := '/' } } :
        Matcher H) _ h hw hs
  have hcomp : WildcardMatcher.compile '/'
      ('/' :: '!' :: '\x7b' :: (joinComma S ++ ['\x7d'])) =
      [.literal [], .negSet (negSetValues S)] := by
    unfold WildcardMatcher.compile
    have := splitSegments_joinPath_sep [] ('!' :: '\x7b' :: (joinComma S ++ ['\x7d']))
      (by simp)
    simp only [joinPath, List.flatMap_nil, List.nil_append] at this
    rw [this, Internal.split_of_not_mem '/' _ hsl]
    simp only [List.cons_append, List.nil_append, List.map_cons, List.map_nil,
      WildcardMatcher.compilePart_nil, compilePart_negSet S hS hval]
  have hsplit : Internal.splitSegments ('/' :: x) '/' = [[], x] := by
    have := splitSegments_joinPath_sep [] x (by simp)
    simp only [joinPath, List.flatMap_nil, List.nil_append] at this
    rw [this, Internal.split_of_not_mem '/' x hx]
    rfl
  rw [hadd, matchInput_one_route options hs, hcomp, hsplit]
  have hm := WildcardMatcher.matchParts_literals_negSet [[]] (negSetValues S) x (by simp)
  simp only [List.map_cons, List.map_nil, List.singleton_append] at hm
  simp only [hm, decide_eq_true_eq, mem_negSetValues S hval x]

end Matcher

/-! ## Concrete patterns and their layer -/

namespace Internal

/-- A scan for a group opener that finds none: there is none. -/
theorem no_opener_of_findGroup_none : ∀ (s : Str) (prev : Char) (i : Nat),
    findGroup prev s i = none → ∀ k, ¬ OpenerAt prev s k := by
  intro s
  induction s with
  | nil => intro prev i _ k h; simp [OpenerAt] at h
  | cons c cs ih =>
    intro prev i hnone k
    simp only [findGroup] at hnone
    split at hnone
    · cases hnone
    · rename_i h0
      cases k with
      | zero =>
        intro h
        apply h0
        simpa [OpenerAt] using h
      | succ k =>
        intro h
        exact ih c (i + 1) hnone k (by simpa [OpenerAt] using h)

/-- What the loop over the alternatives emits comes from one of the
alternatives. -/
theorem mem_expandEach (f : Str → Expansion) : ∀ (l : List Str) (out : List Str),
    expandEach f l = .ok out → ∀ c ∈ out, ∃ p ∈ l, ∃ a, f p = .ok a ∧ c ∈ a := by
  intro l
  induction l with
  | nil =>
    intro out h c hc
    simp only [expandEach, Expansion.ok.injEq] at h
    subst h
    simp at hc
  | cons p ps ih =>
    intro out h c hc
    simp only [expandEach] at h
    cases hr : f p with
    | ok a =>
      rw [hr] at h
      simp only at h
      cases hr' : expandEach f ps with
      | ok b =>
        rw [hr'] at h
        simp only [Expansion.ok.injEq] at h
        subst h
        rcases List.mem_append.1 hc with h1 | h1
        · exact ⟨p, List.mem_cons_self _ _, a, hr, h1⟩
        · obtain ⟨q, hq, a', ha', hca'⟩ := ih b hr' c h1
          exact ⟨q, List.mem_cons_of_mem _ hq, a', ha', hca'⟩
      | malformed => rw [hr'] at h; cases h
      | outOfFuel => rw [hr'] at h; cases h
    | malformed => rw [hr] at h; cases h
    | outOfFuel => rw [hr] at h; cases h

theorem no_opener_of_expandPatternFuel : ∀ (n : Nat) (p : Str) (l : List Str),
    expandPatternFuel n p = .ok l → ∀ c ∈ l, ∀ k, ¬ GroupOpenerAt c k := by
  intro n
  induction n with
  | zero => intro p l h; simp [expandPatternFuel] at h
  | succ n ih =>
    intro p l h c hc k
    simp only [expandPatternFuel] at h
    cases hg : findGroup (Char.ofNat 0) p 0 with
    | none =>
      rw [hg] at h
      simp only [Expansion.ok.injEq] at h
      subst h
      simp only [List.mem_singleton] at hc
      subst hc
      have hp : ∀ j, ¬ GroupOpenerAt p j := fun j hj =>
        no_opener_of_findGroup_none p _ 0 hg j ((groupOpenerAt_iff p j).mp hj)
      unfold stripSlash
      split
      · exact fun hk => hp k (groupOpenerAt_of_dropLast p k hk)
      · exact hp k
    | some g =>
      rw [hg] at h
      simp only at h
      cases he : find '\x7d' p g with
      | none => rw [he] at h; cases h
      | some e =>
        rw [he] at h
        simp only at h
        obtain ⟨q, _, a, ha, hca⟩ := mem_expandEach _ _ l h c hc
        exact ih q a ha c hca k

/-- `p.find("!{") != npos` in the words of lists: `!{` is an infix. -/
theorem containsNegOpener_iff : ∀ p : Str,
    containsNegOpener p = true ↔ ['!', '\x7b'] <:+: p := by
  intro p
  induction p with
  | nil => simp [containsNegOpener]
  | cons a rest ih =>
    cases rest with
    | nil =>
      simp only [containsNegOpener, Bool.false_eq_true, false_iff]
      intro h
      have := h.length_le
      simp at this
    | cons b rest =>
      simp only [containsNegOpener, Bool.or_eq_true, Bool.and_eq_true, beq_iff_eq, ih,
        List.infix_cons_iff]
      constructor
      · rintro (⟨h1, h2⟩ | h)
        · left
          rw [h1, h2]
          exact ⟨rest, rfl⟩
        · exact Or.inr h
      · rintro (h | h)
        · left
          obtain ⟨t, ht⟩ := h
          simp only [List.cons_append, List.nil_append, List.cons.injEq] at ht
          exact ⟨ht.1.symm, ht.2.1.symm⟩
        · exact Or.inr h

theorem containsWildcardOrNegSet_iff (p : Str) :
    containsWildcardOrNegSet p = true ↔ ('*' ∈ p ∨ ['!', '\x7b'] <:+: p) := by
  simp [containsWildcardOrNegSet, containsNegOpener_iff]

end Internal

namespace Matcher

variable {H : Type}

/-- The invariant behind the single wildcard layer: the layer that is not
configured holds nothing. -/
theorem Reachable.other_layer_empty [DecidableEq H] {m : Matcher H} (hm : m.Reachable) :
    (m.options.simpleMatcher = false → m.simpleWildcards.compiled = []) ∧
    (m.options.simpleMatcher = true → m.wildcards.patterns = []) := by
  induction hm with
  | init options segmentChar =>
    exact ⟨fun _ => rfl, fun _ => rfl⟩
  | @add m m' pattern handler _ hadd ih =>
    rcases add_cases m pattern handler with ⟨_, he⟩ | ⟨_, he⟩ | ⟨_, _, ⟨l, _, he⟩ | ⟨e, he⟩⟩
    · rw [he] at hadd; cases hadd; exact ih
    · rw [he] at hadd; cases hadd; exact ih
    · rw [he] at hadd
      cases hadd
      refine foldl_invariant
        (fun m : Matcher H =>
          (m.options.simpleMatcher = false → m.simpleWildcards.compiled = []) ∧
          (m.options.simpleMatcher = true → m.wildcards.patterns = []))
        _ ?_ l m ih
      intro a c ha
      by_cases hc : Internal.containsWildcardOrNegSet c = true
      · cases hs : a.options.simpleMatcher with
        | false =>
          rw [addExpanded_segment a c handler hc hs]
          exact ⟨fun _ => ha.1 hs, fun h => by simp [hs] at h⟩
        | true =>
          rw [addExpanded_simple a c handler hc hs]
          exact ⟨fun h => by simp [hs] at h, fun _ => ha.2 hs⟩
      · obtain ⟨v, hv, _⟩ := addExpanded_exact a c handler (by simpa using hc)
        rw [hv]
        exact ha
    · rw [he] at hadd; cases hadd
  | @remove m m' pattern _ hrem ih =>
    unfold Matcher.remove at hrem
    cases hx : Internal.expandPattern pattern with
    | ok l =>
      simp only [hx] at hrem
      cases hrem
      obtain ⟨ho, _, _, _, hw, hsw⟩ := foldl_removeExpanded l m
      rw [ho]
      constructor
      · intro hs
        rw [(hw hs).2.2.2]
        exact ih.1 hs
      · intro hs
        rw [(hsw hs).2]
        exact ih.2 hs
    | malformed => simp [hx] at hrem
    | outOfFuel => simp [hx] at hrem
  | clear _ _ => exact ⟨fun _ => rfl, fun _ => rfl⟩
  | lookup _ ih =>
    refine ⟨ih.1, fun hs => ?_⟩
    have := ih.2 hs
    simp only [WildcardMatcher.rebuildIndexIfNeeded]
    split
    · exact this
    · exact this

end Matcher

/-! ## The simple matcher with one `*` -/

namespace SimpleWildcardMatcher

variable {H : Type}

/-- The test of a pattern with the two fragments `P` and `S`: the input starts
with `P` and ends with `S`. -/
theorem accepts_two_parts (P S pattern : Str) (h : H) (input : Str) :
    accepts
      ({ parts := [P, S], handler := h, pattern := pattern,
         hasPrefix := !([P, S] : List Str).isEmpty && ([P, S] : List Str).head? != some [],
         hasSuffix := !([P, S] : List Str).isEmpty && ([P, S] : List Str).getLast? != some [],
         nonEmptyParts := ([P, S] : List Str).filter (fun p => !p.isEmpty) } : Compiled H)
      input = decide (P <+: input ∧ S <:+ input) := by
  have hlen : (([P, S] : List Str).filter (fun p => !p.isEmpty)).length ≤ 2 :=
    List.length_filter_le _ _
  have hP : P.isPrefixOf input = decide (P <+: input) := by
    cases hx : P.isPrefixOf input with
    | true => exact (decide_eq_true (List.isPrefixOf_iff_prefix.1 hx)).symm
    | false =>
      symm
      apply decide_eq_false
      intro hp
      rw [List.isPrefixOf_iff_prefix.2 hp] at hx
      cases hx
  have hS : S.isSuffixOf input = decide (S <:+ input) := by
    cases hx : S.isSuffixOf input with
    | true => exact (decide_eq_true (List.isSuffixOf_iff_suffix.1 hx)).symm
    | false =>
      symm
      apply decide_eq_false
      intro hp
      rw [List.isSuffixOf_iff_suffix.2 hp] at hx
      cases hx
  unfold accepts
  simp only [List.headD_cons, hlen, if_true]
  have hback : ([P, S] : List Str).getLastD [] = S := rfl
  rw [hback, hP, hS]
  by_cases h1 : P <+: input
  · by_cases h2 : S <:+ input
    · simp [h1, h2]
    · have hne : S ≠ [] := by
        intro e; apply h2; rw [e]; exact List.nil_suffix
      simp [h1, h2, hne]
  · have hne : P ≠ [] := by
      intro e; apply h1; rw [e]; exact List.nil_prefix
    simp [h1, hne]

end SimpleWildcardMatcher

namespace Matcher

variable {H : Type}

theorem one_star_not_fallback (P S : Str) (hP : '*' ∉ P) (hS : '*' ∉ S)
    (hne : ¬ (P = [] ∧ S = [])) :
    ¬ (P ++ '*' :: S = ['*'] ∨ P ++ '*' :: S = ['*', '*']) := by
  cases P with
  | nil =>
    rintro (e | e)
    · simp only [List.nil_append, List.cons.injEq, true_and] at e
      exact hne ⟨rfl, e⟩
    · simp only [List.nil_append, List.cons.injEq, true_and] at e
      apply hS; rw [e]; simp
  | cons a P =>
    rintro (e | e) <;>
    · simp only [List.cons_append, List.cons.injEq] at e
      apply hP; rw [e.1]; simp

theorem getLast?_one_star (P S : Str) :
    (P ++ '*' :: S).getLast? = some (S.getLastD '*') := by
  rw [List.getLast?_append]
  cases S with
  | nil => rfl
  | cons b S =>
    rw [List.getLast?_cons_cons]
    cases hl : (b :: S).getLast? with
    | none => simp at hl
    | some x =>
      have := List.getLastD_eq_getLast? '*' (b :: S)
      rw [hl] at this
      rw [this]
      rfl

end Matcher

/-! ## What brace expansion emits -/

namespace Internal

theorem expandEach_map (s : Str → Str) (g : Str → Expansion) : ∀ l : List Str,
    expandEach (fun p => (g p).map s) l = (expandEach g l).map s := by
  intro l
  induction l with
  | nil => rfl
  | cons p ps ih =>
    simp only [expandEach, ih]
    cases g p with
    | ok a =>
      simp only [Expansion.map]
      cases expandEach g ps with
      | ok b => simp [Expansion.map]
      | malformed => rfl
      | outOfFuel => rfl
    | malformed => rfl
    | outOfFuel => rfl

theorem expandPatternFuel_eq_map_raw : ∀ (n : Nat) (p : Str),
    expandPatternFuel n p = (expandRawFuel n p).map stripSlash := by
  intro n
  induction n with
  | zero => intro p; rfl
  | succ n ih =>
    intro p
    simp only [expandPatternFuel, expandRawFuel]
    cases findGroup (Char.ofNat 0) p 0 with
    | none => rfl
    | some g =>
      simp only
      cases find '\x7d' p g with
      | none => rfl
      | some e =>
        simp only
        rw [← expandEach_map]
        exact expandEach_congr _ _ _ (fun q _ => ih q)

/-- Each pattern that `expandPattern` emits is a pattern without further
group, less one trailing `/`. -/
theorem expandPattern_eq_map_raw (p : Str) :
    expandPattern p = (expandRaw p).map stripSlash :=
  expandPatternFuel_eq_map_raw _ p

end Internal

namespace Internal

/-- The pattern handed to the recursive call, by cases on the empty
alternative before a `.`. -/
theorem alternative_eq (pre post v : Str) :
    alternative pre post v =
      if trim_copy v = [] ∧ post.head? = some '.' then pre ++ post.drop 1
      else pre ++ trim_copy v ++ post := by
  unfold alternative
  by_cases h1 : trim_copy v = []
  · by_cases h2 : post.head? = some '.'
    · simp [h1, h2]
    · simp [h1, h2]
  · have : (trim_copy v).isEmpty = false := by
      cases hx : trim_copy v with
      | nil => exact absurd hx h1
      | cons a l => rfl
    simp [h1, this]

theorem no_opener_of_expandRawFuel : ∀ (n : Nat) (p : Str) (l : List Str),
    expandRawFuel n p = .ok l → ∀ c ∈ l, ∀ k, ¬ GroupOpenerAt c k := by
  intro n
  induction n with
  | zero => intro p l h; simp [expandRawFuel] at h
  | succ n ih =>
    intro p l h c hc k
    simp only [expandRawFuel] at h
    cases hg : findGroup (Char.ofNat 0) p 0 with
    | none =>
      rw [hg] at h
      simp only [Expansion.ok.injEq] at h
      subst h
      simp only [List.mem_singleton] at hc
      subst hc
      exact fun hk => no_opener_of_findGroup_none c _ 0 hg k ((groupOpenerAt_iff c k).mp hk)
    | some g =>
      rw [hg] at h
      simp only at h
      cases he : find '\x7d' p g with
      | none => rw [he] at h; cases h
      | some e =>
        rw [he] at h
        simp only at h
        obtain ⟨q, _, a, ha, hca⟩ := mem_expandEach _ _ l h c hc
        exact ih q a ha c hca k

end Internal

namespace Internal

/-- When every alternative `F a` expands to `G a`, the loop over the
alternatives emits the `G a` in order. -/
theorem expandEach_map_ok {α : Type} (f : Str → Expansion) (F : α → Str) (G : α → List Str) :
    ∀ l : List α, (∀ a ∈ l, f (F a) = .ok (G a)) →
      expandEach f (l.map F) = .ok (l.flatMap G) := by
  intro l
  induction l with
  | nil => intro _; rfl
  | cons a l ih =>
    intro h
    simp only [List.map_cons, expandEach, h a (List.mem_cons_self _ _),
      ih (fun b hb => h b (List.mem_cons_of_mem _ hb)), List.flatMap_cons]

end Internal

namespace Matcher

open Internal

theorem groupsPattern_cons (t0 : Str) (g : List Str × Str) (rest : List (List Str × Str)) :
    groupsPattern t0 (g :: rest) =
      t0 ++ '\x7b' :: (joinComma g.1 ++ '\x7d' :: groupsPattern g.2 rest) := by
  simp [groupsPattern, List.flatMap_cons]

theorem groupsPattern_append (a t : Str) (rest : List (List Str × Str)) :
    a ++ groupsPattern t rest = groupsPattern (a ++ t) rest := by
  simp [groupsPattern]

theorem head?_groupsPattern (t : Str) (rest : List (List Str × Str)) (ht : '.' ∉ t) :
    (groupsPattern t rest).head? ≠ some '.' := by
  cases t with
  | nil =>
    cases rest with
    | nil => simp [groupsPattern]
    | cons g rest => rw [groupsPattern_cons]; simp
  | cons c t =>
    simp only [groupsPattern, List.cons_append, List.head?_cons, ne_eq, Option.some.injEq]
    intro e
    apply ht
    rw [e]
    simp

theorem map_flatMap_list {α β γ : Type} (f : α → List β) (g : β → γ) : ∀ l : List α,
    (l.flatMap f).map g = l.flatMap (fun a => (f a).map g) := by
  intro l
  induction l with
  | nil => rfl
  | cons a l ih => simp [List.flatMap_cons, ih]

theorem length_flatMap_const {α β : Type} (f : α → List β) (c : Nat)
    (h : ∀ a, (f a).length = c) : ∀ l : List α, (l.flatMap f).length = l.length * c := by
  intro l
  induction l with
  | nil => simp
  | cons a l ih =>
    simp only [List.flatMap_cons, List.length_append, h a, ih, List.length_cons, Nat.succ_mul]
    omega

theorem length_combinations : ∀ (gs : List (List Str × Str)) (t0 : Str),
    (combinations t0 gs).length = (gs.map (fun g => g.1.length)).prod := by
  intro gs
  induction gs with
  | nil => intro t0; simp [combinations]
  | cons g rest ih =>
    intro t0
    simp only [combinations, List.map_cons, List.prod_cons]
    exact length_flatMap_const _ _ (fun a => ih _) g.1

/-- The expansion of a pattern of non-nested groups: the combinations, each
less one trailing `/`. -/
theorem expandPattern_groups : ∀ (gs : List (List Str × Str)) (t0 : Str),
    '\x7b' ∉ t0 → '!' ∉ t0 →
    (∀ g ∈ gs, g.1 ≠ [] ∧ (∀ a ∈ g.1, GroupAlternative a) ∧ GroupText g.2) →
    expandPattern (groupsPattern t0 gs) = .ok ((combinations t0 gs).map stripSlash) := by
  intro gs
  induction gs with
  | nil =>
    intro t0 hb _ _
    simp only [groupsPattern, List.flatMap_nil, List.append_nil, combinations, List.map_cons,
      List.map_nil]
    exact expandPattern_of_no_brace t0 hb
  | cons g rest ih =>
    intro t0 hb hx hgs
    obtain ⟨hne, halt, htext⟩ := hgs g (List.mem_cons_self _ _)
    have hrest : ∀ g' ∈ rest, g'.1 ≠ [] ∧ (∀ a ∈ g'.1, GroupAlternative a) ∧ GroupText g'.2 :=
      fun g' hg' => hgs g' (List.mem_cons_of_mem _ hg')
    have hlast : t0.getLast? ≠ some '!' := fun e => hx (List.mem_of_getLast?_eq_some e)
    have hbody : '\x7d' ∉ joinComma g.1 :=
      not_mem_joinComma _ (by decide) g.1 (fun a ha => (halt a ha).2.1)
    rw [groupsPattern_cons, expandPattern_group t0 _ _ hb hlast hbody,
      split_joinComma g.1 hne (fun a ha => (halt a ha).2.2.1)]
    have hstep : ∀ a ∈ g.1, expandPattern (alternative t0 (groupsPattern g.2 rest) a) =
        .ok ((combinations (t0 ++ trim_copy a ++ g.2) rest).map stripSlash) := by
      intro a ha
      have hpre' : '\x7b' ∉ t0 ++ trim_copy a ++ g.2 := by
        simp only [List.mem_append, not_or]
        exact ⟨⟨hb, fun hm => (halt a ha).1 (mem_trim_copy a _ hm)⟩, htext.1⟩
      have hx' : '!' ∉ t0 ++ trim_copy a ++ g.2 := by
        simp only [List.mem_append, not_or]
        exact ⟨⟨hx, fun hm => (halt a ha).2.2.2.1 (mem_trim_copy a _ hm)⟩, htext.2.1⟩
      rw [alternative_eq, if_neg (fun hc => head?_groupsPattern g.2 rest htext.2.2 hc.2),
        groupsPattern_append]
      exact ih _ hpre' hx' hrest
    rw [expandEach_map_ok expandPattern _ _ g.1 hstep]
    simp only [combinations, map_flatMap_list]

end Matcher

/-! ## The index at the time of a lookup -/

namespace WildcardMatcher

variable {H : Type}

/-- In a well-formed state the index that a lookup uses is the index of the
current routes. -/
theorem rebuild_index (wm : WildcardMatcher H) (hwf : WF wm) :
    wm.rebuildIndexIfNeeded.sizeGroups = indexRoutes [] 0 wm.patterns ∧
    wm.rebuildIndexIfNeeded.patterns = wm.patterns ∧
    IndexOf wm.patterns (indexRoutes [] 0 wm.patterns) := by
  have hidx := indexOf_indexRoutes wm.patterns hwf.sorted hwf.head
  have hsort : stdSort (fun g => g.size) (indexRoutes [] 0 wm.patterns) =
      indexRoutes [] 0 wm.patterns := by
    apply stdSort_of_sorted
    have := hidx.sizes
    rw [List.pairwise_map] at this
    exact this
  refine ⟨?_, ?_, hidx⟩
  · unfold rebuildIndexIfNeeded
    cases hd : wm.indexDirty with
    | true => simp [hsort]
    | false => simp [hwf.index hd, hsort]
  · unfold rebuildIndexIfNeeded
    split <;> rfl

/-- Every route pointer that a lookup follows points into `patterns_`. -/
theorem route_pointers_valid (wm : WildcardMatcher H) (hwf : WF wm) :
    ∀ g ∈ wm.rebuildIndexIfNeeded.sizeGroups, ∀ (k : Str) (i : Nat),
      i ∈ g.literalFirst k ∨ i ∈ g.nonLiteral →
      i < wm.rebuildIndexIfNeeded.patterns.length := by
  obtain ⟨hg, hp, hidx⟩ := rebuild_index wm hwf
  rw [hg, hp]
  intro g hgm k i hi
  rcases hi with hi | hi
  · by_cases hk : k = []
    · subst hk
      obtain ⟨r, hr, _⟩ := hidx.member g hgm i hi
      exact (List.getElem?_eq_some_iff.1 hr).1
    · rw [hidx.otherKeys g hgm k hk] at hi
      simp at hi
  · rw [hidx.nonLiteral g hgm] at hi
    simp at hi

/-- What an iteration that stays in the loop advances: the part index or the
double-star anchor; the segment it reads exists. -/
theorem matchStep_advances (parts : List Part) (path : List Str) (st st' : LoopState)
    (h : matchStep parts path st = .next st') :
    st.si < path.length ∧
    (st.pi < st'.pi ∨ (∃ a b, st.star = some a ∧ st'.star = some b ∧ a.2 < b.2)) := by
  obtain ⟨pi, si, star⟩ := st
  simp only [matchStep] at h
  cases hseg : path[si]? with
  | none => simp [hseg] at h
  | some seg =>
    have hsi : si < path.length := (List.getElem?_eq_some_iff.1 hseg).1
    refine ⟨hsi, ?_⟩
    simp only [hseg] at h
    have hback : ∀ st'', (match star with
        | some (starPi, starSi) =>
          LoopStep.next { pi := starPi + 1, si := starSi + 1, star := some (starPi, starSi + 1) }
        | none => LoopStep.done pi si) = .next st'' →
        ∃ a b, star = some a ∧ st''.star = some b ∧ a.2 < b.2 := by
      intro st'' hb
      cases star with
      | none => simp at hb
      | some a =>
        obtain ⟨sp, ss⟩ := a
        simp only [LoopStep.next.injEq] at hb
        subst hb
        exact ⟨(sp, ss), (sp, ss + 1), rfl, rfl, Nat.lt_succ_self _⟩
    cases hpart : parts[pi]? with
    | none =>
      simp only [hpart] at h
      exact Or.inr (hback st' h)
    | some part =>
      simp only [hpart] at h
      cases part with
      | doubleStar =>
        simp only [LoopStep.next.injEq] at h
        subst h
        exact Or.inl (Nat.lt_succ_self _)
      | star =>
        simp only at h
        split at h
        · cases h
        · simp only [LoopStep.next.injEq] at h
          subst h
          exact Or.inl (Nat.lt_succ_self _)
      | negSet s =>
        simp only at h
        split at h
        · cases h
        · split at h
          · cases h
          · simp only [LoopStep.next.injEq] at h
            subst h
            exact Or.inl (Nat.lt_succ_self _)
      | set s =>
        simp only at h
        split at h
        · cases h
        · split at h
          · cases h
          · simp only [LoopStep.next.injEq] at h
            subst h
            exact Or.inl (Nat.lt_succ_self _)
      | literal l =>
        simp only at h
        split at h
        · simp only [LoopStep.next.injEq] at h
          subst h
          exact Or.inl (Nat.lt_succ_self _)
        · exact Or.inr (hback st' h)

end WildcardMatcher

/-! ## The groups of the rebuilt index -/

namespace WildcardMatcher

variable {H : Type}

/-- What entering a route does to the size and the flag of a group. -/
theorem enterRoute_flag (g : SizeGroup) (i : Nat) (r : Route H) :
    (enterRoute g i r).size = g.size ∧
    (enterRoute g i r).hasAnyDoubleStar = (g.hasAnyDoubleStar || r.hasDoubleStar) := by
  unfold enterRoute
  cases hr : r.hasDoubleStar <;> (simp only [hr]; split <;> simp)

/-- A group flag that is set comes from a flagged route of the size of the
group. -/
theorem flag_sound_indexRoute (l : List (Route H)) (G : List SizeGroup) (i : Nat) (r : Route H)
    (h : ∀ g ∈ G, g.hasAnyDoubleStar = true →
      ∃ a ∈ l, a.parts.length = g.size ∧ a.hasDoubleStar = true) :
    ∀ g ∈ indexRoute G i r, g.hasAnyDoubleStar = true →
      ∃ a ∈ l ++ [r], a.parts.length = g.size ∧ a.hasDoubleStar = true := by
  intro g hg hflag
  unfold indexRoute at hg
  simp only [List.mem_map] at hg
  obtain ⟨g0, hg0, hmap⟩ := hg
  have hg0' : g0 ∈ G ∨ g0 = { size := r.parts.length } := by
    split at hg0
    · exact Or.inl hg0
    · rcases List.mem_append.1 hg0 with h1 | h1
      · exact Or.inl h1
      · exact Or.inr (by simpa using h1)
  by_cases hsz : (g0.size == r.parts.length) = true
  · rw [if_pos hsz] at hmap
    subst hmap
    obtain ⟨hs, hf⟩ := enterRoute_flag g0 i r
    rw [hf] at hflag
    rw [hs]
    cases hr : r.hasDoubleStar with
    | true => exact ⟨r, by simp, (beq_iff_eq.1 hsz).symm, hr⟩
    | false =>
      rw [hr, Bool.or_false] at hflag
      rcases hg0' with h1 | h1
      · obtain ⟨a, ha, hlen, hfa⟩ := h g0 h1 hflag
        exact ⟨a, List.mem_append_left _ ha, hlen, hfa⟩
      · rw [h1] at hflag
        cases hflag
  · rw [if_neg hsz] at hmap
    subst hmap
    rcases hg0' with h1 | h1
    · obtain ⟨a, ha, hlen, hfa⟩ := h g0 h1 hflag
      exact ⟨a, List.mem_append_left _ ha, hlen, hfa⟩
    · rw [h1] at hflag
      cases hflag

theorem flag_sound_indexRoutes (l : List (Route H)) :
    ∀ g ∈ indexRoutes [] 0 l, g.hasAnyDoubleStar = true →
      ∃ a ∈ l, a.parts.length = g.size ∧ a.hasDoubleStar = true := by
  induction l using List.reverseRecOn with
  | nil => intro g hg; simp [indexRoutes] at hg
  | append_singleton l r ih =>
    rw [indexRoutes_snoc, Nat.zero_add]
    exact flag_sound_indexRoute l _ _ r ih

/-- A route of the size of a group is among the candidates of that group. -/
theorem IndexOf.mem_group {l : List (Route H)} {G : List SizeGroup} (h : IndexOf l G)
    (g : SizeGroup) (hg : g ∈ G) (i : Nat) (r : Route H) (hr : l[i]? = some r)
    (hsz : r.parts.length = g.size) : i ∈ g.literalFirst [] := by
  have hi : i < l.length := (List.getElem?_eq_some_iff.1 hr).1
  have hmem : i ∈ G.flatMap (fun g => g.literalFirst []) := by
    rw [h.flat]; exact List.mem_range.2 hi
  obtain ⟨g', hg', hig'⟩ := List.mem_flatMap.1 hmem
  obtain ⟨r', hr', hsz', _⟩ := h.member g' hg' i hig'
  rw [hr] at hr'
  simp only [Option.some.injEq] at hr'
  subst hr'
  have hnodup : (G.map (·.size)).Nodup := h.sizes.imp (fun hab => (Nat.ne_of_lt hab).symm)
  have : g' = g := List.inj_on_of_nodup_map hnodup hg' hg (by rw [← hsz', hsz])
  rw [← this]
  exact hig'

end WildcardMatcher

/-! ## The merge step of `add` -/

namespace WildcardMatcher

variable {H : Type}

theorem mergeScan_of_equal : ∀ (es ns : List Part) (i : Nat) (diff : Option Nat),
    List.Forall₂ (fun a b => equalPart a b = true) es ns →
    mergeScan es ns i diff = some diff := by
  intro es ns i diff h
  induction h generalizing i with
  | nil => simp [mergeScan]
  | cons hab _ ih => simp only [mergeScan, hab, if_true]; exact ih (i + 1)

theorem mergeable_of_shape (ep np : Part)
    (h : (∃ a b, ep = .literal a ∧ np = .literal b) ∨ (∃ s b, ep = .set s ∧ np = .literal b)) :
    mergeable ep np = true := by
  rcases h with ⟨a, b, rfl, rfl⟩ | ⟨s, b, rfl, rfl⟩ <;> rfl

theorem shape_of_mergeable (ep np : Part) (h : mergeable ep np = true) :
    (∃ a b, ep = .literal a ∧ np = .literal b) ∨ (∃ s b, ep = .set s ∧ np = .literal b) := by
  cases ep <;> cases np <;> simp [mergeable] at h ⊢

/-- The scan finds the index at which the parts differ. -/
theorem mergeScan_of_differsOnlyAt (es ns : List Part) (k : Nat)
    (h : DiffersOnlyAt es ns k) : ∀ i, mergeScan es ns i none = some (some (i + k)) := by
  obtain ⟨P, P', ep, np, Q, Q', hes, hns, hlen, hP, hQ, hne, hshape⟩ := h
  subst hes hns
  induction hP generalizing k with
  | nil =>
    intro i
    simp only [List.length_nil] at hlen
    subst hlen
    simp only [List.nil_append, mergeScan, hne, Bool.false_eq_true, if_false,
      mergeable_of_shape ep np hshape, if_true, Nat.add_zero]
    exact mergeScan_of_equal Q Q' (i + 1) (some i) hQ
  | @cons a b P P' hab _ ih =>
    intro i
    simp only [List.length_cons] at hlen
    subst hlen
    have hrec := ih P.length rfl (i + 1)
    simp only [List.cons_append, mergeScan, hab, if_true]
    refine Eq.trans hrec ?_
    congr 2
    omega

theorem mergeScan_after_diff : ∀ (es ns : List Part) (i d0 : Nat) (x : Option Nat),
    es.length = ns.length → mergeScan es ns i (some d0) = some x →
    x = some d0 ∧ List.Forall₂ (fun a b => equalPart a b = true) es ns := by
  intro es
  induction es with
  | nil =>
    intro ns i d0 x hlen h
    cases ns with
    | nil => simp only [mergeScan, Option.some.injEq] at h; exact ⟨h.symm, List.Forall₂.nil⟩
    | cons _ _ => simp at hlen
  | cons ep es ih =>
    intro ns i d0 x hlen h
    cases ns with
    | nil => simp at hlen
    | cons np ns =>
      simp only [List.length_cons, Nat.add_right_cancel_iff] at hlen
      simp only [mergeScan] at h
      split at h
      · rename_i heq
        obtain ⟨h1, h2⟩ := ih ns (i + 1) d0 x hlen h
        exact ⟨h1, List.Forall₂.cons heq h2⟩
      · split at h <;> simp at h

/-- What the scan finds is the one index at which the parts differ. -/
theorem differsOnlyAt_of_mergeScan : ∀ (es ns : List Part) (i d : Nat),
    es.length = ns.length → mergeScan es ns i none = some (some d) →
    i ≤ d ∧ DiffersOnlyAt es ns (d - i) := by
  intro es
  induction es with
  | nil =>
    intro ns i d hlen h
    cases ns with
    | nil => simp [mergeScan] at h
    | cons _ _ => simp at hlen
  | cons ep es ih =>
    intro ns i d hlen h
    cases ns with
    | nil => simp at hlen
    | cons np ns =>
      simp only [List.length_cons, Nat.add_right_cancel_iff] at hlen
      simp only [mergeScan] at h
      split at h
      · rename_i heq
        obtain ⟨hle, P, P', ep', np', Q, Q', hes, hns, hl, hP, hQ, hne, hshape⟩ :=
          ih ns (i + 1) d hlen h
        refine ⟨by omega, ep :: P, np :: P', ep', np', Q, Q', by rw [hes]; rfl,
          by rw [hns]; rfl, ?_, List.Forall₂.cons heq hP, hQ, hne, hshape⟩
        simp only [List.length_cons, hl]
        omega
      · rename_i hneq
        split at h
        · rename_i hmerge
          obtain ⟨h1, h2⟩ := mergeScan_after_diff es ns (i + 1) i (some d) hlen h
          simp only [Option.some.injEq] at h1
          subst h1
          refine ⟨le_refl _, [], [], ep, np, es, ns, rfl, rfl, by simp, List.Forall₂.nil, h2,
            by simpa using hneq, shape_of_mergeable ep np hmerge⟩
        · simp at h

theorem mergeAt_decomposed (ep np : Part) (Q Q' : List Part) :
    ∀ (P P' : List Part), P.length = P'.length →
      mergeAt P.length (P ++ ep :: Q) (P' ++ np :: Q') = P ++ mergePart ep np :: Q := by
  intro P
  induction P with
  | nil =>
    intro P' h
    cases P' with
    | nil => rfl
    | cons _ _ => simp at h
  | cons a P ih =>
    intro P' h
    cases P' with
    | nil => simp at h
    | cons b P' =>
      simp only [List.length_cons, Nat.add_right_cancel_iff] at h
      have hrec := ih P' h
      simp only [List.cons_append, List.length_cons, mergeAt]
      exact congrArg (a :: ·) hrec

theorem length_eq_of_differsOnlyAt (es ns : List Part) (d : Nat) (h : DiffersOnlyAt es ns d) :
    es.length = ns.length := by
  obtain ⟨P, P', ep, np, Q, Q', hes, hns, _, hP, hQ, _, _⟩ := h
  subst hes hns
  simp [hP.length_eq, hQ.length_eq]

/-- The outer loop passes a route that is no candidate. -/
theorem mergeInto_skip [DecidableEq H] (parts : List Part) (handler : H) (a : Route H)
    (rest : List (Route H)) (ha : ¬ MergeCandidate a parts handler) :
    mergeInto parts handler (a :: rest) = (mergeInto parts handler rest).map (a :: ·) := by
  simp only [mergeInto]
  split
  · rfl
  · rename_i hh
    split
    · rfl
    · rename_i hl
      split
      · rename_i d hscan
        exfalso
        apply ha
        refine ⟨by simpa using hh, d, ?_⟩
        have := (differsOnlyAt_of_mergeScan a.parts parts 0 d (by simpa using hl) hscan).2
        simpa using this
      · rfl

/-- The merge rewrites the first candidate in place. -/
theorem mergeInto_first_candidate [DecidableEq H] (parts : List Part) (handler : H)
    (r : Route H) (B : List (Route H)) (d : Nat) (hh : r.handler = handler)
    (hd : DiffersOnlyAt r.parts parts d) :
    ∀ A : List (Route H), (∀ a ∈ A, ¬ MergeCandidate a parts handler) →
      mergeInto parts handler (A ++ r :: B) =
        some (A ++ { r with parts := mergeAt d r.parts parts } :: B) := by
  intro A
  induction A with
  | nil =>
    intro _
    have hscan := mergeScan_of_differsOnlyAt r.parts parts d hd 0
    simp only [Nat.zero_add] at hscan
    simp only [List.nil_append, mergeInto, hh, ne_eq, not_true_eq_false, if_false,
      length_eq_of_differsOnlyAt r.parts parts d hd, hscan]
  | cons a A ih =>
    intro hA
    rw [List.cons_append, mergeInto_skip parts handler a _ (hA a (List.mem_cons_self _ _)),
      ih (fun x hx => hA x (List.mem_cons_of_mem _ hx))]
    rfl

/-- A merge keeps the part count, the handler and the pattern text of every
route, in place. -/
theorem mergeInto_identity [DecidableEq H] (parts : List Part) (handler : H) :
    ∀ (l merged : List (Route H)), mergeInto parts handler l = some merged →
      merged.map (fun r => (r.parts.length, r.handler, r.pattern)) =
        l.map (fun r => (r.parts.length, r.handler, r.pattern)) := by
  intro l
  induction l with
  | nil => intro merged h; simp [mergeInto] at h
  | cons existing rest ih =>
    intro merged h
    have hrec : ∀ m, (mergeInto parts handler rest).map (existing :: ·) = some m →
        m.map (fun r => (r.parts.length, r.handler, r.pattern)) =
          (existing :: rest).map (fun r => (r.parts.length, r.handler, r.pattern)) := by
      intro m hm
      cases hr : mergeInto parts handler rest with
      | none => simp [hr] at hm
      | some m' =>
        simp only [hr, Option.map_some', Option.some.injEq] at hm
        subst hm
        simp only [List.map_cons]
        rw [ih m' hr]
    simp only [mergeInto] at h
    split at h
    · exact hrec merged h
    · split at h
      · exact hrec merged h
      · split at h
        · simp only [Option.some.injEq] at h
          subst h
          simp only [List.map_cons, length_mergeAt]
        · exact hrec merged h

/-- A list in descending order of a key splits, at any bound, into the
elements at or above the bound followed by those below it. -/
theorem sorted_filter_split {α : Type} (key : α → Nat) (n : Nat) : ∀ l : List α,
    l.Pairwise (fun a b => key b ≤ key a) →
    l = l.filter (fun a => decide (n ≤ key a)) ++ l.filter (fun a => decide (key a < n)) := by
  intro l
  induction l with
  | nil => intro _; rfl
  | cons a l ih =>
    intro h
    rw [List.pairwise_cons] at h
    by_cases ha : n ≤ key a
    · have ha' : ¬ key a < n := by omega
      simp only [List.filter_cons, ha, decide_True, if_true, ha', decide_False,
        Bool.false_eq_true, if_false, List.cons_append]
      rw [← ih h.2]
    · have ha' : key a < n := by omega
      have h1 : l.filter (fun b => decide (n ≤ key b)) = [] := by
        rw [List.filter_eq_nil_iff]
        intro b hb
        have := h.1 b hb
        simp only [decide_eq_true_eq]
        omega
      have h2 : l.filter (fun b => decide (key b < n)) = l := by
        rw [List.filter_eq_self]
        intro b hb
        have := h.1 b hb
        simp only [decide_eq_true_eq]
        omega
      simp only [List.filter_cons, ha, decide_False, Bool.false_eq_true, if_false, ha',
        decide_True, if_true, h1, h2, List.nil_append]

end WildcardMatcher

/-! ## Routes without a double star -/

namespace WildcardMatcher

/-- Without a pending double star, one iteration of the loop on a part that is
no double star advances when the segment satisfies the part and leaves the
loop otherwise. -/
theorem matchStep_satisfies (parts : List Part) (path : List Str) (j : Nat) (p : Part)
    (seg : Str) (hseg : path[j]? = some seg) (hpart : parts[j]? = some p)
    (hp : p ≠ .doubleStar) :
    matchStep parts path ⟨j, j, none⟩ =
      if satisfiesPart p seg = true then .next ⟨j + 1, j + 1, none⟩ else .done j j := by
  cases p with
  | doubleStar => exact absurd rfl hp
  | literal l => by_cases h : seg = l <;> simp [matchStep, hseg, hpart, satisfiesPart, h]
  | star => by_cases h : seg = [] <;> simp [matchStep, hseg, hpart, satisfiesPart, h]
  | set s =>
    by_cases h : seg = [] <;> by_cases h' : seg ∈ s <;>
      simp [matchStep, hseg, hpart, satisfiesPart, h, h']
  | negSet s =>
    by_cases h : seg = [] <;> by_cases h' : seg ∈ s <;>
      simp [matchStep, hseg, hpart, satisfiesPart, h, h']

/-- On parts without a double star the loop started at `(j, j)` is left at the
first position at which the segments end, the parts end, or the segment does
not satisfy the part. -/
theorem run_no_doubleStar (parts : List Part) (path : List Str)
    (h : ∀ p ∈ parts, p ≠ .doubleStar) :
    ∀ (n j : Nat), path.length - j ≤ n →
      ∃ k, Run parts path ⟨j, j, none⟩ (k, k) ∧
        (∀ i, j ≤ i → i < k →
          ∃ p seg, parts[i]? = some p ∧ path[i]? = some seg ∧ satisfiesPart p seg = true) ∧
        (path.length ≤ k ∨ parts[k]? = none ∨
          ∃ p seg, parts[k]? = some p ∧ path[k]? = some seg ∧ satisfiesPart p seg = false) := by
  intro n
  induction n with
  | zero =>
    intro j hj
    refine ⟨j, Run.done ?_, fun i h1 h2 => by omega, Or.inl (by omega)⟩
    have : path[j]? = none := List.getElem?_eq_none (by omega)
    simp [matchStep, this]
  | succ n ih =>
    intro j hj
    cases hseg : path[j]? with
    | none =>
      refine ⟨j, Run.done ?_, fun i h1 h2 => by omega, Or.inl ?_⟩
      · simp [matchStep, hseg]
      · exact List.getElem?_eq_none_iff.1 hseg
    | some seg =>
      have hjlt : j < path.length := by
        by_contra hc
        rw [List.getElem?_eq_none (by omega)] at hseg
        cases hseg
      cases hpart : parts[j]? with
      | none =>
        refine ⟨j, Run.done ?_, fun i h1 h2 => by omega, Or.inr (Or.inl hpart)⟩
        simp [matchStep, hseg, hpart]
      | some p =>
        have hp : p ≠ .doubleStar := h p (List.getElem?_mem hpart)
        have hstep := matchStep_satisfies parts path j p seg hseg hpart hp
        cases hs : satisfiesPart p seg with
        | false =>
          rw [hs] at hstep
          refine ⟨j, Run.done (by simpa using hstep), fun i h1 h2 => by omega,
            Or.inr (Or.inr ⟨p, seg, hpart, hseg, hs⟩)⟩
        | true =>
          rw [hs] at hstep
          obtain ⟨k, hrun, hall, hend⟩ := ih (j + 1) (by omega)
          refine ⟨k, Run.next (by simpa using hstep) hrun, ?_, hend⟩
          intro i h1 h2
          by_cases hij : i = j
          · subst hij
            exact ⟨p, seg, hpart, hseg, hs⟩
          · exact hall i (by omega) h2

end WildcardMatcher

/-! ## The greedy scan of the simple matcher -/

namespace SimpleWildcardMatcher

variable {H : Type}

/-- `find` returns an occurrence at or before every occurrence that starts at
or after the cursor. -/
theorem findStr_le (f : Str) (hf : f ≠ []) : ∀ (input : Str) (pos q : Nat), pos ≤ q →
    f.isPrefixOf (input.drop q) = true →
    ∃ found, findStr f input pos = some found ∧ found ≤ q := by
  intro input
  induction input with
  | nil =>
    intro pos q _ h
    cases f with
    | nil => exact absurd rfl hf
    | cons a f => simp at h
  | cons c cs ih =>
    intro pos q hle h
    cases pos with
    | zero =>
      by_cases hp : f.isPrefixOf (c :: cs) = true
      · exact ⟨0, by simp [findStr, hp], Nat.zero_le _⟩
      · cases q with
        | zero => exact absurd h hp
        | succ q =>
          obtain ⟨found, hfound, hle'⟩ := ih 0 q (Nat.zero_le _) (by simpa using h)
          exact ⟨found + 1, by simp [findStr, hp, hfound], by omega⟩
    | succ pos =>
      cases q with
      | zero => omega
      | succ q =>
        obtain ⟨found, hfound, hle'⟩ := ih pos q (by omega) (by simpa using h)
        exact ⟨found + 1, by simp [findStr, hfound], by omega⟩

theorem isPrefixOf_append_self (f rest : Str) : f.isPrefixOf (f ++ rest) = true := by
  rw [List.isPrefixOf_iff_prefix]
  exact List.prefix_append f rest

/-- The greedy scan finds all fragments but the last of a glob instance that
starts at or after the cursor. -/
theorem scanInterior_globInstance : ∀ (frags xs : List Str) (pre : Str) (pos : Nat),
    pos ≤ pre.length →
    scanInterior (pre ++ globInstance frags xs) frags.dropLast pos = true := by
  intro frags
  induction frags with
  | nil => intro xs pre pos _; rfl
  | cons f fs ih =>
    intro xs pre pos hpos
    cases fs with
    | nil => rfl
    | cons g fs =>
      have key : ∀ (x : Str) (xs' : List Str),
          scanInterior (pre ++ (f ++ x ++ globInstance (g :: fs) xs'))
            (f :: (g :: fs).dropLast) pos = true := by
        intro x xs'
        have happ : pre ++ (f ++ x ++ globInstance (g :: fs) xs') =
            (pre ++ f ++ x) ++ globInstance (g :: fs) xs' := by
          simp only [List.append_assoc]
        by_cases hf : f = []
        · simp only [scanInterior, hf, if_true]
          have := ih xs' (pre ++ f ++ x) pos (by simp; omega)
          rw [← happ, hf] at this
          exact this
        · have hocc : f.isPrefixOf
              ((pre ++ (f ++ x ++ globInstance (g :: fs) xs')).drop pre.length) = true := by
            rw [List.drop_left, List.append_assoc]
            exact isPrefixOf_append_self f _
          obtain ⟨found, hfound, hle⟩ := findStr_le f hf _ pos pre.length hpos hocc
          simp only [scanInterior, hf, if_false, hfound]
          have := ih xs' (pre ++ f ++ x) (found + f.length) (by simp; omega)
          rw [← happ] at this
          exact this
      cases xs with
      | nil =>
        have := key [] []
        simpa [globInstance] using this
      | cons x xs' => exact key x xs'

/-- The first fragment starts every glob instance. -/
theorem head_prefix_globInstance (f : Str) (fs xs : List Str) :
    f.isPrefixOf (globInstance (f :: fs) xs) = true := by
  cases fs with
  | nil => simp [globInstance]
  | cons g fs =>
    cases xs with
    | nil => exact isPrefixOf_append_self f _
    | cons x xs =>
      simp only [globInstance, List.append_assoc]
      exact isPrefixOf_append_self f _

/-- The last fragment ends every glob instance. -/
theorem last_suffix_globInstance : ∀ (frags xs : List Str),
    (frags.getLastD []) <:+ globInstance frags xs := by
  intro frags
  induction frags with
  | nil => intro xs; exact List.nil_suffix
  | cons f fs ih =>
    intro xs
    cases fs with
    | nil => exact List.suffix_refl _
    | cons g fs =>
      have hlast : (f :: g :: fs).getLastD [] = (g :: fs).getLastD [] := by
        simp [List.getLastD]
      rw [hlast]
      cases xs with
      | nil =>
        exact (ih []).trans (List.suffix_append _ _)
      | cons x xs =>
        exact (ih xs).trans (List.suffix_append _ _)

end SimpleWildcardMatcher

/-! ## Glob instances and the test of the simple matcher -/

namespace SimpleWildcardMatcher

variable {H : Type}

/-- The test of `match` accepts every glob instance of the fragments of a
compiled pattern, whatever its flags. -/
theorem accepts_globInstance (c : Compiled H) (xs : List Str) :
    accepts c (globInstance c.parts xs) = true := by
  have hpre : (c.parts.headD []).isPrefixOf (globInstance c.parts xs) = true := by
    cases c.parts with
    | nil => rfl
    | cons f fs => exact head_prefix_globInstance f fs xs
  have hsuf : (c.parts.getLastD []).isSuffixOf (globInstance c.parts xs) = true := by
    rw [List.isSuffixOf_iff_suffix]
    exact last_suffix_globInstance _ _
  have hscan : ∀ pos, pos ≤ (c.parts.headD []).length →
      scanInterior (globInstance c.parts xs) (c.parts.drop 1).dropLast pos = true := by
    intro pos hpos
    cases hp : c.parts with
    | nil => rfl
    | cons f fs =>
      rw [hp] at hpos
      simp only [List.headD_cons] at hpos
      cases fs with
      | nil => rfl
      | cons g fs =>
        cases xs with
        | nil => exact scanInterior_globInstance (g :: fs) [] f pos hpos
        | cons x xs =>
          have := scanInterior_globInstance (g :: fs) xs (f ++ x) pos
            (by rw [List.length_append]; omega)
          exact this
  unfold accepts
  simp only [hpre, hsuf, Bool.not_true, Bool.and_false, Bool.false_eq_true, if_false]
  split
  · rfl
  · apply hscan
    split
    · exact le_refl _
    · exact Nat.zero_le _

end SimpleWildcardMatcher

/-! ## The pattern texts that `add` stores -/

namespace WildcardMatcher

variable {H : Type}

/-- Every route after `add` carries the text of the added pattern or the text
of a route that was there before. -/
theorem pattern_mem_add [DecidableEq H] (wm : WildcardMatcher H) (p : Str) (h : H) :
    ∀ r ∈ (wm.add p h).patterns, r.pattern = p ∨ ∃ r' ∈ wm.patterns, r'.pattern = r.pattern := by
  intro r hr
  unfold WildcardMatcher.add at hr
  simp only at hr
  cases hm : mergeInto (compile wm.segmentChar p) h wm.patterns with
  | some merged =>
    rw [hm] at hr
    simp only at hr
    have hid := mergeInto_identity (compile wm.segmentChar p) h wm.patterns merged hm
    have hmem : (r.parts.length, r.handler, r.pattern) ∈
        merged.map (fun r => (r.parts.length, r.handler, r.pattern)) :=
      List.mem_map.2 ⟨r, hr, rfl⟩
    rw [hid] at hmem
    obtain ⟨r', hr', heq⟩ := List.mem_map.1 hmem
    exact Or.inr ⟨r', hr', by
      have := congrArg (fun t => t.2.2) heq
      exact this⟩
  | none =>
    rw [hm] at hr
    simp only at hr
    have hmem := (stdSort_perm (fun r : Route H => r.parts.length) _).mem_iff.1 hr
    rcases List.mem_append.1 hmem with h1 | h1
    · exact Or.inr ⟨r, h1, rfl⟩
    · simp only [List.mem_singleton] at h1
      exact Or.inl (by rw [h1])

end WildcardMatcher

namespace Matcher

variable {H : Type}

/-- What the loop of `add` over concrete patterns of `l` keeps: no fallback,
and no exact key, route or compiled entry with a text outside `l`. -/
theorem addExpanded_texts [DecidableEq H] (l : List Str) (h : H) (m : Matcher H) (c : Str)
    (hc : c ∈ l)
    (hinv : m.fallback = none ∧ (∀ k, k ∉ l → m.exactMatches k = none) ∧
      (∀ r ∈ m.wildcards.patterns, r.pattern ∈ l) ∧
      (∀ r ∈ m.simpleWildcards.compiled, r.pattern ∈ l)) :
    (m.addExpanded c h).fallback = none ∧
      (∀ k, k ∉ l → (m.addExpanded c h).exactMatches k = none) ∧
      (∀ r ∈ (m.addExpanded c h).wildcards.patterns, r.pattern ∈ l) ∧
      (∀ r ∈ (m.addExpanded c h).simpleWildcards.compiled, r.pattern ∈ l) := by
  obtain ⟨hf, he, hw, hs⟩ := hinv
  cases hcw : Internal.containsWildcardOrNegSet c with
  | true =>
    cases hsm : m.options.simpleMatcher with
    | true =>
      rw [addExpanded_simple m c h hcw hsm]
      refine ⟨hf, he, hw, ?_⟩
      intro r hr
      simp only [SimpleWildcardMatcher.add, List.mem_append, List.mem_singleton] at hr
      rcases hr with hr | hr
      · exact hs r hr
      · rw [hr]; exact hc
    | false =>
      rw [addExpanded_segment m c h hcw hsm]
      refine ⟨hf, he, ?_, hs⟩
      intro r hr
      rcases WildcardMatcher.pattern_mem_add m.wildcards c h r hr with h1 | ⟨r', hr', h1⟩
      · rw [h1]; exact hc
      · rw [← h1]; exact hw r' hr'
  | false =>
    obtain ⟨v, hv, _⟩ := addExpanded_exact m c h hcw
    rw [hv]
    refine ⟨hf, ?_, hw, hs⟩
    intro k hk
    have hkc : k ≠ c := fun e => hk (e ▸ hc)
    simp only [hkc, if_false]
    exact he k hk

theorem foldl_addExpanded_texts [DecidableEq H] (l : List Str) (h : H) :
    ∀ (l' : List Str) (m : Matcher H), (∀ c ∈ l', c ∈ l) →
      (m.fallback = none ∧ (∀ k, k ∉ l → m.exactMatches k = none) ∧
        (∀ r ∈ m.wildcards.patterns, r.pattern ∈ l) ∧
        (∀ r ∈ m.simpleWildcards.compiled, r.pattern ∈ l)) →
      ((l'.foldl (fun m c => m.addExpanded c h) m).fallback = none ∧
        (∀ k, k ∉ l → (l'.foldl (fun m c => m.addExpanded c h) m).exactMatches k = none) ∧
        (∀ r ∈ (l'.foldl (fun m c => m.addExpanded c h) m).wildcards.patterns, r.pattern ∈ l) ∧
        (∀ r ∈ (l'.foldl (fun m c => m.addExpanded c h) m).simpleWildcards.compiled,
          r.pattern ∈ l)) ∧
      (l'.foldl (fun m c => m.addExpanded c h) m).options = m.options := by
  intro l'
  induction l' with
  | nil => intro m _ hinv; exact ⟨hinv, rfl⟩
  | cons c l' ih =>
    intro m hsub hinv
    have hstep := addExpanded_texts l h m c (hsub c (List.mem_cons_self _ _)) hinv
    obtain ⟨h1, h2⟩ := ih (m.addExpanded c h)
      (fun x hx => hsub x (List.mem_cons_of_mem _ hx)) hstep
    exact ⟨h1, h2.trans (addExpanded_options m c h).1⟩

/-- A matcher without exact keys, routes, compiled entries and fallback
answers nothing. -/
theorem matchInput_of_nothing_stored [DecidableEq H] (m : Matcher H) (hm : m.Reachable)
    (he : ∀ k, m.exactMatches k = none) (hf : m.fallback = none)
    (hw : m.options.simpleMatcher = false → m.wildcards.patterns = [])
    (hs : m.options.simpleMatcher = true → m.simpleWildcards.compiled = [])
    (input : Str) : m.matchInput input = none := by
  unfold matchInput
  rw [he input]
  simp only
  cases hsm : m.options.simpleMatcher with
  | true =>
    simp [SimpleWildcardMatcher.matchInput, hs hsm, hf]
  | false =>
    have := WildcardMatcher.matchInput_eq_find m.wildcards hm.wildcards.1.wf input
    rw [hw hsm] at this
    simp [this, hf]

end Matcher

/-! ## Two patterns merged into one route -/

namespace WildcardMatcher

variable {H : Type}

theorem equalPart_refl (p : Part) : equalPart p p = true := by
  cases p <;> simp [equalPart, setEq]

theorem forall₂_equalPart_refl : ∀ P : List Part,
    List.Forall₂ (fun a b => equalPart a b = true) P P := by
  intro P
  induction P with
  | nil => exact List.Forall₂.nil
  | cons p P ih => exact List.Forall₂.cons (equalPart_refl p) ih

/-- The route list after `add(c1, h)` and `add(c2, h)` on an index without
routes, when the parts of the two patterns differ in one literal only: one
route, with the set of both texts at the place of the literal, under the text
of the first pattern. -/
theorem add_add_merged [DecidableEq H] (wm : WildcardMatcher H) (hwm : wm.patterns = [])
    (c1 c2 : Str) (h : H) (P Q : List Part) (a b : Str)
    (hp1 : compile wm.segmentChar c1 = P ++ .literal a :: Q)
    (hp2 : compile wm.segmentChar c2 = P ++ .literal b :: Q) (hab : a ≠ b) :
    ((wm.add c1 h).add c2 h).patterns =
        [{ parts := P ++ .set [a, b] :: Q, handler := h, pattern := c1,
           hasDoubleStar := (compile wm.segmentChar c1).any (fun q => decide (q = .doubleStar)) }] ∧
      ((wm.add c1 h).add c2 h).segmentChar = wm.segmentChar := by
  have h1 : (wm.add c1 h).patterns =
      [{ parts := compile wm.segmentChar c1, handler := h, pattern := c1,
         hasDoubleStar := (compile wm.segmentChar c1).any
           (fun q => decide (q = .doubleStar)) }] := by
    simp [WildcardMatcher.add, hwm, mergeInto, stdSort_singleton]
  have hseg : (wm.add c1 h).segmentChar = wm.segmentChar := add_segmentChar wm c1 h
  have hd : DiffersOnlyAt (compile wm.segmentChar c1) (compile wm.segmentChar c2) P.length := by
    rw [hp1, hp2]
    exact ⟨P, P, .literal a, .literal b, Q, Q, rfl, rfl, rfl, forall₂_equalPart_refl P,
      forall₂_equalPart_refl Q, by simp [equalPart, hab], Or.inl ⟨a, b, rfl, rfl⟩⟩
  have hm := mergeInto_first_candidate (compile wm.segmentChar c2) h
    ({ parts := compile wm.segmentChar c1, handler := h, pattern := c1,
       hasDoubleStar := (compile wm.segmentChar c1).any
         (fun q => decide (q = .doubleStar)) } : Route H) [] P.length rfl hd []
    (fun _ hx => absurd hx (List.not_mem_nil _))
  have hat : mergeAt P.length (compile wm.segmentChar c1) (compile wm.segmentChar c2) =
      P ++ .set [a, b] :: Q := by
    rw [hp1, hp2, mergeAt_decomposed (.literal a) (.literal b) Q Q P P rfl]
    have hba : ¬ b = a := fun e => hab e.symm
    simp [mergePart, setInsert, hba]
  have h2 : ∀ wm1 : WildcardMatcher H, wm1.patterns =
        [{ parts := compile wm.segmentChar c1, handler := h, pattern := c1,
           hasDoubleStar := (compile wm.segmentChar c1).any
             (fun q => decide (q = .doubleStar)) }] →
      wm1.segmentChar = wm.segmentChar →
      (wm1.add c2 h).patterns =
        [{ parts := P ++ .set [a, b] :: Q, handler := h, pattern := c1,
           hasDoubleStar := (compile wm.segmentChar c1).any
             (fun q => decide (q = .doubleStar)) }] := by
    intro wm1 hp hs
    simp only [List.nil_append] at hm
    unfold WildcardMatcher.add
    simp only [hp, hs, hm, hat]
  refine ⟨h2 _ h1 hseg, ?_⟩
  rw [add_segmentChar, hseg]

end WildcardMatcher

namespace Matcher

variable {H : Type}

/-- On a segment-aware matcher, `add` of a wildcard concrete pattern that is
no fallback pattern and does not end in `.` hands the pattern to the wildcard
index. -/
theorem add_concrete_wildcard [DecidableEq H] (m : Matcher H) (c : Str) (h : H)
    (hs : m.options.simpleMatcher = false)
    (he : Internal.expandPattern c = .ok [c])
    (hw : Internal.containsWildcardOrNegSet c = true)
    (hf : c ≠ ['*'] ∧ c ≠ ['*', '*']) (hd : c.getLast? ≠ some '.') :
    m.add c h = .ok { m with wildcards := m.wildcards.add c h } := by
  have hne : c ≠ [] := by
    intro e
    rw [e] at hw
    revert hw
    decide
  have hf' : ¬ (c = ['*'] ∨ c = ['*', '*']) := fun e => e.elim hf.1 hf.2
  unfold add
  simp only [stripDot_of_ne c hd, hf', hne, if_false, he, List.foldl_cons, List.foldl_nil,
    addExpanded_segment m c h hw hs]

/-- On segment-aware matchers in reachable states, `match` is determined by
the exact map, the route list, the separator and the fallback. -/
theorem matchInput_congr [DecidableEq H] (m m' : Matcher H) (hm : m.Reachable)
    (hm' : m'.Reachable) (hopt : m'.options = m.options)
    (hsm : m.options.simpleMatcher = false)
    (hex : ∀ k, m'.exactMatches k = m.exactMatches k)
    (hpat : m'.wildcards.patterns = m.wildcards.patterns)
    (hseg : m'.wildcards.segmentChar = m.wildcards.segmentChar)
    (hfb : m'.fallback = m.fallback) (input : Str) :
    m'.matchInput input = m.matchInput input := by
  unfold matchInput
  rw [hex input, hopt, hsm, hfb,
    WildcardMatcher.matchInput_eq_find m'.wildcards hm'.wildcards.1.wf input,
    WildcardMatcher.matchInput_eq_find m.wildcards hm.wildcards.1.wf input, hpat, hseg]
  simp only [Bool.false_eq_true, if_false]

end Matcher

/-! ## Single concrete patterns in `add` and `remove` -/

namespace Matcher

variable {H : Type}

theorem add_concrete_wildcard_ex [DecidableEq H] (m : Matcher H) (c : Str) (h : H)
    (hs : m.options.simpleMatcher = false)
    (he : Internal.expandPattern c = .ok [c])
    (hw : Internal.containsWildcardOrNegSet c = true)
    (hf : c ≠ ['*'] ∧ c ≠ ['*', '*']) (hd : c.getLast? ≠ some '.') :
    ∃ m', m.add c h = .ok m' ∧ m'.wildcards = m.wildcards.add c h ∧ m'.options = m.options ∧
      m'.exactMatches = m.exactMatches ∧ m'.fallback = m.fallback :=
  ⟨_, add_concrete_wildcard m c h hs he hw hf hd, rfl, rfl, rfl, rfl⟩

/-- What `remove` of one concrete pattern leaves of a segment-aware matcher. -/
theorem remove_concrete [DecidableEq H] (m : Matcher H) (hm : m.Reachable)
    (hs : m.options.simpleMatcher = false) (c : Str)
    (he : Internal.expandPattern c = .ok [c]) :
    ∃ m', m.remove c = .ok m' ∧ m'.Reachable ∧ m'.options = m.options ∧
      m'.fallback = m.fallback ∧
      (∀ k, m'.exactMatches k = if k ∈ [c] then none else m.exactMatches k) ∧
      m'.wildcards.patterns = m.wildcards.patterns.filter (fun r => decide (r.pattern ∉ [c])) ∧
      m'.wildcards.segmentChar = m.wildcards.segmentChar := by
  have hrem : m.remove c = .ok ([c].foldl (fun m c => m.removeExpanded c) m) := by
    unfold Matcher.remove
    rw [he]
  obtain ⟨r1, _, r3, r4, r5, _⟩ := foldl_removeExpanded [c] m
  exact ⟨_, hrem, Reachable.remove c hm hrem, r1, r3, r4, (r5 hs).1, (r5 hs).2.1⟩

end Matcher

/-! ## The claims -/

/-- C1, as stated, fails: the pattern `/a/` contains no wildcard and no
negative set, yet after `add("/a/", 7)` on an empty path matcher `match("/a/")`
finds nothing, because the key stored is `/a`. -/
theorem exact_precedence_fails_on_trailing_separator :
    Internal.containsWildcardOrNegSet "/a/".toList = false ∧
    ((Matcher.pathMatcher : Matcher Nat).afterAdd "/a/".toList 7).matchInput "/a/".toList
      = none := by
  decide

/-- C1, amended: for every plain pattern `p` (not empty, no `{`, no `*`, no
trailing `/` or `.`) and every handler `h`, after `add(p, h)` the call
`match(p)` returns `h`, whatever insertions at wildcard patterns, with whatever
handlers, were made before and are made after, for every configuration and
separator. -/
theorem exact_precedence {H : Type} [DecidableEq H] (options : MatcherOptions H)
    (segmentChar : Char) (before after : List (Str × H)) (p : Str) (h : H)
    (hbefore : ∀ x ∈ before, Matcher.WildcardPattern x.1)
    (hafter : ∀ x ∈ after, Matcher.WildcardPattern x.1)
    (hp : Matcher.Plain p) :
    ((((Matcher.new options segmentChar).addAll before).afterAdd p h).addAll after).matchInput p
      = some h := by
  apply Matcher.matchInput_of_exact
  rw [Matcher.addAll_wildcardPattern after _ hafter]
  have hnone : ((Matcher.new options segmentChar).addAll before).exactMatches p = none := by
    rw [Matcher.addAll_wildcardPattern before _ hbefore]
    rfl
  have hc : Internal.containsWildcardOrNegSet p = false :=
    Internal.containsWildcardOrNegSet_false p hp.2.2.1 hp.2.1
  obtain ⟨v, hv, hvh⟩ := Matcher.addExpanded_exact
    ((Matcher.new options segmentChar).addAll before) p h hc
  simp only [Matcher.afterAdd, Matcher.add_plain _ p h hp, hv, if_true, hvh hnone]

/-- C1, amended, at a concrete input: `/api/special` between insertions at
`/api/**` and `/{a,b}/*`. -/
theorem exact_precedence_witness :
    ((((Matcher.new {} '/').addAll [("/api/**".toList, 9)]).afterAdd
        "/api/special".toList 10).addAll [("/\x7ba,b\x7d/*".toList, 11)]).matchInput
      "/api/special".toList = some 10 :=
  exact_precedence {} '/' [("/api/**".toList, 9)] [("/\x7ba,b\x7d/*".toList, 11)]
    "/api/special".toList 10 (by decide) (by decide) (by decide)

/-- C2: the order in which `match` consults its layers.  In every state and
for every input the result is the exact-map entry when there is one, otherwise
the answer of the configured wildcard layer when it has one, otherwise the
fallback (which may be unset).  In a reachable state, when the input is not an
exact key and some route of the configured wildcard layer accepts it, the
result is the handler of an accepting route, not the fallback. -/
theorem matchInput_dispatch {H : Type} [DecidableEq H] (m : Matcher H) (input : Str) :
    m.matchInput input =
      (m.exactMatches input).or ((m.wildcardLayer input).or m.fallback) ∧
    (m.Reachable → m.exactMatches input = none → m.options.simpleMatcher = false →
      (∃ r ∈ m.wildcards.patterns,
        WildcardMatcher.matchRoute r (Internal.splitSegments input m.segmentChar) = true) →
      ∃ r ∈ m.wildcards.patterns,
        WildcardMatcher.matchRoute r (Internal.splitSegments input m.segmentChar) = true ∧
        m.matchInput input = some r.handler) ∧
    (m.exactMatches input = none → m.options.simpleMatcher = true →
      (∃ c ∈ m.simpleWildcards.compiled, SimpleWildcardMatcher.accepts c input = true) →
      ∃ c ∈ m.simpleWildcards.compiled, SimpleWildcardMatcher.accepts c input = true ∧
        m.matchInput input = some c.handler) := by
  refine ⟨?_, ?_, ?_⟩
  · unfold Matcher.matchInput Matcher.wildcardLayer
    cases m.exactMatches input with
    | some h => rfl
    | none =>
      simp only [Option.or]
      split <;> simp_all
  · intro hm hex hs ⟨r, hr, hmatch⟩
    obtain ⟨hreach, hseg⟩ := hm.wildcards
    have hfind := WildcardMatcher.matchInput_eq_find m.wildcards hreach.wf input
    rw [hseg] at hfind
    cases hf : m.wildcards.patterns.find?
        (fun r => WildcardMatcher.matchRoute r (Internal.splitSegments input m.segmentChar)) with
    | none =>
      have := List.find?_eq_none.1 hf r hr
      simp [hmatch] at this
    | some r' =>
      refine ⟨r', List.mem_of_find?_eq_some hf, ?_, ?_⟩
      · simpa using List.find?_some hf
      · rw [hf] at hfind
        simp [Matcher.matchInput, hex, hs, hfind]
  · intro hex hs ⟨c, hc, hacc⟩
    cases hf : m.simpleWildcards.compiled.find?
        (fun c => SimpleWildcardMatcher.accepts c input) with
    | none =>
      have := List.find?_eq_none.1 hf c hc
      simp [hacc] at this
    | some c' =>
      refine ⟨c', List.mem_of_find?_eq_some hf, ?_, ?_⟩
      · simpa using List.find?_some hf
      · simp [Matcher.matchInput, hex, hs, SimpleWildcardMatcher.matchInput, hf]

/-- C2 on the router of test 8 with a fallback added: `/api/other` is no exact
key and the route of `/api/**` accepts it, so the answer is that route's
handler and not the fallback. -/
theorem matchInput_dispatch_witness :
    ∃ r ∈ ((((Matcher.new {} '/' : Matcher Nat).afterAdd "/api/**".toList 9).afterAdd
        "/api/special".toList 10).afterAdd "*".toList 1).wildcards.patterns,
      WildcardMatcher.matchRoute r (Internal.splitSegments "/api/other".toList '/') = true ∧
      ((((Matcher.new {} '/' : Matcher Nat).afterAdd "/api/**".toList 9).afterAdd
        "/api/special".toList 10).afterAdd "*".toList 1).matchInput "/api/other".toList
        = some r.handler :=
  (matchInput_dispatch
    ((((Matcher.new {} '/' : Matcher Nat).afterAdd "/api/**".toList 9).afterAdd
        "/api/special".toList 10).afterAdd "*".toList 1) "/api/other".toList).2.1
    ((((Matcher.Reachable.init {} '/').afterAdd "/api/**".toList 9).afterAdd
      "/api/special".toList 10).afterAdd "*".toList 1)
    (by decide) (by decide)
    ⟨⟨[.literal [], .literal "api".toList, .doubleStar], 9, "/api/**".toList, true⟩,
      by decide, by decide⟩

/-- C3: exact patterns match only the identical string.  On a matcher built
by insertions that store literal patterns only (no fallback), `match(q)` is
the exact-map entry of `q`, and it finds a handler iff `q` equals one of the
concrete patterns that were stored; after a single such insertion of `(p, h)`
the result is `h` on the concrete patterns of `p` and no match on every other
string, proper prefixes and extensions included. -/
theorem exact_match_iff_identical {H : Type} [DecidableEq H] (options : MatcherOptions H)
    (segmentChar : Char) (adds : List (Str × H))
    (hlit : ∀ x ∈ adds, Matcher.LiteralPattern x.1) (q : Str) :
    ((Matcher.new options segmentChar).addAll adds).matchInput q =
      ((Matcher.new options segmentChar).addAll adds).exactMatches q ∧
    ((((Matcher.new options segmentChar).addAll adds).matchInput q).isSome ↔
      ∃ x ∈ adds, q ∈ Matcher.concretePatterns x.1) ∧
    (∀ p h, adds = [(p, h)] →
      ((Matcher.new options segmentChar).addAll adds).matchInput q =
        if q ∈ Matcher.concretePatterns p then some h else none) := by
  obtain ⟨h1, h2, h3, h4⟩ := Matcher.addAll_literal adds (Matcher.new options segmentChar) hlit
  have hm : ((Matcher.new options segmentChar).addAll adds).matchInput q =
      ((Matcher.new options segmentChar).addAll adds).exactMatches q :=
    Matcher.matchInput_of_empty_layers _ _ (by rw [h1]; rfl) (by rw [h2]; rfl)
      (by rw [h3]; rfl) q
  refine ⟨hm, ?_, ?_⟩
  · rw [hm, h4 q]
    have hn : ((Matcher.new options segmentChar).exactMatches q).isSome = false := rfl
    rw [hn]
    constructor
    · rintro (h | h)
      · cases h
      · exact h
    · intro h; exact Or.inr h
  · intro p h hadds
    subst hadds
    rw [hm]
    have hp := hlit (p, h) (by simp)
    have e : (Matcher.new options segmentChar).addAll [(p, h)] =
        (Matcher.new options segmentChar).afterAdd p h := rfl
    rw [e, Matcher.afterAdd_eq_foldl _ p h hp.1]
    obtain ⟨_, _, _, _, _, j6⟩ := Matcher.foldl_addExpanded_literal h
      (Matcher.concretePatterns p) (Matcher.new options segmentChar) hp.2
    rw [j6 (fun q => Or.inl rfl) q]
    rfl

/-- C3 at the inputs of test 1: with `/api/v1/users` stored, the proper prefix
`/api/v1/user` finds nothing. -/
theorem exact_match_iff_identical_witness :
    ((Matcher.new {} '/').addAll [("/api/v1/users".toList, 1)]).matchInput
        "/api/v1/user".toList = none :=
  ((exact_match_iff_identical {} '/' [("/api/v1/users".toList, 1)] (by decide)
    "/api/v1/user".toList).2.2 _ _ rfl).trans (if_neg (by decide))

/-- C4, as stated, fails when a third route accepts the input: with `/**`
stored for handler 2, `/a/*` for handler 1 and `/a/b/**` for handler 0, the
routes of `/a/*` and `/**` both accept `/a/b`, have distinct handlers and three
and two parts, and `match("/a/b")` returns handler 0, which belongs to neither
of them. -/
theorem longer_first_fails_with_third_route :
    (⟨[.literal [], .literal ['a'], .star], 1, "/a/*".toList, false⟩ : Route Nat) ∈
      ((((WildcardMatcher.new '/' : WildcardMatcher Nat).add "/**".toList 2).add
        "/a/*".toList 1).add "/a/b/**".toList 0).patterns ∧
    (⟨[.literal [], .doubleStar], 2, "/**".toList, true⟩ : Route Nat) ∈
      ((((WildcardMatcher.new '/' : WildcardMatcher Nat).add "/**".toList 2).add
        "/a/*".toList 1).add "/a/b/**".toList 0).patterns ∧
    WildcardMatcher.matchRoute
      (⟨[.literal [], .literal ['a'], .star], 1, "/a/*".toList, false⟩ : Route Nat)
      (Internal.splitSegments "/a/b".toList '/') = true ∧
    WildcardMatcher.matchRoute
      (⟨[.literal [], .doubleStar], 2, "/**".toList, true⟩ : Route Nat)
      (Internal.splitSegments "/a/b".toList '/') = true ∧
    ((((WildcardMatcher.new '/' : WildcardMatcher Nat).add "/**".toList 2).add
        "/a/*".toList 1).add "/a/b/**".toList 0).matchInput "/a/b".toList = some 0 := by
  decide

/-- C4, amended: longer first.  In every reachable state of the segment-aware
index, when two routes with distinct handlers both accept the input and have
different part counts, `match` returns the handler of an accepting route that
has at least as many parts as the larger of the two, and as many as any
accepting route; when no third route accepts the input, that is the handler of
the larger of the two. -/
theorem longer_first {H : Type} [DecidableEq H] (wm : WildcardMatcher H) (hr : wm.Reachable)
    (input : Str) (r1 r2 : Route H) (h1 : r1 ∈ wm.patterns) (_h2 : r2 ∈ wm.patterns)
    (hm1 : WildcardMatcher.matchRoute r1 (Internal.splitSegments input wm.segmentChar) = true)
    (_hm2 : WildcardMatcher.matchRoute r2 (Internal.splitSegments input wm.segmentChar) = true)
    (hlen : r2.parts.length < r1.parts.length) (_hne : r1.handler ≠ r2.handler) :
    (∃ r ∈ wm.patterns,
      WildcardMatcher.matchRoute r (Internal.splitSegments input wm.segmentChar) = true ∧
      wm.matchInput input = some r.handler ∧ r1.parts.length ≤ r.parts.length ∧
      ∀ r' ∈ wm.patterns,
        WildcardMatcher.matchRoute r' (Internal.splitSegments input wm.segmentChar) = true →
        r'.parts.length ≤ r.parts.length) ∧
    ((∀ r' ∈ wm.patterns,
        WildcardMatcher.matchRoute r' (Internal.splitSegments input wm.segmentChar) = true →
        r' = r1 ∨ r' = r2) →
      wm.matchInput input = some r1.handler) := by
  have hwf := hr.wf
  have hfind := WildcardMatcher.matchInput_eq_find wm hwf input
  cases hf : wm.patterns.find?
      (fun r => WildcardMatcher.matchRoute r (Internal.splitSegments input wm.segmentChar)) with
  | none =>
    have := List.find?_eq_none.1 hf r1 h1
    simp [hm1] at this
  | some r =>
    rw [hf] at hfind
    have hmem := List.mem_of_find?_eq_some hf
    have hacc : WildcardMatcher.matchRoute r (Internal.splitSegments input wm.segmentChar)
        = true := by simpa using List.find?_some hf
    have hmax : ∀ r' ∈ wm.patterns,
        WildcardMatcher.matchRoute r' (Internal.splitSegments input wm.segmentChar) = true →
        r'.parts.length ≤ r.parts.length := by
      intro r' hr' hm'
      rcases find?_first_of_pairwise _ _ wm.patterns r hwf.sorted hf r' hr' hm' with e | hle
      · rw [e]
      · exact hle
    refine ⟨⟨r, hmem, hacc, hfind, hmax r1 h1 hm1, hmax⟩, ?_⟩
    intro honly
    rcases honly r hmem hacc with e | e
    · rw [hfind, e]; rfl
    · have := hmax r1 h1 hm1
      rw [e] at this
      omega

/-- C4, amended, at a concrete state: with `/**` stored for handler 2 and `/a/*` for
handler 1, the input `/a/b` is accepted by both routes and answered by the
route with three parts. -/
theorem longer_first_witness :
    (((WildcardMatcher.new '/' : WildcardMatcher Nat).add "/**".toList 2).add
        "/a/*".toList 1).matchInput "/a/b".toList = some 1 :=
  (longer_first _ (((WildcardMatcher.Reachable.init '/').add "/**".toList 2).add "/a/*".toList 1)
    "/a/b".toList ⟨[.literal [], .literal ['a'], .star], 1, "/a/*".toList, false⟩
    ⟨[.literal [], .doubleStar], 2, "/**".toList, true⟩
    (by decide) (by decide) (by decide) (by decide) (by decide) (by decide)).2 (by decide)

/-- C6 at its failing input: `add("/**/{x,y}/end", 1)` on an empty path
matcher expands to `/**/x/end` and `/**/y/end`, and `match("/**/x/end")` then
finds nothing, while the same call on a matcher that holds `/**/x/end` alone
returns the handler. -/
theorem brace_round_trip_fails_after_merge :
    Internal.expandPattern "/**/\x7bx,y\x7d/end".toList =
      .ok ["/**/x/end".toList, "/**/y/end".toList] ∧
    ((Matcher.pathMatcher : Matcher Nat).afterAdd "/**/\x7bx,y\x7d/end".toList 1).matchInput
      "/**/x/end".toList = none ∧
    ((Matcher.pathMatcher : Matcher Nat).afterAdd "/**/x/end".toList 1).matchInput
      "/**/x/end".toList = some 1 := by
  decide

/-- C7 at its failing input: after `add("/**/{x,y}/end", 1)` on an empty path
matcher `match("/q/x/end")` finds nothing, although `/**/x/end` is a concrete
pattern of the expansion and, inserted alone, answers `/q/x/end`. -/
theorem brace_group_merge_loses_match :
    "/**/x/end".toList ∈ Matcher.concretePatterns "/**/\x7bx,y\x7d/end".toList ∧
    ((Matcher.pathMatcher : Matcher Nat).afterAdd "/**/\x7bx,y\x7d/end".toList 1).matchInput
      "/q/x/end".toList = none ∧
    ((Matcher.pathMatcher : Matcher Nat).afterAdd "/**/x/end".toList 1).matchInput
      "/q/x/end".toList = some 1 := by
  decide

/-- C8 at its failing input: the route compiled from `/**/!{a}/b` and the
segments of `/a/c/b` satisfy the semantics of the spec (the double star takes
`a`, the negative set `c`, the literal `b`), and `matchRoute` rejects them. -/
theorem segment_matcher_rejects_spec_match :
    WildcardMatcher.matchesSpec (WildcardMatcher.compile '/' "/**/!\x7ba\x7d/b".toList)
      (Internal.splitSegments "/a/c/b".toList '/') = true ∧
    WildcardMatcher.matchParts (WildcardMatcher.compile '/' "/**/!\x7ba\x7d/b".toList)
      (Internal.splitSegments "/a/c/b".toList '/') = false ∧
    ((Matcher.pathMatcher : Matcher Nat).afterAdd "/**/!\x7ba\x7d/b".toList 1).matchInput
      "/a/c/b".toList = none := by
  decide

/-- C9: double-star zero-match.  For every path `L` of one or more literal
segments, on a segment-aware path matcher whose only route is `L/**`, `match`
returns the handler for `L` itself, for `L/`, and for `L/` followed by any
text. -/
theorem double_star_zero_match {H : Type} [DecidableEq H] (options : MatcherOptions H)
    (hs : options.simpleMatcher = false) (segs : List Str) (hne : segs ≠ [])
    (hlit : ∀ s ∈ segs, Matcher.LiteralSegment s) (h : H) :
    ((Matcher.pathMatcher options).afterAdd (Matcher.joinPath segs ++ ['/', '*', '*']) h).matchInput
        (Matcher.joinPath segs) = some h ∧
    ((Matcher.pathMatcher options).afterAdd (Matcher.joinPath segs ++ ['/', '*', '*']) h).matchInput
        (Matcher.joinPath segs ++ ['/']) = some h ∧
    ∀ t : Str,
      ((Matcher.pathMatcher options).afterAdd (Matcher.joinPath segs ++ ['/', '*', '*']) h).matchInput
        (Matcher.joinPath segs ++ '/' :: t) = some h := by
  have hfree : ∀ s ∈ segs, '/' ∉ s := fun s hs' => (hlit s hs').2.1
  have hcomp : WildcardMatcher.compile '/' (Matcher.joinPath segs ++ ['/', '*', '*']) =
      (([] : Str) :: segs).map Part.literal ++ [.doubleStar] :=
    Matcher.compile_joinPath segs ['*', '*'] hne hlit (by decide)
  have hbrace : '\x7b' ∉ Matcher.joinPath segs ++ ['/', '*', '*'] := by
    intro hm
    rcases List.mem_append.1 hm with h1 | h1
    · exact Matcher.not_mem_joinPath _ (by decide) segs (fun s hs' => (hlit s hs').2.2.1) h1
    · revert h1; decide
  have hfb : ¬ (Matcher.joinPath segs ++ ['/', '*', '*'] = ['*'] ∨
      Matcher.joinPath segs ++ ['/', '*', '*'] = ['*', '*']) := by
    rintro (e | e) <;>
    · have := congrArg List.length e
      simp only [List.length_append, List.length_cons, List.length_nil] at this
      omega
  have hmatch : ∀ input, ∀ rest, Internal.splitSegments input '/' = ([] : Str) :: segs ++ rest →
      ((Matcher.pathMatcher options).afterAdd (Matcher.joinPath segs ++ ['/', '*', '*']) h).matchInput
        input = some h := by
    intro input rest hsplit
    rw [Matcher.matchInput_single_wildcard options hs _ h hbrace (by simp)
      (by rw [Matcher.getLast?_append_cons_cons]; decide)
      (by rw [Matcher.getLast?_append_cons_cons]; decide) hfb input, hcomp, hsplit]
    have := WildcardMatcher.matchParts_literals_doubleStar (([] : Str) :: segs) rest (by simp)
    rw [if_pos this]
  refine ⟨?_, ?_, ?_⟩
  · apply hmatch _ []
    have := Matcher.splitSegments_joinPath segs [] hne hfree (Or.inl rfl)
    simpa [Internal.split] using this
  · apply hmatch _ [[]]
    have := Matcher.splitSegments_joinPath segs ['/'] hne hfree (Or.inr ⟨[], rfl⟩)
    simpa [Internal.split] using this
  · intro t
    apply hmatch _ (Internal.split t '/')
    have := Matcher.splitSegments_joinPath segs ('/' :: t) hne hfree (Or.inr ⟨t, rfl⟩)
    rw [Internal.split_cons_sep] at this
    simpa using this

/-- C9 on the route of test 6: `/files/**` answers `/files`. -/
theorem double_star_zero_match_witness :
    ((Matcher.pathMatcher {} : Matcher Nat).afterAdd
        (Matcher.joinPath ["files".toList] ++ ['/', '*', '*']) 7).matchInput
      (Matcher.joinPath ["files".toList]) = some 7 :=
  (double_star_zero_match {} rfl ["files".toList] (by decide) (by decide) 7).1

/-- C10: a star matches exactly one non-empty segment.  For every path `L` of
one or more literal segments, on a segment-aware path matcher whose only route
is `L/*`, `match` returns the handler for `L/x` for every non-empty
separator-free `x`, and finds nothing for `L`, for `L/`, and for `L/x/y` with
any `x` and `y`. -/
theorem star_one_nonempty_segment {H : Type} [DecidableEq H] (options : MatcherOptions H)
    (hs : options.simpleMatcher = false) (segs : List Str) (hne : segs ≠ [])
    (hlit : ∀ s ∈ segs, Matcher.LiteralSegment s) (h : H) :
    (∀ x : Str, x ≠ [] → '/' ∉ x →
      ((Matcher.pathMatcher options).afterAdd (Matcher.joinPath segs ++ ['/', '*']) h).matchInput
        (Matcher.joinPath segs ++ '/' :: x) = some h) ∧
    ((Matcher.pathMatcher options).afterAdd (Matcher.joinPath segs ++ ['/', '*']) h).matchInput
        (Matcher.joinPath segs) = none ∧
    ((Matcher.pathMatcher options).afterAdd (Matcher.joinPath segs ++ ['/', '*']) h).matchInput
        (Matcher.joinPath segs ++ ['/']) = none ∧
    (∀ x y : Str,
      ((Matcher.pathMatcher options).afterAdd (Matcher.joinPath segs ++ ['/', '*']) h).matchInput
        (Matcher.joinPath segs ++ '/' :: (x ++ '/' :: y)) = none) := by
  have hfree : ∀ s ∈ segs, '/' ∉ s := fun s hs' => (hlit s hs').2.1
  have hcomp : WildcardMatcher.compile '/' (Matcher.joinPath segs ++ ['/', '*']) =
      (([] : Str) :: segs).map Part.literal ++ [.star] :=
    Matcher.compile_joinPath segs ['*'] hne hlit (by decide)
  have hbrace : '\x7b' ∉ Matcher.joinPath segs ++ ['/', '*'] := by
    intro hm
    rcases List.mem_append.1 hm with h1 | h1
    · exact Matcher.not_mem_joinPath _ (by decide) segs (fun s hs' => (hlit s hs').2.2.1) h1
    · revert h1; decide
  have hfb : ¬ (Matcher.joinPath segs ++ ['/', '*'] = ['*'] ∨
      Matcher.joinPath segs ++ ['/', '*'] = ['*', '*']) := by
    cases segs with
    | nil => exact absurd rfl hne
    | cons s segs =>
      rintro (e | e) <;>
      · have := congrArg List.length e
        simp only [Matcher.joinPath_cons, List.length_append, List.length_cons,
          List.length_nil] at this
        omega
  have hmatch : ∀ input,
      ((Matcher.pathMatcher options).afterAdd (Matcher.joinPath segs ++ ['/', '*']) h).matchInput
        input =
      if WildcardMatcher.matchParts ((([] : Str) :: segs).map Part.literal ++ [.star])
        (Internal.splitSegments input '/') = true then some h else none := by
    intro input
    rw [Matcher.matchInput_single_wildcard options hs _ h hbrace (by simp)
      (by rw [Matcher.getLast?_append_cons_cons]; decide)
      (by rw [Matcher.getLast?_append_cons_cons]; decide) hfb input, hcomp]
  have hnods : ∀ p ∈ (([] : Str) :: segs).map Part.literal ++ [Part.star], p ≠ .doubleStar := by
    intro p hp
    rcases List.mem_append.1 hp with h1 | h1
    · obtain ⟨_, _, e⟩ := List.mem_map.1 h1
      rw [← e]; simp
    · simp only [List.mem_singleton] at h1
      rw [h1]; simp
  have hreject : ∀ path : List Str, path.length ≠ segs.length + 2 →
      WildcardMatcher.matchParts ((([] : Str) :: segs).map Part.literal ++ [.star]) path
        = false := by
    intro path hlen
    cases hm : WildcardMatcher.matchParts ((([] : Str) :: segs).map Part.literal ++ [.star])
        path with
    | false => rfl
    | true =>
      have := WildcardMatcher.matchParts_length_of_no_doubleStar _ path hnods hm
      simp only [List.length_append, List.length_map, List.length_cons, List.length_nil] at this
      omega
  refine ⟨?_, ?_, ?_, ?_⟩
  · intro x hx hsep
    have hsplit := Matcher.splitSegments_joinPath segs ('/' :: x) hne hfree (Or.inr ⟨x, rfl⟩)
    rw [Internal.split_cons_sep, Internal.split_of_not_mem '/' x hsep] at hsplit
    simp only [List.tail_cons] at hsplit
    rw [hmatch, hsplit]
    have := WildcardMatcher.matchParts_literals_star (([] : Str) :: segs) x (by simp)
    rw [if_pos (by rw [this]; simpa using hx)]
  · have hsplit := Matcher.splitSegments_joinPath segs [] hne hfree (Or.inl rfl)
    simp only [List.append_nil, Internal.split, List.tail_cons] at hsplit
    rw [hmatch, hsplit, hreject _ (by simp)]
    rfl
  · have hsplit := Matcher.splitSegments_joinPath segs ['/'] hne hfree (Or.inr ⟨[], rfl⟩)
    rw [Internal.split_cons_sep] at hsplit
    simp only [Internal.split, List.tail_cons] at hsplit
    rw [hmatch, hsplit]
    have := WildcardMatcher.matchParts_literals_star (([] : Str) :: segs) [] (by simp)
    rw [if_neg (by rw [this]; simp)]
  · intro x y
    have hsplit := Matcher.splitSegments_joinPath segs ('/' :: (x ++ '/' :: y)) hne hfree
      (Or.inr ⟨_, rfl⟩)
    rw [Internal.split_cons_sep] at hsplit
    simp only [List.tail_cons] at hsplit
    have hcount : 2 ≤ (Internal.split (x ++ '/' :: y) '/').length := by
      rw [Internal.length_split]
      have : 0 < (x ++ '/' :: y).count '/' := List.count_pos_iff.2 (by simp)
      omega
    rw [hmatch, hsplit, hreject _ (by
      simp only [List.length_append, List.length_cons]
      omega)]
    rfl

/-- C10 on the route of test 5: `/user/*` answers `/user/123`. -/
theorem star_one_nonempty_segment_witness :
    ((Matcher.pathMatcher {} : Matcher Nat).afterAdd
        (Matcher.joinPath ["user".toList] ++ ['/', '*']) 6).matchInput
      (Matcher.joinPath ["user".toList] ++ '/' :: "123".toList) = some 6 :=
  (star_one_nonempty_segment {} rfl ["user".toList] (by decide) (by decide) 6).1
    "123".toList (by decide) (by decide)

/-- C11: negative-set semantics.  For every non-empty list `S` of set values
(non-empty, free of `/`, `,` and braces, without surrounding whitespace), on a
fresh segment-aware path matcher whose only route is `/!{` + `S` joined by
commas + `}`, `match("/" + x)` returns the handler for every non-empty
separator-free `x` not in `S`, and finds nothing for every `x` in `S` and for
the input `/`. -/
theorem negSet_semantics {H : Type} [DecidableEq H] (options : MatcherOptions H)
    (hs : options.simpleMatcher = false) (S : List Str) (hS : S ≠ [])
    (hval : ∀ v ∈ S, Matcher.SetValue v) (h : H) :
    (∀ x : Str, x ≠ [] → '/' ∉ x → x ∉ S →
      ((Matcher.pathMatcher options).afterAdd
          ('/' :: '!' :: '\x7b' :: (Matcher.joinComma S ++ ['\x7d'])) h).matchInput ('/' :: x) =
        some h) ∧
    (∀ x : Str, x ∈ S →
      ((Matcher.pathMatcher options).afterAdd
          ('/' :: '!' :: '\x7b' :: (Matcher.joinComma S ++ ['\x7d'])) h).matchInput ('/' :: x) =
        none) ∧
    ((Matcher.pathMatcher options).afterAdd
        ('/' :: '!' :: '\x7b' :: (Matcher.joinComma S ++ ['\x7d'])) h).matchInput ['/'] =
      none := by
  refine ⟨?_, ?_, ?_⟩
  · intro x hx hsep hxs
    rw [Matcher.matchInput_negSet_route options hs S hS hval h x hsep, if_pos ⟨hx, hxs⟩]
  · intro x hxs
    rw [Matcher.matchInput_negSet_route options hs S hS hval h x (hval x hxs).2.1,
      if_neg (fun hc => hc.2 hxs)]
  · rw [Matcher.matchInput_negSet_route options hs S hS hval h [] (by simp),
      if_neg (fun hc => hc.1 rfl)]

/-- C11 on the route of test 7: with the only route `/!{a,b}`, `/c` answers
the handler, and `/a`, `/b` and `/` find nothing. -/
theorem negSet_semantics_witness :
    ((Matcher.pathMatcher {} : Matcher Nat).afterAdd
        ('/' :: '!' :: '\x7b' :: (Matcher.joinComma ["a".toList, "b".toList] ++ ['\x7d']))
        8).matchInput ('/' :: "c".toList) = some 8 ∧
    ((Matcher.pathMatcher {} : Matcher Nat).afterAdd
        ('/' :: '!' :: '\x7b' :: (Matcher.joinComma ["a".toList, "b".toList] ++ ['\x7d']))
        8).matchInput ('/' :: "a".toList) = none ∧
    ((Matcher.pathMatcher {} : Matcher Nat).afterAdd
        ('/' :: '!' :: '\x7b' :: (Matcher.joinComma ["a".toList, "b".toList] ++ ['\x7d']))
        8).matchInput ('/' :: "b".toList) = none ∧
    ((Matcher.pathMatcher {} : Matcher Nat).afterAdd
        ('/' :: '!' :: '\x7b' :: (Matcher.joinComma ["a".toList, "b".toList] ++ ['\x7d']))
        8).matchInput ['/'] = none :=
  ⟨(negSet_semantics {} rfl ["a".toList, "b".toList] (by decide) (by decide) 8).1
      "c".toList (by decide) (by decide) (by decide),
   (negSet_semantics {} rfl ["a".toList, "b".toList] (by decide) (by decide) 8).2.1
      "a".toList (by decide),
   (negSet_semantics {} rfl ["a".toList, "b".toList] (by decide) (by decide) 8).2.1
      "b".toList (by decide),
   (negSet_semantics {} rfl ["a".toList, "b".toList] (by decide) (by decide) 8).2.2⟩

/-- C12: optional segment via `{*,}`.  For every path `L` of literal segments,
`L/{*,}` expands to the wildcard pattern `L/*` and the exact pattern `L`, and
after `add(L/{*,}, h)` on a fresh segment-aware path matcher `match` returns
`h` for `L` and for `L/x` with `x` one non-empty segment, and finds nothing
for `L/x/y`. -/
theorem optional_star_segment {H : Type} [DecidableEq H] (options : MatcherOptions H)
    (hs : options.simpleMatcher = false) (segs : List Str)
    (hlit : ∀ s ∈ segs, Matcher.LiteralSegment s) (h : H) :
    Matcher.concretePatterns (Matcher.joinPath segs ++ ['/', '\x7b', '*', ',', '\x7d']) =
      [Matcher.joinPath segs ++ ['/', '*'], Matcher.joinPath segs] ∧
    ((Matcher.pathMatcher options).afterAdd
        (Matcher.joinPath segs ++ ['/', '\x7b', '*', ',', '\x7d']) h).matchInput
      (Matcher.joinPath segs) = some h ∧
    (∀ x : Str, x ≠ [] → '/' ∉ x →
      ((Matcher.pathMatcher options).afterAdd
          (Matcher.joinPath segs ++ ['/', '\x7b', '*', ',', '\x7d']) h).matchInput
        (Matcher.joinPath segs ++ '/' :: x) = some h) ∧
    (∀ x y : Str,
      ((Matcher.pathMatcher options).afterAdd
          (Matcher.joinPath segs ++ ['/', '\x7b', '*', ',', '\x7d']) h).matchInput
        (Matcher.joinPath segs ++ '/' :: (x ++ '/' :: y)) = none) := by
  obtain ⟨hcp, hst⟩ := Matcher.afterAdd_optional_star options hs segs hlit h
  have hfree : ∀ s ∈ segs, '/' ∉ s := fun s hs' => (hlit s hs').2.1
  have hmatch : ∀ input,
      ((Matcher.pathMatcher options).afterAdd
          (Matcher.joinPath segs ++ ['/', '\x7b', '*', ',', '\x7d']) h).matchInput input =
        if input = Matcher.joinPath segs then some h
        else if WildcardMatcher.matchParts ((([] : Str) :: segs).map Part.literal ++ [.star])
          (Internal.splitSegments input '/') = true then some h else none := by
    intro input
    rw [hst, Matcher.matchInput_one_route options hs,
      Matcher.compile_joinPath_sep segs ['*'] hlit (by decide)]
    by_cases hin : input = Matcher.joinPath segs
    · simp [hin]
    · simp only [hin, if_false]
      rfl
  have hnods : ∀ p ∈ (([] : Str) :: segs).map Part.literal ++ [Part.star], p ≠ .doubleStar := by
    intro p hp
    rcases List.mem_append.1 hp with h1 | h1
    · obtain ⟨_, _, e⟩ := List.mem_map.1 h1
      rw [← e]; simp
    · simp only [List.mem_singleton] at h1
      rw [h1]; simp
  refine ⟨hcp, ?_, ?_, ?_⟩
  · rw [hmatch, if_pos rfl]
  · intro x hx hsep
    rw [hmatch, if_neg (Matcher.length_joinPath_append_lt segs '/' x),
      Matcher.splitSegments_joinPath_sep segs x hfree, Internal.split_of_not_mem '/' x hsep]
    have := WildcardMatcher.matchParts_literals_star (([] : Str) :: segs) x (by simp)
    rw [if_pos (by rw [this]; simpa using hx)]
  · intro x y
    rw [hmatch, if_neg (Matcher.length_joinPath_append_lt segs '/' _),
      Matcher.splitSegments_joinPath_sep segs _ hfree]
    have hcount : 2 ≤ (Internal.split (x ++ '/' :: y) '/').length := by
      rw [Internal.length_split]
      have : 0 < (x ++ '/' :: y).count '/' := List.count_pos_iff.2 (by simp)
      omega
    cases hm : WildcardMatcher.matchParts ((([] : Str) :: segs).map Part.literal ++ [.star])
        ([] :: segs ++ Internal.split (x ++ '/' :: y) '/') with
    | false => simp
    | true =>
      have := WildcardMatcher.matchParts_length_of_no_doubleStar _ _ hnods hm
      simp only [List.length_append, List.length_map, List.length_cons, List.length_nil] at this
      omega

/-- C12 on the route of test 4: after `add("/test/{*,}", 5)`, `/test` and
`/test/foo` answer 5 and `/test/foo/bar` finds nothing. -/
theorem optional_star_segment_witness :
    ((Matcher.pathMatcher {} : Matcher Nat).afterAdd
        (Matcher.joinPath ["test".toList] ++ ['/', '\x7b', '*', ',', '\x7d']) 5).matchInput
      (Matcher.joinPath ["test".toList]) = some 5 ∧
    ((Matcher.pathMatcher {} : Matcher Nat).afterAdd
        (Matcher.joinPath ["test".toList] ++ ['/', '\x7b', '*', ',', '\x7d']) 5).matchInput
      (Matcher.joinPath ["test".toList] ++ '/' :: "foo".toList) = some 5 ∧
    ((Matcher.pathMatcher {} : Matcher Nat).afterAdd
        (Matcher.joinPath ["test".toList] ++ ['/', '\x7b', '*', ',', '\x7d']) 5).matchInput
      (Matcher.joinPath ["test".toList] ++ '/' :: ("foo".toList ++ '/' :: "bar".toList)) =
        none :=
  ⟨(optional_star_segment {} rfl ["test".toList] (by decide) 5).2.1,
   (optional_star_segment {} rfl ["test".toList] (by decide) 5).2.2.1 "foo".toList
     (by decide) (by decide),
   (optional_star_segment {} rfl ["test".toList] (by decide) 5).2.2.2 "foo".toList
     "bar".toList⟩

/-- C13, as stated, fails for equal handlers: with merging enabled and
`mergeFn` the sum, inserting `/merge` twice with handler 100 leaves 100 at
`/merge`, not `mergeFn(100, 100) = 200`; the merge is guarded by the test that
the stored handler differs from the incoming one. -/
theorem merge_skipped_for_equal_handlers :
    (((Matcher.pathMatcher { mergeHandlers := true, mergeFn := some (fun a b => a + b) } :
        Matcher Nat).afterAdd "/merge".toList 100).afterAdd "/merge".toList 100).matchInput
      "/merge".toList = some 100 ∧
    (fun a b : Nat => a + b) 100 100 ≠ 100 := by
  decide

/-- C13, amended: with `mergeHandlers` enabled and `mergeFn` configured, for
every plain pattern `p` not yet in the exact map and all handlers `h1`, `h2`,
after `add(p, h1)` then `add(p, h2)` the call `match(p)` returns
`mergeFn(h1, h2)` when `h1` and `h2` differ, and `h1` when they are equal. -/
theorem merge_on_exact_collision {H : Type} [DecidableEq H] (m : Matcher H) (f : H → H → H)
    (hmh : m.options.mergeHandlers = true) (hfn : m.options.mergeFn = some f)
    (p : Str) (hp : Matcher.Plain p) (hfree : m.exactMatches p = none) (h1 h2 : H) :
    ((m.afterAdd p h1).afterAdd p h2).matchInput p =
      some (if h1 = h2 then h1 else f h1 h2) := by
  have hc : Internal.containsWildcardOrNegSet p = false :=
    Internal.containsWildcardOrNegSet_false p hp.2.2.1 hp.2.1
  obtain ⟨v, hv, hvh⟩ := Matcher.addExpanded_exact m p h1 hc
  have h1eq : m.afterAdd p h1 =
      { m with exactMatches := fun k => if k = p then some h1 else m.exactMatches k } := by
    simp only [Matcher.afterAdd, Matcher.add_plain m p h1 hp, hv, hvh hfree]
  apply Matcher.matchInput_of_exact
  rw [h1eq]
  simp only [Matcher.afterAdd, Matcher.add_plain _ p h2 hp]
  rw [Matcher.addExpanded_merge
    { m with exactMatches := fun k => if k = p then some h1 else m.exactMatches k }
    p h2 h1 f hc hmh hfn (by simp)]
  by_cases heq : h1 = h2
  · simp [heq]
  · simp [heq]

/-- C13, amended, on the router of test 10: handlers 100 and 200 at `/merge`
merge to 300. -/
theorem merge_on_exact_collision_witness :
    (((Matcher.pathMatcher { mergeHandlers := true, mergeFn := some (fun a b => a + b) } :
        Matcher Nat).afterAdd "/merge".toList 100).afterAdd "/merge".toList 200).matchInput
      "/merge".toList = some (if 100 = 200 then 100 else (fun a b : Nat => a + b) 100 200) :=
  merge_on_exact_collision _ (fun a b => a + b) rfl rfl "/merge".toList (by decide) rfl 100 200

/-- C14, as stated, fails for a literal pattern that `add` does not store
unchanged: without merging, after `add("/x/", 1)` then `add("/x/", 2)` the
call `match("/x/")` finds nothing; the key stored and overwritten is `/x`. -/
theorem overwrite_is_at_stored_key :
    Matcher.LiteralPattern "/x/".toList ∧
    (((Matcher.pathMatcher {} : Matcher Nat).afterAdd "/x/".toList 1).afterAdd
      "/x/".toList 2).matchInput "/x/".toList = none ∧
    (((Matcher.pathMatcher {} : Matcher Nat).afterAdd "/x/".toList 1).afterAdd
      "/x/".toList 2).matchInput "/x".toList = some 2 := by
  decide

/-- C14, amended: overwrite on exact collision without merge.  When
`mergeHandlers` is false or no `mergeFn` is configured, for every pattern `p`
that stores literal patterns only and all handlers `h1`, `h2`, after
`add(p, h1)` then `add(p, h2)` the call `match` returns `h2` at every concrete
pattern of `p` (at `p` itself when `p` is not empty, has no brace and no
trailing `/` or `.`), and every exact-map entry at another key is as before
the two calls. -/
theorem overwrite_without_merge {H : Type} [DecidableEq H] (m : Matcher H)
    (hcfg : m.options.mergeHandlers = false ∨ m.options.mergeFn = none)
    (p : Str) (hp : Matcher.LiteralPattern p) (h1 h2 : H) :
    (∀ c ∈ Matcher.concretePatterns p,
      ((m.afterAdd p h1).afterAdd p h2).matchInput c = some h2) ∧
    (Matcher.Plain p → ((m.afterAdd p h1).afterAdd p h2).matchInput p = some h2) ∧
    (∀ k, k ∉ Matcher.concretePatterns p →
      ((m.afterAdd p h1).afterAdd p h2).exactMatches k = m.exactMatches k) := by
  have e1 : m.afterAdd p h1 = { m with exactMatches :=
      (fun k => if (k ∈ Matcher.concretePatterns p) then some h1 else m.exactMatches k) } := by
    rw [Matcher.afterAdd_eq_foldl m p h1 hp.1]
    exact Matcher.foldl_addExpanded_overwrite h1 _ m hp.2 hcfg
  have e2 : (m.afterAdd p h1).afterAdd p h2 = { m with exactMatches :=
      (fun k => if (k ∈ Matcher.concretePatterns p) then some h2 else m.exactMatches k) } := by
    rw [Matcher.afterAdd_eq_foldl _ p h2 hp.1, e1,
      Matcher.foldl_addExpanded_overwrite h2 _
        { m with exactMatches :=
            (fun k => if (k ∈ Matcher.concretePatterns p) then some h1 else m.exactMatches k) }
        hp.2 hcfg]
    congr 1
    funext k
    by_cases hk : k ∈ Matcher.concretePatterns p
    · simp [hk]
    · simp [hk]
  have hall : ∀ c ∈ Matcher.concretePatterns p,
      ((m.afterAdd p h1).afterAdd p h2).matchInput c = some h2 := by
    intro c hc
    apply Matcher.matchInput_of_exact
    rw [e2]
    simp [hc]
  refine ⟨hall, ?_, ?_⟩
  · intro hplain
    apply hall
    have hfb : ¬ (p = ['*'] ∨ p = ['*', '*'] ∨ p = []) := by
      rintro (e | e | e)
      · exact hplain.2.2.1 (by rw [e]; simp)
      · exact hplain.2.2.1 (by rw [e]; simp)
      · exact hplain.1 e
    simp [Matcher.concretePatterns, Matcher.stripDot_of_ne p hplain.2.2.2.2, hfb,
      Internal.expandPattern_of_no_brace p hplain.2.1,
      Internal.stripSlash_of_ne p hplain.2.2.2.1]
  · intro k hk
    rw [e2]
    simp [hk]

/-- C14, amended, at a concrete input: on a path matcher without merging,
handlers 1 and then 2 at `/x` leave 2. -/
theorem overwrite_without_merge_witness :
    (((Matcher.pathMatcher {} : Matcher Nat).afterAdd "/x".toList 1).afterAdd
      "/x".toList 2).matchInput "/x".toList = some 2 :=
  (overwrite_without_merge (Matcher.pathMatcher {}) (Or.inl rfl) "/x".toList (by decide) 1 2).2.1
    (by decide)

/-- C15: fallback registration.  In every state `add("*", h)` and
`add("**", h)` return with the fallback set to `h`, whatever it was, and with
the exact map, the segment-aware index and the simple index as they were. -/
theorem fallback_registration {H : Type} [DecidableEq H] (m : Matcher H) (h : H) :
    (∃ m', m.add ['*'] h = .ok m' ∧ m'.fallback = some h ∧
      m'.exactMatches = m.exactMatches ∧ m'.wildcards = m.wildcards ∧
      m'.simpleWildcards = m.simpleWildcards) ∧
    (∃ m', m.add ['*', '*'] h = .ok m' ∧ m'.fallback = some h ∧
      m'.exactMatches = m.exactMatches ∧ m'.wildcards = m.wildcards ∧
      m'.simpleWildcards = m.simpleWildcards) := by
  constructor
  · exact ⟨{ m with fallback := some h }, by simp [Matcher.add, Matcher.stripDot], rfl, rfl, rfl,
      rfl⟩
  · exact ⟨{ m with fallback := some h }, by simp [Matcher.add, Matcher.stripDot], rfl, rfl, rfl,
      rfl⟩

/-- C16: an unmatched opening brace is an error.  `add(p, h)` throws
`MalformedPattern` whenever the leftmost `\x7b` not immediately preceded by `!`
of `p` after removal of one trailing `.` (such a pattern is not empty, and is
neither `*` nor `**`) has no `\x7d` at a position from it on; and `add(p, h)`
returns whenever `p` has no `\x7b` other than those immediately preceded by
`!`. -/
theorem unmatched_opening_brace {H : Type} [DecidableEq H] (m : Matcher H) (p : Str) (h : H) :
    (∀ g, Internal.GroupOpenerAt (Matcher.stripDot p) g →
      (∀ k, k < g → ¬ Internal.GroupOpenerAt (Matcher.stripDot p) k) →
      (∀ k, g ≤ k → (Matcher.stripDot p)[k]? ≠ some '\x7d') →
      Matcher.stripDot p ≠ [] ∧
      ¬ (Matcher.stripDot p = ['*'] ∨ Matcher.stripDot p = ['*', '*']) ∧
      m.add p h = .error .malformedPattern) ∧
    ((∀ k, ¬ Internal.GroupOpenerAt p k) → ∃ m', m.add p h = .ok m') := by
  constructor
  · intro g hopen hfirst hclose
    have hmem : '\x7b' ∈ Matcher.stripDot p := List.getElem?_mem hopen.1
    refine ⟨?_, ?_, ?_⟩
    · intro e; rw [e] at hmem; simp at hmem
    · rintro (e | e) <;> (rw [e] at hmem; simp at hmem)
    · exact Matcher.add_of_malformed m p h
        (Internal.expandPattern_malformed _ g hopen hfirst hclose)
  · intro hnone
    apply Matcher.add_ok_of_expansion
    refine ⟨_, Internal.expandPattern_of_no_opener _ ?_⟩
    intro k hk
    unfold Matcher.stripDot at hk
    split at hk
    · exact hnone k (Internal.groupOpenerAt_of_dropLast p k hk)
    · exact hnone k hk

/-- C16 at concrete inputs: `add` of `/a!{b/{c` throws, its leftmost group
opener being at position 6 with no `\x7d` from there on, and `add` of `/!{a`
returns. -/
theorem unmatched_opening_brace_witness :
    (Matcher.pathMatcher {} : Matcher Nat).add "/a!\x7bb/\x7bc.".toList 1 =
      .error .malformedPattern ∧
    ∃ m', (Matcher.pathMatcher {} : Matcher Nat).add "/!\x7ba".toList 1 = .ok m' :=
  ⟨((unmatched_opening_brace (Matcher.pathMatcher {} : Matcher Nat)
      "/a!\x7bb/\x7bc.".toList 1).1 6 (by decide) (by decide)
      (by
        intro k hk
        have e : Matcher.stripDot "/a!\x7bb/\x7bc.".toList = "/a!\x7bb/\x7bc".toList := by decide
        rw [e]
        intro hc
        have hlt : k < 8 := by
          by_contra hge
          have hn : "/a!\x7bb/\x7bc".toList[k]? = none :=
            List.getElem?_eq_none (by simpa using Nat.le_of_not_lt hge)
          rw [hn] at hc
          cases hc
        interval_cases k <;> simp at hc)).2.2,
   (unmatched_opening_brace (Matcher.pathMatcher {} : Matcher Nat) "/!\x7ba".toList 1).2
      (by
        intro k hk
        have hlt : k < 4 := by
          by_contra hge
          have hn : "/!\x7ba".toList[k]? = none :=
            List.getElem?_eq_none (by simpa using Nat.le_of_not_lt hge)
          rw [hk.1] at hn
          cases hn
        interval_cases k <;> simp [Internal.GroupOpenerAt] at hk)⟩

/-- C17, as stated, fails: the pattern `/a}` holds a `\x7d` with no `\x7b`
before it, and `add` returns and stores it as an exact key, which `match` then
finds. -/
theorem unmatched_closing_brace_is_stored :
    ((Matcher.pathMatcher {} : Matcher Nat).addRun "/a\x7d".toList 1).2 = none ∧
    ((Matcher.pathMatcher {} : Matcher Nat).addRun "/a\x7d".toList 1).1.matchInput
      "/a\x7d".toList = some 1 := by
  decide

/-- C17, amended: `add(p, h)` returns for every pattern `p` without `\x7b`,
whether or not `p` contains `\x7d`; a `\x7d` is an ordinary character of the
stored pattern, so that a plain `p` not yet in the exact map is found by
`match(p)` afterwards. -/
theorem closing_brace_alone_accepted {H : Type} [DecidableEq H] (m : Matcher H) (p : Str) (h : H)
    (hopen : '\x7b' ∉ p) :
    ∃ m', m.add p h = .ok m' ∧
      (Matcher.Plain p → m.exactMatches p = none → m'.matchInput p = some h) := by
  obtain ⟨m', hm'⟩ := Matcher.add_ok_of_expansion m p h
    ⟨_, Internal.expandPattern_of_no_brace _ (Matcher.not_mem_stripDot _ p hopen)⟩
  refine ⟨m', hm', ?_⟩
  intro hplain hfree
  have hc : Internal.containsWildcardOrNegSet p = false :=
    Internal.containsWildcardOrNegSet_false p hplain.2.2.1 hplain.2.1
  obtain ⟨v, hv, hvh⟩ := Matcher.addExpanded_exact m p h hc
  rw [Matcher.add_plain m p h hplain] at hm'
  cases hm'
  apply Matcher.matchInput_of_exact
  rw [hv, hvh hfree]
  simp

/-- C17, amended, at the pattern `/a}`. -/
theorem closing_brace_alone_accepted_witness :
    ∃ m', (Matcher.pathMatcher {} : Matcher Nat).add "/a\x7d".toList 1 = .ok m' ∧
      (Matcher.Plain "/a\x7d".toList →
        (Matcher.pathMatcher {} : Matcher Nat).exactMatches "/a\x7d".toList = none →
        m'.matchInput "/a\x7d".toList = some 1) :=
  closing_brace_alone_accepted _ "/a\x7d".toList 1 (by decide)

/-- C18: atomic failure of `add`.  If the run of `add(p, h)` ends with an
exception, the exception is `MalformedPattern` and the matcher at that moment
is the matcher before the call: the exact map, the segment-aware index, the
simple index and the fallback are unchanged, and so is every `match` result. -/
theorem add_failure_commits_nothing {H : Type} [DecidableEq H] (m : Matcher H) (p : Str) (h : H)
    (e : RouterError) (hfail : (m.addRun p h).2 = some e) :
    e = .malformedPattern ∧ m.add p h = .error .malformedPattern ∧
    (m.addRun p h).1 = m ∧
    (m.addRun p h).1.exactMatches = m.exactMatches ∧
    (m.addRun p h).1.wildcards = m.wildcards ∧
    (m.addRun p h).1.simpleWildcards = m.simpleWildcards ∧
    (m.addRun p h).1.fallback = m.fallback ∧
    ∀ input, (m.addRun p h).1.matchInput input = m.matchInput input := by
  have hrun := Matcher.addRun_eq m p h
  cases hadd : m.add p h with
  | ok m' => rw [hadd] at hrun; rw [hrun] at hfail; cases hfail
  | error e' =>
    rw [hadd] at hrun
    simp only at hrun
    rw [hrun] at hfail
    simp only [Option.some.injEq] at hfail
    subst hfail
    have he := (Matcher.add_error m p h e' hadd).1
    subst he
    have hst : (m.addRun p h).1 = m := by
      rw [hrun]
      simp only [Matcher.afterAdd, hadd]
    rw [hst]
    exact ⟨rfl, rfl, rfl, rfl, rfl, rfl, rfl, fun _ => rfl⟩

/-- C18 at the pattern `/{a,{b}` on a matcher that holds `/x`: the expansion
has pushed `/a` into the local vector when the alternative `/{b` throws, and
the matcher is the one before the call. -/
theorem add_failure_commits_nothing_witness :
    Internal.expandInto "/\x7ba,\x7bb\x7d".toList [] = (["/a".toList], .thrown) ∧
    ((((Matcher.pathMatcher {} : Matcher Nat).afterAdd "/x".toList 1).addRun
      "/\x7ba,\x7bb\x7d".toList 2).1.matchInput "/a".toList = none) ∧
    ((((Matcher.pathMatcher {} : Matcher Nat).afterAdd "/x".toList 1).addRun
      "/\x7ba,\x7bb\x7d".toList 2).1.matchInput "/x".toList = some 1) := by
  have hw := add_failure_commits_nothing
    ((Matcher.pathMatcher {} : Matcher Nat).afterAdd "/x".toList 1)
    "/\x7ba,\x7bb\x7d".toList 2 .malformedPattern (by decide)
  refine ⟨by decide, ?_, ?_⟩
  · rw [hw.2.2.1]; decide
  · rw [hw.2.2.1]; decide

/-- C19: `remove(p)`, when the brace expansion of `p` yields the concrete
patterns `l`, returns; it erases from the exact map the keys in `l` and no
other; from the configured wildcard index (segment-aware or simple) it removes
the routes whose stored pattern text is in `l` and keeps the others in their
order; the index that is not configured, the fallback and the options are
unchanged. -/
theorem remove_effect {H : Type} (m : Matcher H) (p : Str) (l : List Str)
    (hexp : Internal.expandPattern p = .ok l) :
    ∃ m', m.remove p = .ok m' ∧
      (∀ k, m'.exactMatches k = if k ∈ l then none else m.exactMatches k) ∧
      (m.options.simpleMatcher = false →
        m'.wildcards.patterns = m.wildcards.patterns.filter (fun r => decide (r.pattern ∉ l)) ∧
        m'.simpleWildcards = m.simpleWildcards) ∧
      (m.options.simpleMatcher = true →
        m'.simpleWildcards.compiled =
          m.simpleWildcards.compiled.filter (fun r => decide (r.pattern ∉ l)) ∧
        m'.wildcards = m.wildcards) ∧
      m'.fallback = m.fallback ∧ m'.options = m.options := by
  obtain ⟨ho, _, hf, he, hw, hsw⟩ := Matcher.foldl_removeExpanded l m
  refine ⟨l.foldl (fun m c => m.removeExpanded c) m, ?_, he, ?_, hsw, hf, ho⟩
  · unfold Matcher.remove
    rw [hexp]
  · intro hsm
    exact ⟨(hw hsm).1, (hw hsm).2.2.2⟩

/-- C19 at a concrete input: on a path matcher that holds `/a`, `/b`, `/c`,
`/u/*` and `/v/*`, `remove` of the pattern with the concrete patterns `/a`,
`/u/*` erases these two and keeps the rest. -/
theorem remove_effect_witness :
    ∃ m', ((Matcher.pathMatcher {} : Matcher Nat).addAll
        [("/\x7ba,b,c\x7d".toList, 1), ("/u/*".toList, 2), ("/v/*".toList, 3)]).remove
          "/\x7ba,u/*\x7d".toList = .ok m' ∧
      m'.matchInput "/a".toList = none ∧ m'.matchInput "/b".toList = some 1 ∧
      m'.matchInput "/u/x".toList = none ∧ m'.matchInput "/v/x".toList = some 3 := by
  obtain ⟨m', hm', _⟩ := remove_effect
    ((Matcher.pathMatcher {} : Matcher Nat).addAll
      [("/\x7ba,b,c\x7d".toList, 1), ("/u/*".toList, 2), ("/v/*".toList, 3)])
    "/\x7ba,u/*\x7d".toList ["/a".toList, "/u/*".toList] (by decide)
  refine ⟨m', hm', ?_⟩
  have hm2 : m' = ["/a".toList, "/u/*".toList].foldl (fun m c => m.removeExpanded c)
      ((Matcher.pathMatcher {} : Matcher Nat).addAll
        [("/\x7ba,b,c\x7d".toList, 1), ("/u/*".toList, 2), ("/v/*".toList, 3)]) := by
    have e : Internal.expandPattern "/\x7ba,u/*\x7d".toList =
        .ok ["/a".toList, "/u/*".toList] := by decide
    unfold Matcher.remove at hm'
    rw [e] at hm'
    cases hm'
    rfl
  subst hm2
  decide

/-- C21: idempotent clear.  In every matcher state, `clear()` after `clear()`
leaves the state of a single `clear()`, and after `clear()` the exact map,
both wildcard indexes and the fallback are empty and `match` finds nothing for
every input. -/
theorem clear_idempotent {H : Type} (m : Matcher H) :
    m.clear.clear = m.clear ∧
    (∀ k, m.clear.exactMatches k = none) ∧
    m.clear.wildcards.patterns = [] ∧ m.clear.wildcards.sizeGroups = [] ∧
    m.clear.simpleWildcards.compiled = [] ∧ m.clear.fallback = none ∧
    (∀ input, m.clear.matchInput input = none) := by
  refine ⟨rfl, fun _ => rfl, rfl, rfl, rfl, rfl, ?_⟩
  intro input
  simp [Matcher.matchInput, Matcher.clear, WildcardMatcher.clear, SimpleWildcardMatcher.clear,
    WildcardMatcher.matchInput, WildcardMatcher.rebuildIndexIfNeeded,
    WildcardMatcher.indexRoutes, WildcardMatcher.stdSort_nil, WildcardMatcher.scanGroups,
    SimpleWildcardMatcher.matchInput]

/-- C22: simple matcher, prefix and suffix anchoring.  With `simpleMatcher`
set, on a matcher that holds nothing before, after `add(P*S, h)` for `P` and
`S` free of `*` and `\x7b`, `S` not ending in `.` or `/`, `match(I)` returns
`h` iff `I` starts with `P` and ends with `S`, and finds nothing otherwise;
separators in `I` play no part. -/
theorem simple_prefix_suffix {H : Type} [DecidableEq H] (m : Matcher H)
    (hs : m.options.simpleMatcher = true) (hex : ∀ k, m.exactMatches k = none)
    (hsw : m.simpleWildcards.compiled = []) (hfb : m.fallback = none)
    (P S : Str) (hP : '*' ∉ P) (hPb : '\x7b' ∉ P) (hS : '*' ∉ S) (hSb : '\x7b' ∉ S)
    (hdot : S.getLast? ≠ some '.') (hslash : S.getLast? ≠ some '/') (h : H) (input : Str) :
    (m.afterAdd (P ++ '*' :: S) h).matchInput input =
      if P <+: input ∧ S <:+ input then some h else none := by
  by_cases hPS : P = [] ∧ S = []
  · obtain ⟨e1, e2⟩ := hPS
    subst e1 e2
    have hadd : m.afterAdd ([] ++ ['*']) h = { m with fallback := some h } := by
      simp [Matcher.afterAdd, Matcher.add, Matcher.stripDot]
    rw [hadd]
    simp [Matcher.matchInput, hex, hs, hsw, SimpleWildcardMatcher.matchInput]
  · have hfbk := Matcher.one_star_not_fallback P S hP hS hPS
    have hbrace : '\x7b' ∉ P ++ '*' :: S := by
      intro hmem
      rcases List.mem_append.1 hmem with h1 | h1
      · exact hPb h1
      · rcases List.mem_cons.1 h1 with h2 | h2
        · revert h2; decide
        · exact hSb h2
    have hlast : ∀ c : Char, c ≠ '*' → S.getLast? ≠ some c →
        (P ++ '*' :: S).getLast? ≠ some c := by
      intro c hc hSc
      rw [Matcher.getLast?_one_star, List.getLastD_eq_getLast?]
      cases hl : S.getLast? with
      | none => simpa using fun e => hc e.symm
      | some x =>
        rw [hl] at hSc
        simpa using fun e => hSc (by rw [e])
    have hadd : m.afterAdd (P ++ '*' :: S) h =
        { m with simpleWildcards := m.simpleWildcards.add (P ++ '*' :: S) h } := by
      unfold Matcher.afterAdd
      rw [Matcher.add_unbraced m _ h (by simp) hbrace (hlast '/' (by decide) hslash)
        (hlast '.' (by decide) hdot) hfbk,
        Matcher.addExpanded_simple m _ h
          (Internal.containsWildcardOrNegSet_of_star _ (by simp)) hs]
    have hparts : Internal.split (P ++ '*' :: S) '*' = [P, S] := by
      rw [Internal.split_append_sep '*' S P hP, Internal.split_of_not_mem '*' S hS]
    rw [hadd]
    simp only [Matcher.matchInput, hex, hs, if_true, SimpleWildcardMatcher.matchInput,
      SimpleWildcardMatcher.add, hsw, List.nil_append, hparts, List.find?_cons,
      SimpleWildcardMatcher.accepts_two_parts, List.find?_nil, hfb]
    by_cases hacc : P <+: input ∧ S <:+ input
    · simp [hacc]
    · simp [hacc]

/-- C22 on the patterns of test 9: `/img/*.png` answers `/img/icon.png`. -/
theorem simple_prefix_suffix_witness :
    ((Matcher.pathMatcher { simpleMatcher := true } : Matcher Nat).afterAdd
      ("/img/".toList ++ '*' :: ".png".toList) 12).matchInput "/img/icon.png".toList =
      if "/img/".toList <+: "/img/icon.png".toList ∧ ".png".toList <:+ "/img/icon.png".toList
      then some 12 else none :=
  simple_prefix_suffix _ rfl (fun _ => rfl) rfl rfl "/img/".toList ".png".toList
    (by decide) (by decide) (by decide) (by decide) (by decide) (by decide) 12
    "/img/icon.png".toList

/-- C23 fails on the code: with `simpleMatcher` set, the pattern `*a*` answers
the input `zzz`, which is not of the form `x0 a x1`, and the pattern `ab*ba`
answers `aba`, which is not of the form `ab x0 ba`; with three non-empty
fragments, as in `*a*b*c*`, the interior scan runs and `zzz` finds nothing. -/
theorem simple_matcher_accepts_beyond_glob :
    ((Matcher.pathMatcher { simpleMatcher := true } : Matcher Nat).afterAdd "*a*".toList
      1).matchInput "zzz".toList = some 1 ∧
    Matcher.globSpec (Internal.split "*a*".toList '*') "zzz".toList = false ∧
    Matcher.globSpec (Internal.split "*a*".toList '*') "zaz".toList = true ∧
    ((Matcher.pathMatcher { simpleMatcher := true } : Matcher Nat).afterAdd "ab*ba".toList
      1).matchInput "aba".toList = some 1 ∧
    Matcher.globSpec (Internal.split "ab*ba".toList '*') "aba".toList = false ∧
    ((Matcher.pathMatcher { simpleMatcher := true } : Matcher Nat).afterAdd "*a*b*c*".toList
      1).matchInput "zzz".toList = none := by
  decide

/-- C24: the leading separator is optional when splitting.  For every
non-empty string `s` that does not begin with the separator `c`,
`splitSegments(s, c)` equals `splitSegments(c + s, c)`, and the patterns `s`
and `c + s` compile to the same part sequence. -/
theorem leading_separator_optional (s : Str) (c : Char) (hne : s ≠ [])
    (hhead : s.head? ≠ some c) :
    Internal.splitSegments s c = Internal.splitSegments (c :: s) c ∧
    WildcardMatcher.compile c s = WildcardMatcher.compile c (c :: s) := by
  have hsplit : Internal.splitSegments s c = Internal.splitSegments (c :: s) c := by
    rw [Internal.splitSegments_eq, Internal.splitSegments_eq, if_neg hne, if_neg hhead,
      if_neg (List.cons_ne_nil _ _),
      if_pos (show (c :: s).head? = some c from rfl), Internal.split_cons_sep]
  exact ⟨hsplit, by unfold WildcardMatcher.compile; rw [hsplit]⟩

/-- C24 at the patterns `abc` and `/abc`. -/
theorem leading_separator_optional_witness :
    Internal.splitSegments "abc".toList '/' = Internal.splitSegments ('/' :: "abc".toList) '/' ∧
    WildcardMatcher.compile '/' "abc".toList =
      WildcardMatcher.compile '/' ('/' :: "abc".toList) :=
  leading_separator_optional "abc".toList '/' (by decide) (by decide)

/-- C25, as stated, fails for the domain matcher: `add("{a.}", 1)` on a
`DomainRouter` stores the concrete pattern `a.` with its trailing `.`; the
input `a.` finds it and the input `a` finds nothing. -/
theorem domain_pattern_keeps_trailing_dot :
    Matcher.concretePatterns "\x7ba.\x7d".toList = ["a.".toList] ∧
    ((Matcher.domainRouter {} : Matcher Nat).afterAdd "\x7ba.\x7d".toList 1).exactMatches
      "a.".toList = some 1 ∧
    ((Matcher.domainRouter {} : Matcher Nat).afterAdd "\x7ba.\x7d".toList 1).matchInput
      "a".toList = none := by
  decide

/-- C25, amended: for a matcher of either kind, in any state, `add(p, h)`
removes one trailing `.` from `p` and then, unless what is left is empty, `*`
or `**`, runs its loop over the patterns that the expansion reaches when no
further group remains, each less one trailing `/`; the separator of the
matcher plays no part. -/
theorem stored_patterns_lose_trailing_slash {H : Type} [DecidableEq H] (m : Matcher H)
    (p : Str) (h : H) (raw : List Str)
    (hraw : Internal.expandRaw (Matcher.stripDot p) = .ok raw)
    (hfb : ¬ (Matcher.stripDot p = ['*'] ∨ Matcher.stripDot p = ['*', '*']))
    (hne : Matcher.stripDot p ≠ []) :
    (∀ c ∈ raw, ∀ k, ¬ Internal.GroupOpenerAt c k) ∧
    Matcher.concretePatterns p = raw.map Internal.stripSlash ∧
    m.add p h =
      .ok ((raw.map Internal.stripSlash).foldl (fun m c => m.addExpanded c h) m) := by
  have hexp : Internal.expandPattern (Matcher.stripDot p) =
      .ok (raw.map Internal.stripSlash) := by
    rw [Internal.expandPattern_eq_map_raw, hraw]
    rfl
  refine ⟨Internal.no_opener_of_expandRawFuel _ _ raw hraw, ?_, ?_⟩
  · unfold Matcher.concretePatterns
    simp only [hexp]
    rw [if_neg]
    rintro (e | e | e)
    · exact hfb (Or.inl e)
    · exact hfb (Or.inr e)
    · exact hne e
  · unfold Matcher.add
    simp only [hexp]
    rw [if_neg hfb, if_neg hne]

/-- C25, amended, on a path matcher and on a domain matcher: `/{a/,b}/.` is
stored as `/a/` and `/b`, on both. -/
theorem stored_patterns_lose_trailing_slash_witness :
    Matcher.concretePatterns "/\x7ba/,b\x7d/.".toList = ["/a/".toList, "/b".toList] ∧
    ((Matcher.pathMatcher {} : Matcher Nat).afterAdd "/\x7ba/,b\x7d/.".toList 1).matchInput
      "/b".toList = some 1 ∧
    ((Matcher.domainRouter {} : Matcher Nat).afterAdd "/\x7ba/,b\x7d/.".toList 1).matchInput
      "/b".toList = some 1 :=
  ⟨(stored_patterns_lose_trailing_slash (Matcher.pathMatcher {} : Matcher Nat)
      "/\x7ba/,b\x7d/.".toList 1 ["/a//".toList, "/b/".toList] (by decide) (by decide)
      (by decide)).2.1,
   by decide, by decide⟩

/-- C26, as stated, fails when the last literal text ends in `/`: the pattern
`/{a,b}/` has the combinations `/a/` and `/b/`, and `expandPattern` emits `/a`
and `/b`. -/
theorem emitted_pattern_is_not_the_combination :
    Internal.expandPattern
        (Matcher.groupsPattern "/".toList [(["a".toList, "b".toList], "/".toList)]) =
      .ok ["/a".toList, "/b".toList] ∧
    Matcher.combinations "/".toList [(["a".toList, "b".toList], "/".toList)] =
      ["/a/".toList, "/b/".toList] := by
  decide

/-- C26, amended: brace expansion enumerates all combinations, depth first and
left to right.  For a pattern `t0 {A1} t1 ... {Ak} tk` of `k` non-nested groups
(the texts free of `\x7b` and `!`, those after a group also of `.`; the
alternatives free of braces, commas, `!` and `.`, at least one per group),
`expandPattern` emits the `n1 * ... * nk` combinations, duplicates kept, in
lexicographic order of the positions of the alternatives with the leftmost
group most significant; each emitted pattern is the literal text with each
group replaced by its trimmed alternative, less one trailing `/`. -/
theorem brace_expansion_combinations (t0 : Str) (gs : List (List Str × Str))
    (hbrace : '\x7b' ∉ t0) (hbang : '!' ∉ t0)
    (hgs : ∀ g ∈ gs, g.1 ≠ [] ∧ (∀ a ∈ g.1, Matcher.GroupAlternative a) ∧
      Matcher.GroupText g.2) :
    Internal.expandPattern (Matcher.groupsPattern t0 gs) =
      .ok ((Matcher.combinations t0 gs).map Internal.stripSlash) ∧
    ((Matcher.combinations t0 gs).map Internal.stripSlash).length =
      (gs.map (fun g => g.1.length)).prod :=
  ⟨Matcher.expandPattern_groups gs t0 hbrace hbang hgs,
   by rw [List.length_map]; exact Matcher.length_combinations gs t0⟩

/-- C26, amended, at `/{a, b}/{c,d}/`: four concrete patterns, in the order
`/a/c`, `/a/d`, `/b/c`, `/b/d`. -/
theorem brace_expansion_combinations_witness :
    Internal.expandPattern
        (Matcher.groupsPattern "/".toList
          [(["a".toList, " b".toList], "/".toList), (["c".toList, "d".toList], "/".toList)]) =
      .ok ["/a/c".toList, "/a/d".toList, "/b/c".toList, "/b/d".toList] :=
  (brace_expansion_combinations "/".toList
    [(["a".toList, " b".toList], "/".toList), (["c".toList, "d".toList], "/".toList)]
    (by decide) (by decide) (by decide)).1.trans (by decide)

/-- C28: concrete patterns contain no brace groups.  Whenever `expandPattern`
returns, no pattern it emits has a `\x7b` other than those immediately
preceded by `!`. -/
theorem concrete_patterns_have_no_group (p : Str) (l : List Str)
    (hexp : Internal.expandPattern p = .ok l) :
    ∀ c ∈ l, ∀ k, ¬ Internal.GroupOpenerAt c k :=
  Internal.no_opener_of_expandPatternFuel _ p l hexp

/-- C28 at the pattern `/{a,!{b}/{c,d}`: the four concrete patterns keep only
the `\x7b` that follows `!`. -/
theorem concrete_patterns_have_no_group_witness :
    Internal.expandPattern "/\x7ba,!\x7bb\x7d/\x7bc,d\x7d".toList =
      .ok ["/a/c".toList, "/a/d".toList, "/!\x7bb/c".toList, "/!\x7bb/d".toList] ∧
    ∀ c ∈ ["/a/c".toList, "/a/d".toList, "/!\x7bb/c".toList, "/!\x7bb/d".toList],
      ∀ k, ¬ Internal.GroupOpenerAt c k :=
  ⟨by decide, concrete_patterns_have_no_group "/\x7ba,!\x7bb\x7d/\x7bc,d\x7d".toList _
    (by decide)⟩

/-- C29: each concrete pattern goes to exactly one layer.  In the loop of
`add`, a concrete pattern that contains `*` or the substring `!{` is added to
the configured wildcard index only (the simple index when `simpleMatcher` is
set, the segment-aware index otherwise) and the exact map is as before; any
other concrete pattern changes the exact map at its own key only.  In every
reachable state the wildcard index that is not configured is empty. -/
theorem one_layer_per_pattern {H : Type} [DecidableEq H] (m : Matcher H) (c : Str) (h : H) :
    (('*' ∈ c ∨ ['!', '\x7b'] <:+: c) →
      (m.options.simpleMatcher = false →
        m.addExpanded c h = { m with wildcards := m.wildcards.add c h }) ∧
      (m.options.simpleMatcher = true →
        m.addExpanded c h = { m with simpleWildcards := m.simpleWildcards.add c h })) ∧
    (¬ ('*' ∈ c ∨ ['!', '\x7b'] <:+: c) →
      ∃ v, m.addExpanded c h =
        { m with exactMatches := fun k => if k = c then some v else m.exactMatches k }) ∧
    (m.Reachable →
      (m.options.simpleMatcher = false → m.simpleWildcards.compiled = []) ∧
      (m.options.simpleMatcher = true → m.wildcards.patterns = [])) := by
  refine ⟨?_, ?_, fun hm => hm.other_layer_empty⟩
  · intro hc
    have hc' := (Internal.containsWildcardOrNegSet_iff c).2 hc
    exact ⟨Matcher.addExpanded_segment m c h hc', Matcher.addExpanded_simple m c h hc'⟩
  · intro hc
    have hc' : Internal.containsWildcardOrNegSet c = false := by
      cases hx : Internal.containsWildcardOrNegSet c with
      | false => rfl
      | true => exact absurd ((Internal.containsWildcardOrNegSet_iff c).1 hx) hc
    obtain ⟨v, hv, _⟩ := Matcher.addExpanded_exact m c h hc'
    exact ⟨v, hv⟩

/-- C29 on a path matcher after `add("/{a,b/*,!{c}}", 1)`: the exact map holds
`/a`, the segment-aware index holds the two other concrete patterns, and the
simple index holds nothing. -/
theorem one_layer_per_pattern_witness :
    (((Matcher.pathMatcher {} : Matcher Nat).afterAdd "/\x7ba,b/*\x7d".toList 1).wildcards.patterns.map
        (fun r => r.pattern) = ["/b/*".toList]) ∧
    ((Matcher.pathMatcher {} : Matcher Nat).afterAdd "/\x7ba,b/*\x7d".toList 1).exactMatches
        "/a".toList = some 1 ∧
    ((Matcher.pathMatcher {} : Matcher Nat).afterAdd "/\x7ba,b/*\x7d".toList
        1).simpleWildcards.compiled = [] :=
  ⟨by decide, by decide,
   ((one_layer_per_pattern
      ((Matcher.pathMatcher {} : Matcher Nat).afterAdd "/\x7ba,b/*\x7d".toList 1)
      [] 0).2.2
      (Matcher.Reachable.afterAdd (Matcher.Reachable.init {} '/') _ _)).1 (by decide)⟩

/-- C30: `match` never fails.  For all parts and segments the loop of
`matchRoute` is left within its budget, each iteration that stays in the loop
reads an existing segment and advances the part index or the double-star
anchor (keeping the anchor at or before the segment index and lowering the
measure of termination), so that `matchRoute` answers from the values of `pi`
and `si` at which the loop was left; and in every reachable matcher state each
route pointer that a lookup follows points into the route list. -/
theorem match_never_fails {H : Type} [DecidableEq H] :
    (∀ (parts : List Part) (path : List Str),
      ∃ r, WildcardMatcher.matchLoop parts path (WildcardMatcher.matchFuel parts path) {} =
        some r) ∧
    (∀ (parts : List Part) (path : List Str) (st st' : WildcardMatcher.LoopState),
      WildcardMatcher.matchStep parts path st = .next st' →
      st.si < path.length ∧
      (st.pi < st'.pi ∨ (∃ a b, st.star = some a ∧ st'.star = some b ∧ a.2 < b.2)) ∧
      (WildcardMatcher.anchorOf st ≤ st.si →
        WildcardMatcher.anchorOf st' ≤ st'.si ∧
        WildcardMatcher.loopMeasure parts path st' <
          WildcardMatcher.loopMeasure parts path st)) ∧
    (∀ (parts : List Part) (path : List Str), parts.length ≠ 1 →
      ∃ pi si, WildcardMatcher.Run parts path {} (pi, si) ∧
        WildcardMatcher.matchParts parts path =
          (WildcardMatcher.skipDoubleStars parts pi == parts.length && si == path.length)) ∧
    (∀ m : Matcher H, m.Reachable →
      ∀ g ∈ m.wildcards.rebuildIndexIfNeeded.sizeGroups, ∀ (k : Str) (i : Nat),
        i ∈ g.literalFirst k ∨ i ∈ g.nonLiteral →
        i < m.wildcards.rebuildIndexIfNeeded.patterns.length) := by
  refine ⟨WildcardMatcher.matchLoop_matchFuel, ?_, ?_, ?_⟩
  · intro parts path st st' h
    obtain ⟨h1, h2⟩ := WildcardMatcher.matchStep_advances parts path st st' h
    exact ⟨h1, h2, fun hinv => WildcardMatcher.matchStep_decreases parts path st st' hinv h⟩
  · intro parts path hlen
    obtain ⟨r, hr⟩ := WildcardMatcher.matchLoop_matchFuel parts path
    exact ⟨r.1, r.2, ⟨_, hr⟩, WildcardMatcher.matchParts_of_run parts path r.1 r.2 hlen ⟨_, hr⟩⟩
  · intro m hm
    exact WildcardMatcher.route_pointers_valid _ hm.wildcards.1.wf

/-- C30 on a route with two double stars and a path that makes the loop
backtrack: the loop is left within its budget and the lookup answers. -/
theorem match_never_fails_witness :
    (∃ r, WildcardMatcher.matchLoop (WildcardMatcher.compile '/' "/**/a/**/b".toList)
        (Internal.splitSegments "/a/a/c/b/b/c".toList '/')
        (WildcardMatcher.matchFuel (WildcardMatcher.compile '/' "/**/a/**/b".toList)
          (Internal.splitSegments "/a/a/c/b/b/c".toList '/')) {} = some r) ∧
    ((Matcher.pathMatcher {} : Matcher Nat).afterAdd "/**/a/**/b".toList 1).matchInput
      "/a/a/c/b/b/c".toList = none ∧
    ((Matcher.pathMatcher {} : Matcher Nat).afterAdd "/**/a/**/b".toList 1).matchInput
      "/a/a/c/b/b".toList = some 1 :=
  ⟨(match_never_fails (H := Nat)).1 _ _, by decide, by decide⟩

/-- C32, as stated, fails from 17 routes on.  After `add("/a/*", 0)`, ...,
`add("/p/*", 15)` on an empty index the 16 routes, all of three parts, stand in
the order of their insertion; `add("/q/*", 16)` calls `std::sort` on 17
elements, whose partition step moves elements of equal key: the routes then
stand in the order 8, 16, 15, ..., 9, 0, 7, ..., 1 of their insertion. -/
theorem equal_counts_leave_insertion_order :
    ("abcdefghijklmnop".toList.enum.foldl (fun wm p => wm.add ['/', p.2, '/', '*'] p.1)
      (WildcardMatcher.new '/' : WildcardMatcher Nat)).patterns.map
        (fun r => (r.parts.length, r.handler)) =
      [(3, 0), (3, 1), (3, 2), (3, 3), (3, 4), (3, 5), (3, 6), (3, 7), (3, 8), (3, 9), (3, 10),
        (3, 11), (3, 12), (3, 13), (3, 14), (3, 15)] ∧
    ("abcdefghijklmnopq".toList.enum.foldl (fun wm p => wm.add ['/', p.2, '/', '*'] p.1)
      (WildcardMatcher.new '/' : WildcardMatcher Nat)).patterns.map
        (fun r => (r.parts.length, r.handler)) =
      [(3, 8), (3, 16), (3, 15), (3, 14), (3, 13), (3, 12), (3, 11), (3, 10), (3, 9), (3, 0),
        (3, 7), (3, 6), (3, 5), (3, 4), (3, 3), (3, 2), (3, 1)] := by
  decide

/-- C32, amended: the sorted-routes invariant.  In every state of the
segment-aware index reachable by `add`, `filter`, `clear` and lookups, the
route list is in non-increasing order of part count, and every operation
preserves this.  An add that appends leaves a rearrangement of the old routes
and the new one; when it finds fewer than 16 routes, it places the new route
after every route with at least as many parts and before every route with
fewer, the old routes staying as they were around it (so that routes of equal
part count stand in the order of their insertion as long as no add finds 16
routes or more).  An add that merges keeps the part count, the handler and the
pattern text of every route at its position; `filter` keeps the routes that
pass, in their order; `clear` leaves no route, and a lookup leaves the list as
it is. -/
theorem sorted_routes_invariant {H : Type} [DecidableEq H] (wm : WildcardMatcher H)
    (hr : wm.Reachable) :
    wm.patterns.Pairwise (fun a b => b.parts.length ≤ a.parts.length) ∧
    (∀ (pattern : Str) (handler : H),
      (wm.add pattern handler).patterns.Pairwise
        (fun a b => b.parts.length ≤ a.parts.length) ∧
      (mergeInto (WildcardMatcher.compile wm.segmentChar pattern) handler wm.patterns = none →
        (wm.add pattern handler).patterns.Perm
          (wm.patterns ++
            [{ parts := WildcardMatcher.compile wm.segmentChar pattern, handler := handler,
               pattern := pattern,
               hasDoubleStar := (WildcardMatcher.compile wm.segmentChar pattern).any
                 (fun q => decide (q = .doubleStar)) }]) ∧
        (wm.patterns.length < 16 →
          ∃ A B, wm.patterns = A ++ B ∧
            (∀ r ∈ A, (WildcardMatcher.compile wm.segmentChar pattern).length ≤ r.parts.length) ∧
            (∀ r ∈ B, r.parts.length < (WildcardMatcher.compile wm.segmentChar pattern).length) ∧
            (wm.add pattern handler).patterns =
              A ++ { parts := WildcardMatcher.compile wm.segmentChar pattern, handler := handler,
                     pattern := pattern,
                     hasDoubleStar := (WildcardMatcher.compile wm.segmentChar pattern).any
                       (fun q => decide (q = .doubleStar)) } :: B)) ∧
      (∀ merged,
        mergeInto (WildcardMatcher.compile wm.segmentChar pattern) handler wm.patterns =
          some merged →
        (wm.add pattern handler).patterns.map (fun r => (r.parts.length, r.handler, r.pattern)) =
          wm.patterns.map (fun r => (r.parts.length, r.handler, r.pattern)))) ∧
    (∀ cb : Route H → Bool,
      (wm.filter cb).patterns = wm.patterns.filter cb ∧
      (wm.filter cb).patterns.Pairwise (fun a b => b.parts.length ≤ a.parts.length)) ∧
    wm.clear.patterns = [] ∧
    wm.rebuildIndexIfNeeded.patterns = wm.patterns := by
  refine ⟨hr.wf.sorted, ?_, ?_, rfl, ?_⟩
  · intro pattern handler
    refine ⟨(hr.add pattern handler).wf.sorted, ?_, ?_⟩
    · intro hm
      refine ⟨?_, ?_⟩
      · unfold WildcardMatcher.add
        simp only [hm]
        exact WildcardMatcher.stdSort_perm _ _
      · intro hlen
        refine ⟨_, _, WildcardMatcher.sorted_filter_split (fun r : Route H => r.parts.length)
          (WildcardMatcher.compile wm.segmentChar pattern).length wm.patterns hr.wf.sorted,
          ?_, ?_, WildcardMatcher.add_patterns_of_no_merge wm hr.wf hlen pattern handler hm⟩
        · intro r hmem
          simpa using (List.mem_filter.1 hmem).2
        · intro r hmem
          simpa using (List.mem_filter.1 hmem).2
    · intro merged hm
      have := WildcardMatcher.mergeInto_identity
        (WildcardMatcher.compile wm.segmentChar pattern) handler wm.patterns merged hm
      unfold WildcardMatcher.add
      simp only [hm]
      exact this
  · intro cb
    exact ⟨rfl, (hr.filter cb).wf.sorted⟩
  · unfold WildcardMatcher.rebuildIndexIfNeeded
    cases hd : wm.indexDirty <;> simp [hd]

/-- C32, amended, after `add("/a/*")`, `add("/*/b")`, `add("/a/*/c")`,
`add("/*/d")` and the removal of `/a/*`: the route of four parts stands first,
the routes of three parts follow in the order of their insertion. -/
theorem sorted_routes_invariant_witness :
    ((((((WildcardMatcher.new '/' : WildcardMatcher Nat).add "/a/*".toList 1).add
      "/*/b".toList 2).add "/a/*/c".toList 3).add "/*/d".toList 4).filter
      (fun r => r.pattern != "/a/*".toList)).patterns.map (fun r => r.pattern) =
      ["/a/*/c".toList, "/*/b".toList, "/*/d".toList] ∧
    ((((((WildcardMatcher.new '/' : WildcardMatcher Nat).add "/a/*".toList 1).add
      "/*/b".toList 2).add "/a/*/c".toList 3).add "/*/d".toList 4).filter
      (fun r => r.pattern != "/a/*".toList)).patterns.Pairwise
      (fun a b => b.parts.length ≤ a.parts.length) :=
  ⟨by decide,
   (sorted_routes_invariant _
    ((((((WildcardMatcher.Reachable.init '/').add "/a/*".toList 1).add
      "/*/b".toList 2).add "/a/*/c".toList 3).add "/*/d".toList 4).filter
      (fun r => r.pattern != "/a/*".toList))).1⟩

/-- C33, as stated, fails for an add that merges: after `add("/a/x", 1)` and a
lookup, `add("/a/y", 1)` rewrites the stored route to `/a/{x,y}` and the
size-group index is still marked as up to date; an add that appends, as
`add("/b/y", 1)`, marks it dirty. -/
theorem merging_add_leaves_index_clean :
    ((((WildcardMatcher.new '/' : WildcardMatcher Nat).add "/a/x".toList
      1).rebuildIndexIfNeeded).add "/a/y".toList 1).indexDirty = false ∧
    ((((WildcardMatcher.new '/' : WildcardMatcher Nat).add "/a/x".toList
      1).rebuildIndexIfNeeded).add "/a/y".toList 1).patterns.map (fun r => r.parts) =
      [[.literal [], .literal "a".toList, .set ["x".toList, "y".toList]]] ∧
    ((((WildcardMatcher.new '/' : WildcardMatcher Nat).add "/a/x".toList
      1).rebuildIndexIfNeeded).add "/b/y".toList 1).indexDirty = true := by
  decide

/-- C33, amended: in every reachable state of the segment-aware index, an add
that appends a route, `filter` and `clear` leave the size-group index marked
dirty, and a lookup rebuilds it and clears the mark; an add that merges into
an existing route leaves the mark and the index as they are, and the index
that the next lookup uses is nevertheless the index of the routes after the
merge. -/
theorem index_invalidation {H : Type} [DecidableEq H] (wm : WildcardMatcher H)
    (hr : wm.Reachable) (pattern : Str) (handler : H) (cb : Route H → Bool) :
    (mergeInto (WildcardMatcher.compile wm.segmentChar pattern) handler wm.patterns = none →
      (wm.add pattern handler).indexDirty = true) ∧
    (wm.filter cb).indexDirty = true ∧ wm.clear.indexDirty = true ∧
    wm.rebuildIndexIfNeeded.indexDirty = false ∧
    (∀ merged,
      mergeInto (WildcardMatcher.compile wm.segmentChar pattern) handler wm.patterns =
        some merged →
      (wm.add pattern handler).indexDirty = wm.indexDirty ∧
      (wm.add pattern handler).sizeGroups = wm.sizeGroups) ∧
    (wm.add pattern handler).rebuildIndexIfNeeded.sizeGroups =
      WildcardMatcher.indexRoutes [] 0 (wm.add pattern handler).patterns := by
  refine ⟨?_, rfl, rfl, ?_, ?_, ?_⟩
  · intro hm
    unfold WildcardMatcher.add
    simp only [hm]
  · unfold WildcardMatcher.rebuildIndexIfNeeded
    cases hd : wm.indexDirty <;> simp [hd]
  · intro merged hm
    unfold WildcardMatcher.add
    simp only [hm, and_self]
  · exact (WildcardMatcher.rebuild_index _ (hr.wf.add pattern handler)).1

/-- C33, amended, at the state of the counterexample: the merging add keeps
the mark, and the index of the next lookup is the index of the merged
routes. -/
theorem index_invalidation_witness :
    ((((WildcardMatcher.new '/' : WildcardMatcher Nat).add "/a/x".toList
      1).rebuildIndexIfNeeded).add "/a/y".toList 1).rebuildIndexIfNeeded.sizeGroups =
      WildcardMatcher.indexRoutes [] 0
        ((((WildcardMatcher.new '/' : WildcardMatcher Nat).add "/a/x".toList
          1).rebuildIndexIfNeeded).add "/a/y".toList 1).patterns :=
  (index_invalidation
    (((WildcardMatcher.new '/' : WildcardMatcher Nat).add "/a/x".toList 1).rebuildIndexIfNeeded)
    (((WildcardMatcher.Reachable.init '/').add "/a/x".toList 1).lookup)
    "/a/y".toList 1 (fun _ => true)).2.2.2.2.2

/-- C34: the size-group index is a faithful optimisation.  In every state
reachable by `add`, `filter`, `clear` and lookups, `match(input)` returns the
handler of the first route, in the order of the route list, that `matchRoute`
accepts on the segments of the input, and nothing when there is none. -/
theorem index_is_faithful {H : Type} [DecidableEq H] (wm : WildcardMatcher H)
    (hr : wm.Reachable) (input : Str) :
    wm.matchInput input =
      (wm.patterns.find? (fun r =>
        WildcardMatcher.matchRoute r
          (Internal.splitSegments input wm.segmentChar))).map (·.handler) :=
  WildcardMatcher.matchInput_eq_find wm hr.wf input

/-- C34 on three routes of two sizes, after a lookup and a removal: the lookup
through the index is the linear scan. -/
theorem index_is_faithful_witness :
    (((((WildcardMatcher.new '/' : WildcardMatcher Nat).add "/a/*".toList 1).add
        "/a/*/c".toList 2).rebuildIndexIfNeeded.add "/*/b".toList 3).filter
        (fun r => r.pattern != "/a/*".toList)).matchInput "/a/b".toList = some 3 ∧
    (((((WildcardMatcher.new '/' : WildcardMatcher Nat).add "/a/*".toList 1).add
        "/a/*/c".toList 2).rebuildIndexIfNeeded.add "/*/b".toList 3).filter
        (fun r => r.pattern != "/a/*".toList)).matchInput "/a/b".toList =
      ((((((WildcardMatcher.new '/' : WildcardMatcher Nat).add "/a/*".toList 1).add
        "/a/*/c".toList 2).rebuildIndexIfNeeded.add "/*/b".toList 3).filter
        (fun r => r.pattern != "/a/*".toList)).patterns.find? (fun r =>
          WildcardMatcher.matchRoute r
            (Internal.splitSegments "/a/b".toList '/'))).map (·.handler) :=
  ⟨by decide,
   index_is_faithful _
    ((((((WildcardMatcher.Reachable.init '/').add "/a/*".toList 1).add
        "/a/*/c".toList 2).lookup).add "/*/b".toList 3).filter
        (fun r => r.pattern != "/a/*".toList)) "/a/b".toList⟩

/-- C35: routes without DoubleStar match pointwise.  For parts of a route, at
least two and none of them DoubleStar, `matchRoute` accepts a segment list if
and only if the list has exactly as many segments as there are parts and, at
every position, the segment satisfies the part (Literal: equal text; Star:
non-empty; PosSet: non-empty and a member; NegSet: non-empty and not a
member). -/
theorem pointwise_without_double_star (parts : List Part) (path : List Str)
    (hlen : 2 ≤ parts.length) (hno : ∀ p ∈ parts, p ≠ .doubleStar) :
    WildcardMatcher.matchParts parts path = true ↔
      path.length = parts.length ∧
      ∀ (i : Nat) (p : Part) (seg : Str), parts[i]? = some p → path[i]? = some seg →
        satisfiesPart p seg = true := by
  obtain ⟨k, hrun, hall, hend⟩ :=
    WildcardMatcher.run_no_doubleStar parts path hno path.length 0 (by omega)
  rw [WildcardMatcher.matchParts_of_run parts path k k (by omega) hrun,
    WildcardMatcher.skipDoubleStars_of_no_doubleStar parts k hno]
  simp only [Bool.and_eq_true, beq_iff_eq]
  constructor
  · rintro ⟨h1, h2⟩
    refine ⟨by omega, ?_⟩
    intro i p seg hp hseg
    have hi : i < k := by
      by_contra hc
      rw [List.getElem?_eq_none (by omega)] at hp
      cases hp
    obtain ⟨p', seg', hp', hseg', hs⟩ := hall i (Nat.zero_le _) hi
    rw [hp] at hp'
    rw [hseg] at hseg'
    cases hp'
    cases hseg'
    exact hs
  · rintro ⟨h1, h2⟩
    have hk : k = path.length := by
      rcases hend with hle | hnone | ⟨p, seg, hp, hseg, hs⟩
      · by_contra hc
        have hgt : path.length < k := by omega
        obtain ⟨p, seg, _, hseg, _⟩ := hall path.length (Nat.zero_le _) hgt
        rw [List.getElem?_eq_none (le_refl _)] at hseg
        cases hseg
      · have hge : parts.length ≤ k := List.getElem?_eq_none_iff.1 hnone
        by_contra hc
        have hgt : path.length < k := by omega
        obtain ⟨p, seg, _, hseg, _⟩ := hall path.length (Nat.zero_le _) hgt
        rw [List.getElem?_eq_none (le_refl _)] at hseg
        cases hseg
      · rw [h2 k p seg hp hseg] at hs
        cases hs
    exact ⟨by omega, hk⟩

/-- C35 on the parts of `/a/*/{x,y}/!{z}`: the segments of `/a/q/x/w` satisfy
them one by one and are accepted. -/
theorem pointwise_without_double_star_witness :
    WildcardMatcher.matchParts
        [.literal [], .literal "a".toList, .star, .set ["x".toList, "y".toList],
          .negSet ["z".toList]]
        [[], "a".toList, "q".toList, "x".toList, "w".toList] = true ∧
    (WildcardMatcher.matchParts
        [.literal [], .literal "a".toList, .star, .set ["x".toList, "y".toList],
          .negSet ["z".toList]]
        [[], "a".toList, "q".toList, "x".toList, "w".toList] = true ↔
      ([[], "a".toList, "q".toList, "x".toList, "w".toList] : List Str).length =
          ([.literal [], .literal "a".toList, .star, .set ["x".toList, "y".toList],
            .negSet ["z".toList]] : List Part).length ∧
      ∀ (i : Nat) (p : Part) (seg : Str),
        ([.literal [], .literal "a".toList, .star, .set ["x".toList, "y".toList],
          .negSet ["z".toList]] : List Part)[i]? = some p →
        ([[], "a".toList, "q".toList, "x".toList, "w".toList] : List Str)[i]? = some seg →
        satisfiesPart p seg = true) :=
  ⟨by decide, pointwise_without_double_star _ _ (by decide) (by decide)⟩

/-- C36: the simple matcher never rejects a true glob match.  For the pattern
with the fragments `f0, ..., fn` between its stars, stored by
`SimpleWildcardMatcher::add`, and every input `f0 x0 f1 ... x(n-1) fn` with any
strings `xi`, the test that `match` applies to the stored entry (prefix check,
suffix check, greedy left-to-right find of the interior fragments) accepts the
input, so that the lookup returns a handler. -/
theorem simple_matcher_accepts_glob_instances {H : Type} (sm : SimpleWildcardMatcher H)
    (pattern : Str) (handler : H) (xs : List Str) :
    ∃ c : Compiled H,
      (sm.add pattern handler).compiled = sm.compiled ++ [c] ∧
      c.parts = Internal.split pattern '*' ∧ c.pattern = pattern ∧ c.handler = handler ∧
      SimpleWildcardMatcher.accepts c (globInstance (Internal.split pattern '*') xs) = true ∧
      (sm.add pattern handler).matchInput (globInstance (Internal.split pattern '*') xs) ≠
        none := by
  have hacc := SimpleWildcardMatcher.accepts_globInstance
    ({ parts := Internal.split pattern '*', handler := handler, pattern := pattern,
       hasPrefix := !(Internal.split pattern '*').isEmpty &&
         (Internal.split pattern '*').head? != some [],
       hasSuffix := !(Internal.split pattern '*').isEmpty &&
         (Internal.split pattern '*').getLast? != some [],
       nonEmptyParts := (Internal.split pattern '*').filter (fun p => !p.isEmpty) } :
      Compiled H) xs
  refine ⟨_, rfl, rfl, rfl, rfl, hacc, ?_⟩
  unfold SimpleWildcardMatcher.matchInput
  intro hnone
  rw [Option.map_eq_none', List.find?_eq_none] at hnone
  exact hnone _ (by simp [SimpleWildcardMatcher.add]) hacc

/-- C36 on the pattern `a*b*c*d` and the input `a.b.b.c.c.d`, written with
`x0 = "."`, `x1 = ".b."` and `x2 = ".c."`: the greedy scan finds the first `b`
and the first `c` and the entry accepts the input. -/
theorem simple_matcher_accepts_glob_instances_witness :
    globInstance (Internal.split "a*b*c*d".toList '*')
      [".".toList, ".b.".toList, ".c.".toList] = "a.b.b.c.c.d".toList ∧
    ((SimpleWildcardMatcher.mk [] : SimpleWildcardMatcher Nat).add "a*b*c*d".toList
      7).matchInput "a.b.b.c.c.d".toList = some 7 ∧
    ∃ c : Compiled Nat,
      ((SimpleWildcardMatcher.mk [] : SimpleWildcardMatcher Nat).add "a*b*c*d".toList
        7).compiled = [] ++ [c] ∧
      c.parts = Internal.split "a*b*c*d".toList '*' ∧ c.pattern = "a*b*c*d".toList ∧
      c.handler = 7 ∧
      SimpleWildcardMatcher.accepts c (globInstance (Internal.split "a*b*c*d".toList '*')
        [".".toList, ".b.".toList, ".c.".toList]) = true ∧
      ((SimpleWildcardMatcher.mk [] : SimpleWildcardMatcher Nat).add "a*b*c*d".toList
        7).matchInput (globInstance (Internal.split "a*b*c*d".toList '*')
        [".".toList, ".b.".toList, ".c.".toList]) ≠ none :=
  ⟨by decide, by decide,
   simple_matcher_accepts_glob_instances (SimpleWildcardMatcher.mk [] : SimpleWildcardMatcher Nat)
    "a*b*c*d".toList 7 [".".toList, ".b.".toList, ".c.".toList]⟩

/-- C37: every segment list starts with an empty segment.  `splitSegments`
returns, for every string and separator, a list whose first element is the
empty string; the merge of `add` never rewrites part 0; in every reachable
state the first part of every route is the Literal with empty text, and in the
index that a lookup uses every size group has an empty non-literal list and a
literal-first map with the single key `""`. -/
theorem first_segment_is_empty {H : Type} [DecidableEq H] (wm : WildcardMatcher H)
    (hr : wm.Reachable) :
    (∀ (s : Str) (c : Char), ∃ rest, Internal.splitSegments s c = [] :: rest) ∧
    (∀ r ∈ wm.patterns, r.parts.head? = some (.literal [])) ∧
    (∀ (es ns : List Part) (d : Nat), es.head? = some (.literal []) →
      ns.head? = some (.literal []) → mergeScan es ns 0 none = some (some d) →
      0 < d ∧ (mergeAt d es ns).head? = some (.literal [])) ∧
    (∀ g ∈ wm.rebuildIndexIfNeeded.sizeGroups,
      g.nonLiteral = [] ∧ ∀ k, g.literalFirst k ≠ [] ↔ k = []) := by
  refine ⟨Internal.splitSegments_head, hr.wf.head, ?_, ?_⟩
  · intro es ns d hes hns hscan
    have hpos := WildcardMatcher.mergeScan_pos es ns d hes hns hscan
    exact ⟨hpos, by rw [WildcardMatcher.head?_mergeAt d es ns hpos]; exact hes⟩
  · obtain ⟨hg, _, hidx⟩ := WildcardMatcher.rebuild_index wm hr.wf
    rw [hg]
    intro g hgm
    refine ⟨hidx.nonLiteral g hgm, ?_⟩
    intro k
    constructor
    · intro hne
      by_contra hk
      exact hne (hidx.otherKeys g hgm k hk)
    · intro hk
      subst hk
      obtain ⟨r, hrm, hsz⟩ := hidx.inhabited g hgm
      obtain ⟨i, hi, hget⟩ := List.getElem_of_mem hrm
      have := hidx.mem_group g hgm i r (by rw [List.getElem?_eq_getElem hi, hget]) hsz
      intro he
      rw [he] at this
      simp at this

/-- C37 on an index of two sizes: after `add("a/*")`, `add("/b/*/c")` and
`add("/*/d")` every route starts with the empty Literal and both size groups
have the key `""` only. -/
theorem first_segment_is_empty_witness :
    ((((WildcardMatcher.new '/' : WildcardMatcher Nat).add "a/*".toList 1).add
        "/b/*/c".toList 2).add "/*/d".toList 1).patterns.map (fun r => r.parts.head?) =
      [some (.literal []), some (.literal []), some (.literal [])] ∧
    ∀ g ∈ ((((WildcardMatcher.new '/' : WildcardMatcher Nat).add "a/*".toList 1).add
        "/b/*/c".toList 2).add "/*/d".toList 1).rebuildIndexIfNeeded.sizeGroups,
      g.nonLiteral = [] ∧ ∀ k, g.literalFirst k ≠ [] ↔ k = [] :=
  ⟨by decide,
   (first_segment_is_empty _
    ((((WildcardMatcher.Reachable.init '/').add "a/*".toList 1).add
        "/b/*/c".toList 2).add "/*/d".toList 1)).2.2.2⟩

/-- C38, as stated, fails in three ways.  After `add("/**/x/end", 1)` and
`add("/**/y/end", 1)` on an empty path matcher, `remove("/**/y/end")` removes
no route and `match("/q/y/end")` finds nothing, although `/**/y/end`, inserted
alone, answers that input.  After `add("*.a.com.", 1)` and `add("*.b.com.", 1)`
on an empty domain router, the merged route is stored under the text
`*.a.com`, `remove("*.a.com.")` leaves it, and `match("x.b.com")` still
returns 1.  With the separator `*`, the patterns `*` and `*b` have the parts
`["", ""]` and `["", "b"]`; `add("*", 1)` sets the fallback, and after
`add("*b", 1)` and `remove("*")` every input is still answered. -/
theorem merged_route_counterexamples :
    (match (((Matcher.pathMatcher : Matcher Nat).afterAdd "/**/x/end".toList 1).afterAdd
        "/**/y/end".toList 1).remove "/**/y/end".toList with
      | .ok m => some (m.wildcards.patterns.length, m.matchInput "/q/y/end".toList)
      | .error _ => none) = some (1, none) ∧
    ((Matcher.pathMatcher : Matcher Nat).afterAdd "/**/y/end".toList 1).matchInput
      "/q/y/end".toList = some 1 ∧
    (match (((Matcher.domainRouter : Matcher Nat).afterAdd "*.a.com.".toList 1).afterAdd
        "*.b.com.".toList 1).remove "*.a.com.".toList with
      | .ok m => some (m.wildcards.patterns.map (fun r => r.pattern),
          m.matchInput "x.b.com".toList)
      | .error _ => none) = some (["*.a.com".toList], some 1) ∧
    WildcardMatcher.compile '*' "*".toList = [.literal [], .literal []] ∧
    WildcardMatcher.compile '*' "*b".toList = [.literal [], .literal "b".toList] ∧
    (match (((Matcher.new ({} : MatcherOptions Nat) '*').afterAdd "*".toList 1).afterAdd
        "*b".toList 1).remove "*".toList with
      | .ok m => some (m.wildcards.patterns.map (fun r => r.parts), m.matchInput "zzz".toList)
      | .error _ => none) = some ([[.literal [], .literal "b".toList]], some 1) := by
  decide

/-- C38, amended: a merged route is known only by the text of the first
pattern.  Let `c1` and `c2` be wildcard concrete patterns (emitted unchanged by
the expansion, containing `*` or `!{`), neither of them `*` or `**` and neither
ending in `.`, whose parts differ in exactly one literal.  On an empty segment-aware
matcher, `add(c1, h)` and `add(c2, h)` return and leave one route, stored
under the text `c1`, with the set of both texts at the place of the literal.
Then `remove(c2)` returns, removes no route and leaves every `match` result as
it was, whereas `remove(c1)` returns and removes the merged route, after which
every input finds nothing. -/
theorem merged_route_first_text {H : Type} [DecidableEq H] (options : MatcherOptions H)
    (hs : options.simpleMatcher = false) (segmentChar : Char) (c1 c2 : Str) (h : H)
    (P Q : List Part) (a b : Str)
    (he1 : Internal.expandPattern c1 = .ok [c1]) (he2 : Internal.expandPattern c2 = .ok [c2])
    (hw1 : Internal.containsWildcardOrNegSet c1 = true)
    (hw2 : Internal.containsWildcardOrNegSet c2 = true)
    (hf1 : c1 ≠ ['*'] ∧ c1 ≠ ['*', '*']) (hf2 : c2 ≠ ['*'] ∧ c2 ≠ ['*', '*'])
    (hd1 : c1.getLast? ≠ some '.') (hd2 : c2.getLast? ≠ some '.')
    (hp1 : WildcardMatcher.compile (Matcher.new options segmentChar).wildcards.segmentChar c1 =
      P ++ .literal a :: Q)
    (hp2 : WildcardMatcher.compile (Matcher.new options segmentChar).wildcards.segmentChar c2 =
      P ++ .literal b :: Q)
    (hab : a ≠ b) :
    ∃ m1 m2, (Matcher.new options segmentChar).add c1 h = .ok m1 ∧ m1.add c2 h = .ok m2 ∧
      m2.wildcards.patterns =
        [{ parts := P ++ .set [a, b] :: Q, handler := h, pattern := c1,
           hasDoubleStar := (P ++ .literal a :: Q).any (fun q => decide (q = .doubleStar)) }] ∧
      (∃ m3, m2.remove c2 = .ok m3 ∧ m3.wildcards.patterns = m2.wildcards.patterns ∧
        ∀ input, m3.matchInput input = m2.matchInput input) ∧
      (∃ m4, m2.remove c1 = .ok m4 ∧ m4.wildcards.patterns = [] ∧
        ∀ input, m4.matchInput input = none) := by
  have hr0 : (Matcher.new options segmentChar).Reachable := Matcher.Reachable.init _ _
  obtain ⟨m1, hadd1, hw1', ho1, hx1, hfb1⟩ :=
    Matcher.add_concrete_wildcard_ex (Matcher.new options segmentChar) c1 h hs he1 hw1 hf1 hd1
  obtain ⟨m2, hadd2, hw2', ho2, hx2, hfb2⟩ :=
    Matcher.add_concrete_wildcard_ex m1 c2 h (by rw [ho1]; exact hs) he2 hw2 hf2 hd2
  have hr2 : m2.Reachable :=
    Matcher.Reachable.add c2 h (Matcher.Reachable.add c1 h hr0 hadd1) hadd2
  have hs2 : m2.options.simpleMatcher = false := by rw [ho2, ho1]; exact hs
  have hex2 : ∀ k, m2.exactMatches k = none := by
    intro k
    rw [hx2, hx1]
    rfl
  have hf2' : m2.fallback = none := by
    rw [hfb2, hfb1]
    rfl
  obtain ⟨hpat, _⟩ := WildcardMatcher.add_add_merged
    (Matcher.new options segmentChar).wildcards rfl c1 c2 h P Q a b hp1 hp2 hab
  rw [hp1, ← hw1', ← hw2'] at hpat
  have hne : c1 ≠ c2 := by
    intro e
    rw [e, hp2] at hp1
    have := List.append_cancel_left hp1
    simp only [List.cons.injEq, Part.literal.injEq] at this
    exact hab this.1.symm
  refine ⟨m1, m2, hadd1, hadd2, hpat, ?_, ?_⟩
  · obtain ⟨m3, hrem, hr3, ho3, hfb3, hx3, hp3, hseg3⟩ :=
      Matcher.remove_concrete m2 hr2 hs2 c2 he2
    have hkeep : m3.wildcards.patterns = m2.wildcards.patterns := by
      rw [hp3, hpat]
      simp [hne]
    refine ⟨m3, hrem, hkeep, ?_⟩
    intro input
    refine Matcher.matchInput_congr m2 m3 hr2 hr3 ho3 hs2 ?_ hkeep hseg3 hfb3 input
    intro k
    rw [hx3 k, hex2 k]
    simp
  · obtain ⟨m4, hrem, hr4, ho4, hfb4, hx4, hp4, _⟩ :=
      Matcher.remove_concrete m2 hr2 hs2 c1 he1
    have hgone : m4.wildcards.patterns = [] := by
      rw [hp4, hpat]
      simp
    refine ⟨m4, hrem, hgone, ?_⟩
    intro input
    refine Matcher.matchInput_of_nothing_stored m4 hr4 ?_ (by rw [hfb4]; exact hf2')
      (fun _ => hgone) ?_ input
    · intro k
      rw [hx4 k, hex2 k]
      simp
    · intro hsm
      rw [ho4, hs2] at hsm
      cases hsm

/-- C38, amended, on `/u/a/*` and `/u/b/*` with the handler 7 on an empty path
matcher: one route under the text `/u/a/*`; `remove("/u/b/*")` changes no
answer, `remove("/u/a/*")` leaves nothing. -/
theorem merged_route_first_text_witness :
    ∃ m1 m2, (Matcher.new ({} : MatcherOptions Nat) '/').add "/u/a/*".toList 7 = .ok m1 ∧
      m1.add "/u/b/*".toList 7 = .ok m2 ∧
      m2.wildcards.patterns =
        [{ parts := [.literal [], .literal "u".toList] ++
             .set ["a".toList, "b".toList] :: [.star],
           handler := 7, pattern := "/u/a/*".toList,
           hasDoubleStar := ([Part.literal [], Part.literal "u".toList] ++
             Part.literal "a".toList :: [Part.star]).any
               (fun q => decide (q = Part.doubleStar)) }] ∧
      (∃ m3, m2.remove "/u/b/*".toList = .ok m3 ∧
        m3.wildcards.patterns = m2.wildcards.patterns ∧
        ∀ input, m3.matchInput input = m2.matchInput input) ∧
      (∃ m4, m2.remove "/u/a/*".toList = .ok m4 ∧ m4.wildcards.patterns = [] ∧
        ∀ input, m4.matchInput input = none) :=
  merged_route_first_text ({} : MatcherOptions Nat) rfl '/' "/u/a/*".toList "/u/b/*".toList 7
    [Part.literal [], Part.literal "u".toList] [Part.star] "a".toList "b".toList
    (by decide) (by decide) (by decide) (by decide) (by decide) (by decide) (by decide)
    (by decide) (by decide) (by decide) (by decide)

/-- C39: `add` then `remove` round-trips on an empty matcher.  For every
pattern `p` whose expansion succeeds, that does not end in `.` and is neither
`*` nor `**`, for every option set (either matcher mode) and separator, on a
freshly constructed matcher `add(p, h)` returns, `remove(p)` then returns, and
on the matcher that is left `match(input)` finds nothing for every input. -/
theorem add_remove_round_trip {H : Type} [DecidableEq H] (options : MatcherOptions H)
    (segmentChar : Char) (p : Str) (h : H) (l : List Str)
    (hexp : Internal.expandPattern p = .ok l) (hdot : p.getLast? ≠ some '.')
    (hstar : p ≠ ['*'] ∧ p ≠ ['*', '*']) :
    ∃ m1 m2, (Matcher.new options segmentChar).add p h = .ok m1 ∧
      m1.remove p = .ok m2 ∧ ∀ input, m2.matchInput input = none := by
  have hstrip := Matcher.stripDot_of_ne p hdot
  obtain ⟨m1, hm1⟩ := Matcher.add_ok_of_expansion (Matcher.new options segmentChar) p h
    ⟨l, by rw [hstrip]; exact hexp⟩
  have hreach1 : m1.Reachable := Matcher.Reachable.add p h (Matcher.Reachable.init _ _) hm1
  have hinit : (Matcher.new options segmentChar).fallback = none ∧
      (∀ k, k ∉ l → (Matcher.new options segmentChar).exactMatches k = none) ∧
      (∀ r ∈ (Matcher.new options segmentChar).wildcards.patterns, r.pattern ∈ l) ∧
      (∀ r ∈ (Matcher.new options segmentChar).simpleWildcards.compiled, r.pattern ∈ l) := by
    refine ⟨rfl, fun _ _ => rfl, ?_, ?_⟩
    · intro r hr
      simp [Matcher.new, WildcardMatcher.new] at hr
    · intro r hr
      simp [Matcher.new] at hr
  have hinv : (m1.fallback = none ∧ (∀ k, k ∉ l → m1.exactMatches k = none) ∧
      (∀ r ∈ m1.wildcards.patterns, r.pattern ∈ l) ∧
      (∀ r ∈ m1.simpleWildcards.compiled, r.pattern ∈ l)) ∧
      m1.options = (Matcher.new options segmentChar).options := by
    rcases Matcher.add_cases (Matcher.new options segmentChar) p h with
      ⟨hs, _⟩ | ⟨_, he⟩ | ⟨_, _, ⟨l', hl', he⟩ | ⟨e, he⟩⟩
    · rw [hstrip] at hs
      rcases hs with hs | hs
      · exact absurd hs hstar.1
      · exact absurd hs hstar.2
    · rw [he] at hm1
      cases hm1
      exact ⟨hinit, rfl⟩
    · rw [he] at hm1
      cases hm1
      rw [hstrip, hexp] at hl'
      cases hl'
      exact Matcher.foldl_addExpanded_texts l h l _ (fun c hc => hc) hinit
    · rw [he] at hm1
      cases hm1
  obtain ⟨⟨hf, he, hw, hs⟩, hopt⟩ := hinv
  have hrem : m1.remove p = .ok (l.foldl (fun m c => m.removeExpanded c) m1) := by
    unfold Matcher.remove
    rw [hexp]
  refine ⟨m1, _, hm1, hrem, ?_⟩
  obtain ⟨r1, _, r3, r4, r5, r6⟩ := Matcher.foldl_removeExpanded l m1
  apply Matcher.matchInput_of_nothing_stored _ (Matcher.Reachable.remove p hreach1 hrem)
  · intro k
    rw [r4 k]
    by_cases hk : k ∈ l
    · simp [hk]
    · simp only [hk, if_false]
      exact he k hk
  · rw [r3]; exact hf
  · intro hsm
    rw [r1] at hsm
    rw [(r5 hsm).1, List.filter_eq_nil_iff]
    intro r hr
    simpa using hw r hr
  · intro hsm
    rw [r1] at hsm
    rw [(r6 hsm).1, List.filter_eq_nil_iff]
    intro r hr
    simpa using hs r hr

/-- C39 on `/api/{v1,v2}/*`, whose two concrete patterns merge into one route
stored under the text `/api/v1/*`: after `add` and `remove` every input finds
nothing. -/
theorem add_remove_round_trip_witness :
    ∃ m1 m2, (Matcher.new ({} : MatcherOptions Nat) '/').add "/api/\x7bv1,v2\x7d/*".toList 5 =
        .ok m1 ∧
      m1.remove "/api/\x7bv1,v2\x7d/*".toList = .ok m2 ∧
      ∀ input, m2.matchInput input = none :=
  add_remove_round_trip ({} : MatcherOptions Nat) '/' "/api/\x7bv1,v2\x7d/*".toList 5
    ["/api/v1/*".toList, "/api/v2/*".toList] (by decide) (by decide) (by decide)

/-- C40: the double-star flags.  In every reachable state of the segment-aware
index, the flag `hasDoubleStar` of a route is set iff one of its parts is a
DoubleStar; the merge, which rewrites one part, adds and removes no
DoubleStar; and in the index that a lookup uses, `hasAnyDoubleStar` of a size
group is set iff one of the routes listed in that group has its flag set. -/
theorem double_star_flags {H : Type} [DecidableEq H] (wm : WildcardMatcher H)
    (hr : wm.Reachable) :
    (∀ r ∈ wm.patterns, r.hasDoubleStar = true ↔ Part.doubleStar ∈ r.parts) ∧
    (∀ (d : Nat) (es ns : List Part),
      Part.doubleStar ∈ mergeAt d es ns ↔ Part.doubleStar ∈ es) ∧
    (∀ g ∈ wm.rebuildIndexIfNeeded.sizeGroups,
      g.hasAnyDoubleStar = true ↔
        ∃ i ∈ g.literalFirst [], ∃ r, wm.rebuildIndexIfNeeded.patterns[i]? = some r ∧
          r.hasDoubleStar = true) := by
  have hany : ∀ l : List Part,
      l.any (fun p => decide (p = .doubleStar)) = true ↔ Part.doubleStar ∈ l := by
    intro l
    simp [List.any_eq_true]
  refine ⟨?_, ?_, ?_⟩
  · intro r hrm
    rw [hr.wf.flag r hrm]
    exact hany r.parts
  · intro d es ns
    rw [← hany, ← hany, WildcardMatcher.any_mergeAt]
  · obtain ⟨hg, hp, hidx⟩ := WildcardMatcher.rebuild_index wm hr.wf
    rw [hg, hp]
    intro g hgm
    constructor
    · intro hflag
      obtain ⟨a, ha, hsz, hfa⟩ := WildcardMatcher.flag_sound_indexRoutes wm.patterns g hgm hflag
      obtain ⟨i, hi, hget⟩ := List.getElem_of_mem ha
      have hget' : wm.patterns[i]? = some a := by rw [List.getElem?_eq_getElem hi, hget]
      exact ⟨i, hidx.mem_group g hgm i a hget' hsz, a, hget', hfa⟩
    · rintro ⟨i, hi, r, hget, hfr⟩
      obtain ⟨r', hr', _, himp⟩ := hidx.member g hgm i hi
      rw [hget] at hr'
      simp only [Option.some.injEq] at hr'
      subst hr'
      exact himp hfr

/-- C40 on an index of two sizes, one of them with a DoubleStar route that was
merged. -/
theorem double_star_flags_witness :
    ((((WildcardMatcher.new '/' : WildcardMatcher Nat).add "/**/a".toList 1).add
        "/**/b".toList 1).add "/c/*/d".toList 2).patterns.map (fun r => r.hasDoubleStar) =
      [false, true] ∧
    ((((WildcardMatcher.new '/' : WildcardMatcher Nat).add "/**/a".toList 1).add
        "/**/b".toList 1).add "/c/*/d".toList
        2).rebuildIndexIfNeeded.sizeGroups.map (fun g => (g.size, g.hasAnyDoubleStar)) =
      [(4, false), (3, true)] ∧
    ∀ r ∈ ((((WildcardMatcher.new '/' : WildcardMatcher Nat).add "/**/a".toList 1).add
        "/**/b".toList 1).add "/c/*/d".toList 2).patterns,
      r.hasDoubleStar = true ↔ Part.doubleStar ∈ r.parts :=
  ⟨by decide, by decide,
   (double_star_flags _
    ((((WildcardMatcher.Reachable.init '/').add "/**/a".toList 1).add
        "/**/b".toList 1).add "/c/*/d".toList 2)).1⟩

end Akeno
